import Mathlib

/-!
# mtPaint `png.c`: animation compositing engine and GIF LZW codec

A shallow embedding of the frame-region analysis, palette reconciliation,
disposal handling and pixel compositing code of `src/png.c`, and of its GIF
LZW encoder and decoder, with theorems about them.

Conventions of the embedding

* C `int` values that the source treats as nonnegative (coordinates, sizes,
  counters) are `Nat`; values that can be `-1` (transparent indices, colour
  counts, previous LZW code) are `Int`.
* `unsigned char` arrays are functions `Nat → Nat` (region map, translation
  table, presence bitmap) or lists of bytes (pixel planes).
* A counting `for` loop is a structurally recursive function whose first
  numeric argument is the number of iterations left.
-/

namespace Png

set_option autoImplicit false
set_option maxRecDepth 100000

/-! ## Data model -/

/-- A palette entry (`png_color`). -/
structure png_color where
  red : Nat
  green : Nat
  blue : Nat
deriving DecidableEq, Repr

/-- A palette: `png_color[256]`. -/
abbrev palette := Nat → png_color

/-- The relevant channels of a `chanlist`: `img[CHN_IMAGE]` and `img[CHN_ALPHA]`
(`none` is a NULL pointer). -/
structure chanlist where
  image : Option (List Nat)
  alpha : Option (List Nat)
deriving DecidableEq, Repr

/-- The fields of `image_frame` used by `png.c`. -/
structure image_frame where
  img : chanlist
  pal : Option palette
  width : Nat
  height : Nat
  x : Nat
  y : Nat
  delay : Int
  cols : Int
  bpp : Nat
  trans : Int
  flags : Nat

/-- The fields of `frameset` used by the compositing code. -/
structure frameset where
  frames : List image_frame
  pal : Option palette

/-- The frame count `fset->cnt`. -/
def frameset.cnt (fset : frameset) : Nat := fset.frames.length

/-- The fields of `ls_settings` that describe one raw input frame. -/
structure ls_settings where
  img : chanlist
  pal : palette
  width : Nat
  height : Nat
  x : Nat
  y : Nat
  bpp : Nat
  colors : Int
  xpm_trans : Int
  rgb_trans : Int
  gif_delay : Int

/-- Animation state (`ani_status`). `bk_rect` is `(x0, y0, x1, y1)`. -/
structure ani_status where
  lmap : Nat → Nat
  prev : image_frame
  prev_idx : Nat
  have_frames : Bool
  defw : Nat
  defh : Nat
  bk_rect : Nat × Nat × Nat × Nat
  mode : Nat
  global_cols : Int
  newcols : Int
  newtrans : Int
  global_pal : palette
  newpal : palette
  xlat : Nat → Nat
  blend : Bool
  bkg : Nat × Nat × Nat × Nat

/-! ## Region map -/

/-- Modelled from the spec: `clip` lives in another source file of the
repository; it intersects the rectangle `(x0, y0, x1, y1)` with `vxy` and tells
whether the intersection is nonempty ("hole rectangle ⊆ canvas or empty"). -/
def clip (x0 y0 x1 y1 : Nat) (vxy : Nat × Nat × Nat × Nat) :
    (Nat × Nat × Nat × Nat) × Bool :=
  let r0 := if x0 < vxy.1 then vxy.1 else x0
  let r1 := if y0 < vxy.2.1 then vxy.2.1 else y0
  let r2 := if x1 > vxy.2.2.1 then vxy.2.2.1 else x1
  let r3 := if y1 > vxy.2.2.2 then vxy.2.2.2 else y1
  ((r0, r1, r2, r3), decide (r2 > r0) && decide (r3 > r1))

/-- The loop `for (i = i0; i < i0 + n; i++) lmap[i] |= m`. -/
def mark_loop (m : Nat) : Nat → Nat → (Nat → Nat) → (Nat → Nat)
  | 0, _, lmap => lmap
  | n + 1, i, lmap => mark_loop m n (i + 1) (Function.update lmap i (lmap i ||| m))

/-- `memset(lmap, 0, j)`. -/
def memset0 (lmap : Nat → Nat) (j : Nat) : Nat → Nat :=
  fun i => if i < j then 0 else lmap i

/-- First part of `ani_map_frame`: the clamped right and bottom edges `(w, h)` of
the new frame and the screen size `(defw, defh)`. The first frame resizes the
screen to fit; later frames are clipped to the screen. `MAX_WIDTH` and
`MAX_HEIGHT` are constants of the repository declared outside `png.c`. -/
def ani_new_dims (MAX_WIDTH MAX_HEIGHT : Nat) (stat : ani_status)
    (settings : ls_settings) : (Nat × Nat) × (Nat × Nat) :=
  let w := settings.x + settings.width
  let h := settings.y + settings.height
  if !stat.have_frames then
    let w := if w > MAX_WIDTH then MAX_WIDTH else w
    let h := if h > MAX_HEIGHT then MAX_HEIGHT else h
    ((w, h), (if stat.defw < w then w else stat.defw,
              if stat.defh < h then h else stat.defh))
  else
    ((if stat.defw < w then stat.defw else w, if stat.defh < h then stat.defh else h),
     (stat.defw, stat.defh))

/-- Second part of `ani_map_frame`: clear the map over `j` bytes and mark the new
frame (columns `sx..w`, rows `sy..h`), the previous frame if there is one, and
the disposal area `bk` if it is not empty. -/
def ani_mark (lmap : Nat → Nat) (j sx sy w h : Nat) (prev_idx : Nat)
    (prev : image_frame) (bk : Nat × Nat × Nat × Nat) (hole : Bool) : Nat → Nat :=
  let l0 := memset0 lmap j
  let l1 := mark_loop 0x01 (w - sx) sx l0
  let l2 := mark_loop 0x10 (h - sy) sy l1
  let l3 := if prev_idx ≠ 0 then
      mark_loop 0x20 prev.height prev.y (mark_loop 0x02 prev.width prev.x l2)
    else l2
  if hole then
    mark_loop 0x40 (bk.2.2.2 - bk.2.1) bk.2.1 (mark_loop 0x04 (bk.2.2.1 - bk.1) bk.1 l3)
  else l3

/-- `ani_map_frame`: calculate the new frame dimensions and the point-in-area
bitmap. -/
def ani_map_frame (MAX_WIDTH MAX_HEIGHT : Nat) (stat : ani_status)
    (settings : ls_settings) : ani_status :=
  let d := ani_new_dims MAX_WIDTH MAX_HEIGHT stat settings
  let defw := d.2.1
  let defh := d.2.2
  let j := if defw > defh then defw else defh
  let c := clip 0 0 defw defh stat.bk_rect
  { stat with
    have_frames := true, defw := defw, defh := defh, bk_rect := c.1,
    lmap := ani_mark stat.lmap j settings.x settings.y d.1.1 d.1.2 stat.prev_idx
      stat.prev c.1 c.2 }

/-- The region bits of pixel `(x, y)`: `lmap[x] & (lmap[y] >> 4)`. -/
def bflag (lmap : Nat → Nat) (x y : Nat) : Nat := lmap x &&& (lmap y >>> 4)

/-! ## Indexed compositing -/

/-- Read `p[i]` where `p` points at the start of `buf`; a read outside the
buffer gives 0. -/
def peek (buf : List Nat) (i : Int) : Nat :=
  if i < 0 then 0 else buf.getD i.toNat 0

/-- The source of one canvas pixel, as an extended colour index, from its region
bits: the new frame's pixel `fgx` plus 256 when the image bit is set and the
pixel is not the transparent colour `tp`; the underlayer's pixel `bgx` when the
underlayer bit is set and the background bit is not (`(bflag & 6) == 2`);
otherwise 512, the background. -/
def ext_index (bflag : Nat) (tp : Int) (fgx bgx : Nat) : Nat :=
  if bflag &&& 1 ≠ 0 ∧ (fgx : Int) ≠ tp then fgx + 256
  else if bflag &&& 6 = 2 then bgx
  else 512

/-- The inner loop of the "To indexed" branch of `composite_indexed_frame`:
`n` pixels of one row starting at column `x`. The state is the write position
`dest - frame->img[CHN_IMAGE]` and the destination plane. `fgbuf = none` means
that `fg0` is the destination plane itself (the input image was moved into the
frame). `fg` and `bg` are the offsets of the row pointers. -/
def cif_indexed_row (lmap xlat : Nat → Nat) (tp : Int) (fgbuf : Option (List Nat))
    (bgbuf : List Nat) (bmask : Nat) (fg bg : Int) :
    Nat → Nat → Nat × List Nat → Nat × List Nat
  | 0, _, st => st
  | n + 1, x, (p, dest) =>
    let c0 := ext_index (lmap x &&& bmask) tp (peek (fgbuf.getD dest) (fg + x))
      (peek bgbuf (bg + x))
    cif_indexed_row lmap xlat tp fgbuf bgbuf bmask fg bg n (x + 1)
      (p + 1, dest.set p (xlat c0))

/-- The outer loop of the "To indexed" branch: `m` rows starting at row `y`. -/
def cif_indexed_rows (lmap xlat : Nat → Nat) (tp : Int) (fgbuf : Option (List Nat))
    (bgbuf : List Nat) (w : Nat) (fgw bgw : Int) :
    Nat → Nat → Int → Int → Nat × List Nat → Nat × List Nat
  | 0, _, _, _, st => st
  | m + 1, y, fg, bg, st =>
    cif_indexed_rows lmap xlat tp fgbuf bgbuf w fgw bgw m (y + 1) (fg + fgw) (bg + bgw)
      (cif_indexed_row lmap xlat tp fgbuf bgbuf (lmap y >>> 4) fg bg w 0 st)

/-- One channel of a palette entry, in the byte order of an RGB triple. -/
def png_color.chan (c : png_color) (k : Nat) : Nat :=
  if k = 0 then c.red else if k = 1 then c.green else c.blue

/-- The table `rgb[513 * 3]` of the "To RGB" branch: the underlayer's palette
(left at 0 here when `bkf->pal` is NULL), the new frame's palette, and a black
entry for the background, as filled by the two `pal2rgb` calls. -/
def cif_rgb_table (bkpal : Option palette) (fgpal : palette) (i : Nat) : Nat :=
  if i < 768 then
    match bkpal with
    | some pal => (pal (i / 3)).chan (i % 3)
    | none => 0
  else if i < 1536 then (fgpal ((i - 768) / 3)).chan (i % 3)
  else 0

/-- The inner loop of the "To RGB" branch. `urgb` tells that the underlayer is
itself RGB. -/
def cif_rgb_row (lmap : Nat → Nat) (rgb : Nat → Nat) (tp : Int) (urgb : Bool)
    (fgbuf : Option (List Nat)) (bgbuf : List Nat) (bmask : Nat) (fg bg : Int) :
    Nat → Nat → Nat × List Nat → Nat × List Nat
  | 0, _, st => st
  | n + 1, x, (p, dest) =>
    let bflag := lmap x &&& bmask
    let c0 := peek (fgbuf.getD dest) (fg + x)
    let src : Nat → Nat :=
      if bflag &&& 1 ≠ 0 ∧ (c0 : Int) ≠ tp then fun k => rgb (256 * 3 + c0 * 3 + k)
      else if bflag &&& 6 = 2 then
        (if urgb then fun k => peek bgbuf (bg + x * 3 + k)
         else fun k => rgb (peek bgbuf (bg + x) * 3 + k))
      else fun k => rgb (512 * 3 + k)
    cif_rgb_row lmap rgb tp urgb fgbuf bgbuf bmask fg bg n (x + 1)
      (p + 3, ((dest.set p (src 0)).set (p + 1) (src 1)).set (p + 2) (src 2))

/-- The outer loop of the "To RGB" branch; `bgstep` is `bgw * bpp`. -/
def cif_rgb_rows (lmap : Nat → Nat) (rgb : Nat → Nat) (tp : Int) (urgb : Bool)
    (fgbuf : Option (List Nat)) (bgbuf : List Nat) (w : Nat) (fgw bgstep : Int) :
    Nat → Nat → Int → Int → Nat × List Nat → Nat × List Nat
  | 0, _, _, _, st => st
  | m + 1, y, fg, bg, st =>
    cif_rgb_rows lmap rgb tp urgb fgbuf bgbuf w fgw bgstep m (y + 1) (fg + fgw)
      (bg + bgstep)
      (cif_rgb_row lmap rgb tp urgb fgbuf bgbuf (lmap y >>> 4) fg bg w 0 st)

/-- The alpha value that the "To alpha" branch gives a pixel with region bits
`bflag`: opaque for a non-transparent pixel `fgx` of the new frame; for the
underlayer its alpha `bgx` when it has an alpha plane (`af`), else opaque unless
its pixel `bgx` is its transparent colour `utp`; transparent for background. -/
def alpha_value (bflag : Nat) (tp utp : Int) (af : Bool) (fgx bgx : Nat) : Nat :=
  if bflag &&& 1 ≠ 0 ∧ (fgx : Int) ≠ tp then 255
  else if bflag &&& 6 = 2 then
    (if !af then (if (bgx : Int) ≠ utp then 255 else 0) else bgx)
  else 0

/-- The inner loop of the "To alpha" branch. `af` tells that the underlayer has
an alpha plane (then `bgbuf` is that plane), `utp` is the underlayer's
transparent colour. -/
def cif_alpha_row (lmap : Nat → Nat) (tp utp : Int) (af : Bool) (fgbuf bgbuf : List Nat)
    (bmask : Nat) (fg bg : Int) : Nat → Nat → Nat × List Nat → Nat × List Nat
  | 0, _, st => st
  | n + 1, x, (p, dest) =>
    let c0 := alpha_value (lmap x &&& bmask) tp utp af (peek fgbuf (fg + x))
      (peek bgbuf (bg + x))
    cif_alpha_row lmap tp utp af fgbuf bgbuf bmask fg bg n (x + 1) (p + 1, dest.set p c0)

/-- The outer loop of the "To alpha" branch. -/
def cif_alpha_rows (lmap : Nat → Nat) (tp utp : Int) (af : Bool) (fgbuf bgbuf : List Nat)
    (w : Nat) (fgw bgw : Int) : Nat → Nat → Int → Int → Nat × List Nat → Nat × List Nat
  | 0, _, _, _, st => st
  | m + 1, y, fg, bg, st =>
    cif_alpha_rows lmap tp utp af fgbuf bgbuf w fgw bgw m (y + 1) (fg + fgw) (bg + bgw)
      (cif_alpha_row lmap tp utp af fgbuf bgbuf (lmap y >>> 4) fg bg w 0 st)

/-- `composite_indexed_frame`: composite an indexed new frame over the underlayer
into `frame`, whose planes were allocated by the caller. A NULL plane that the
source would write through is modelled as an empty plane. -/
def composite_indexed_frame (frame : image_frame) (stat : ani_status)
    (settings : ls_settings) : image_frame :=
  let bkf := stat.prev
  let tp := settings.xpm_trans
  let w := frame.width
  let dest := frame.img.image.getD []
  let fgw : Int := settings.width
  let fg0 : Int := match settings.img.image with
    | some _ => -((settings.y : Int) * fgw + settings.x)
    | none => 0
  let bgw : Int := bkf.width
  let bg0 : Int := -(((bkf.y : Int) * bgw + bkf.x) * bkf.bpp)
  let urgb : Bool := bkf.bpp ≠ 1
  let bgbuf := bkf.img.image.getD []
  -- image plane
  let frame1 : image_frame :=
    if frame.bpp = 1 then
      let r := cif_indexed_rows stat.lmap stat.xlat tp settings.img.image bgbuf w fgw bgw
        frame.height 0 fg0 bg0 (0, dest)
      { frame with img := { frame.img with image := some r.2 } }
    else
      let rgb := cif_rgb_table bkf.pal
        (if settings.colors ≠ 0 then settings.pal else stat.global_pal)
      let bpp : Int := if urgb then 3 else 1
      let r := cif_rgb_rows stat.lmap rgb tp urgb settings.img.image bgbuf w fgw (bgw * bpp)
        frame.height 0 fg0 bg0 (0, dest)
      { frame with img := { frame.img with image := some r.2 }, trans := -1 }
  -- alpha plane
  match frame1.img.alpha with
  | none => frame1
  | some adest =>
    let utp : Int := if bkf.bpp = 1 then bkf.trans else -1
    let af := bkf.img.alpha.isSome
    let abuf := (if af then bkf.img.alpha else bkf.img.image).getD []
    let fgbuf := match settings.img.image with
      | some s => s
      | none => frame1.img.image.getD []
    let r := cif_alpha_rows stat.lmap tp utp af fgbuf abuf w fgw bgw frame.height 0 fg0
      (-((bkf.y : Int) * bgw + bkf.x)) (0, adest)
    { frame1 with img := { frame1.img with alpha := some r.2 } }

/-- The pixel that a frame placed at `(fx, fy)`, `fw` pixels wide and stored
row by row in `buf`, shows at the canvas position `(x, y)`. -/
def frame_pixel (buf : List Nat) (fx fy fw : Nat) (x y : Nat) : Nat :=
  peek buf (((y : Int) - fy) * fw + ((x : Int) - fx))

/-- The new frame's pixel at the canvas position `(x, y)`: read from the input
image, or from the frame's own plane when the input image was moved into the
frame (which then has the same geometry). -/
def new_frame_pixel (frame : image_frame) (settings : ls_settings) (x y : Nat) : Nat :=
  match settings.img.image with
  | some s => frame_pixel s settings.x settings.y settings.width x y
  | none => (frame.img.image.getD []).getD (y * frame.width + x) 0

/-- The underlayer's pixel at the canvas position `(x, y)`. -/
def underlay_pixel (stat : ani_status) (x y : Nat) : Nat :=
  frame_pixel (stat.prev.img.image.getD []) stat.prev.x stat.prev.y stat.prev.width x y

/-! ## Constants and helpers declared outside `png.c` -/

/-- Constants of the repository that `png.c` uses and that are declared in
other files: the size limits, the animation modes and the frame flags. -/
structure consts where
  MAX_WIDTH : Nat
  MAX_HEIGHT : Nat
  ANM_RAW : Nat
  ANM_NOZERO : Nat
  FM_DISPOSAL : Nat
  FM_DISP_REMOVE : Nat
  FM_DISP_LEAVE : Nat
  FM_DISP_RESTORE : Nat
  FM_NUKE : Nat

/-- The blending helpers `process_mask` and `process_img`, which live in other
files of the repository, as they are called on one row of `ww` pixels by
`composite_rgba_frame`: `process_mask ww mask dsta alpha srca` gives the new mask
and the new destination alpha row, `process_img ww mask dest src` the new
destination RGB row. -/
structure blend_ops where
  process_mask : Nat → List Nat → Option (List Nat) → List Nat → Option (List Nat) →
    List Nat × Option (List Nat)
  process_img : Nat → List Nat → List Nat → List Nat → List Nat

/-- Modelled from the spec: the macro `PNG_2_INT` is defined outside `png.c`; it
packs a palette entry into one integer RGB value. -/
def PNG_2_INT (c : png_color) : Nat := (c.red <<< 16) + (c.green <<< 8) + c.blue

/-- Modelled from the spec: the macros `INT_2_R`, `INT_2_G`, `INT_2_B` are
defined outside `png.c`; they unpack an integer RGB value into a palette entry. -/
def INT_2_png (v : Nat) : png_color :=
  { red := v >>> 16, green := (v >>> 8) &&& 0xFF, blue := v &&& 0xFF }

/-- Modelled from the spec: `is_filled` lives in another file; it tells whether
the first `n` bytes of a plane all equal `v` ("every value in it equals 255"). -/
def is_filled (buf : List Nat) (v n : Nat) : Bool := (buf.take n).all (fun b => b == v)

/-- Modelled from the spec: `mem_mask_colors` lives in another file; called with
`bpp = 3` and the single colour `tr`, it sets to `v` the mask byte of each of
the first `n` pixels of `img` whose RGB value is `tr` ("the key colour's pixels
get alpha 0"). -/
def mem_mask_colors (mask img : List Nat) (v n : Nat) (tr : Int) : List Nat :=
  (List.range mask.length).map (fun i =>
    if i < n ∧ (((img.getD (3 * i) 0 <<< 16) + (img.getD (3 * i + 1) 0 <<< 8) +
        img.getD (3 * i + 2) 0 : Nat) : Int) = tr then v
    else mask.getD i 0)

/-- Modelled from the spec: `mem_remove_frame` lives in another file; it removes
the frame with the given index from the frame sequence. -/
def mem_remove_frame (fset : frameset) (idx : Nat) : frameset :=
  { fset with frames := fset.frames.eraseIdx idx }

/-! ## RGBA compositing -/

/-- The bytes `buf[off .. off + n)`. -/
def slice (buf : List Nat) (off n : Nat) : List Nat := (buf.drop off).take n

/-- Overwrite `buf[off ..]` with `row` (as `memcpy` into an allocated plane). -/
def blit (buf : List Nat) (off : Nat) (row : List Nat) : List Nat :=
  (List.range buf.length).map (fun i =>
    if off ≤ i ∧ i < off + row.length then row.getD (i - off) 0 else buf.getD i 0)

/-- The first loop of `composite_rgba_frame`, inner part: the destination RGB of
`n` pixels of one row, from the underlayer or the background. `pal` is the
underlayer's palette expanded by `pal2rgb` (used when `bpp == 1`). -/
def crf_rgb_row (lmap : Nat → Nat) (bkg : Nat × Nat × Nat × Nat) (pal : Nat → Nat)
    (bpp : Nat) (bgbuf : List Nat) (bmask : Nat) (bg : Int) :
    Nat → Nat → Nat × List Nat → Nat × List Nat
  | 0, _, st => st
  | n + 1, x, (p, dest) =>
    let bflag := lmap x &&& bmask
    let rgb : Nat → Nat :=
      if bflag &&& 4 ≠ 0 then
        fun k => if k = 0 then bkg.1 else if k = 1 then bkg.2.1 else bkg.2.2.1
      else if bflag &&& 2 ≠ 0 then
        (if bpp = 1 then fun k => pal (peek bgbuf (bg + x) * 3 + k)
         else fun k => peek bgbuf (bg + x * 3 + k))
      else fun _ => 0
    crf_rgb_row lmap bkg pal bpp bgbuf bmask bg n (x + 1)
      (p + 3, ((dest.set p (rgb 0)).set (p + 1) (rgb 1)).set (p + 2) (rgb 2))

/-- The first loop of `composite_rgba_frame`, outer part. -/
def crf_rgb_rows (lmap : Nat → Nat) (bkg : Nat × Nat × Nat × Nat) (pal : Nat → Nat)
    (bpp : Nat) (bgbuf : List Nat) (w : Nat) (bgstep : Int) :
    Nat → Nat → Int → Nat × List Nat → Nat × List Nat
  | 0, _, _, st => st
  | m + 1, y, bg, st =>
    crf_rgb_rows lmap bkg pal bpp bgbuf w bgstep m (y + 1) (bg + bgstep)
      (crf_rgb_row lmap bkg pal bpp bgbuf (lmap y >>> 4) bg w 0 st)

/-- The second loop of `composite_rgba_frame`, inner part: the destination
alpha. `bga = none` is an underlayer without alpha plane. -/
def crf_alpha_row (lmap : Nat → Nat) (bkg : Nat × Nat × Nat × Nat)
    (bga : Option (List Nat)) (bmask : Nat) (bg : Int) :
    Nat → Nat → Nat × List Nat → Nat × List Nat
  | 0, _, st => st
  | n + 1, x, (p, dsta) =>
    let bflag := lmap x &&& bmask
    let a0 : Nat := if bflag &&& 2 ≠ 0 then
        (match bga with
         | some b => peek b (bg + x)
         | none => 255)
      else 0
    let a : Nat := if bflag &&& 4 ≠ 0 then bkg.2.2.2 else a0
    crf_alpha_row lmap bkg bga bmask bg n (x + 1) (p + 1, dsta.set p a)

/-- The second loop of `composite_rgba_frame`, outer part. -/
def crf_alpha_rows (lmap : Nat → Nat) (bkg : Nat × Nat × Nat × Nat)
    (bga : Option (List Nat)) (w : Nat) (bgw : Int) :
    Nat → Nat → Int → Nat × List Nat → Nat × List Nat
  | 0, _, _, st => st
  | m + 1, y, bg, st =>
    crf_alpha_rows lmap bkg bga w bgw m (y + 1) (bg + bgw)
      (crf_alpha_row lmap bkg bga (lmap y >>> 4) bg w 0 st)

/-- The third loop of `composite_rgba_frame`: paste `m` rows of the new frame,
`ww` pixels each, over the destination planes `(image, alpha)`. -/
def crf_paste_rows (B : blend_ops) (blend : Bool) (tr : Int) (src : List Nat)
    (srca : Option (List Nat)) (ww fgw w : Nat) :
    Nat → Nat → Nat → List Nat × Option (List Nat) → List Nat × Option (List Nat)
  | 0, _, _, st => st
  | m + 1, fgoff, dstoff, (dest, dsta) =>
    let srow := slice src (fgoff * 3) (ww * 3)
    let sarow := srca.map (fun a => slice a fgoff ww)
    let drow := slice dest (dstoff * 3) (ww * 3)
    let darow := dsta.map (fun a => slice a dstoff ww)
    let st1 : List Nat × Option (List Nat) :=
      if blend then
        let mask0 := List.replicate ww 0
        let mask1 := if tr ≥ 0 then mem_mask_colors mask0 srow 255 ww tr else mask0
        let r := B.process_mask ww mask1 darow (List.replicate ww 255) sarow
        let drow1 := B.process_img ww r.1 drow srow
        (blit dest (dstoff * 3) drow1,
         match dsta, r.2 with
         | some a, some arow => some (blit a dstoff arow)
         | a, _ => a)
      else
        (blit dest (dstoff * 3) srow,
         match dsta with
         | none => none
         | some a =>
           match sarow with
           | some sa => some (blit a dstoff sa)
           | none =>
             let fill := List.replicate ww 255
             some (blit a dstoff
               (if tr ≥ 0 then mem_mask_colors fill srow 0 ww tr else fill)))
    crf_paste_rows B blend tr src srca ww fgw w m (fgoff + fgw) (dstoff + w) st1

/-- `composite_rgba_frame`: composite an RGB(A) new frame over the underlayer
into `frame`. -/
def composite_rgba_frame (B : blend_ops) (frame : image_frame) (stat : ani_status)
    (settings : ls_settings) : image_frame :=
  match settings.img.image with
  | none => frame
  | some src =>
    let bkf := stat.prev
    let w := frame.width
    let bgw : Int := bkf.width
    let bgoff : Int := (bkf.y : Int) * bgw + bkf.x
    let bpp := bkf.bpp
    let pal : Nat → Nat := fun i =>
      match bkf.pal with
      | some q => if ((i / 3 : Nat) : Int) < bkf.cols then (q (i / 3)).chan (i % 3) else 0
      | none => 0
    -- destination RGB
    let dest1 := (crf_rgb_rows stat.lmap stat.bkg pal bpp (bkf.img.image.getD []) w
      (bgw * bpp) frame.height 0 (-(bgoff * bpp)) (0, frame.img.image.getD [])).2
    -- destination alpha
    let dsta1 := frame.img.alpha.map (fun a =>
      (crf_alpha_rows stat.lmap stat.bkg bkf.img.alpha w bgw frame.height 0 (-bgoff) (0, a)).2)
    let base : image_frame := { frame with img := { image := some dest1, alpha := dsta1 } }
    -- the new frame, clipped to the destination
    let c := clip settings.x settings.y (settings.x + settings.width)
      (settings.y + settings.height) (0, 0, frame.width, frame.height)
    if !c.2 then base
    else
      let rxy := c.1
      let fgw := settings.width
      let ww := rxy.2.2.1 - rxy.1
      let fgoff := (rxy.2.1 - settings.y) * fgw + (rxy.1 - settings.x)
      let dstoff := rxy.2.1 * w + rxy.1
      let r := crf_paste_rows B stat.blend settings.rgb_trans src settings.img.alpha ww fgw w
        (rxy.2.2.2 - rxy.2.1) fgoff dstoff (dest1, dsta1)
      { frame with img := { image := some r.1, alpha := r.2 } }

/-! ## Compositing a frame and preparing its disposal -/

/-- Replace the last frame of the frame sequence. -/
def frameset.set_last (fset : frameset) (frame : image_frame) : frameset :=
  { fset with frames := fset.frames.dropLast ++ [frame] }

/-- The flags of the frame with index `idx` (0 if there is none). -/
def frameset.flags_at (fset : frameset) (idx : Nat) : Nat :=
  match fset.frames.get? idx with
  | some f => f.flags
  | none => 0

/-- The last part of `composite_frame`: remove the next-to-last frame if it is
tagged for deletion and is not the underlayer. -/
def composite_frame_cleanup (K : consts) (fset : frameset) (stat : ani_status) :
    frameset × ani_status :=
  if fset.cnt > 1 ∧ stat.prev_idx ≠ fset.cnt - 1 ∧
      fset.flags_at (fset.cnt - 2) &&& K.FM_NUKE ≠ 0 then
    let fset1 := mem_remove_frame fset (fset.cnt - 2)
    (fset1, if stat.prev_idx > fset1.cnt then { stat with prev_idx := fset1.cnt } else stat)
  else (fset, stat)

/-- The compositing part of `composite_frame` (compositing mode): clear the
disposal mode in the frame's flags, composite the pixels, drop an unused alpha
plane, and convert a transparent colour into alpha when both are present. Gives
the finished frame and the input settings (whose `xpm_trans` is cleared when
blending is off). -/
def composite_frame_render (K : consts) (B : blend_ops) (frame : image_frame)
    (stat : ani_status) (settings : ls_settings) : image_frame × ls_settings :=
  let disposal := frame.flags &&& K.FM_DISPOSAL
  let frame0 : image_frame :=
    { frame with flags := frame.flags ^^^ (disposal ^^^ K.FM_DISP_REMOVE) }
  let settings1 : ls_settings :=
    if settings.bpp = 3 then settings
    else if !stat.blend then { settings with xpm_trans := -1 } else settings
  let frame1 :=
    if settings.bpp = 3 then composite_rgba_frame B frame0 stat settings
    else composite_indexed_frame frame0 stat settings1
  -- drop alpha if not used
  let frame2 : image_frame :=
    match frame1.img.alpha with
    | some a =>
      if is_filled a 255 (frame1.width * frame1.height) then
        { frame1 with img := { frame1.img with alpha := none } }
      else frame1
    | none => frame1
  -- convert a transparent colour into alpha
  let frame3 : image_frame :=
    match frame2.img.alpha with
    | some a =>
      if frame2.trans ≥ 0 then
        let tr := PNG_2_INT (stat.newpal frame2.trans.toNat)
        { frame2 with
          img := { frame2.img with
            alpha := some (mem_mask_colors a (frame2.img.image.getD []) 0
              (frame2.width * frame2.height) tr) },
          trans := -1 }
      else frame2
    | none => frame2
  (frame3, settings1)

/-- The disposal part of `composite_frame` ("Prepare the disposal action"):
`fset` already holds the finished `frame` as its last frame. -/
def composite_frame_dispose (K : consts) (fset : frameset) (stat : ani_status)
    (settings : ls_settings) (frame : image_frame) (disposal : Nat) :
    frameset × ani_status :=
  -- dispose to background: image-sized hole in the underlayer
  let bk1 := if disposal = K.FM_DISP_REMOVE then
      (settings.x, settings.y, settings.x + settings.width, settings.y + settings.height)
    else stat.bk_rect
  -- do not dispose: clear the old hole
  let bk2 := if disposal = K.FM_DISP_LEAVE then (0, 0, 0, 0) else bk1
  let stat1 : ani_status := { stat with bk_rect := bk2 }
  if disposal = K.FM_DISP_REMOVE ∨ disposal = K.FM_DISP_LEAVE then
    -- the current frame becomes the underlayer
    let prev : image_frame :=
      { frame with pal := if frame.pal.isNone then fset.pal else frame.pal }
    let fset2 :=
      if stat1.prev_idx ≠ 0 ∧ fset.flags_at (stat1.prev_idx - 1) &&& K.FM_NUKE ≠ 0 then
        mem_remove_frame fset (stat1.prev_idx - 1)
      else fset
    (fset2, { stat1 with prev := prev, prev_idx := fset2.cnt })
  else (fset, stat1)

/-- `composite_frame`: composite the input frame into the last frame of the
frame sequence, and set up the underlayer and the hole for the next frame
according to the disposal mode. Gives the new frame sequence, state and input
settings. -/
def composite_frame (K : consts) (B : blend_ops) (fset : frameset) (stat : ani_status)
    (settings : ls_settings) : frameset × ani_status × ls_settings :=
  match fset.frames.getLast? with
  | none => (fset, stat, settings)
  | some frame =>
    if stat.mode ≤ K.ANM_RAW then
      -- in raw mode, just store the offsets
      let r := composite_frame_cleanup K
        (fset.set_last { frame with x := settings.x, y := settings.y }) stat
      (r.1, r.2, settings)
    else
      let disposal := frame.flags &&& K.FM_DISPOSAL
      let c := composite_frame_render K B frame stat settings
      let r := composite_frame_dispose K (fset.set_last c.1) stat c.2 c.1 disposal
      let r2 := composite_frame_cleanup K r.1 r.2
      (r2.1, r2.2, c.2)

/-! ## Palette remapping table -/

/-- The loop of `ani_init_xlat`: `xlat[i] = xlat[i + 256] = i`. -/
def ani_init_xlat_loop : Nat → Nat → (Nat → Nat) → (Nat → Nat)
  | 0, _, xlat => xlat
  | n + 1, i, xlat =>
    ani_init_xlat_loop n (i + 1) (Function.update (Function.update xlat (i + 256) i) i i)

/-- Conversion of an `int` to `unsigned char`. -/
def to_uchar (v : Int) : Nat := (v % 256).toNat

/-- `ani_init_xlat`: initialize the palette remapping table to 1:1, and the
background entry to the output transparent index. -/
def ani_init_xlat (stat : ani_status) : ani_status :=
  let xlat := ani_init_xlat_loop 256 0 stat.xlat
  { stat with xlat := Function.update xlat 512 (to_uchar stat.newtrans) }

/-! ## Palette reconciliation for indexed frames -/

/-- The scan of `analyze_gif_frame`, inner loop: mark in the colours bitmap the
extended index of each of `n` pixels of one row. -/
def agf_scan_row (lmap : Nat → Nat) (tp : Int) (fgbuf bgbuf : List Nat) (bmask : Nat)
    (fg bg : Int) : Nat → Nat → (Nat → Nat) → (Nat → Nat)
  | 0, _, cmap => cmap
  | n + 1, x, cmap =>
    agf_scan_row lmap tp fgbuf bgbuf bmask fg bg n (x + 1)
      (Function.update cmap
        (ext_index (lmap x &&& bmask) tp (peek fgbuf (fg + x)) (peek bgbuf (bg + x))) 1)

/-- The scan of `analyze_gif_frame`, outer loop over `m` rows of `ww` pixels. -/
def agf_scan_rows (lmap : Nat → Nat) (tp : Int) (fgbuf bgbuf : List Nat) (ww : Nat)
    (fgw bgw : Int) : Nat → Nat → Int → Int → (Nat → Nat) → (Nat → Nat)
  | 0, _, _, _, cmap => cmap
  | m + 1, y, fg, bg, cmap =>
    agf_scan_rows lmap tp fgbuf bgbuf ww fgw bgw m (y + 1) (fg + fgw) (bg + bgw)
      (agf_scan_row lmap tp fgbuf bgbuf (lmap y >>> 4) fg bg ww 0 cmap)

/-- The colours bitmap of `analyze_gif_frame` after "Now scan the dest area":
`stat` already holds the region map of the new frame. -/
def agf_scan (stat : ani_status) (settings : ls_settings) : Nat → Nat :=
  let fgw : Int := settings.width
  let bgw : Int := stat.prev.width
  agf_scan_rows stat.lmap settings.xpm_trans (settings.img.image.getD [])
    (stat.prev.img.image.getD []) stat.defw fgw bgw stat.defh 0
    (-((settings.y : Int) * fgw + settings.x))
    (-((stat.prev.y : Int) * bgw + stat.prev.x)) (fun _ => 0)

/-- "Move underlayer transparency to transparent":
`cmap[512] |= cmap[prevtr]; cmap[prevtr] = 0` when `prevtr >= 0`. -/
def agf_move_trans (cmap : Nat → Nat) (prevtr : Int) : Nat → Nat :=
  if prevtr ≥ 0 then
    Function.update (Function.update cmap 512 (cmap 512 ||| cmap prevtr.toNat)) prevtr.toNat 0
  else cmap

/-- `memchr(cmap, 1, 256)` as a truth value. -/
def memchr_256 (cmap : Nat → Nat) : Bool := (List.range 256).any (fun i => cmap i == 1)

/-- The C expression `a & ~b` on nonnegative values. -/
def bit_clear (a b : Nat) : Nat := a ^^^ (a &&& b)

/-- The loop "check if either frame's palette is enough":
`for (...; ul && (i < l); i++)`, with `n` values of `i` left. Bit 0 of `ul` stands
for the old palette, bit 1 for the new one. -/
def agf_pal_loop (cmap : Nat → Nat) (prev pal : palette) (k : Int) : Nat → Nat → Nat → Nat
  | 0, _, ul => ul
  | n + 1, i, ul =>
    if ul = 0 then ul
    else
      let tf2 := cmap i * 2 + cmap (256 + i)
      agf_pal_loop cmap prev pal k n (i + 1)
        (if tf2 ≠ 0 ∧ ((i : Int) ≥ k ∨ PNG_2_INT (prev i) ≠ PNG_2_INT (pal i)) then
          bit_clear ul tf2
        else ul)

/-- The loop "try to find unused palette slot":
`for (l = -1, i = 0; (l < 0) && (i < nc); i++) if (!(cmap[i] | cmap[i + 256])) l = i`. -/
def agf_find_slot (cmap : Nat → Nat) : Nat → Nat → Int
  | 0, _ => -1
  | n + 1, i => if cmap i ||| cmap (i + 256) = 0 then (i : Int) else agf_find_slot cmap n (i + 1)

/-- The condition `(l < 0) || (l >= nc) || (cmap[l] | cmap[l + 256])`. -/
def agf_slot_taken (cmap : Nat → Nat) (nc l : Int) : Bool :=
  decide (l < 0) || decide (l ≥ nc) || decide (cmap l.toNat ||| cmap (l.toNat + 256) ≠ 0)

/-- The block "Place transparency" of `analyze_gif_frame`, when one palette is
enough: `none` is the `break` (no palette slot can be had). -/
def agf_place_trans (stat : ani_status) (cmap : Nat → Nat) (prevtr xpm_trans : Int) :
    Option ani_status :=
  if cmap 512 ≠ 0 then
    let nc := stat.newcols
    let l1 := if agf_slot_taken cmap nc prevtr then xpm_trans else prevtr
    let l2 := if agf_slot_taken cmap nc l1 then agf_find_slot cmap nc.toNat 0 else l1
    if l2 < 0 then
      if nc ≥ 256 then none
      else
        -- add a palette slot
        let xlat1 := if prevtr ≥ 0 then Function.update stat.xlat prevtr.toNat (to_uchar nc)
          else stat.xlat
        some { stat with
          newcols := nc + 1,
          newpal := if nc ≥ 0 then Function.update stat.newpal nc.toNat ⟨0, 0, 0⟩
            else stat.newpal,
          xlat := Function.update xlat1 512 (to_uchar nc), newtrans := nc }
    else
      let xlat1 := if prevtr ≥ 0 then Function.update stat.xlat prevtr.toNat (to_uchar l2)
        else stat.xlat
      some { stat with xlat := Function.update xlat1 512 (to_uchar l2), newtrans := l2 }
  else some stat

/-- The extended palette: the RGB value of the extended colour index `i`,
underlayer palette for `i < 256`, new frame's palette above. -/
def ext_color (prev pal : palette) (i : Nat) : Nat :=
  PNG_2_INT (if i < 256 then prev i else pal (i - 256))

/-- The inner loop `for (j = 0; (j < ul) && (tmpal[j] != v); j++);` with `n` values
of `j` left: the first slot holding `v`, or `ul`. -/
def agf_find_color (tmpal : Nat → Nat) (v : Nat) : Nat → Nat → Nat
  | 0, j => j
  | n + 1, j => if tmpal j ≠ v then agf_find_color tmpal v n (j + 1) else j

/-- The loop "Try to build combined palette":
`for (ul = i = 0; (ul < 257) && (i < 512); i++)`, with `n` values of `i` left. The
state is `(ul, tmpal, xlat)`; the colour `*c` of index `i` is `ext_color prev pal i`. -/
def agf_merge_loop (cmap : Nat → Nat) (prev pal : palette) :
    Nat → Nat → Nat × (Nat → Nat) × (Nat → Nat) → Nat × (Nat → Nat) × (Nat → Nat)
  | 0, _, st => st
  | n + 1, i, (ul, tmpal, xlat) =>
    if ¬ ul < 257 then (ul, tmpal, xlat)
    else if cmap i = 0 then agf_merge_loop cmap prev pal n (i + 1) (ul, tmpal, xlat)
    else
      let v := ext_color prev pal i
      let j := agf_find_color tmpal v ul 0
      agf_merge_loop cmap prev pal n (i + 1)
        (if j = ul then ul + 1 else ul,
         if j = ul then Function.update tmpal ul v else tmpal,
         Function.update xlat i (j % 256))

/-- The loop "Build palette": `newpal[i] = tmpal[i]` for `n` values of `i`. -/
def agf_build_pal (tmpal : Nat → Nat) : Nat → Nat → palette → palette
  | 0, _, pal => pal
  | n + 1, i, pal => agf_build_pal tmpal n (i + 1) (Function.update pal i (INT_2_png (tmpal i)))

/-- The part "Try to build combined palette" of `analyze_gif_frame`: the flag
tells whether at most 256 colours are needed ("Success!"); the translation
table is modified in either case. -/
def agf_merge (stat : ani_status) (cmap : Nat → Nat) (prev pal : palette) (prevtr : Int) :
    Bool × ani_status :=
  let r := agf_merge_loop cmap prev pal 512 0 (0, fun _ => 0, stat.xlat)
  let ul := r.1
  let tmpal := r.2.1
  let xlat := r.2.2
  -- add transparent colour
  let addtr : Bool := decide (ul < 257) && decide (cmap 512 ≠ 0)
  let xlat1 := if addtr then
      Function.update
        (if prevtr ≥ 0 then Function.update xlat prevtr.toNat (ul % 256) else xlat)
        512 (ul % 256)
    else xlat
  let newtrans : Int := if addtr then ul else stat.newtrans
  let tmpal1 := if addtr then Function.update tmpal ul 0 else tmpal
  let ul1 := if addtr then ul + 1 else ul
  let stat1 : ani_status := { stat with xlat := xlat1, newtrans := newtrans }
  if ul1 < 257 then
    (true, { stat1 with newpal := agf_build_pal tmpal1 ul1 0 stat.newpal, newcols := ul1 })
  else (false, stat1)

/-- The exit `RGB:` of `analyze_gif_frame`: fall back to RGB (3) or RGBA (4). -/
def agf_rgb (stat : ani_status) (cmap : Nat → Nat) (show_under : Bool) : Int × ani_status :=
  let stat1 : ani_status :=
    if stat.global_cols > 0 then
      { stat with newpal := stat.global_pal, newcols := stat.global_cols }
    else stat
  (if (show_under && stat.prev.img.alpha.isSome) || decide (cmap 512 ≠ 0) then 4 else 3,
   { stat1 with newtrans := -1 })

/-- The test `same_size` of the analysis functions. -/
def same_size (stat : ani_status) (settings : ls_settings) : Bool :=
  decide (settings.x ||| settings.y ||| (stat.defw ^^^ settings.width) |||
    (stat.defh ^^^ settings.height) = 0)

/-- The new frame's palette and its size: the local palette if there is one,
else the global one ("Locate the new palette"). -/
def agf_pal (stat : ani_status) (settings : ls_settings) : palette × Int :=
  if settings.colors > 0 then (settings.pal, settings.colors)
  else (stat.global_pal, stat.global_cols)

/-- The state of `analyze_gif_frame` in compositing mode when it starts to scan
the canvas: new palette accepted, region map built, translation table 1:1,
transparency disabled. -/
def agf_prepare (K : consts) (stat : ani_status) (settings : ls_settings) : ani_status :=
  let stat1 : ani_status :=
    { stat with newpal := (agf_pal stat settings).1, newcols := (agf_pal stat settings).2,
                newtrans := settings.xpm_trans }
  { ani_init_xlat (ani_map_frame K.MAX_WIDTH K.MAX_HEIGHT stat1 settings) with newtrans := -1 }

/-- The underlayer's palette `prev` of `analyze_gif_frame`: the per-frame palette
of the underlayer if there is one (a NULL palette reads as black), else the
global palette. -/
def agf_prev_pal (stat : ani_status) : palette :=
  if stat.prev_idx ≠ 0 then stat.prev.pal.getD (fun _ => ⟨0, 0, 0⟩) else stat.global_pal

/-- The size `lprev` of the underlayer's palette. -/
def agf_lprev (stat : ani_status) : Int :=
  if stat.prev_idx ≠ 0 then stat.prev.cols else stat.global_cols

/-- The underlayer's transparent index `prevtr` (-1 without underlayer). -/
def agf_prevtr (stat : ani_status) : Int :=
  if stat.prev_idx ≠ 0 then stat.prev.trans else -1

/-- The colours bitmap of `analyze_gif_frame` when the palettes get compared:
the canvas scanned, the underlayer's transparent colour moved to "transparent". -/
def agf_cmap (stat : ani_status) (settings : ls_settings) : Nat → Nat :=
  if stat.prev_idx ≠ 0 then agf_move_trans (agf_scan stat settings) stat.prev.trans
  else agf_scan stat settings

/-- The flag `show_under`: the underlayer is at all visible. -/
def agf_show_under (stat : ani_status) (settings : ls_settings) : Bool :=
  decide (stat.prev_idx ≠ 0) && memchr_256 (agf_cmap stat settings)

/-- The value of `ul` after "check if either frame's palette is enough": 2 is the
new palette, 1 the old one, 3 either, 0 none. -/
def agf_ul (stat : ani_status) (settings : ls_settings) : Nat :=
  let lpal := (agf_pal stat settings).2
  let lprev := agf_lprev stat
  let l := if lprev > lpal then lprev else lpal
  let k := if lprev > lpal then lpal else lprev
  if agf_show_under stat settings then
    agf_pal_loop (agf_cmap stat settings) (agf_prev_pal stat) (agf_pal stat settings).1 k
      l.toNat 0 3
  else 2

/-- The state after the palette check: the old palette is taken when only it is
enough ("Need old palette"). -/
def agf_stat1 (stat : ani_status) (settings : ls_settings) : ani_status :=
  if agf_show_under stat settings ∧ agf_ul stat settings = 1 then
    { stat with newpal := agf_prev_pal stat, newcols := agf_lprev stat }
  else stat

/-- The outcome of the block "Place transparency": `none` when no palette is
enough or no transparent slot can be had, so that the combined palette is
tried. -/
def agf_single (stat : ani_status) (settings : ls_settings) : Option ani_status :=
  if agf_ul stat settings ≠ 0 then
    agf_place_trans (agf_stat1 stat settings) (agf_cmap stat settings) (agf_prevtr stat)
      settings.xpm_trans
  else none

/-- The second half of `analyze_gif_frame`, from "If we have underlayer" on;
`stat` is the prepared state. -/
def agf_decide (stat : ani_status) (settings : ls_settings) : Int × ani_status :=
  let cmap := agf_cmap stat settings
  let show_under := agf_show_under stat settings
  -- visible RGB/RGBA underlayer means RGB/RGBA frame
  if show_under ∧ stat.prev.bpp = 3 then agf_rgb stat cmap show_under
  else
    let code : Int := if same_size stat settings then 0 else 1
    match agf_single stat settings with
    | some stat2 => (code, stat2)
    | none =>
      let m := agf_merge (agf_stat1 stat settings) cmap (agf_prev_pal stat)
        (agf_pal stat settings).1 (agf_prevtr stat)
      if m.1 then (code, m.2) else agf_rgb m.2 cmap show_under

/-- `analyze_gif_frame`: decide how an indexed frame merges with the underlayer.
Gives the result (0: the input as is, 1: indexed, 3: RGB, 4: RGBA, -1: too large)
and the new state. -/
def analyze_gif_frame (K : consts) (stat : ani_status) (settings : ls_settings) :
    Int × ani_status :=
  -- accept the new palette as final, for now
  let stat1 : ani_status :=
    { stat with newpal := (agf_pal stat settings).1, newcols := (agf_pal stat settings).2,
                newtrans := settings.xpm_trans }
  if stat.mode ≤ K.ANM_RAW then
    (0, { stat1 with defw := settings.width, defh := settings.height })
  else if stat.defw > K.MAX_WIDTH ∨ stat.defh > K.MAX_HEIGHT then (-1, stat1)
  else
    let stat2 := ani_init_xlat (ani_map_frame K.MAX_WIDTH K.MAX_HEIGHT stat1 settings)
    if stat2.prev_idx = 0 ∧ same_size stat2 settings then (0, stat2)
    else if stat2.prev_idx = 0 ∧ settings.xpm_trans ≥ 0 then (1, stat2)
    else agf_decide (agf_prepare K stat settings) settings

/-- The analysis reaches "Try to build combined palette": compositing mode, the
canvas within the limits, not a trivial first frame, no visible RGB underlayer,
and no single palette with room for transparency. -/
def agf_takes_merge (K : consts) (stat : ani_status) (settings : ls_settings) : Bool :=
  decide (K.ANM_RAW < stat.mode) &&
  decide (stat.defw ≤ K.MAX_WIDTH ∧ stat.defh ≤ K.MAX_HEIGHT) &&
  decide (¬ (stat.prev_idx = 0 ∧
    (same_size (agf_prepare K stat settings) settings = true ∨ settings.xpm_trans ≥ 0))) &&
  decide (¬ (agf_show_under (agf_prepare K stat settings) settings = true ∧
    stat.prev.bpp = 3)) &&
  (agf_single (agf_prepare K stat settings) settings).isNone

/-- The distinct colours of the marked extended indices below `i`, in the order
in which they are first seen. -/
def seen_colors (cmap : Nat → Nat) (prev pal : palette) : Nat → List Nat
  | 0 => []
  | i + 1 =>
    if cmap i ≠ 0 ∧ ext_color prev pal i ∉ seen_colors cmap prev pal i then
      seen_colors cmap prev pal i ++ [ext_color prev pal i]
    else seen_colors cmap prev pal i

/-- Zero-filled frame record, as left by `memset(&stat, 0, sizeof(stat))`. -/
def image_frame_zero : image_frame :=
  { img := { image := none, alpha := none }, pal := none, width := 0, height := 0,
    x := 0, y := 0, delay := 0, cols := 0, bpp := 0, trans := 0, flags := 0 }

/-- The state right after `memset(&stat, 0, sizeof(stat))`. -/
def ani_status_zero : ani_status :=
  { lmap := fun _ => 0, prev := image_frame_zero, prev_idx := 0, have_frames := false,
    defw := 0, defh := 0, bk_rect := (0, 0, 0, 0), mode := 0, global_cols := 0,
    newcols := 0, newtrans := 0, global_pal := fun _ => ⟨0, 0, 0⟩,
    newpal := fun _ => ⟨0, 0, 0⟩, xlat := fun _ => 0, blend := false,
    bkg := (0, 0, 0, 0) }

/-- An indexed input frame of the given geometry and pixels, without palette
or transparency. -/
def ls_settings_indexed (x y width height : Nat) (pix : List Nat) : ls_settings :=
  { img := { image := some pix, alpha := none }, pal := fun _ => ⟨0, 0, 0⟩,
    width := width, height := height, x := x, y := y, bpp := 1, colors := 0,
    xpm_trans := -1, rgb_trans := -1, gif_delay := 0 }


/-- An indexed underlay of 2 × 1 pixels, both of colour 3. -/
def hole_prev : image_frame :=
  { image_frame_zero with
    img := { image := some [3, 3], alpha := none }, width := 2, height := 1, bpp := 1,
    cols := 8, trans := -1 }

/-- A new indexed frame of 1 × 1 pixel of colour 1 at `(1, 0)`. -/
def hole_settings : ls_settings :=
  { ls_settings_indexed 1 0 1 1 [1] with colors := 8 }

/-- A state on a 2 × 1 screen whose underlay is `hole_prev` and whose pending
disposal hole is the pixel `(0, 0)`. -/
def hole_stat0 : ani_status :=
  { ani_status_zero with
    defw := 2, defh := 1, have_frames := true, prev := hole_prev, prev_idx := 1,
    bk_rect := (0, 0, 1, 1), newtrans := 5, newcols := 8, mode := 2, blend := true }

/-- The state `hole_stat0` with the region map of the new frame `hole_settings`
and the 1:1 translation table, whose background entry is 5. -/
def hole_stat : ani_status :=
  ani_init_xlat (ani_map_frame 16384 16384 hole_stat0 hole_settings)

/-- A freshly allocated indexed output frame of 2 × 1 pixels. -/
def hole_frame : image_frame :=
  { image_frame_zero with
    img := { image := some [0, 0], alpha := none }, width := 2, height := 1, bpp := 1,
    cols := 8 }

/-- The same output frame with an alpha plane. -/
def hole_frame_alpha : image_frame :=
  { hole_frame with img := { image := some [0, 0], alpha := some [7, 7] } }

/-- A consistent choice of the constants declared outside `png.c`. -/
def consts_default : consts :=
  { MAX_WIDTH := 16384, MAX_HEIGHT := 16384, ANM_RAW := 1, ANM_NOZERO := 3,
    FM_DISPOSAL := 3, FM_DISP_REMOVE := 0, FM_DISP_LEAVE := 1, FM_DISP_RESTORE := 2,
    FM_NUKE := 4 }

/-- Blending helpers that replace the destination row by the source row. -/
def blend_ops_copy : blend_ops :=
  { process_mask := fun _ mask dsta _ _ => (mask, dsta),
    process_img := fun _ _ _ src => src }

/-- A frame sequence holding the underlay `hole_prev` and the freshly allocated
frame `hole_frame` carrying the disposal code `disposal`. -/
def hole_fset (disposal : Nat) : frameset :=
  { frames := [hole_prev, { hole_frame with flags := disposal }], pal := none }

/-- The palette whose first entries are those of `l`, the others black. -/
def pal_of (l : List png_color) : palette := fun i => l.getD i ⟨0, 0, 0⟩

/-- An indexed underlay of 7 × 1 pixels with the colours red, green, blue. -/
def merge_prev : image_frame :=
  { image_frame_zero with
    img := { image := some [0, 1, 2, 0, 0, 0, 0], alpha := none }, width := 7, height := 1,
    bpp := 1, cols := 4, trans := -1,
    pal := some (pal_of [⟨255, 0, 0⟩, ⟨0, 255, 0⟩, ⟨0, 0, 255⟩]) }

/-- A new indexed frame of 3 × 1 pixels at `(3, 0)` with the colours yellow, cyan,
magenta. -/
def merge_settings : ls_settings :=
  { ls_settings_indexed 3 0 3 1 [0, 1, 2] with
    colors := 4, pal := pal_of [⟨255, 255, 0⟩, ⟨0, 255, 255⟩, ⟨255, 0, 255⟩] }

/-- A state on a 7 × 1 screen whose underlay is `merge_prev` and whose pending
disposal hole is the pixel `(6, 0)`. -/
def merge_stat : ani_status :=
  { ani_status_zero with
    defw := 7, defh := 1, have_frames := true, prev := merge_prev, prev_idx := 1,
    bk_rect := (6, 0, 7, 1), mode := 2, blend := true, global_cols := -1 }

/-- The extended colour index that the pixel `(x, y)` of the composited canvas
shows: the new frame's pixel plus 256, the underlayer's pixel, or 512 for
background. -/
def canvas_index (stat : ani_status) (settings : ls_settings) (x y : Nat) : Nat :=
  ext_index (bflag stat.lmap x y) settings.xpm_trans
    (frame_pixel (settings.img.image.getD []) settings.x settings.y settings.width x y)
    (underlay_pixel stat x y)

/-- The extended colour indices shown by the pixels of the canvas. -/
def visible_indices (stat : ani_status) (settings : ls_settings) : Finset Nat :=
  (Finset.range stat.defw ×ˢ Finset.range stat.defh).image
    (fun p => canvas_index stat settings p.1 p.2)

/-- The distinct RGB colours among the visible pixels of the underlay and of the
new frame; a visible underlay pixel of the underlay's transparent colour counts
as transparent, not as a colour. -/
def visible_colors (stat : ani_status) (settings : ls_settings) : Finset Nat :=
  ((visible_indices stat settings).filter
      (fun e : Nat => e < 512 ∧ (e : Int) ≠ agf_prevtr stat)).image
    (ext_color (agf_prev_pal stat) (agf_pal stat settings).1)

/-- Some background or transparent pixel is visible. -/
def background_visible (stat : ani_status) (settings : ls_settings) : Prop :=
  512 ∈ visible_indices stat settings ∨
    ∃ e : Nat, e ∈ visible_indices stat settings ∧ (e : Int) = agf_prevtr stat

instance (stat : ani_status) (settings : ls_settings) :
    Decidable (background_visible stat settings) := by
  unfold background_visible
  infer_instance

/-- The number of palette entries that the composited canvas needs: the distinct
visible colours, plus one when background or transparency is visible. -/
def colors_needed (stat : ani_status) (settings : ls_settings) : Nat :=
  (visible_colors stat settings).card + (if background_visible stat settings then 1 else 0)

/-- A palette of 256 distinct colours. -/
def pal_ramp : palette := fun i => ⟨i, 0, 0⟩

/-- An indexed underlay of 257 × 1 pixels. -/
def over_prev : image_frame :=
  { image_frame_zero with
    img := { image := some (List.replicate 257 0), alpha := none }, width := 257, height := 1,
    bpp := 1, cols := 256, trans := -1, pal := some pal_ramp }

/-- A new indexed frame of 256 × 1 pixels at `(0, 0)` with a local palette of 128
colours, whose pixels take all 256 byte values; the palette memory beyond the
128 entries still holds distinct colours. -/
def over_settings : ls_settings :=
  { ls_settings_indexed 0 0 256 1 (List.range 256) with colors := 128, pal := pal_ramp }

/-- A state on a 257 × 1 screen whose underlay `over_prev` was disposed to
background, so that the pending hole is the whole canvas. -/
def over_stat : ani_status :=
  { ani_status_zero with
    defw := 257, defh := 1, have_frames := true, prev := over_prev, prev_idx := 1,
    bk_rect := (0, 0, 257, 1), mode := 2, blend := true, global_cols := -1 }

/-- The palette slots in use: those that a visible pixel of either frame
refers to. -/
def used_slots (cmap : Nat → Nat) : Finset Nat :=
  (Finset.range 256).filter (fun i => cmap i ≠ 0 ∨ cmap (256 + i) ≠ 0)

/-- Direct containment of the pixel `(x, y)` in the rectangle
`[x0, x1) × [y0, y1)`. -/
abbrev in_rect (x0 y0 x1 y1 x y : Nat) : Prop := x0 ≤ x ∧ x < x1 ∧ y0 ≤ y ∧ y < y1

/-- The two-colour palette {A, B} of the 2 × 2 example. -/
def pal_ab : palette := pal_of [⟨255, 0, 0⟩, ⟨0, 0, 255⟩]

/-- The first frame of the 2 × 2 example as underlay: fully opaque, pixels
A B / A B. -/
def ab_prev : image_frame :=
  { image_frame_zero with
    img := { image := some [0, 1, 0, 1], alpha := none }, width := 2, height := 2, bpp := 1,
    cols := 2, trans := -1, pal := some pal_ab }

/-- The second frame of the 2 × 2 example: one pixel of colour A at `(1, 1)`,
same palette, no transparent index. -/
def ab_settings : ls_settings :=
  { ls_settings_indexed 1 1 1 1 [0] with colors := 2, pal := pal_ab }

/-- The state of the 2 × 2 example before the second frame: underlay `ab_prev`,
no pending hole, blending on. -/
def ab_stat : ani_status :=
  { ani_status_zero with
    defw := 2, defh := 2, have_frames := true, prev := ab_prev, prev_idx := 1, mode := 2,
    blend := true, global_cols := -1 }

/-- The fields of `ani_settings` used when frames are added: the frame sequence
and the flag `lastzero` (the last frame added has zero delay and is tagged for
deletion). -/
structure ani_settings where
  fset : frameset
  lastzero : Bool

/-- Modelled from the spec: the frame record that `mem_add_frame`, which lives in
another file, sets up: a cleared frame of `w × h` pixels with `bpp` bytes per
pixel ("allocate output Frame at target depth"), with a zero-filled image plane
when `image` is set and a zero-filled alpha plane when `alpha` is set, and with
the palette `pal` of its own when the sequence already has a default one. -/
def mem_new_frame (fset : frameset) (w h bpp : Nat) (image alpha : Bool) (pal : palette) :
    image_frame :=
  { image_frame_zero with
    width := w, height := h, bpp := bpp,
    img := { image := if image then some (List.replicate (w * h * bpp) 0) else none,
             alpha := if alpha then some (List.replicate (w * h) 0) else none },
    pal := if fset.pal.isSome then some pal else none }

/-- Modelled from the spec: `mem_add_frame` lives in another file, as do the
channel masks `CMASK_NONE`, `CMASK_IMAGE` and `CMASK_RGBA` it is called with (no
plane, the image plane, image and alpha planes). It appends the new frame to the
frame sequence; the palette becomes the default palette of the sequence when it
has none. Failure to allocate is not modelled. -/
def mem_add_frame (fset : frameset) (w h bpp : Nat) (image alpha : Bool) (pal : palette) :
    frameset :=
  { frames := fset.frames ++ [mem_new_frame fset w h bpp image alpha pal],
    pal := if fset.pal.isSome then fset.pal else some pal }

/-- The frame that `add_frame` sets up: allocated by `mem_add_frame` at the screen
size for the analysis result `bpp` (0: move the input image, 1: indexed, 3: RGB,
4: RGBA), then given the palette size, transparent index, delay and disposal
code. In coalescing mode a zero-delay frame is tagged for deletion. -/
def add_frame_new (K : consts) (ani : ani_settings) (stat : ani_status) (settings : ls_settings)
    (bpp : Nat) (disposal : Nat) : image_frame :=
  let fbpp := if bpp = 0 then settings.bpp else if bpp > 3 then 3 else bpp
  let frame := mem_new_frame ani.fset stat.defw stat.defh fbpp (decide (bpp ≠ 0))
    (decide (bpp > 3)) stat.newpal
  let lastzero : Bool := decide (stat.mode = K.ANM_NOZERO) && decide (settings.gif_delay = 0)
  let frame1 : image_frame :=
    { frame with
      cols := stat.newcols, trans := stat.newtrans, delay := settings.gif_delay,
      flags := if lastzero then disposal ||| K.FM_NUKE else disposal }
  -- same bpp and dimensions: reassign the chanlist
  if bpp = 0 then { frame1 with img := settings.img } else frame1

/-- `add_frame`: allocate a new frame and fill it in (`add_frame_new`); it is the
last frame of the new sequence. Gives the new sequence with the flag `lastzero`,
and the input settings, whose image is taken away when it is moved into the
frame. -/
def add_frame (K : consts) (ani : ani_settings) (stat : ani_status) (settings : ls_settings)
    (bpp : Nat) (disposal : Nat) : ani_settings × ls_settings :=
  let fbpp := if bpp = 0 then settings.bpp else if bpp > 3 then 3 else bpp
  let fset1 := mem_add_frame ani.fset stat.defw stat.defh fbpp (decide (bpp ≠ 0))
    (decide (bpp > 3)) stat.newpal
  ({ fset := fset1.set_last (add_frame_new K ani stat settings bpp disposal),
     lastzero := decide (stat.mode = K.ANM_NOZERO) && decide (settings.gif_delay = 0) },
   if bpp = 0 then { settings with img := { image := none, alpha := none } } else settings)

/-- The part of the loop of `load_gif_frames` that handles one image, once the
frame is read into `w_set`: analyze how the frame merges, allocate a new frame,
do the compositing. `none` is the `goto fail` on a negative analysis result. -/
def gif_frame_step (K : consts) (B : blend_ops) (ani : ani_settings) (stat : ani_status)
    (w_set : ls_settings) (disposal : Nat) : Option (ani_settings × ani_status) :=
  let a := analyze_gif_frame K stat w_set
  if a.1 < 0 then none
  else
    let r := add_frame K ani a.2 w_set a.1.toNat disposal
    let c := composite_frame K B r.1.fset a.2 r.2
    some ({ r.1 with fset := c.1 }, c.2.1)

/-- The loop of `load_gif_frames` over the images of a file, given as the list
of the frames read with their disposal codes: `gif_frame_step` on each in turn;
`none` as soon as a frame fails. -/
def gif_frames_run (K : consts) (B : blend_ops) :
    ani_settings × ani_status → List (ls_settings × Nat) → Option (ani_settings × ani_status)
  | st, [] => some st
  | st, (w_set, disposal) :: rest =>
    match gif_frame_step K B st.1 st.2 w_set disposal with
    | none => none
    | some st1 => gif_frames_run K B st1 rest

/-- An empty frame sequence. -/
def ani_settings_empty : ani_settings := { fset := { frames := [], pal := none }, lastzero := false }

/-- The state at the start of a GIF animation with a 1 × 1 screen and no global
palette, in coalescing mode. -/
def nz_stat : ani_status :=
  { ani_status_zero with mode := 3, defw := 1, defh := 1, global_cols := -1, blend := true }

/-- A 1 × 1 input frame of colour `v` with the two-colour palette `pal_ab` and the
given delay. -/
def nz_frame (v : Nat) (delay : Int) : ls_settings :=
  { ls_settings_indexed 0 0 1 1 [v] with colors := 2, pal := pal_ab, gif_delay := delay }

/-- A frame sequence whose only frame is `hole_prev`, tagged for deletion. -/
def nuke_ani : ani_settings :=
  { fset := { frames := [{ hole_prev with flags := 4 }], pal := none }, lastzero := true }

/-- The step "Drop alpha if not used" of `composite_frame`: an alpha plane that
is 255 throughout is freed. -/
def drop_unused_alpha (f : image_frame) : image_frame :=
  match f.img.alpha with
  | some a =>
    if is_filled a 255 (f.width * f.height) then { f with img := { f.img with alpha := none } }
    else f
  | none => f

/-- The step "If transparent color and alpha are both present, convert the color
into alpha" of `composite_frame`; `newpal` is the palette that `add_frame`
assigns. -/
def trans_to_alpha (newpal : palette) (f : image_frame) : image_frame :=
  match f.img.alpha with
  | some a =>
    if f.trans ≥ 0 then
      let tr := PNG_2_INT (newpal f.trans.toNat)
      { f with
        img := { f.img with
          alpha := some (mem_mask_colors a (f.img.image.getD []) 0 (f.width * f.height) tr) },
        trans := -1 }
    else f
  | none => f

/-- The frame as `composite_frame` has drawn it (compositing mode), before the
alpha plane is looked at: the disposal mode cleared in the flags, the pixels
composited by `composite_rgba_frame` or `composite_indexed_frame`. -/
def composite_frame_pixels (K : consts) (B : blend_ops) (frame : image_frame)
    (stat : ani_status) (settings : ls_settings) : image_frame :=
  let disposal := frame.flags &&& K.FM_DISPOSAL
  let frame0 : image_frame :=
    { frame with flags := frame.flags ^^^ (disposal ^^^ K.FM_DISP_REMOVE) }
  if settings.bpp = 3 then composite_rgba_frame B frame0 stat settings
  else composite_indexed_frame frame0 stat
    (if !stat.blend then { settings with xpm_trans := -1 } else settings)

/-- Spec side ("compose(newFrame, state)" followed by the transition for the
disposal code Leave): composite one input frame over the underlay, with no frame
sequence kept. The frame is analysed against the underlay
(`analyze_gif_frame`), an output frame is set up for it (`add_frame_new`) and
composited (`composite_frame_render`); the frame produced then is the underlay,
with no hole. `pal` is the default palette of the sequence. Gives the frame
produced, the default palette and the state. -/
def compose_step (K : consts) (B : blend_ops) (leave : Nat) (pal : Option palette)
    (stat : ani_status) (s : ls_settings) : Option (image_frame × Option palette × ani_status) :=
  let a := analyze_gif_frame K stat s
  if a.1 < 0 then none
  else
    let ani : ani_settings := { fset := { frames := [], pal := pal }, lastzero := false }
    let r := add_frame K ani a.2 s a.1.toNat leave
    let c := (composite_frame_render K B (add_frame_new K ani a.2 s a.1.toNat leave) a.2
      r.2).1
    some (c, r.1.fset.pal,
      { a.2 with
        prev := { c with pal := if c.pal.isNone then r.1.fset.pal else c.pal },
        bk_rect := (0, 0, 0, 0), prev_idx := 1 })

/-- Spec side ("visually equal to compositing all three in order"): compositing
the input frames in order, each over the frame produced before it
(`compose_step`); `last` is the frame produced last. -/
def compose_in_order (K : consts) (B : blend_ops) (leave : Nat) :
    Option palette → ani_status → Option image_frame → List ls_settings → Option image_frame
  | _, _, last, [] => last
  | pal, stat, _, s :: rest =>
    match compose_step K B leave pal stat s with
    | none => none
    | some x => compose_in_order K B leave x.2.1 x.2.2 (some x.1) rest

/-- The colour A of the 2 × 2 example (entry 0 of `pal_ab`). -/
def col_A : png_color := ⟨255, 0, 0⟩

/-- The colour B of the 2 × 2 example (entry 1 of `pal_ab`). -/
def col_B : png_color := ⟨0, 0, 255⟩

/-- The first frame of the 2 × 2 example as input: fully opaque, indexed, pixels
A B A B in row-major order. -/
def ab_first : ls_settings :=
  { ls_settings_indexed 0 0 2 2 [0, 1, 0, 1] with colors := 2, pal := pal_ab, gif_delay := 10 }

/-- The state at the start of the 2 × 2 example: a 2 × 2 screen, compositing mode,
blending on. -/
def ab_stat0 : ani_status :=
  { ani_status_zero with mode := 2, defw := 2, defh := 2, global_cols := -1, blend := true }

/-- The size `GIF_BUFSIZE` of the decoder's buffer: space enough to hold the
longest block and the longest decoded sequence. -/
def GIF_BUFSIZE : Nat := 256 + 4096

/-- The decoder's state `gifbuf`. `f` holds the bytes of the file that are not
read yet. `log` is a ghost field that the code does not have: the codes read so
far, each with the code size it was read at. -/
structure gifbuf where
  f : List Nat
  ptr : Nat
  end_ : Int
  tail : Nat
  lc0 : Nat
  lc : Nat
  nxc : Nat
  clear : Nat
  cmask : Nat
  w : Nat
  bits : Nat
  prev : Int
  nxcode : Nat → Int
  cchar : Nat → Nat
  buf : Nat → Nat
  log : List (Nat × Nat)

/-- Store the bytes `l` in `buf[off ..]` (as `fread` does). -/
def store_bytes (buf : Nat → Nat) (off : Nat) (l : List Nat) : Nat → Nat :=
  fun i => if off ≤ i ∧ i < off + l.length then l.getD (i - off) 0 else buf i

/-- `getblock(buf, fp)` with a buffer: read the length byte of a sub-block and
then the block. Gives the length (-1 at the end of the file or when the block is
cut short), the buffer and the rest of the file. -/
def getblock (buf : Nat → Nat) (fp : List Nat) : Int × (Nat → Nat) × List Nat :=
  match fp with
  | [] => (-1, buf, [])
  | l :: rest =>
    if l > 0 then
      if rest.length < l then (-1, store_bytes buf 0 rest, [])
      else (l, store_bytes buf 0 (rest.take l), rest.drop l)
    else (0, buf, rest)

/-- `resetlzw`: first usable code, actual code size and mask, no previous code. -/
def resetlzw (gif : gifbuf) : gifbuf :=
  { gif with nxc := gif.clear + 2, lc := gif.lc0 + 1, cmask := (1 <<< (gif.lc0 + 1)) - 1,
             prev := -1 }

/-- The loop `while (--i >= 0) nxcode[i] = -1, cchar[i] = (unsigned char)i` of
`initlzw`, with `i` values left. -/
def initlzw_loop : Nat → (Nat → Int) × (Nat → Nat) → (Nat → Int) × (Nat → Nat)
  | 0, st => st
  | i + 1, (nxcode, cchar) =>
    initlzw_loop i (Function.update nxcode i (-1), Function.update cchar i (i % 256))

/-- `initlzw`: read the minimum code size from the file `fp` and set up the
decoder; `gif` is the state's memory before. Fails at the end of the file or when
the code size is above 11. -/
def initlzw (gif : gifbuf) (fp : List Nat) : Bool × gifbuf :=
  match fp with
  | [] => (false, { gif with f := [] })
  | i :: rest =>
    if i > 11 then (false, { gif with f := rest, lc0 := i })
    else
      let r := initlzw_loop (1 <<< i) (gif.nxcode, gif.cchar)
      (true,
       { resetlzw { gif with f := rest, lc0 := i, clear := 1 <<< i, nxcode := r.1,
                             cchar := r.2 } with
         w := 0, bits := 0, ptr := 0, end_ := 0, tail := 0, log := [] })

/-- The loop `while (tail > l) *dest++ = gif->buf[GIF_BUFSIZE - tail--]` of
`getlzw`, run `n = tail - l` times: the output bytes. -/
def getlzw_out (buf : Nat → Nat) : Nat → Nat → List Nat
  | 0, _ => []
  | n + 1, tail => buf (GIF_BUFSIZE - tail) :: getlzw_out buf n (tail - 1)

/-- The loop `while (bits < lc)` of `getlzw`, which fills the shifter from the
buffer and the file; `n` bounds the number of bytes read. The flag is `false` for
the `return (FALSE)` when no data is left. The state is `(gif, w, bits)`. -/
def getlzw_fill (lc : Nat) : Nat → gifbuf × Nat × Nat → Bool × gifbuf × Nat × Nat
  | 0, st => (true, st)
  | n + 1, (gif, w, bits) =>
    if bits < lc then
      if (gif.ptr : Int) ≥ gif.end_ then
        let b := getblock gif.buf gif.f
        let gif1 : gifbuf := { gif with end_ := b.1, buf := b.2.1, f := b.2.2 }
        if b.1 ≤ 0 then (false, gif1, w, bits) -- no data
        else
          getlzw_fill lc n
            ({ gif1 with ptr := 1 }, w ||| (gif1.buf 0 <<< bits), bits + 8)
      else
        getlzw_fill lc n
          ({ gif with ptr := gif.ptr + 1 }, w ||| (gif.buf gif.ptr <<< bits), bits + 8)
    else (true, gif, w, bits)

/-- The loop `for (cx = c; cx >= 0; cx = gif->nxcode[cx])` of `getlzw`, which
stores the string of the code `cx` backwards at the end of the buffer; `n`
bounds the length of the chain, and `none` means that the chain is longer. The
state is `(buf, tail)`. -/
def getlzw_chain (nxcode : Nat → Int) (cchar : Nat → Nat) :
    Nat → Int → (Nat → Nat) × Nat → Option ((Nat → Nat) × Nat)
  | 0, cx, st => if cx ≥ 0 then none else some st
  | n + 1, cx, (buf, tail) =>
    if cx ≥ 0 then
      getlzw_chain nxcode cchar n (nxcode cx.toNat)
        (Function.update buf (GIF_BUFSIZE - (tail + 1)) (cchar cx.toNat), tail + 1)
    else some (buf, tail)

/-- How one turn of the main loop of `getlzw` ends: with another turn, with
`return (TRUE)`, with `return (FALSE)`, or not at all. -/
inductive getlzw_turn where
  | next (gif : gifbuf) (tail : Nat) (cnt : Nat) (out : List Nat)
  | done (gif : gifbuf) (out : List Nat)
  | fail (gif : gifbuf) (out : List Nat)
  | hang

/-- The part `Update for next code` of a turn of the loop of `getlzw`: the code
`c` becomes the previous code, the next dictionary entry gets the old previous
code as its predecessor, and if there was one, the entry is taken and the code
size grows when the mask `cmask` is used up and below 4095. -/
def getlzw_update (gif : gifbuf) (cmask c : Nat) : gifbuf :=
  let prev := gif.prev
  let nxc := gif.nxc
  let gif : gifbuf :=
    { gif with prev := c, nxcode := Function.update gif.nxcode nxc prev }
  if prev ≥ 0 ∧ nxc < 4096 then
    if gif.nxc + 1 > cmask ∧ cmask < 4096 - 1 then
      { gif with nxc := gif.nxc + 1, lc := gif.lc + 1,
                 cmask := (1 <<< (gif.lc + 1)) - 1 }
    else { gif with nxc := gif.nxc + 1 }
  else gif

/-- The part `Decode this one` of a turn of the loop of `getlzw`, for a code `c`
that passed the checks: `gif` is the updated state, `nxc` the dictionary entry
that was added. The string of `c` is stored at the end of the buffer. -/
def getlzw_string (gif : gifbuf) (nxc c tail cnt : Nat) (out : List Nat) : getlzw_turn :=
  match getlzw_chain gif.nxcode gif.cchar 4097 c (gif.buf, tail) with
  | none => .hang
  | some (buf, tail) =>
    let cchar := Function.update gif.cchar nxc (buf (GIF_BUFSIZE - tail))
    -- in case c == nxc, its char was garbage till now, so reread it
    let buf := Function.update buf (GIF_BUFSIZE - 1) (cchar c)
    .next { gif with buf := buf, cchar := cchar } tail cnt out

/-- The second half of a turn of the loop of `getlzw`, from `if (c == gif->clear)`
on: the code `c` was read with the mask `cmask`. Reset on the clear code, fail on
the end code or a broken code; else add the next dictionary entry
(`getlzw_update`) and store the string of `c` at the end of the buffer
(`getlzw_string`). -/
def getlzw_decode (gif : gifbuf) (cmask c tail cnt : Nat) (out : List Nat) : getlzw_turn :=
  if c = gif.clear then .next (resetlzw gif) tail cnt out
  else if c = gif.clear + 1 then .fail gif out -- premature EOI
  else
    -- update for next code
    let prev := gif.prev
    let nxc := gif.nxc
    let gif := getlzw_update gif cmask c
    -- decode this one
    if c > nxc then .fail gif out -- broken code
    else if c = nxc ∧ prev < 0 then .fail gif out -- too early
    else getlzw_string gif nxc c tail cnt out

/-- One turn of the loop `while (TRUE)` of `getlzw`: `tail` and `cnt` are the
local variables, `out` the bytes it adds to `dest`. The tail of the last string
is output first; if more bytes are wanted, a code is read from the shifter and
decoded (`getlzw_decode`). `hang` stands for a predecessor chain that does not
end within 4097 codes. -/
def getlzw_step (gif : gifbuf) (tail cnt : Nat) : getlzw_turn :=
  let l := if tail > cnt then cnt else tail
  let cnt := cnt - l
  let out := getlzw_out gif.buf l tail
  let tail := tail - l
  if cnt = 0 then .done { gif with tail := tail } out -- no tail past this point
  else
    let r := getlzw_fill gif.lc gif.lc (gif, gif.w, gif.bits)
    if !r.1 then .fail r.2.1 out -- no data
    else
      let gif := r.2.1
      let w := r.2.2.1
      let bits := r.2.2.2
      let lc := gif.lc
      let cmask := gif.cmask
      let c := w &&& cmask
      getlzw_decode
        { gif with w := w >>> lc, bits := bits - lc, log := gif.log ++ [(c, lc)] }
        cmask c tail cnt out

/-- The loop `while (TRUE)` of `getlzw` with at most `n` turns; `none` when it
does not end within them. Gives the result, the bytes stored to `dest` and the
state. -/
def getlzw_loop : Nat → gifbuf → Nat → Nat → List Nat → Option (Bool × List Nat × gifbuf)
  | 0, _, _, _, _ => none
  | n + 1, gif, tail, cnt, dest =>
    match getlzw_step gif tail cnt with
    | .next gif1 tail1 cnt1 out => getlzw_loop n gif1 tail1 cnt1 (dest ++ out)
    | .done gif1 out => some (true, dest ++ out, gif1)
    | .fail gif1 out => some (false, dest ++ out, gif1)
    | .hang => none

/-- `getlzw`: decode `cnt` bytes. Every turn of the loop but the last takes at
least one bit out of the shifter, the buffer or the file when the code size is
not 0, so the number of turns is bounded by the number of those bits; `none`
means that the loop does not end. -/
def getlzw (cnt : Nat) (gif : gifbuf) : Option (Bool × List Nat × gifbuf) :=
  getlzw_loop (gif.bits + 8 * 256 + 8 * gif.f.length + 2) gif gif.tail cnt []

/-- The size of the trie `codes` in entries: `GIF_CODESSIZE / sizeof(short)`. -/
def GIF_CODES : Nat := 4096 * 2 * 16

/-- The encoder's state `gifcbuf`. `f` holds the bytes written to the file so
far. `w` is signed like the `int` it is, because `donelzw` can emit the previous
code -1. `log` is a ghost field that the code does not have: the codes written
so far, each with the code size it was written at. -/
structure gifcbuf where
  f : List Nat
  cnt : Nat
  nxmap : Nat
  lc0 : Nat
  lc : Nat
  nxc : Nat
  clear : Nat
  nxc2 : Nat
  w : Int
  bits : Nat
  prev : Int
  codes : Nat → Nat
  buf : Nat → Nat
  log : List (Int × Nat)

/-- `resetclzw`: send the clear code at the current length, and reset the
parameters and the trie. -/
def resetclzw (gif : gifcbuf) : gifcbuf :=
  { gif with
    w := Int.lor gif.w ((gif.clear : Int) <<< (gif.bits : Int)),
    bits := gif.bits + gif.lc,
    nxc := gif.clear + 2, lc := gif.lc0 + 1, nxc2 := 1 <<< (gif.lc0 + 1),
    codes := fun _ => 0, nxmap := 1,
    log := gif.log ++ [((gif.clear : Int), gif.lc)] }

/-- `initclzw`: write the minimum code size (at least 2) and set up the encoder;
`gif` is the state's memory before, `fp` the file written so far. -/
def initclzw (gif : gifcbuf) (lc0 : Nat) (fp : List Nat) : gifcbuf :=
  let lc0 := if lc0 < 2 then 2 else lc0
  resetclzw
    { gif with
      f := fp ++ [lc0 % 256], lc0 := lc0, clear := 1 <<< lc0, prev := -1, cnt := 0, w := 0,
      bits := 0, lc := lc0 + 1, log := [] }

/-- The loop `while (bits >= 8)` of `emitlzw`, with at most `n` turns: move whole
bytes from the shifter to the block buffer, and write the buffer out when 255
bytes are in. The state is `(gif, w, bits)`. -/
def emitlzw_loop : Nat → gifcbuf × Int × Nat → gifcbuf × Int × Nat
  | 0, st => st
  | n + 1, (gif, w, bits) =>
    if bits ≥ 8 then
      let gif1 : gifcbuf :=
        { gif with cnt := gif.cnt + 1, buf := Function.update gif.buf (gif.cnt + 1) (to_uchar w) }
      let gif2 : gifcbuf :=
        if gif1.cnt ≥ 255 then
          { gif1 with
            buf := Function.update gif1.buf 0 255,
            f := gif1.f ++ (List.range 256).map (Function.update gif1.buf 0 255),
            cnt := 0 }
        else gif1
      emitlzw_loop n (gif2, w >>> 8, bits - 8)
    else (gif, w, bits)

/-- `emitlzw`: append the code `c` at the current code size, and extend the code
size if needed. The loop takes `bits / 8` turns. -/
def emitlzw (gif : gifcbuf) (c : Int) : gifcbuf :=
  let bits := gif.bits
  let w := Int.lor gif.w (c <<< (bits : Int))
  let bits := bits + gif.lc
  let r := emitlzw_loop (bits / 8) ({ gif with log := gif.log ++ [(c, gif.lc)] }, w, bits)
  let gif1 : gifcbuf := { r.1 with bits := r.2.2, w := r.2.1 }
  -- extend code size if needed
  if gif1.nxc ≥ gif1.nxc2 then { gif1 with lc := gif1.lc + 1, nxc2 := 1 <<< (gif1.lc + 1) }
  else gif1

/-- The loop `while (cnt-- > 0)` of `putlzw` over the bytes of `src`; the state is
`(gif, prev)`. -/
def putlzw_loop : List Nat → gifcbuf × Int → gifcbuf × Int
  | [], st => st
  | c :: src, (gif, prev) =>
    if prev < 0 then putlzw_loop src (gif, c) -- begin
    else
      -- try compression
      let i := prev.toNat * 16 + (c >>> 4) + 4096 * 16
      let j := gif.codes i * 16 + (c &&& 0xF)
      let j := gif.codes j
      if j ≠ 0 then putlzw_loop src (gif, (j : Int) - 4096) -- have match
      else
        -- emit the code
        let gif := emitlzw gif prev
        -- do a clear if needed
        if gif.nxc ≥ 4096 - 1 then putlzw_loop src (resetclzw gif, c)
        else
          -- add new code
          let gif : gifcbuf :=
            if gif.codes i = 0 then
              { gif with codes := Function.update gif.codes i gif.nxmap, nxmap := gif.nxmap + 1 }
            else gif
          let j := gif.codes i * 16 + (c &&& 0xF)
          putlzw_loop src
            ({ gif with codes := Function.update gif.codes j (gif.nxc + 4096),
                        nxc := gif.nxc + 1 }, c)

/-- `putlzw`: compress the bytes `src`. -/
def putlzw (gif : gifcbuf) (src : List Nat) : gifcbuf :=
  let r := putlzw_loop src (gif, gif.prev)
  { r.1 with prev := r.2 }

/-- `donelzw`: flush. Emit the previous code and the end code, move the last bits
to the block buffer, and write the block with the block terminator. -/
def donelzw (gif : gifcbuf) : gifcbuf :=
  let gif := emitlzw gif gif.prev
  let gif := emitlzw gif ((gif.clear : Int) + 1) -- EOD
  let gif : gifcbuf :=
    if gif.bits ≠ 0 then
      { gif with cnt := gif.cnt + 1, buf := Function.update gif.buf (gif.cnt + 1) (to_uchar gif.w) }
    else gif
  let buf := Function.update (Function.update gif.buf 0 (gif.cnt % 256)) (gif.cnt + 1) 0
  { gif with buf := buf, f := gif.f ++ (List.range (gif.cnt + 2)).map buf }

/-- Zero-filled decoder memory. -/
def gifbuf_zero : gifbuf :=
  { f := [], ptr := 0, end_ := 0, tail := 0, lc0 := 0, lc := 0, nxc := 0, clear := 0, cmask := 0,
    w := 0, bits := 0, prev := 0, nxcode := fun _ => 0, cchar := fun _ => 0, buf := fun _ => 0,
    log := [] }

/-- Zero-filled encoder memory. -/
def gifcbuf_zero : gifcbuf :=
  { f := [], cnt := 0, nxmap := 0, lc0 := 0, lc := 0, nxc := 0, clear := 0, nxc2 := 0, w := 0,
    bits := 0, prev := 0, codes := fun _ => 0, buf := fun _ => 0, log := [] }

/-- The bytes that the encoder writes for the input `x` with the minimum code
size `m`: `initclzw`, `putlzw`, `donelzw`. -/
def lzw_encode (m : Nat) (x : List Nat) : List Nat :=
  (donelzw (putlzw (initclzw gifcbuf_zero m []) x)).f

/-- Decoding of `n` bytes from the stream `s`: `initlzw`, `getlzw`. The result is
`none` when the decoder fails or does not end. -/
def lzw_decode (n : Nat) (s : List Nat) : Option (List Nat) :=
  let r := initlzw gifbuf_zero s
  if r.1 then
    match getlzw n r.2 with
    | some (true, dest, _) => some dest
    | _ => none
  else none

/-- The invariant of the encoder's code size: the minimum code size is `m`, at
most 11, the code size `lc` lies in `lc0 + 1 .. 12`, `nxc2` is `1 << lc`, the next
free code is at most 4095, and every code written so far (ghost field `log`) was
written at a code size in `lc0 + 1 .. 12`. -/
def enc_inv (m : Nat) (g : gifcbuf) : Prop :=
  g.lc0 = m ∧ g.lc0 ≤ 11 ∧ g.lc0 + 1 ≤ g.lc ∧ g.lc ≤ 12 ∧ g.nxc2 = 2 ^ g.lc ∧ g.nxc ≤ 4095 ∧
    g.clear = 2 ^ g.lc0 ∧ ∀ e ∈ g.log, g.lc0 + 1 ≤ e.2 ∧ e.2 ≤ 12

/-- The invariant of the decoder's code size: the minimum code size is `m`, at
most 11, the code size `lc` lies in `lc0 + 1 .. 12`, the mask is `(1 << lc) - 1`, and
every code read so far (ghost field `log`) was read at a code size in
`lc0 + 1 .. 12`. -/
def dec_inv (m : Nat) (g : gifbuf) : Prop :=
  g.lc0 = m ∧ g.lc0 ≤ 11 ∧ g.lc0 + 1 ≤ g.lc ∧ g.lc ≤ 12 ∧ g.cmask = 2 ^ g.lc - 1 ∧
    ∀ e ∈ g.log, g.lc0 + 1 ≤ e.2 ∧ e.2 ≤ 12

/-- The states that the encoder passes through from the state `g0` on: after
`putlzw` of any bytes, after `emitlzw` or `resetclzw` inside of it, and after
`donelzw`. -/
inductive putlzw_reach (g0 : gifcbuf) : gifcbuf → Prop where
  | start : putlzw_reach g0 g0
  | put (g : gifcbuf) (src : List Nat) : putlzw_reach g0 g → putlzw_reach g0 (putlzw g src)
  | emit (g : gifcbuf) (c : Int) : putlzw_reach g0 g → putlzw_reach g0 (emitlzw g c)
  | reset (g : gifcbuf) : putlzw_reach g0 g → putlzw_reach g0 (resetclzw g)
  | done (g : gifcbuf) : putlzw_reach g0 g → putlzw_reach g0 (donelzw g)

/-- The state a turn of the loop of `getlzw` ends with, if it ends. -/
def getlzw_turn.gif : getlzw_turn → Option gifbuf
  | .next gif _ _ _ => some gif
  | .done gif _ => some gif
  | .fail gif _ => some gif
  | .hang => none

/-- The states that the decoder passes through from the state `g0` on: after any
number of turns of the loop of `getlzw`, in any number of calls. -/
inductive getlzw_reach (g0 : gifbuf) : gifbuf → Prop where
  | start : getlzw_reach g0 g0
  | turn (g g1 : gifbuf) (tail cnt : Nat) :
    getlzw_reach g0 g → (getlzw_step g tail cnt).gif = some g1 → getlzw_reach g0 g1

/-- The file form of full sub-blocks: each block of data bytes after its length
byte 255. -/
def put_blocks : List (List Nat) → List Nat
  | [] => []
  | b :: r => 255 :: (b ++ put_blocks r)

/-- The data bytes that wait in the encoder's block buffer: `buf[1 .. cnt]`. -/
def cbuf_data (g : gifcbuf) : List Nat := (List.range g.cnt).map (fun i => g.buf (i + 1))

/-- The encoder's output so far: the file holds the bytes `pre` and then the full
sub-blocks `Bs`, and fewer than 255 bytes wait in the block buffer. -/
def enc_out (g : gifcbuf) (pre : List Nat) (Bs : List (List Nat)) : Prop :=
  g.f = pre ++ put_blocks Bs ∧ (∀ b ∈ Bs, b.length = 255) ∧ g.cnt < 255

/-- The bytes that the loop of `emitlzw` takes out of the shifter `w` in `k`
turns, lowest byte first. -/
def emit_bytes : Nat → Int → List Nat
  | 0, _ => []
  | k + 1, w => to_uchar w :: emit_bytes k (w >>> 8)

/-- The framing of GIF data with fuel: sub-blocks, each a length byte `n` in
`1 .. 255` and `n` data bytes, every one but the last with `n = 255`, then one
zero byte and nothing else. -/
def gif_blocks : Nat → List Nat → Bool
  | 0, _ => false
  | _, [] => false
  | k + 1, n :: rest =>
    decide (1 ≤ n) && decide (n ≤ 255) && decide (n ≤ rest.length) &&
      (decide (rest.drop n = [0]) || (decide (n = 255) && gif_blocks k (rest.drop n)))

/-- The framing of GIF data: `gif_blocks` with fuel enough for every byte. -/
def gif_framed (s : List Nat) : Bool := gif_blocks s.length s

/-- An input of 888 bytes below 4 whose codes take 2040 bits, 255 bytes exactly. -/
def aligned_input : List Nat := (List.range 888).map (fun i => (i * i / 16 + 2 * (i / 5)) % 4)

/-- The state after a turn of the loop of `getlzw` that did not fail. -/
def getlzw_turn.live : getlzw_turn → Option gifbuf
  | .next gif _ _ _ => some gif
  | .done gif _ => some gif
  | .fail _ _ => none
  | .hang => none

/-- The states that the decoder passes through from the state `g0` on while no
turn of the loop of `getlzw` fails. -/
inductive getlzw_run (g0 : gifbuf) : gifbuf → Prop where
  | start : getlzw_run g0 g0
  | turn (g g1 : gifbuf) (tail cnt : Nat) :
    getlzw_run g0 g → (getlzw_step g tail cnt).live = some g1 → getlzw_run g0 g1

/-- The code that a turn of the loop of `getlzw` reads, if it reads one: none when
the bytes wanted are all in the buffer (`cnt <= tail`) or the data ends. -/
def getlzw_code (g : gifbuf) (tail cnt : Nat) : Option Nat :=
  if cnt ≤ tail then none
  else
    let r := getlzw_fill g.lc g.lc (g, g.w, g.bits)
    if r.1 then some (r.2.2.1 &&& r.2.1.cmask) else none

/-- The state in which a turn of the loop of `getlzw` decodes the code it read:
the shifter is filled and the code taken out of it. -/
def getlzw_taken (g : gifbuf) : gifbuf :=
  let r := getlzw_fill g.lc g.lc (g, g.w, g.bits)
  { r.2.1 with w := r.2.2.1 >>> r.2.1.lc, bits := r.2.2.2 - r.2.1.lc,
               log := r.2.1.log ++ [(r.2.2.1 &&& r.2.1.cmask, r.2.1.lc)] }

/-- The invariant of the decoder's dictionary: the next free code lies in
`clear + 2 .. 4096`, the codes below `clear` have no predecessor, every code
from `clear + 2` up to the next free one has a smaller predecessor that is a code
itself, and so is the previous code if there is one. The clear code is
`1 << lc0`, and the code size is as `dec_inv` has it. -/
def dec_tab (g : gifbuf) : Prop :=
  dec_inv g.lc0 g ∧ g.clear = 2 ^ g.lc0 ∧ g.clear + 2 ≤ g.nxc ∧ g.nxc ≤ 4096 ∧
  (∀ c, c < g.clear → g.nxcode c = -1) ∧
  (∀ c, g.clear + 2 ≤ c → c < g.nxc →
    0 ≤ g.nxcode c ∧ g.nxcode c < c ∧ g.nxcode c ≠ g.clear ∧ g.nxcode c ≠ g.clear + 1) ∧
  (g.prev = -1 ∨ (0 ≤ g.prev ∧ g.prev < g.nxc ∧ g.prev ≠ g.clear ∧ g.prev ≠ g.clear + 1))

/-- The string of the code `cx` in the decoder's dictionary: the string of its
predecessor `nxcode[cx]`, then its own byte `cchar[cx]`; `n` bounds the length. -/
def lzw_string (nxcode : Nat → Int) (cchar : Nat → Nat) : Nat → Int → List Nat
  | 0, _ => []
  | n + 1, cx =>
    if cx ≥ 0 then lzw_string nxcode cchar n (nxcode cx.toNat) ++ [cchar cx.toNat] else []

/-- The string of the code `c` in the dictionary of the decoder state `g`. -/
def dec_string (g : gifbuf) (c : Int) : List Nat := lzw_string g.nxcode g.cchar 4097 c

/-- The codes that have a string in the dictionary of the decoder state `g`: the
codes below `clear` and the codes from `clear + 2` up to the next free one. -/
def dec_code (g : gifbuf) (c : Nat) : Prop := c < g.clear ∨ (g.clear + 2 ≤ c ∧ c < g.nxc)

/-- The decoder state after the clear code and the code 0 of the stream with the
codes 4, 0, 6, 5 at three bits, which the encoder writes for the bytes 0, 0, 0. -/
def next_free_state : gifbuf :=
  ((getlzw_step (((getlzw_step (initlzw gifbuf_zero [2, 2, 132, 11, 0]).2 0 3).live).getD
    gifbuf_zero) 0 3).live).getD gifbuf_zero

/-- The checks of `getlzw` on a code that is neither the clear code nor the end
code: it is not above the next free code, and not the next free code when there
is no previous code. -/
def code_ok (g : gifbuf) (c : Nat) : Prop :=
  c ≠ g.clear ∧ c ≠ g.clear + 1 ∧ c ≤ g.nxc ∧ ¬ (c = g.nxc ∧ g.prev < 0)

/-- `analyze_rgba_frame`: decide the depth of the composited frame for an RGB(A)
or APNG frame. Gives the result (0: the input as is, 1: indexed, 3: RGB, 4: RGBA,
-1: too large) and the new state. -/
def analyze_rgba_frame (K : consts) (stat : ani_status) (settings : ls_settings) :
    Int × ani_status :=
  if stat.mode ≤ K.ANM_RAW then
    (0, { stat with defw := settings.width, defh := settings.height }) -- output matches input
  else if stat.defw > K.MAX_WIDTH ∨ stat.defh > K.MAX_HEIGHT then (-1, stat) -- too large
  else
    let stat1 := ani_map_frame K.MAX_WIDTH K.MAX_HEIGHT stat settings
    let ss := same_size stat1 settings
    let holes := !ss || stat1.blend
    if ss && !holes then (0, stat1) -- new replaces old
    else if settings.bpp = 1 ∧ settings.xpm_trans ≥ 0 then ((if ss then 0 else 1), stat1)
    else
      -- alpha transparency on underlayer
      let alpha0 : Bool := decide (stat1.prev_idx = 0) || stat1.prev.img.alpha.isSome
      -- transparency from disposal to background
      let alpha0 : Bool :=
        if stat1.bk_rect.1 < stat1.bk_rect.2.2.1 ∧ stat1.bk_rect.2.1 < stat1.bk_rect.2.2.2 then
          alpha0 || decide (stat1.bkg.2.2.2 < 255)
        else alpha0
      -- alpha transparency from this layer
      let alpha1 : Bool := !stat1.blend && settings.img.alpha.isSome
      let alpha : Bool := alpha1 || (alpha0 && holes)
      -- output bpp is max of underlayer & image
      let bpp : Int := if stat1.prev.bpp = 3 ∨ settings.bpp = 3 then 3 else 1
      ((if alpha then 4 else bpp), stat1)

/-- A state in compositing mode whose screen is wider than `MAX_WIDTH`. -/
def too_wide_stat : ani_status := { ani_status_zero with defw := 20000, defh := 1, mode := 2 }

/-- A state in compositing mode with blending, on a 1 × 1 screen, whose underlay
is an RGB frame without alpha plane. -/
def blend_stat : ani_status :=
  { ani_status_zero with
    defw := 1, defh := 1, mode := 2, have_frames := true, blend := true, prev_idx := 1,
    prev := { image_frame_zero with
      img := { image := some [0, 0, 0], alpha := none }, width := 1, height := 1, bpp := 3 } }

/-- An RGB frame of 1 × 1 pixel with an alpha plane. -/
def rgba_settings : ls_settings :=
  { img := { image := some [9, 9, 9], alpha := some [128] }, pal := fun _ => ⟨0, 0, 0⟩,
    width := 1, height := 1, x := 0, y := 0, bpp := 3, colors := 0,
    xpm_trans := -1, rgb_trans := -1, gif_delay := 0 }

/-- A state in compositing mode on a 2 × 1 screen whose underlay is an RGB frame of
2 × 1 pixels without alpha plane. -/
def rgb_under_stat : ani_status :=
  { ani_status_zero with
    defw := 2, defh := 1, mode := 2, have_frames := true, blend := true, prev_idx := 1,
    prev := { image_frame_zero with
      img := { image := some [7, 7, 7, 7, 7, 7], alpha := none }, width := 2, height := 1,
      bpp := 3, trans := -1 } }

/-- A first frame of 1 × 1 pixel that covers its screen, with a palette of two
colours and the transparent index 5. -/
def trans_settings : ls_settings :=
  { ls_settings_indexed 0 0 1 1 [0] with colors := 2, xpm_trans := 5 }

/-- The state before the first frame `trans_settings`, in compositing mode. -/
def trans_stat : ani_status := { ani_status_zero with defw := 1, defh := 1, mode := 2 }

/-- The frame `over_settings` with a palette of 256 entries that are all black. -/
def dup_settings : ls_settings :=
  { ls_settings_indexed 0 0 256 1 (List.range 256) with colors := 256 }

/-- The data bytes of the sub-blocks of the file `f` up to the end of the data: a
zero-length block, the end of the file or a block cut short; `k` bounds the
number of blocks. -/
def file_data : Nat → List Nat → List Nat
  | 0, _ => []
  | _ + 1, [] => []
  | k + 1, l :: rest =>
    if l = 0 then []
    else if rest.length < l then []
    else rest.take l ++ file_data k (rest.drop l)

/-- The bytes of the current sub-block that the decoder has not read yet:
`buf[ptr .. end)`. -/
def dec_buf (g : gifbuf) : List Nat :=
  (List.range (g.end_ - g.ptr).toNat).map (fun i => g.buf (g.ptr + i))

/-- The data bytes that the decoder can still read: the rest of the current
sub-block and the data of the sub-blocks that follow in the file. -/
def dec_stream (g : gifbuf) : List Nat := dec_buf g ++ file_data g.f.length g.f

/-- The shifter after `k` more bytes were put in above its `bits` bits, as the
loop `while (bits < lc)` of `getlzw` does. -/
def fill_bytes : List Nat → Nat → Nat → Nat
  | [], w, _ => w
  | b :: r, w, bits => fill_bytes r (w ||| (b <<< bits)) (bits + 8)

/-- The decoder's state after `getlzw` read the next sub-block into the buffer and
took its first byte. -/
def fill_block (g : gifbuf) : gifbuf :=
  { g with end_ := (getblock g.buf g.f).1, buf := (getblock g.buf g.f).2.1,
           f := (getblock g.buf g.f).2.2, ptr := 1 }

/-- The decoder's state after `getlzw` took one byte out of the buffer. -/
def fill_byte (g : gifbuf) : gifbuf := { g with ptr := g.ptr + 1 }

/-- The index `i` of `putlzw`: the first-level slot of the trie for the previous
code `p` and the high half of the byte `b`. -/
def trie_slot (p b : Nat) : Nat := p * 16 + (b >>> 4) + 4096 * 16

/-- The lookup of `putlzw` in the trie `codes`: the entry for the previous code `p`
and the byte `b`, 0 when there is none. -/
def trie_get (codes : Nat → Nat) (p b : Nat) : Nat :=
  codes (codes (trie_slot p b) * 16 + (b &&& 0xF))

/-- The part `if (!codes[i]) codes[i] = gif->nxmap++` of `putlzw`. -/
def putlzw_map (g : gifcbuf) (i : Nat) : gifcbuf :=
  if g.codes i = 0 then
    { g with codes := Function.update g.codes i g.nxmap, nxmap := g.nxmap + 1 }
  else g

/-- The part `Add new code` of `putlzw`: the slot `i` gets a map if it has none,
and the entry of the byte `c` in the map gets the next free code. -/
def putlzw_add (g : gifcbuf) (i c : Nat) : gifcbuf :=
  { putlzw_map g i with
    codes := Function.update (putlzw_map g i).codes ((putlzw_map g i).codes i * 16 + (c &&& 0xF))
      ((putlzw_map g i).nxc + 4096),
    nxc := (putlzw_map g i).nxc + 1 }

/-- The invariant of the encoder's trie: the minimum code size is at least 2, the
next free code lies in `clear + 2 .. nxc2`, the maps are numbered from 1 and there
are no more of them than codes, the first-level slots (from index `4096 * 16` on)
hold map numbers, no two of them the same, the map entries (below index
`4096 * 16`) hold nothing or a code from `clear + 2` up to the next free one, plus
4096, and the map 0 is empty. -/
def enc_tab (g : gifcbuf) : Prop :=
  enc_inv g.lc0 g ∧ 2 ≤ g.lc0 ∧ g.clear + 2 ≤ g.nxc ∧ g.nxc ≤ g.nxc2 ∧ 1 ≤ g.nxmap ∧
  g.nxmap + g.clear + 1 ≤ g.nxc ∧
  (∀ i, 65536 ≤ i → g.codes i < g.nxmap) ∧
  (∀ i i1, 65536 ≤ i → 65536 ≤ i1 → g.codes i = g.codes i1 → g.codes i ≠ 0 → i = i1) ∧
  (∀ j, j < 65536 → g.codes j = 0 ∨ (4096 + g.clear + 2 ≤ g.codes j ∧ g.codes j < 4096 + g.nxc)) ∧
  (∀ j, j < 16 → g.codes j = 0)

/-- The previous code `prev` of the encoder is -1 (none), a byte below `B`, or a
code of the dictionary. -/
def enc_prev (B : Nat) (g : gifcbuf) (prev : Int) : Prop :=
  prev = -1 ∨ (0 ≤ prev ∧ (prev < B ∨ ((g.clear : Int) + 2 ≤ prev ∧ prev < g.nxc)))

/-- Every code written so far is at least 0 and either below `B` or below
`1 << lc` for the code size `lc` it was written at. -/
def enc_log (B : Nat) (g : gifcbuf) : Prop :=
  ∀ e ∈ g.log, 0 ≤ e.1 ∧ (e.1 < B ∨ e.1 < 2 ^ e.2)

/-- The states of the encoder after any number of calls of `putlzw` with bytes,
from the state `g0` on. -/
inductive putlzw_run (g0 : gifcbuf) : gifcbuf → Prop where
  | start : putlzw_run g0 g0
  | put (g : gifcbuf) (src : List Nat) :
    putlzw_run g0 g → (∀ b ∈ src, b < 256) → putlzw_run g0 (putlzw g src)

/-- The number that the bytes `l` are when read as one number, lowest byte
first. -/
def bytes_val : List Nat → Nat
  | [] => 0
  | b :: r => b + 256 * bytes_val r

/-- The number that the codes of the log `l` are when put one above the other,
each at its code size, the first code lowest. -/
def codes_val : List (Int × Nat) → Nat
  | [] => 0
  | e :: r => e.1.toNat + 2 ^ e.2 * codes_val r

/-- The number of bits that the codes of the log `l` take. -/
def codes_bits : List (Int × Nat) → Nat
  | [] => 0
  | e :: r => e.2 + codes_bits r

/-- The invariant of the encoder's output: the file holds `pre` and full
sub-blocks, the shifter `w` holds `bits` bits, and the data bytes written so far
with the bits of the shifter above them are the codes written so far, each at its
code size. The data bytes are below 256. -/
def enc_val (g : gifcbuf) (pre : List Nat) : Prop :=
  ∃ (Bs : List (List Nat)) (wn : Nat), enc_out g pre Bs ∧ g.w = wn ∧ wn < 2 ^ g.bits ∧
    bytes_val (Bs.flatten ++ cbuf_data g) + 256 ^ (Bs.flatten ++ cbuf_data g).length * wn =
      codes_val g.log ∧
    8 * (Bs.flatten ++ cbuf_data g).length + g.bits = codes_bits g.log ∧
    ∀ b ∈ Bs.flatten ++ cbuf_data g, b < 256

/-- The eight bits of the byte `b`, least significant first. -/
def byte_bits (b : Nat) : List Bool := (List.range 8).map (fun i => b.testBit i)

/-- The bytes `l` as a bit stream, the least significant bit of each byte first. -/
def bits_of : List Nat → List Bool
  | [] => []
  | b :: r => byte_bits b ++ bits_of r

/-- The number that the bits `l` are, the first bit lowest. -/
def bits_val : List Bool → Nat
  | [] => 0
  | b :: r => b.toNat + 2 * bits_val r

/-- The codes read from the bit stream `bits` at the code sizes `ws`, one after the
other; the reading stops when the bits run out. -/
def read_codes : List Nat → List Bool → List Nat
  | [], _ => []
  | lc :: ws, bits =>
    if bits.length < lc then []
    else bits_val (bits.take lc) :: read_codes ws (bits.drop lc)

/-- The number that the decoder has still to read: the bits of the shifter, and
above them the data bytes left. -/
def dec_val (g : gifbuf) : Nat := g.w + 2 ^ g.bits * bytes_val (dec_stream g)

/-- The decoder `g` has the codes `rest` to read: the shifter holds `bits` bits,
the block in the buffer and the bytes of the file are bytes, and the bits of the
shifter with the data bytes left above them are the codes `rest`, each at its code
size, all of them there. -/
def dec_reads (g : gifbuf) (rest : List (Int × Nat)) : Prop :=
  g.w < 2 ^ g.bits ∧ g.end_ ≤ 255 ∧ (∀ b ∈ g.f, b < 256) ∧ (∀ b ∈ dec_stream g, b < 256) ∧
  dec_val g = codes_val rest ∧ codes_bits rest ≤ g.bits + 8 * (dec_stream g).length

/-- The string of the code `k` in the encoder's dictionary, told by the decoder's
tables: the encoder is one entry ahead of the decoder `gd`, and this entry, the
decoder's next free code, is the string of the decoder's previous code and the
first byte `b0` of the string that the encoder is matching. -/
def enc_str (gd : gifbuf) (b0 : Nat) (k : Int) : List Nat :=
  if k = gd.nxc ∧ 0 ≤ gd.prev then dec_string gd gd.prev ++ [b0] else dec_string gd k

/-- The codes that the encoder can have as its previous code: a byte below the
clear code, or a code of the dictionary. -/
def enc_code (ge : gifcbuf) (p : Int) : Prop :=
  0 ≤ p ∧ ((p < ge.clear ∧ p < 256) ∨ ((ge.clear : Int) + 2 ≤ p ∧ p < ge.nxc))

/-- The state of the encoder after the loop of `putlzw` has run over the bytes
`src` from the state `ge` with the previous code `prev`, and `donelzw`. -/
def putlzw_end (src : List Nat) (ge : gifcbuf) (prev : Int) : gifcbuf :=
  donelzw { (putlzw_loop src (ge, prev)).1 with prev := (putlzw_loop src (ge, prev)).2 }

/-- The encoder `ge` with the previous code `prev` and the decoder `gd` that has
read the codes that the encoder has written are in step: same clear code and code
size, the encoder's next free code one ahead of the decoder's once the decoder has
a previous code, every entry of the trie a pair of a code and a byte whose string
in the dictionary is the string of the code and the byte, and the same codes in
the two logs. `b0` is the first byte of the string of `prev`. -/
def lzw_sim (ge : gifcbuf) (prev : Int) (gd : gifbuf) (b0 : Nat) : Prop :=
  enc_tab ge ∧ dec_tab gd ∧ gd.lc0 = ge.lc0 ∧ gd.clear = ge.clear ∧ gd.lc = ge.lc ∧
  (∀ c, c < gd.clear → c < 256 → gd.cchar c = c) ∧
  (gd.prev < 0 → ge.nxc = gd.nxc ∧ gd.nxc = gd.clear + 2 ∧ gd.lc = gd.lc0 + 1 ∧
    ∀ p b, trie_get ge.codes p b = 0) ∧
  (0 ≤ gd.prev → ge.nxc = gd.nxc + 1 ∧ (enc_str gd b0 prev).getD 0 0 = b0) ∧
  enc_code ge prev ∧
  (∀ p b, p < 4096 → b < 256 → trie_get ge.codes p b ≠ 0 →
    enc_code ge p ∧
    enc_str gd b0 ((trie_get ge.codes p b : Int) - 4096) = enc_str gd b0 p ++ [b]) ∧
  (∀ j, ge.nxmap * 16 ≤ j → j < 65536 → ge.codes j = 0) ∧
  ge.log = gd.log.map (fun e => ((e.1 : Int), e.2))

/-- The state `over_stat` in raw frame mode. -/
def raw_over_stat : ani_status := { over_stat with mode := 1 }

/-- The result codes of the file functions that `load_frameset` tells apart; they
are constants of the repository declared outside `png.c`. -/
structure file_codes where
  FILE_LIB_ERROR : Int
  FILE_MEM_ERROR : Int
  FILE_TOO_LONG : Int

/-- Modelled from the spec: `mem_free_frames` lives in another file; it frees the
frames of the frame sequence with its palette and leaves the sequence empty
("frames already composited are discarded"). -/
def mem_free_frames (_fset : frameset) : frameset := { frames := [], pal := none }

/-- `load_frameset`, from the return of `load_frames_x` on: `res` is the result
of `load_frames_x` and `fset` the frame sequence `ani.fset` that it has built.
Gives the result and the frame sequence passed to the outside. -/
def load_frameset (C : file_codes) (res : Int) (fset : frameset) : Int × frameset :=
  -- treat out-of-memory error as fatal, to avoid worse things later
  if res = C.FILE_MEM_ERROR ∨ fset.cnt = 0 then (res, mem_free_frames fset)
  -- pass too-many-frames error along
  else if res = C.FILE_TOO_LONG then (res, fset)
  -- consider all other errors partial failures
  else if res ≠ 1 then (C.FILE_LIB_ERROR, fset)
  else (res, fset)

/-- A choice of the result codes, all different from the success code 1. -/
def file_codes_default : file_codes :=
  { FILE_LIB_ERROR := 123456, FILE_MEM_ERROR := 123457, FILE_TOO_LONG := 123459 }

/-- Ghost of the loop of `putlzw`: the entries added to the trie since the last
reset, each the previous code, the byte and the code that was inserted for the
string of the previous code extended by the byte. The loop runs over the bytes
`src` from the state `(gif, prev)`, `T` being the entries added before. -/
def putlzw_ins : List Nat → gifcbuf × Int → List (Nat × Nat × Nat) → List (Nat × Nat × Nat)
  | [], _, T => T
  | c :: src, (gif, prev), T =>
    if prev < 0 then putlzw_ins src (gif, c) T -- begin
    else if trie_get gif.codes prev.toNat c ≠ 0 then
      putlzw_ins src (gif, (trie_get gif.codes prev.toNat c : Int) - 4096) T -- have match
    else if (emitlzw gif prev).nxc ≥ 4096 - 1 then
      putlzw_ins src (resetclzw (emitlzw gif prev), c) [] -- do a clear
    else
      -- add new code
      putlzw_ins src (putlzw_add (emitlzw gif prev) (trie_slot prev.toNat c) c, c)
        (T ++ [(prev.toNat, c, (emitlzw gif prev).nxc)])

/-- The trie of the encoder `g` holds the entries `T`: the maps from the next free
one on are empty, and the lookup for a previous code `p` and a byte `b` gives an
entry exactly when `T` has one for them, which is then the code of `T` plus
4096. -/
def enc_trie (g : gifcbuf) (T : List (Nat × Nat × Nat)) : Prop :=
  enc_tab g ∧ (∀ j, g.nxmap * 16 ≤ j → j < 65536 → g.codes j = 0) ∧
  ∀ p b, p < 4096 → b < 256 →
    ((trie_get g.codes p b ≠ 0 ↔ ∃ k, (p, b, k) ∈ T) ∧
      ∀ k, (p, b, k) ∈ T → trie_get g.codes p b = k + 4096)

/-- The second-level cell of the trie `codes` that the lookup for the previous
code `p` and the byte `b` reads: the index `j` of `putlzw`. -/
def trie_cell (codes : Nat → Nat) (p b : Nat) : Nat := codes (trie_slot p b) * 16 + (b &&& 0xF)

/-- One turn of the loop `while (bits >= 8)` of `emitlzw`: move the low byte of the
shifter `w` to the block buffer, and write the buffer out when 255 bytes are
in. -/
def emitlzw_byte (gif : gifcbuf) (w : Int) : gifcbuf :=
  if gif.cnt + 1 ≥ 255 then
    { gif with
      buf := Function.update (Function.update gif.buf (gif.cnt + 1) (to_uchar w)) 0 255,
      f := gif.f ++ (List.range 256).map
        (Function.update (Function.update gif.buf (gif.cnt + 1) (to_uchar w)) 0 255),
      cnt := 0 }
  else
    { gif with cnt := gif.cnt + 1, buf := Function.update gif.buf (gif.cnt + 1) (to_uchar w) }

/-- The turn `t` of the loop of `getlzw` when `n` more bytes are wanted. -/
def getlzw_turn.more (n : Nat) : getlzw_turn → getlzw_turn
  | .next g t c o => .next g t (c + n) o
  | .done g o => .done g o
  | .fail g o => .fail g o
  | .hang => .hang

/-- The turn `t` of the loop of `getlzw` when the bytes `p` are output before
those of the turn. -/
def getlzw_turn.after (p : List Nat) : getlzw_turn → getlzw_turn
  | .next g t c o => .next g t c (p ++ o)
  | .done g o => .done g (p ++ o)
  | .fail g o => .fail g (p ++ o)
  | .hang => .hang

/-- The turn `t` of the loop of `getlzw` when the field `tail` of the state, which
the loop does not read and `return (TRUE)` overwrites, holds `x`. -/
def getlzw_turn.stored (x : Nat) : getlzw_turn → getlzw_turn
  | .next g t c o => .next { g with tail := x } t c o
  | .done g o => .done g o
  | .fail g o => .fail { g with tail := x } o
  | .hang => .hang

/-- The bits that the decoder can still read: those of the shifter and those of
the data bytes left. -/
def dec_bits (g : gifbuf) : Nat := g.bits + 8 * (dec_stream g).length

/-- The decoder state `g` is well formed: the dictionary is as `dec_tab` has it,
the current sub-block has at most 255 bytes, and the file holds bytes. -/
def dec_wf (g : gifbuf) : Prop := dec_tab g ∧ g.end_ ≤ 255 ∧ ∀ b ∈ g.f, b < 256

/-- Ghost of the loop `for (cx = c; cx >= 0; cx = gif->nxcode[cx])` of `getlzw`: the
codes `cx` that the loop visits, the code it starts from first; `n` bounds their
number. -/
def lzw_chain (nxcode : Nat → Int) : Nat → Int → List Nat
  | 0, _ => []
  | n + 1, cx => if cx ≥ 0 then cx.toNat :: lzw_chain nxcode n (nxcode cx.toNat) else []

/-- The flag `alpha` of `analyze_rgba_frame`: the composited frame needs an alpha
plane, because the new frame has one and blending is off, or because holes show
an underlayer with alpha, no underlayer, or a background that is not opaque in a
pending disposal hole. -/
def rgba_alpha (K : consts) (stat : ani_status) (settings : ls_settings) : Bool :=
  let stat1 := ani_map_frame K.MAX_WIDTH K.MAX_HEIGHT stat settings
  let holes := !same_size stat1 settings || stat1.blend
  -- alpha transparency on underlayer
  let alpha0 : Bool := decide (stat1.prev_idx = 0) || stat1.prev.img.alpha.isSome
  -- transparency from disposal to background
  let alpha0 : Bool :=
    if stat1.bk_rect.1 < stat1.bk_rect.2.2.1 ∧ stat1.bk_rect.2.1 < stat1.bk_rect.2.2.2 then
      alpha0 || decide (stat1.bkg.2.2.2 < 255)
    else alpha0
  -- alpha transparency from this layer
  let alpha1 : Bool := !stat1.blend && settings.img.alpha.isSome
  alpha1 || (alpha0 && holes)

/-- A palette entry whose three channels are bytes, as in `png_color`. -/
def rgb_bytes (c : png_color) : Prop := c.red < 256 ∧ c.green < 256 ∧ c.blue < 256

instance (c : png_color) : Decidable (rgb_bytes c) := by
  unfold rgb_bytes
  infer_instance

/-- The palette entry of the extended colour index `e`: the underlayer's palette
below 256, the new frame's palette above. -/
def ext_entry (prev pal : palette) (e : Nat) : png_color :=
  if e < 256 then prev e else pal (e - 256)

/-- An indexed underlay of 2 × 1 pixels with the palette red, green, whose
second pixel carries the transparent index 1. -/
def key_prev : image_frame :=
  { image_frame_zero with
    img := { image := some [0, 1], alpha := none }, width := 2, height := 1,
    bpp := 1, cols := 2, trans := 1, pal := some (pal_of [⟨255, 0, 0⟩, ⟨0, 255, 0⟩]) }

/-- A new indexed frame of one pixel at `(0, 0)` with the palette red, blue. -/
def key_settings : ls_settings :=
  { ls_settings_indexed 0 0 1 1 [0] with
    colors := 2, pal := pal_of [⟨255, 0, 0⟩, ⟨0, 0, 255⟩] }

/-- A state on a 2 × 1 screen whose underlay is `key_prev`, without disposal
hole. -/
def key_stat : ani_status :=
  { ani_status_zero with
    defw := 2, defh := 1, have_frames := true, prev := key_prev, prev_idx := 1, mode := 2 }

/-- A first frame of 3 × 1 pixels with a palette of two colours, whose third
pixel has the value 2. -/
def wide_settings : ls_settings :=
  { ls_settings_indexed 0 0 3 1 [0, 1, 2] with
    colors := 2, pal := pal_of [⟨255, 0, 0⟩, ⟨0, 255, 0⟩] }

/-- The state before the first frame on a 4 × 1 screen. -/
def wide_stat : ani_status := { ani_status_zero with defw := 4, defh := 1, mode := 2 }

/-- A frame of one pixel of value 1 whose transparent index is 0. -/
def stale_settings : ls_settings :=
  { ls_settings_indexed 0 0 1 1 [1] with colors := 2, xpm_trans := 0 }

/-- The zero-filled state in raw frame mode. -/
def stale_stat : ani_status := { ani_status_zero with mode := 1 }

/-! # Theorems -/

/-! ## Region map: lemmas -/

theorem mark_loop_apply (m : Nat) (n i : Nat) (lmap : Nat → Nat) (k : Nat) :
    mark_loop m n i lmap k = if i ≤ k ∧ k < i + n then lmap k ||| m else lmap k := by
  induction n generalizing i lmap with
  | zero =>
    have h0 : ¬ (i ≤ k ∧ k < i + 0) := by omega
    rw [mark_loop, if_neg h0]
  | succ n ih =>
    rw [mark_loop, ih]
    by_cases hk : k = i
    · subst hk
      simp
    · rw [Function.update_noteq hk]
      have h1 : (i + 1 ≤ k ∧ k < i + 1 + n) ↔ (i ≤ k ∧ k < i + (n + 1)) := by omega
      simp only [h1]

theorem mark_loop_testBit (m n i : Nat) (lmap : Nat → Nat) (k b : Nat) :
    (mark_loop m n i lmap k).testBit b =
      ((lmap k).testBit b || (decide (i ≤ k ∧ k < i + n) && m.testBit b)) := by
  rw [mark_loop_apply]
  by_cases h : i ≤ k ∧ k < i + n <;> simp [h]

theorem testBit_pow2 (e b : Nat) : (2 ^ e).testBit b = decide (b = e) := by
  rw [Nat.testBit_two_pow]
  by_cases h : e = b <;> simp [h, eq_comm]

/-- Bit `b` of the map byte `k` after the marking pass, for a byte inside the
cleared part of the map. -/
theorem ani_mark_testBit (lmap : Nat → Nat) (j sx sy w h prev_idx : Nat)
    (prev : image_frame) (bk : Nat × Nat × Nat × Nat) (hole : Bool) (k b : Nat) (hk : k < j) :
    (ani_mark lmap j sx sy w h prev_idx prev bk hole k).testBit b =
      ((decide (sx ≤ k ∧ k < w) && decide (b = 0)) ||
       (decide (sy ≤ k ∧ k < h) && decide (b = 4)) ||
       (decide (prev_idx ≠ 0 ∧ prev.x ≤ k ∧ k < prev.x + prev.width) && decide (b = 1)) ||
       (decide (prev_idx ≠ 0 ∧ prev.y ≤ k ∧ k < prev.y + prev.height) && decide (b = 5)) ||
       (decide (hole = true ∧ bk.1 ≤ k ∧ k < bk.2.2.1) && decide (b = 2)) ||
       (decide (hole = true ∧ bk.2.1 ≤ k ∧ k < bk.2.2.2) && decide (b = 6))) := by
  have t1 : Nat.testBit 1 b = decide (b = 0) := testBit_pow2 0 b
  have t2 : Nat.testBit 2 b = decide (b = 1) := testBit_pow2 1 b
  have t4 : Nat.testBit 4 b = decide (b = 2) := testBit_pow2 2 b
  have t16 : Nat.testBit 16 b = decide (b = 4) := testBit_pow2 4 b
  have t32 : Nat.testBit 32 b = decide (b = 5) := testBit_pow2 5 b
  have t64 : Nat.testBit 64 b = decide (b = 6) := testBit_pow2 6 b
  have hx : (sx ≤ k ∧ k < sx + (w - sx)) ↔ (sx ≤ k ∧ k < w) := by omega
  have hy : (sy ≤ k ∧ k < sy + (h - sy)) ↔ (sy ≤ k ∧ k < h) := by omega
  have hbx : (bk.1 ≤ k ∧ k < bk.1 + (bk.2.2.1 - bk.1)) ↔ (bk.1 ≤ k ∧ k < bk.2.2.1) := by omega
  have hby : (bk.2.1 ≤ k ∧ k < bk.2.1 + (bk.2.2.2 - bk.2.1)) ↔ (bk.2.1 ≤ k ∧ k < bk.2.2.2) := by
    omega
  unfold ani_mark
  by_cases hp : prev_idx = 0 <;> cases hole <;>
    simp [hp, mark_loop_testBit, memset0, hk, t1, t2, t4, t16, t32, t64, hx, hy, hbx, hby]

/-- Bit `b` (0, 1 or 2) of the region bits of a pixel inside the cleared part of
the map, after the marking pass. -/
theorem ani_mark_bflag (lmap : Nat → Nat) (j sx sy w h prev_idx : Nat)
    (prev : image_frame) (bk : Nat × Nat × Nat × Nat) (hole : Bool) (x y : Nat)
    (hx : x < j) (hy : y < j) :
    ((bflag (ani_mark lmap j sx sy w h prev_idx prev bk hole) x y).testBit 0 = true ↔
        in_rect sx sy w h x y) ∧
    ((bflag (ani_mark lmap j sx sy w h prev_idx prev bk hole) x y).testBit 1 = true ↔
        (prev_idx ≠ 0 ∧
          in_rect prev.x prev.y (prev.x + prev.width) (prev.y + prev.height) x y)) ∧
    ((bflag (ani_mark lmap j sx sy w h prev_idx prev bk hole) x y).testBit 2 = true ↔
        (hole = true ∧ in_rect bk.1 bk.2.1 bk.2.2.1 bk.2.2.2 x y)) := by
  simp only [bflag, Nat.testBit_land, Nat.testBit_shiftRight, ani_mark_testBit _ _ _ _ _ _ _ _ _ _ _ _ hx,
    ani_mark_testBit _ _ _ _ _ _ _ _ _ _ _ _ hy, in_rect]
  refine ⟨?_, ?_, ?_⟩
  · simp; tauto
  · simp; tauto
  · simp; tauto

/-! ## Indexed compositing: loop invariants -/

theorem getD_set_ne (d : List Nat) (p i v : Nat) (h : i ≠ p) :
    (d.set p v).getD i 0 = d.getD i 0 := by
  simp [List.getD_eq_getElem?_getD, List.getElem?_set, Ne.symm h]

theorem getD_set_eq (d : List Nat) (p v : Nat) (h : p < d.length) :
    (d.set p v).getD p 0 = v := by
  simp [List.getD_eq_getElem?_getD, List.getElem?_set, h]

theorem peek_set_ne (d : List Nat) (p v : Nat) (i : Int) (h : i ≠ p) :
    peek (d.set p v) i = peek d i := by
  unfold peek
  split
  · rfl
  · apply getD_set_ne
    omega

theorem land_one_ne_zero (n : Nat) : n &&& 1 ≠ 0 ↔ n.testBit 0 = true := by
  rw [Nat.testBit_zero, Nat.and_one_is_mod]
  simp only [decide_eq_true_eq]
  omega

theorem land_six_eq_two (n : Nat) :
    n &&& 6 = 2 ↔ (n.testBit 1 = true ∧ n.testBit 2 = false) := by
  have h7 : n &&& 6 = (n % 8) &&& 6 := by
    have e : (6 : Nat) = 7 &&& 6 := by decide
    conv_lhs => rw [e, ← Nat.land_assoc]
    have := Nat.and_pow_two_sub_one_eq_mod n 3
    simp at this
    rw [this]
  have t1 : n.testBit 1 = (n % 8).testBit 1 := by
    have := Nat.testBit_mod_two_pow n 3 1
    simpa using this.symm
  have t2 : n.testBit 2 = (n % 8).testBit 2 := by
    have := Nat.testBit_mod_two_pow n 3 2
    simpa using this.symm
  rw [h7, t1, t2]
  have hlt : n % 8 < 8 := Nat.mod_lt _ (by decide)
  generalize n % 8 = r at hlt
  interval_cases r <;> decide

theorem cif_indexed_row_spec (lmap xlat : Nat → Nat) (tp : Int) (fgbuf : Option (List Nat))
    (bgbuf : List Nat) (bmask : Nat) (fg bg : Int) (n : Nat) :
    ∀ (x p : Nat) (d : List Nat),
      (cif_indexed_row lmap xlat tp fgbuf bgbuf bmask fg bg n x (p, d)).1 = p + n ∧
      (cif_indexed_row lmap xlat tp fgbuf bgbuf bmask fg bg n x (p, d)).2.length = d.length ∧
      (∀ i, i < p ∨ p + n ≤ i →
        (cif_indexed_row lmap xlat tp fgbuf bgbuf bmask fg bg n x (p, d)).2.getD i 0 =
          d.getD i 0) ∧
      ((fgbuf = none → (p : Int) ≤ fg + x) → ∀ k, k < n → p + k < d.length →
        (cif_indexed_row lmap xlat tp fgbuf bgbuf bmask fg bg n x (p, d)).2.getD (p + k) 0 =
          xlat (ext_index (lmap (x + k) &&& bmask) tp (peek (fgbuf.getD d) (fg + (x + k : Nat)))
            (peek bgbuf (bg + (x + k : Nat))))) := by
  induction n with
  | zero =>
    intro x p d
    refine ⟨rfl, rfl, fun _ _ => rfl, fun _ k hk => absurd hk (Nat.not_lt_zero k)⟩
  | succ n ih =>
    intro x p d
    rw [cif_indexed_row]
    obtain ⟨h1, h2, h3, h4⟩ := ih (x + 1) (p + 1)
      (d.set p (xlat (ext_index (lmap x &&& bmask) tp (peek (fgbuf.getD d) (fg + x))
        (peek bgbuf (bg + x)))))
    refine ⟨by rw [h1]; omega, by rw [h2, List.length_set], ?_, ?_⟩
    · intro i hi
      rw [h3 i (by omega), getD_set_ne]
      omega
    · intro hfg k hk hlen
      cases k with
      | zero =>
        simp only [Nat.add_zero] at hlen ⊢
        rw [h3 p (by omega), getD_set_eq _ _ _ hlen]
      | succ k =>
        have e : p + (k + 1) = p + 1 + k := by omega
        have e2 : x + (k + 1) = x + 1 + k := by omega
        rw [e, e2, h4 (fun hn => by have := hfg hn; push_cast; omega) k (by omega)
          (by rw [List.length_set]; omega)]
        congr 2
        cases fgbuf with
        | some s => rfl
        | none =>
          have := hfg rfl
          simp only [Option.getD_none]
          apply peek_set_ne
          push_cast
          omega

theorem peek_congr_ge (d1 d : List Nat) (q : Nat) (h : ∀ i, q ≤ i → d1.getD i 0 = d.getD i 0)
    (i : Int) (hi : (q : Int) ≤ i) : peek d1 i = peek d i := by
  unfold peek
  rw [if_neg (by omega), if_neg (by omega)]
  exact h _ (by omega)

theorem cif_indexed_rows_spec (lmap xlat : Nat → Nat) (tp : Int) (fgbuf : Option (List Nat))
    (bgbuf : List Nat) (w : Nat) (fgw bgw : Int) (m : Nat) :
    ∀ (y : Nat) (fg bg : Int) (p : Nat) (d : List Nat),
      (cif_indexed_rows lmap xlat tp fgbuf bgbuf w fgw bgw m y fg bg (p, d)).1 = p + m * w ∧
      (cif_indexed_rows lmap xlat tp fgbuf bgbuf w fgw bgw m y fg bg (p, d)).2.length =
        d.length ∧
      (∀ i, i < p ∨ p + m * w ≤ i →
        (cif_indexed_rows lmap xlat tp fgbuf bgbuf w fgw bgw m y fg bg (p, d)).2.getD i 0 =
          d.getD i 0) ∧
      ((fgbuf = none → (p : Int) ≤ fg ∧ (w : Int) ≤ fgw) →
        ∀ j k, j < m → k < w → p + j * w + k < d.length →
        (cif_indexed_rows lmap xlat tp fgbuf bgbuf w fgw bgw m y fg bg (p, d)).2.getD
            (p + j * w + k) 0 =
          xlat (ext_index (lmap k &&& (lmap (y + j) >>> 4)) tp
            (peek (fgbuf.getD d) (fg + j * fgw + k)) (peek bgbuf (bg + j * bgw + k)))) := by
  induction m with
  | zero =>
    intro y fg bg p d
    refine ⟨by simp [cif_indexed_rows], rfl, fun _ _ => rfl,
      fun _ j k hj => absurd hj (Nat.not_lt_zero j)⟩
  | succ m ih =>
    intro y fg bg p d
    rw [cif_indexed_rows]
    obtain ⟨r1, r2, r3, r4⟩ := cif_indexed_row_spec lmap xlat tp fgbuf bgbuf (lmap y >>> 4)
      fg bg w 0 p d
    rcases hrow : cif_indexed_row lmap xlat tp fgbuf bgbuf (lmap y >>> 4) fg bg w 0 (p, d)
      with ⟨p1, d1⟩
    rw [hrow] at r1 r2 r3 r4
    simp only at r1 r2 r3 r4
    subst r1
    obtain ⟨h1, h2, h3, h4⟩ := ih (y + 1) (fg + fgw) (bg + bgw) (p + w) d1
    have em : (m + 1) * w = m * w + w := by ring
    refine ⟨by rw [h1, em]; omega, by rw [h2, r2], ?_, ?_⟩
    · intro i hi
      rw [h3 i (by rw [em] at hi; omega), r3 i (by rw [em] at hi; have := Nat.zero_le (m * w); omega)]
    · intro hfg j k hj hk hlen
      cases j with
      | zero =>
        simp only [Nat.zero_mul, Nat.add_zero, Nat.cast_zero, zero_mul, add_zero] at hlen ⊢
        rw [h3 _ (by omega), r4 (fun hn => by have := (hfg hn).1; simpa using this) k hk hlen]
        simp
      | succ j =>
        have ej : p + (j + 1) * w + k = p + w + j * w + k := by ring
        rw [ej] at hlen ⊢
        rw [h4 (fun hn => by have := hfg hn; push_cast; omega) j k (by omega) hk
          (by rw [r2]; exact hlen)]
        have e1 : fg + fgw + (j : Int) * fgw + k = fg + ((j + 1 : Nat) : Int) * fgw + k := by
          push_cast; ring
        have e2 : bg + bgw + (j : Int) * bgw + k = bg + ((j + 1 : Nat) : Int) * bgw + k := by
          push_cast; ring
        have e3 : y + 1 + j = y + (j + 1) := by omega
        rw [e1, e2, e3]
        congr 2
        cases fgbuf with
        | some s => rfl
        | none =>
          obtain ⟨hp, hw⟩ := hfg rfl
          simp only [Option.getD_none]
          apply peek_congr_ge d1 d (p + w) (fun i hi => r3 i (Or.inr hi))
          have hw0 : (0 : Int) ≤ fgw := le_trans (Int.ofNat_nonneg w) hw
          have hj0 : (0 : Int) ≤ (j : Int) * fgw := mul_nonneg (Int.ofNat_nonneg j) hw0
          push_cast
          have e4 : ((j : Int) + 1) * fgw = (j : Int) * fgw + fgw := by ring
          rw [e4]
          omega

theorem cif_alpha_row_spec (lmap : Nat → Nat) (tp utp : Int) (af : Bool)
    (fgbuf bgbuf : List Nat) (bmask : Nat) (fg bg : Int) (n : Nat) :
    ∀ (x p : Nat) (d : List Nat),
      (cif_alpha_row lmap tp utp af fgbuf bgbuf bmask fg bg n x (p, d)).1 = p + n ∧
      (cif_alpha_row lmap tp utp af fgbuf bgbuf bmask fg bg n x (p, d)).2.length = d.length ∧
      (∀ i, i < p ∨ p + n ≤ i →
        (cif_alpha_row lmap tp utp af fgbuf bgbuf bmask fg bg n x (p, d)).2.getD i 0 =
          d.getD i 0) ∧
      (∀ k, k < n → p + k < d.length →
        (cif_alpha_row lmap tp utp af fgbuf bgbuf bmask fg bg n x (p, d)).2.getD (p + k) 0 =
          alpha_value (lmap (x + k) &&& bmask) tp utp af (peek fgbuf (fg + (x + k : Nat)))
            (peek bgbuf (bg + (x + k : Nat)))) := by
  induction n with
  | zero =>
    intro x p d
    refine ⟨rfl, rfl, fun _ _ => rfl, fun k hk => absurd hk (Nat.not_lt_zero k)⟩
  | succ n ih =>
    intro x p d
    rw [cif_alpha_row]
    obtain ⟨h1, h2, h3, h4⟩ := ih (x + 1) (p + 1)
      (d.set p (alpha_value (lmap x &&& bmask) tp utp af (peek fgbuf (fg + x))
        (peek bgbuf (bg + x))))
    refine ⟨by rw [h1]; omega, by rw [h2, List.length_set], ?_, ?_⟩
    · intro i hi
      rw [h3 i (by omega), getD_set_ne]
      omega
    · intro k hk hlen
      cases k with
      | zero =>
        simp only [Nat.add_zero] at hlen ⊢
        rw [h3 p (by omega), getD_set_eq _ _ _ hlen]
      | succ k =>
        have e : p + (k + 1) = p + 1 + k := by omega
        have e2 : x + (k + 1) = x + 1 + k := by omega
        rw [e, e2, h4 k (by omega) (by rw [List.length_set]; omega)]

theorem cif_alpha_rows_spec (lmap : Nat → Nat) (tp utp : Int) (af : Bool)
    (fgbuf bgbuf : List Nat) (w : Nat) (fgw bgw : Int) (m : Nat) :
    ∀ (y : Nat) (fg bg : Int) (p : Nat) (d : List Nat),
      (cif_alpha_rows lmap tp utp af fgbuf bgbuf w fgw bgw m y fg bg (p, d)).1 = p + m * w ∧
      (cif_alpha_rows lmap tp utp af fgbuf bgbuf w fgw bgw m y fg bg (p, d)).2.length =
        d.length ∧
      (∀ i, i < p ∨ p + m * w ≤ i →
        (cif_alpha_rows lmap tp utp af fgbuf bgbuf w fgw bgw m y fg bg (p, d)).2.getD i 0 =
          d.getD i 0) ∧
      (∀ j k, j < m → k < w → p + j * w + k < d.length →
        (cif_alpha_rows lmap tp utp af fgbuf bgbuf w fgw bgw m y fg bg (p, d)).2.getD
            (p + j * w + k) 0 =
          alpha_value (lmap k &&& (lmap (y + j) >>> 4)) tp utp af
            (peek fgbuf (fg + j * fgw + k)) (peek bgbuf (bg + j * bgw + k))) := by
  induction m with
  | zero =>
    intro y fg bg p d
    refine ⟨by simp [cif_alpha_rows], rfl, fun _ _ => rfl,
      fun j k hj => absurd hj (Nat.not_lt_zero j)⟩
  | succ m ih =>
    intro y fg bg p d
    rw [cif_alpha_rows]
    obtain ⟨r1, r2, r3, r4⟩ := cif_alpha_row_spec lmap tp utp af fgbuf bgbuf (lmap y >>> 4)
      fg bg w 0 p d
    rcases hrow : cif_alpha_row lmap tp utp af fgbuf bgbuf (lmap y >>> 4) fg bg w 0 (p, d)
      with ⟨p1, d1⟩
    rw [hrow] at r1 r2 r3 r4
    simp only at r1 r2 r3 r4
    subst r1
    obtain ⟨h1, h2, h3, h4⟩ := ih (y + 1) (fg + fgw) (bg + bgw) (p + w) d1
    have em : (m + 1) * w = m * w + w := by ring
    refine ⟨by rw [h1, em]; omega, by rw [h2, r2], ?_, ?_⟩
    · intro i hi
      rw [h3 i (by rw [em] at hi; omega), r3 i (by rw [em] at hi; have := Nat.zero_le (m * w); omega)]
    · intro j k hj hk hlen
      cases j with
      | zero =>
        simp only [Nat.zero_mul, Nat.add_zero, Nat.cast_zero, zero_mul, add_zero] at hlen ⊢
        rw [h3 _ (by omega), r4 k hk hlen]
        simp
      | succ j =>
        have ej : p + (j + 1) * w + k = p + w + j * w + k := by ring
        rw [ej] at hlen ⊢
        rw [h4 j k (by omega) hk (by rw [r2]; exact hlen)]
        have e1 : fg + fgw + (j : Int) * fgw + k = fg + ((j + 1 : Nat) : Int) * fgw + k := by
          push_cast; ring
        have e2 : bg + bgw + (j : Int) * bgw + k = bg + ((j + 1 : Nat) : Int) * bgw + k := by
          push_cast; ring
        have e3 : y + 1 + j = y + (j + 1) := by omega
        rw [e1, e2, e3]

/-! ## Region map: the claims -/

/-- The clamped edges and the screen size computed by `ani_new_dims`. -/
theorem ani_new_dims_spec (MW MH : Nat) (stat : ani_status) (settings : ls_settings) :
    (ani_new_dims MW MH stat settings).1.1 =
      min (settings.x + settings.width) (if stat.have_frames then stat.defw else MW) ∧
    (ani_new_dims MW MH stat settings).1.2 =
      min (settings.y + settings.height) (if stat.have_frames then stat.defh else MH) ∧
    (stat.have_frames = true →
      (ani_new_dims MW MH stat settings).2.1 = stat.defw ∧
      (ani_new_dims MW MH stat settings).2.2 = stat.defh) ∧
    (stat.have_frames = false →
      (ani_new_dims MW MH stat settings).2.1 =
        max stat.defw (ani_new_dims MW MH stat settings).1.1 ∧
      (ani_new_dims MW MH stat settings).2.2 =
        max stat.defh (ani_new_dims MW MH stat settings).1.2) := by
  cases hf : stat.have_frames
  · refine ⟨?_, ?_, ?_, ?_⟩
    · simp only [ani_new_dims, hf, Bool.not_false, if_true, Bool.false_eq_true, if_false]
      split_ifs <;> omega
    · simp only [ani_new_dims, hf, Bool.not_false, if_true, Bool.false_eq_true, if_false]
      split_ifs <;> omega
    · intro h; cases h
    · intro _
      constructor <;>
        simp only [ani_new_dims, hf, Bool.not_false, if_true, Bool.false_eq_true, if_false] <;>
        split_ifs <;> omega
  · refine ⟨?_, ?_, ?_, ?_⟩
    · simp only [ani_new_dims, hf, Bool.not_true, if_true, Bool.false_eq_true, if_false]
      split_ifs <;> omega
    · simp only [ani_new_dims, hf, Bool.not_true, if_true, Bool.false_eq_true, if_false]
      split_ifs <;> omega
    · intro _
      constructor <;>
        simp only [ani_new_dims, hf, Bool.not_true, if_true, Bool.false_eq_true, if_false]
    · intro h; cases h

/-- Clipping a rectangle to the canvas `[0, w) × [0, h)`. -/
theorem clip_canvas (w h : Nat) (r : Nat × Nat × Nat × Nat) :
    (clip 0 0 w h r).1.1 = r.1 ∧ (clip 0 0 w h r).1.2.1 = r.2.1 ∧
    (clip 0 0 w h r).1.2.2.1 = min r.2.2.1 w ∧ (clip 0 0 w h r).1.2.2.2 = min r.2.2.2 h ∧
    ((clip 0 0 w h r).2 = true ↔ (r.1 < min r.2.2.1 w ∧ r.2.1 < min r.2.2.2 h)) := by
  simp only [clip, Bool.and_eq_true, decide_eq_true_eq]
  refine ⟨?_, ?_, ?_, ?_, ?_⟩
  · split_ifs <;> omega
  · split_ifs <;> omega
  · split_ifs <;> omega
  · split_ifs <;> omega
  · split_ifs <;> omega

/-- The region bits of a canvas pixel after `ani_map_frame`, in terms of the
three rectangles. -/
theorem ani_map_frame_bits (MW MH : Nat) (stat : ani_status)
    (settings : ls_settings) (x y : Nat)
    (hx : x < (ani_map_frame MW MH stat settings).defw)
    (hy : y < (ani_map_frame MW MH stat settings).defh) :
    ((bflag (ani_map_frame MW MH stat settings).lmap x y).testBit 0 = true ↔
      in_rect settings.x settings.y
        (min (settings.x + settings.width) (if stat.have_frames then stat.defw else MW))
        (min (settings.y + settings.height) (if stat.have_frames then stat.defh else MH))
        x y) ∧
    ((bflag (ani_map_frame MW MH stat settings).lmap x y).testBit 1 = true ↔
      (stat.prev_idx ≠ 0 ∧
        in_rect stat.prev.x stat.prev.y (stat.prev.x + stat.prev.width)
          (stat.prev.y + stat.prev.height) x y)) ∧
    ((bflag (ani_map_frame MW MH stat settings).lmap x y).testBit 2 = true ↔
      in_rect stat.bk_rect.1 stat.bk_rect.2.1
        (min stat.bk_rect.2.2.1 (ani_map_frame MW MH stat settings).defw)
        (min stat.bk_rect.2.2.2 (ani_map_frame MW MH stat settings).defh) x y) ∧
    ((stat.have_frames = false → stat.defw ≤ MW ∧ stat.defh ≤ MH) →
      ((bflag (ani_map_frame MW MH stat settings).lmap x y).testBit 0 = true ↔
        in_rect settings.x settings.y
          (min (settings.x + settings.width) (ani_map_frame MW MH stat settings).defw)
          (min (settings.y + settings.height) (ani_map_frame MW MH stat settings).defh)
          x y)) := by
  have hj : ∀ a b : Nat, a ≤ (if a > b then a else b) ∧ b ≤ (if a > b then a else b) := by
    intro a b; split <;> omega
  obtain ⟨d1, d2, d3, d4⟩ := ani_new_dims_spec MW MH stat settings
  obtain ⟨c1, c2, c3, c4, c5⟩ := clip_canvas (ani_new_dims MW MH stat settings).2.1
    (ani_new_dims MW MH stat settings).2.2 stat.bk_rect
  simp only [ani_map_frame] at hx hy ⊢
  have hx1 := lt_of_lt_of_le hx (hj (ani_new_dims MW MH stat settings).2.1
    (ani_new_dims MW MH stat settings).2.2).1
  have hy1 := lt_of_lt_of_le hy (hj (ani_new_dims MW MH stat settings).2.1
    (ani_new_dims MW MH stat settings).2.2).2
  obtain ⟨h0, h1, h2⟩ := ani_mark_bflag stat.lmap _ settings.x settings.y
    (ani_new_dims MW MH stat settings).1.1 (ani_new_dims MW MH stat settings).1.2
    stat.prev_idx stat.prev
    (clip 0 0 (ani_new_dims MW MH stat settings).2.1 (ani_new_dims MW MH stat settings).2.2
      stat.bk_rect).1
    (clip 0 0 (ani_new_dims MW MH stat settings).2.1 (ani_new_dims MW MH stat settings).2.2
      stat.bk_rect).2 x y hx1 hy1
  rw [h0, h1, h2, c5, c1, c2, c3, c4, d1, d2]
  refine ⟨Iff.rfl, Iff.rfl, ?_, ?_⟩
  · simp only [in_rect]
    omega
  · simp only [in_rect]
    intro hl
    cases hf : stat.have_frames
    · have hl1 := hl hf
      have e1 := (d4 hf).1
      have e2 := (d4 hf).2
      rw [d1] at e1
      rw [d2] at e2
      simp only [hf, Bool.false_eq_true, if_false] at e1 e2 hx hy ⊢
      omega
    · have e1 := (d3 hf).1
      have e2 := (d3 hf).2
      simp only [hf, if_true] at e1 e2 hx hy ⊢
      omega

/-- C2: for every pixel `(x, y)` inside the canvas left by `ani_map_frame`,
region bit 0 of `lmap[x] & (lmap[y] >> 4)` is set iff the pixel lies in the new
frame's rectangle clipped to the canvas, bit 1 iff an underlay exists and the
pixel lies in the underlay frame's rectangle, bit 2 iff the pixel lies in the
disposal-hole rectangle clipped to the canvas. The screen is within the size
limits, as `analyze_gif_frame` and `analyze_rgba_frame` make sure before they
call `ani_map_frame` (png.c 1583-1586, 1998-2000); only a first frame needs it. -/
theorem ani_map_frame_region_bits (MW MH : Nat) (stat : ani_status)
    (settings : ls_settings) (x y : Nat)
    (hlim : stat.have_frames = false → stat.defw ≤ MW ∧ stat.defh ≤ MH)
    (hx : x < (ani_map_frame MW MH stat settings).defw)
    (hy : y < (ani_map_frame MW MH stat settings).defh) :
    ((bflag (ani_map_frame MW MH stat settings).lmap x y).testBit 0 = true ↔
      in_rect settings.x settings.y
        (min (settings.x + settings.width) (ani_map_frame MW MH stat settings).defw)
        (min (settings.y + settings.height) (ani_map_frame MW MH stat settings).defh)
        x y) ∧
    ((bflag (ani_map_frame MW MH stat settings).lmap x y).testBit 1 = true ↔
      (stat.prev_idx ≠ 0 ∧
        in_rect stat.prev.x stat.prev.y (stat.prev.x + stat.prev.width)
          (stat.prev.y + stat.prev.height) x y)) ∧
    ((bflag (ani_map_frame MW MH stat settings).lmap x y).testBit 2 = true ↔
      in_rect stat.bk_rect.1 stat.bk_rect.2.1
        (min stat.bk_rect.2.2.1 (ani_map_frame MW MH stat settings).defw)
        (min stat.bk_rect.2.2.2 (ani_map_frame MW MH stat settings).defh) x y) := by
  obtain ⟨_, b1, b2, b0⟩ := ani_map_frame_bits MW MH stat settings x y hx hy
  exact ⟨b0 hlim, b1, b2⟩

/-- Witness for `ani_map_frame_region_bits`: a 2 × 2 second frame at `(1, 1)` on
a 4 × 4 screen, pixel `(2, 1)`. -/
theorem ani_map_frame_region_bits_witness :
    (bflag (ani_map_frame 16384 16384
        { ani_status_zero with defw := 4, defh := 4, have_frames := true }
        (ls_settings_indexed 1 1 2 2 [0, 0, 0, 0])).lmap 2 1).testBit 0 = true :=
  ((ani_map_frame_region_bits 16384 16384
      { ani_status_zero with defw := 4, defh := 4, have_frames := true }
      (ls_settings_indexed 1 1 2 2 [0, 0, 0, 0]) 2 1 (fun _ => ⟨by decide, by decide⟩)
      (by decide) (by decide)).1).2
    (by decide)

/-! ## Indexed compositing: the claims -/

theorem composite_indexed_frame_image (frame : image_frame) (stat : ani_status)
    (settings : ls_settings) (hbpp : frame.bpp = 1) :
    (composite_indexed_frame frame stat settings).img.image =
      some (cif_indexed_rows stat.lmap stat.xlat settings.xpm_trans settings.img.image
        (stat.prev.img.image.getD []) frame.width settings.width stat.prev.width
        frame.height 0
        (match settings.img.image with
          | some _ => -((settings.y : Int) * settings.width + settings.x)
          | none => 0)
        (-(((stat.prev.y : Int) * stat.prev.width + stat.prev.x) * stat.prev.bpp))
        (0, frame.img.image.getD [])).2 := by
  unfold composite_indexed_frame
  simp only [hbpp, if_true]
  cases frame.img.alpha <;> rfl

theorem composite_indexed_frame_alpha (frame : image_frame) (stat : ani_status)
    (settings : ls_settings) (a s : List Nat) (ha : frame.img.alpha = some a)
    (hs : settings.img.image = some s) :
    (composite_indexed_frame frame stat settings).img.alpha =
      some (cif_alpha_rows stat.lmap settings.xpm_trans
        (if stat.prev.bpp = 1 then stat.prev.trans else -1) stat.prev.img.alpha.isSome s
        ((if stat.prev.img.alpha.isSome then stat.prev.img.alpha
          else stat.prev.img.image).getD [])
        frame.width settings.width stat.prev.width frame.height 0
        (-((settings.y : Int) * settings.width + settings.x))
        (-((stat.prev.y : Int) * stat.prev.width + stat.prev.x)) (0, a)).2 := by
  unfold composite_indexed_frame
  by_cases hbpp : frame.bpp = 1 <;> simp only [hbpp, if_true, if_false, ha, hs]

theorem ext_index_bits (b : Nat) (tp : Int) (fgx bgx : Nat) :
    ext_index b tp fgx bgx =
      if b.testBit 0 = true ∧ (fgx : Int) ≠ tp then fgx + 256
      else if b.testBit 1 = true ∧ b.testBit 2 = false then bgx
      else 512 := by
  simp only [ext_index, land_one_ne_zero, land_six_eq_two]

theorem alpha_value_bits (b : Nat) (tp utp : Int) (af : Bool) (fgx bgx : Nat) :
    alpha_value b tp utp af fgx bgx =
      if b.testBit 0 = true ∧ (fgx : Int) ≠ tp then 255
      else if b.testBit 1 = true ∧ b.testBit 2 = false then
        (if !af then (if (bgx : Int) ≠ utp then 255 else 0) else bgx)
      else 0 := by
  simp only [alpha_value, land_one_ne_zero, land_six_eq_two]

theorem peek_natCast (d : List Nat) (i : Nat) : peek d (i : Int) = d.getD i 0 := by
  unfold peek
  rw [if_neg (by omega)]
  simp

/-- The extended index that the "To indexed" branch reads for pixel `(x, y)`. -/
theorem composite_indexed_frame_getD (frame : image_frame) (stat : ani_status)
    (settings : ls_settings) (d : List Nat) (x y : Nat)
    (hbpp : frame.bpp = 1) (himg : frame.img.image = some d)
    (hlen : frame.height * frame.width ≤ d.length)
    (halias : settings.img.image = none → settings.width = frame.width)
    (hx : x < frame.width) (hy : y < frame.height) :
    ∃ out, (composite_indexed_frame frame stat settings).img.image = some out ∧
      out.length = d.length ∧
      out.getD (y * frame.width + x) 0 =
        stat.xlat (ext_index (bflag stat.lmap x y) settings.xpm_trans
          (new_frame_pixel frame settings x y)
          (peek (stat.prev.img.image.getD [])
            (-(((stat.prev.y : Int) * stat.prev.width + stat.prev.x) * stat.prev.bpp)
              + y * stat.prev.width + x))) := by
  rw [composite_indexed_frame_image frame stat settings hbpp]
  refine ⟨_, rfl, ?_, ?_⟩
  · rw [(cif_indexed_rows_spec _ _ _ _ _ _ _ _ _ _ _ _ _ _).2.1, himg]
    rfl
  · have hpos : 0 + y * frame.width + x < (frame.img.image.getD []).length := by
      rw [himg]
      simp only [Option.getD_some]
      have : y * frame.width + frame.width ≤ frame.height * frame.width := by
        have := Nat.mul_le_mul_right frame.width (Nat.succ_le_of_lt hy)
        rwa [Nat.succ_mul] at this
      omega
    have h4 := (cif_indexed_rows_spec stat.lmap stat.xlat settings.xpm_trans settings.img.image
      (stat.prev.img.image.getD []) frame.width settings.width stat.prev.width frame.height
      0 (match settings.img.image with
          | some _ => -((settings.y : Int) * settings.width + settings.x)
          | none => 0)
        (-(((stat.prev.y : Int) * stat.prev.width + stat.prev.x) * stat.prev.bpp)) 0
        (frame.img.image.getD [])).2.2.2 (by
          intro hn
          rw [hn, halias hn]
          simp) y x hy hx hpos
    simp only [Nat.zero_add] at h4
    rw [h4]
    unfold bflag new_frame_pixel
    congr 2
    cases hs : settings.img.image with
    | some s =>
      simp only [Option.getD_some, frame_pixel]
      congr 1
      ring
    | none =>
      simp only [Option.getD_none, ← halias hs, zero_add]
      rw [show ((y : Int) * (settings.width : Int) + (x : Int)) = ((y * settings.width + x : Nat) : Int)
        by push_cast; ring]
      exact peek_natCast _ _

/-- The alpha value that the "To alpha" branch writes for pixel `(x, y)`, when
the input image is a buffer of its own. -/
theorem composite_indexed_frame_alpha_getD (frame : image_frame) (stat : ani_status)
    (settings : ls_settings) (a s : List Nat) (x y : Nat)
    (ha : frame.img.alpha = some a) (hs : settings.img.image = some s)
    (hlen : frame.height * frame.width ≤ a.length)
    (hx : x < frame.width) (hy : y < frame.height) :
    ∃ out, (composite_indexed_frame frame stat settings).img.alpha = some out ∧
      out.length = a.length ∧
      out.getD (y * frame.width + x) 0 =
        alpha_value (bflag stat.lmap x y) settings.xpm_trans
          (if stat.prev.bpp = 1 then stat.prev.trans else -1) stat.prev.img.alpha.isSome
          (new_frame_pixel frame settings x y)
          (peek ((if stat.prev.img.alpha.isSome then stat.prev.img.alpha
              else stat.prev.img.image).getD [])
            (-((stat.prev.y : Int) * stat.prev.width + stat.prev.x)
              + y * stat.prev.width + x)) := by
  rw [composite_indexed_frame_alpha frame stat settings a s ha hs]
  refine ⟨_, rfl, ?_, ?_⟩
  · rw [(cif_alpha_rows_spec _ _ _ _ _ _ _ _ _ _ _ _ _ _ _).2.1]
  · have hpos : 0 + y * frame.width + x < a.length := by
      have : y * frame.width + frame.width ≤ frame.height * frame.width := by
        have := Nat.mul_le_mul_right frame.width (Nat.succ_le_of_lt hy)
        rwa [Nat.succ_mul] at this
      omega
    have h4 := (cif_alpha_rows_spec stat.lmap settings.xpm_trans
      (if stat.prev.bpp = 1 then stat.prev.trans else -1) stat.prev.img.alpha.isSome s
      ((if stat.prev.img.alpha.isSome then stat.prev.img.alpha
          else stat.prev.img.image).getD [])
      frame.width settings.width stat.prev.width frame.height 0
      (-((settings.y : Int) * settings.width + settings.x))
      (-((stat.prev.y : Int) * stat.prev.width + stat.prev.x)) 0 a).2.2.2 y x hy hx hpos
    simp only [Nat.zero_add] at h4
    rw [h4]
    unfold bflag new_frame_pixel
    simp only [hs, frame_pixel]
    congr 2
    ring

/-- C6 (amended): in `composite_indexed_frame` with indexed output, every canvas
pixel `(x, y)` is written as `xlat[e]`, where `e = 256 + v` if the region bit
"new" is set at `(x, y)` and the new frame's pixel value `v` there differs from
the new frame's transparent index; otherwise `e` is the underlay's pixel value
if the region bit "underlay" is set and the region bit "hole" is clear at
`(x, y)`; otherwise `e = 512`. -/
theorem composite_indexed_frame_pixel (frame : image_frame) (stat : ani_status)
    (settings : ls_settings) (d : List Nat) (x y : Nat)
    (hbpp : frame.bpp = 1) (himg : frame.img.image = some d)
    (hlen : frame.height * frame.width ≤ d.length)
    (halias : settings.img.image = none → settings.width = frame.width)
    (hprev : (bflag stat.lmap x y).testBit 1 = true → stat.prev.bpp = 1)
    (hx : x < frame.width) (hy : y < frame.height) :
    ∃ out, (composite_indexed_frame frame stat settings).img.image = some out ∧
      out.length = d.length ∧
      out.getD (y * frame.width + x) 0 =
        stat.xlat
          (if (bflag stat.lmap x y).testBit 0 = true ∧
              (new_frame_pixel frame settings x y : Int) ≠ settings.xpm_trans then
            256 + new_frame_pixel frame settings x y
          else if (bflag stat.lmap x y).testBit 1 = true ∧
              (bflag stat.lmap x y).testBit 2 = false then
            underlay_pixel stat x y
          else 512) := by
  obtain ⟨out, h1, h2, h3⟩ := composite_indexed_frame_getD frame stat settings d x y hbpp himg
    hlen halias hx hy
  refine ⟨out, h1, h2, ?_⟩
  rw [h3, ext_index_bits]
  congr 1
  by_cases hn : (bflag stat.lmap x y).testBit 0 = true ∧
      (new_frame_pixel frame settings x y : Int) ≠ settings.xpm_trans
  · rw [if_pos hn, if_pos hn, Nat.add_comm]
  · rw [if_neg hn, if_neg hn]
    by_cases hu : (bflag stat.lmap x y).testBit 1 = true ∧
        (bflag stat.lmap x y).testBit 2 = false
    · rw [if_pos hu, if_pos hu, hprev hu.1]
      unfold underlay_pixel frame_pixel
      congr 1
      push_cast
      ring
    · rw [if_neg hu, if_neg hu]

/-- C6 (as stated, refuted): at the pixel `(0, 0)` of `hole_frame` the region bit
"new" is clear and the region bit "underlay" is set, the underlay's pixel
value is 3 and `xlat[3] = 3`, yet the pixel is written as 5 (`xlat[512]`),
because the pixel also lies in the disposal hole. -/
theorem composite_indexed_frame_hole_counterexample :
    (bflag hole_stat.lmap 0 0).testBit 0 = false ∧
    (bflag hole_stat.lmap 0 0).testBit 1 = true ∧
    underlay_pixel hole_stat 0 0 = 3 ∧ hole_stat.xlat 3 = 3 ∧ hole_stat.xlat 512 = 5 ∧
    (composite_indexed_frame hole_frame hole_stat hole_settings).img.image = some [5, 1] := by
  decide

/-- C7: for every canvas pixel that lies inside the pending disposal hole
(`stat0.bk_rect`, from which `ani_map_frame` built the region map) and is not
covered by a non-transparent pixel of the new frame, `composite_indexed_frame`
writes the background entry `xlat[512]` to an indexed image plane, and alpha 0
when an alpha plane is produced, whether or not the underlay also covers that
pixel. `tp` is the transparent index in force (`-1` when blending is off). -/
theorem composite_indexed_frame_hole_background (MW MH : Nat) (stat0 stat : ani_status)
    (settings : ls_settings) (frame : image_frame) (tp : Int) (x y : Nat)
    (hmap : stat.lmap = (ani_map_frame MW MH stat0 settings).lmap)
    (hw : frame.width = (ani_map_frame MW MH stat0 settings).defw)
    (hh : frame.height = (ani_map_frame MW MH stat0 settings).defh)
    (hx : x < frame.width) (hy : y < frame.height)
    (hhole : in_rect stat0.bk_rect.1 stat0.bk_rect.2.1 stat0.bk_rect.2.2.1
      stat0.bk_rect.2.2.2 x y)
    (hnew : ¬ (in_rect settings.x settings.y (settings.x + settings.width)
        (settings.y + settings.height) x y ∧
      (new_frame_pixel frame settings x y : Int) ≠ tp)) :
    (∀ d, frame.bpp = 1 → frame.img.image = some d →
      frame.height * frame.width ≤ d.length →
      (settings.img.image = none → settings.width = frame.width) →
      ∃ out, (composite_indexed_frame frame stat
          { settings with xpm_trans := tp }).img.image = some out ∧
        out.getD (y * frame.width + x) 0 = stat.xlat 512) ∧
    (∀ a s, frame.img.alpha = some a → settings.img.image = some s →
      frame.height * frame.width ≤ a.length →
      ∃ out, (composite_indexed_frame frame stat
          { settings with xpm_trans := tp }).img.alpha = some out ∧
        out.getD (y * frame.width + x) 0 = 0) := by
  obtain ⟨b0, _, b2, _⟩ := ani_map_frame_bits MW MH stat0 settings x y (hw ▸ hx) (hh ▸ hy)
  rw [← hmap] at b0 b2
  have hb2 : (bflag stat.lmap x y).testBit 2 = true := by
    rw [b2]
    simp only [in_rect] at hhole ⊢
    omega
  have hb0 : ¬ ((bflag stat.lmap x y).testBit 0 = true ∧
      (new_frame_pixel frame settings x y : Int) ≠ tp) := by
    intro h
    apply hnew
    refine ⟨?_, h.2⟩
    have := b0.1 h.1
    simp only [in_rect] at this ⊢
    omega
  have hu : ¬ ((bflag stat.lmap x y).testBit 1 = true ∧
      (bflag stat.lmap x y).testBit 2 = false) := by
    rw [hb2]
    simp
  constructor
  · intro d hbpp himg hlen halias
    obtain ⟨out, h1, _, h3⟩ := composite_indexed_frame_getD frame stat
      { settings with xpm_trans := tp } d x y hbpp himg hlen halias hx hy
    refine ⟨out, h1, ?_⟩
    rw [h3, ext_index_bits]
    have hb0' : ¬ ((bflag stat.lmap x y).testBit 0 = true ∧
        (new_frame_pixel frame { settings with xpm_trans := tp } x y : Int) ≠ tp) := hb0
    rw [if_neg hb0', if_neg hu]
  · intro a s ha hs hlen
    obtain ⟨out, h1, _, h3⟩ := composite_indexed_frame_alpha_getD frame stat
      { settings with xpm_trans := tp } a s x y ha hs hlen hx hy
    refine ⟨out, h1, ?_⟩
    rw [h3, alpha_value_bits]
    have hb0' : ¬ ((bflag stat.lmap x y).testBit 0 = true ∧
        (new_frame_pixel frame { settings with xpm_trans := tp } x y : Int) ≠ tp) := hb0
    rw [if_neg hb0', if_neg hu]

/-- Witness for `composite_indexed_frame_hole_background`: the pixel `(0, 0)` of
the 2 × 1 canvas of `hole_stat`, which lies in the hole and under the underlay
but outside the new frame. -/
theorem composite_indexed_frame_hole_background_witness :
    (∃ out, (composite_indexed_frame hole_frame_alpha hole_stat
        { hole_settings with xpm_trans := -1 }).img.image = some out ∧
      out.getD (0 * hole_frame_alpha.width + 0) 0 = hole_stat.xlat 512) ∧
    (∃ out, (composite_indexed_frame hole_frame_alpha hole_stat
        { hole_settings with xpm_trans := -1 }).img.alpha = some out ∧
      out.getD (0 * hole_frame_alpha.width + 0) 0 = 0) :=
  ⟨(composite_indexed_frame_hole_background 16384 16384 hole_stat0 hole_stat hole_settings
      hole_frame_alpha (-1) 0 0 rfl rfl rfl (by decide) (by decide) (by decide)
      (by decide)).1 [0, 0] rfl rfl (by decide) (by decide),
   (composite_indexed_frame_hole_background 16384 16384 hole_stat0 hole_stat hole_settings
      hole_frame_alpha (-1) 0 0 rfl rfl rfl (by decide) (by decide) (by decide)
      (by decide)).2 [7, 7] [1] rfl rfl (by decide)⟩

/-- Witness for `composite_indexed_frame_pixel`: the pixel `(1, 0)` of the 2 × 1
canvas of `hole_stat`, covered by the new frame. -/
theorem composite_indexed_frame_pixel_witness :
    ∃ out, (composite_indexed_frame hole_frame hole_stat hole_settings).img.image = some out ∧
      out.length = [0, 0].length ∧
      out.getD (0 * hole_frame.width + 1) 0 =
        hole_stat.xlat
          (if (bflag hole_stat.lmap 1 0).testBit 0 = true ∧
              (new_frame_pixel hole_frame hole_settings 1 0 : Int) ≠ hole_settings.xpm_trans then
            256 + new_frame_pixel hole_frame hole_settings 1 0
          else if (bflag hole_stat.lmap 1 0).testBit 1 = true ∧
              (bflag hole_stat.lmap 1 0).testBit 2 = false then
            underlay_pixel hole_stat 1 0
          else 512) :=
  composite_indexed_frame_pixel hole_frame hole_stat hole_settings [0, 0] 1 0 rfl rfl
    (by decide) (by decide) (by decide) (by decide) (by decide)

/-! ## Disposal: the claims -/

theorem getLast?_eraseIdx_of_lt {α : Type} (l : List α) (i : Nat) (h : i + 1 < l.length) :
    (l.eraseIdx i).getLast? = l.getLast? := by
  rw [List.getLast?_eq_getElem?, List.getLast?_eq_getElem?, List.length_eraseIdx,
    if_pos (by omega), List.getElem?_eraseIdx, if_neg (by omega)]
  congr 1
  omega

theorem set_last_getLast? (fset : frameset) (f : image_frame) :
    (fset.set_last f).frames.getLast? = some f := by
  simp [frameset.set_last]

theorem set_last_cnt (fset : frameset) (f g : image_frame)
    (h : fset.frames.getLast? = some g) : (fset.set_last f).cnt = fset.cnt := by
  obtain ⟨ys, hys⟩ := List.getLast?_eq_some_iff.mp h
  simp [frameset.set_last, frameset.cnt, hys]

theorem set_last_get? (fset : frameset) (f : image_frame) (i : Nat)
    (h : i + 1 < fset.cnt) : (fset.set_last f).frames.get? i = fset.frames.get? i := by
  unfold frameset.cnt at h
  simp only [frameset.set_last, List.get?_eq_getElem?]
  rw [List.getElem?_append_left (by rw [List.length_dropLast]; omega)]
  rw [List.getElem?_eq_getElem (by rw [List.length_dropLast]; omega),
    List.getElem?_eq_getElem (by omega)]
  simp

theorem composite_frame_cleanup_pos (K : consts) (fset : frameset) (stat : ani_status)
    (hc : fset.cnt > 1 ∧ stat.prev_idx ≠ fset.cnt - 1 ∧
      fset.flags_at (fset.cnt - 2) &&& K.FM_NUKE ≠ 0) :
    composite_frame_cleanup K fset stat =
      (mem_remove_frame fset (fset.cnt - 2),
       if stat.prev_idx > (mem_remove_frame fset (fset.cnt - 2)).cnt then
         { stat with prev_idx := (mem_remove_frame fset (fset.cnt - 2)).cnt }
       else stat) := by
  unfold composite_frame_cleanup
  rw [if_pos hc]

theorem composite_frame_cleanup_neg (K : consts) (fset : frameset) (stat : ani_status)
    (hc : ¬ (fset.cnt > 1 ∧ stat.prev_idx ≠ fset.cnt - 1 ∧
      fset.flags_at (fset.cnt - 2) &&& K.FM_NUKE ≠ 0)) :
    composite_frame_cleanup K fset stat = (fset, stat) := by
  unfold composite_frame_cleanup
  rw [if_neg hc]

theorem mem_remove_frame_cnt (fset : frameset) (i : Nat) (h : i < fset.cnt) :
    (mem_remove_frame fset i).cnt = fset.cnt - 1 := by
  unfold frameset.cnt at h ⊢
  simp only [mem_remove_frame, List.length_eraseIdx]
  rw [if_pos h]

/-- Effect of the final cleanup of `composite_frame` when the underlayer is the
last frame. -/
theorem composite_frame_cleanup_last (K : consts) (fset : frameset) (stat : ani_status)
    (h : stat.prev_idx = fset.cnt) :
    (composite_frame_cleanup K fset stat).2.prev_idx = (composite_frame_cleanup K fset stat).1.cnt ∧
    (composite_frame_cleanup K fset stat).1.frames.getLast? = fset.frames.getLast? ∧
    (composite_frame_cleanup K fset stat).2.prev = stat.prev ∧
    (composite_frame_cleanup K fset stat).2.bk_rect = stat.bk_rect := by
  by_cases hc : fset.cnt > 1 ∧ stat.prev_idx ≠ fset.cnt - 1 ∧
      fset.flags_at (fset.cnt - 2) &&& K.FM_NUKE ≠ 0
  · rw [composite_frame_cleanup_pos K fset stat hc]
    have hcnt := mem_remove_frame_cnt fset (fset.cnt - 2) (by have := hc.1; omega)
    have hgt : stat.prev_idx > (mem_remove_frame fset (fset.cnt - 2)).cnt := by
      rw [hcnt, h]
      have := hc.1
      omega
    rw [if_pos hgt]
    refine ⟨rfl, ?_, rfl, rfl⟩
    apply getLast?_eraseIdx_of_lt
    have := hc.1
    unfold frameset.cnt at this ⊢
    omega
  · rw [composite_frame_cleanup_neg K fset stat hc]
    exact ⟨h, rfl, rfl, rfl⟩

/-- The final cleanup of `composite_frame` never touches the underlayer snapshot
or the hole, and when the underlayer is an older frame it also keeps its index
and the frame itself. -/
theorem composite_frame_cleanup_keep (K : consts) (fset : frameset) (stat : ani_status) :
    (composite_frame_cleanup K fset stat).2.prev = stat.prev ∧
    (composite_frame_cleanup K fset stat).2.bk_rect = stat.bk_rect ∧
    (stat.prev_idx < fset.cnt →
      (composite_frame_cleanup K fset stat).2.prev_idx = stat.prev_idx ∧
      (stat.prev_idx ≠ 0 →
        (composite_frame_cleanup K fset stat).1.frames.get? (stat.prev_idx - 1) =
          fset.frames.get? (stat.prev_idx - 1))) := by
  by_cases hc : fset.cnt > 1 ∧ stat.prev_idx ≠ fset.cnt - 1 ∧
      fset.flags_at (fset.cnt - 2) &&& K.FM_NUKE ≠ 0
  · rw [composite_frame_cleanup_pos K fset stat hc]
    have hcnt := mem_remove_frame_cnt fset (fset.cnt - 2) (by have := hc.1; omega)
    by_cases hgt : stat.prev_idx > (mem_remove_frame fset (fset.cnt - 2)).cnt
    · rw [if_pos hgt]
      refine ⟨rfl, rfl, ?_⟩
      intro hlt
      rw [hcnt] at hgt
      have := hc.2.1
      omega
    · rw [if_neg hgt]
      refine ⟨rfl, rfl, ?_⟩
      intro hlt
      refine ⟨rfl, ?_⟩
      intro h0
      show (fset.frames.eraseIdx (fset.cnt - 2)).get? (stat.prev_idx - 1) = _
      rw [List.get?_eq_getElem?, List.get?_eq_getElem?, List.getElem?_eraseIdx, if_pos]
      have := hc.2.1
      omega
  · rw [composite_frame_cleanup_neg K fset stat hc]
    exact ⟨rfl, rfl, fun _ => ⟨rfl, fun _ => rfl⟩⟩

theorem composite_frame_render_geom (K : consts) (B : blend_ops) (frame : image_frame)
    (stat : ani_status) (settings : ls_settings) :
    (composite_frame_render K B frame stat settings).2.x = settings.x ∧
    (composite_frame_render K B frame stat settings).2.y = settings.y ∧
    (composite_frame_render K B frame stat settings).2.width = settings.width ∧
    (composite_frame_render K B frame stat settings).2.height = settings.height := by
  unfold composite_frame_render
  by_cases h3 : settings.bpp = 3
  · simp only [if_pos h3]
    exact ⟨trivial, trivial, trivial, trivial⟩
  · by_cases hb : (!stat.blend) = true
    · simp only [if_neg h3, if_pos hb]
      exact ⟨trivial, trivial, trivial, trivial⟩
    · simp only [if_neg h3, if_neg hb]
      exact ⟨trivial, trivial, trivial, trivial⟩

/-- `composite_frame` in compositing mode, in terms of its three parts. -/
theorem composite_frame_comp (K : consts) (B : blend_ops) (fset : frameset)
    (stat : ani_status) (settings : ls_settings) (frame : image_frame)
    (hlast : fset.frames.getLast? = some frame) (hmode : K.ANM_RAW < stat.mode) :
    composite_frame K B fset stat settings =
      ((composite_frame_cleanup K
          (composite_frame_dispose K
            (fset.set_last (composite_frame_render K B frame stat settings).1) stat
            (composite_frame_render K B frame stat settings).2
            (composite_frame_render K B frame stat settings).1
            (frame.flags &&& K.FM_DISPOSAL)).1
          (composite_frame_dispose K
            (fset.set_last (composite_frame_render K B frame stat settings).1) stat
            (composite_frame_render K B frame stat settings).2
            (composite_frame_render K B frame stat settings).1
            (frame.flags &&& K.FM_DISPOSAL)).2).1,
       (composite_frame_cleanup K
          (composite_frame_dispose K
            (fset.set_last (composite_frame_render K B frame stat settings).1) stat
            (composite_frame_render K B frame stat settings).2
            (composite_frame_render K B frame stat settings).1
            (frame.flags &&& K.FM_DISPOSAL)).1
          (composite_frame_dispose K
            (fset.set_last (composite_frame_render K B frame stat settings).1) stat
            (composite_frame_render K B frame stat settings).2
            (composite_frame_render K B frame stat settings).1
            (frame.flags &&& K.FM_DISPOSAL)).2).2,
       (composite_frame_render K B frame stat settings).2) := by
  unfold composite_frame
  simp only [hlast]
  rw [if_neg (by omega)]

/-- The disposal part when the current frame becomes the underlayer. -/
theorem composite_frame_dispose_new (K : consts) (fset : frameset) (stat : ani_status)
    (settings : ls_settings) (frame : image_frame) (disposal : Nat)
    (hlast : fset.frames.getLast? = some frame) (hidx : stat.prev_idx < fset.cnt)
    (hd : disposal = K.FM_DISP_REMOVE ∨ disposal = K.FM_DISP_LEAVE) :
    (composite_frame_dispose K fset stat settings frame disposal).2.prev_idx =
      (composite_frame_dispose K fset stat settings frame disposal).1.cnt ∧
    (composite_frame_dispose K fset stat settings frame disposal).1.frames.getLast? =
      some frame ∧
    (composite_frame_dispose K fset stat settings frame disposal).2.prev =
      { frame with pal := if frame.pal.isNone then fset.pal else frame.pal } ∧
    (composite_frame_dispose K fset stat settings frame disposal).2.bk_rect =
      (if disposal = K.FM_DISP_LEAVE then (0, 0, 0, 0)
       else if disposal = K.FM_DISP_REMOVE then
        (settings.x, settings.y, settings.x + settings.width, settings.y + settings.height)
       else stat.bk_rect) := by
  unfold composite_frame_dispose
  rw [if_pos hd]
  refine ⟨rfl, ?_, rfl, ?_⟩
  · show (if stat.prev_idx ≠ 0 ∧ fset.flags_at (stat.prev_idx - 1) &&& K.FM_NUKE ≠ 0 then
        mem_remove_frame fset (stat.prev_idx - 1) else fset).frames.getLast? = some frame
    split
    · rename_i hc
      rw [← hlast]
      apply getLast?_eraseIdx_of_lt
      unfold frameset.cnt at hidx
      have := hc.1
      omega
    · exact hlast
  · show (if disposal = K.FM_DISP_LEAVE then (0, 0, 0, 0)
        else if disposal = K.FM_DISP_REMOVE then
          (settings.x, settings.y, settings.x + settings.width, settings.y + settings.height)
        else stat.bk_rect) = _
    rfl

/-- C3: for every frame composited in compositing mode whose disposal code is
Leave, after `composite_frame` the pending hole rectangle `bk_rect` is empty
(all four coordinates 0) and the underlay snapshot is the frame just produced:
`prev_idx` designates the last frame of the sequence, which is the composited
frame, and `stat->prev` is a copy of it (with the shared palette filled in when
the frame has none of its own). -/
theorem composite_frame_leave (K : consts) (B : blend_ops) (fset : frameset)
    (stat : ani_status) (settings : ls_settings) (frame : image_frame)
    (hlast : fset.frames.getLast? = some frame) (hmode : K.ANM_RAW < stat.mode)
    (hidx : stat.prev_idx < fset.cnt)
    (hdisp : frame.flags &&& K.FM_DISPOSAL = K.FM_DISP_LEAVE) :
    (composite_frame K B fset stat settings).2.1.bk_rect = (0, 0, 0, 0) ∧
    (composite_frame K B fset stat settings).2.1.prev_idx =
      (composite_frame K B fset stat settings).1.cnt ∧
    (composite_frame K B fset stat settings).1.frames.getLast? =
      some (composite_frame_render K B frame stat settings).1 ∧
    (composite_frame K B fset stat settings).2.1.prev =
      { (composite_frame_render K B frame stat settings).1 with
        pal := if (composite_frame_render K B frame stat settings).1.pal.isNone then fset.pal
          else (composite_frame_render K B frame stat settings).1.pal } := by
  rw [composite_frame_comp K B fset stat settings frame hlast hmode]
  obtain ⟨d1, d2, d3, d4⟩ := composite_frame_dispose_new K
    (fset.set_last (composite_frame_render K B frame stat settings).1) stat
    (composite_frame_render K B frame stat settings).2
    (composite_frame_render K B frame stat settings).1 (frame.flags &&& K.FM_DISPOSAL)
    (set_last_getLast? _ _) (by rw [set_last_cnt fset _ frame hlast]; exact hidx)
    (Or.inr hdisp)
  obtain ⟨c1, c2, c3, c4⟩ := composite_frame_cleanup_last K _ _ d1
  refine ⟨?_, c1, ?_, ?_⟩
  · rw [c4, d4, if_pos hdisp]
  · rw [c2, d2]
  · rw [c3, d3]
    rfl

/-- Witness for `composite_frame_leave`: the frame `hole_frame` with disposal code
Leave, composited over `hole_prev`. -/
theorem composite_frame_leave_witness :
    (composite_frame consts_default blend_ops_copy (hole_fset 1) hole_stat
      hole_settings).2.1.bk_rect = (0, 0, 0, 0) :=
  (composite_frame_leave consts_default blend_ops_copy (hole_fset 1) hole_stat hole_settings
    { hole_frame with flags := 1 } rfl (by decide) (by decide) (by decide)).1

/-- C4: for every frame composited in compositing mode whose disposal code is
RemoveToBackground, after `composite_frame` the underlay snapshot is the frame
just produced and the pending hole rectangle `bk_rect` equals the input frame's
own rectangle `(x, y, x + width, y + height)`. -/
theorem composite_frame_remove (K : consts) (B : blend_ops) (fset : frameset)
    (stat : ani_status) (settings : ls_settings) (frame : image_frame)
    (hK : K.FM_DISP_REMOVE ≠ K.FM_DISP_LEAVE)
    (hlast : fset.frames.getLast? = some frame) (hmode : K.ANM_RAW < stat.mode)
    (hidx : stat.prev_idx < fset.cnt)
    (hdisp : frame.flags &&& K.FM_DISPOSAL = K.FM_DISP_REMOVE) :
    (composite_frame K B fset stat settings).2.1.bk_rect =
      (settings.x, settings.y, settings.x + settings.width, settings.y + settings.height) ∧
    (composite_frame K B fset stat settings).2.1.prev_idx =
      (composite_frame K B fset stat settings).1.cnt ∧
    (composite_frame K B fset stat settings).1.frames.getLast? =
      some (composite_frame_render K B frame stat settings).1 ∧
    (composite_frame K B fset stat settings).2.1.prev =
      { (composite_frame_render K B frame stat settings).1 with
        pal := if (composite_frame_render K B frame stat settings).1.pal.isNone then fset.pal
          else (composite_frame_render K B frame stat settings).1.pal } := by
  rw [composite_frame_comp K B fset stat settings frame hlast hmode]
  obtain ⟨d1, d2, d3, d4⟩ := composite_frame_dispose_new K
    (fset.set_last (composite_frame_render K B frame stat settings).1) stat
    (composite_frame_render K B frame stat settings).2
    (composite_frame_render K B frame stat settings).1 (frame.flags &&& K.FM_DISPOSAL)
    (set_last_getLast? _ _) (by rw [set_last_cnt fset _ frame hlast]; exact hidx)
    (Or.inl hdisp)
  obtain ⟨c1, c2, c3, c4⟩ := composite_frame_cleanup_last K _ _ d1
  obtain ⟨g1, g2, g3, g4⟩ := composite_frame_render_geom K B frame stat settings
  refine ⟨?_, c1, ?_, ?_⟩
  · rw [c4, d4, if_neg (by rw [hdisp]; exact hK), if_pos hdisp, g1, g2, g3, g4]
  · rw [c2, d2]
  · rw [c3, d3]
    rfl

/-- Witness for `composite_frame_remove`: the frame `hole_frame` with disposal
code RemoveToBackground; the new hole is the input frame's rectangle. -/
theorem composite_frame_remove_witness :
    (composite_frame consts_default blend_ops_copy (hole_fset 0) hole_stat
      hole_settings).2.1.bk_rect =
      (hole_settings.x, hole_settings.y, hole_settings.x + hole_settings.width,
        hole_settings.y + hole_settings.height) :=
  (composite_frame_remove consts_default blend_ops_copy (hole_fset 0) hole_stat hole_settings
    { hole_frame with flags := 0 } (by decide) rfl (by decide) (by decide) (by decide)).1

/-- C5: for every frame composited in compositing mode whose disposal code is
RestoreToPrevious, `composite_frame` leaves the underlay snapshot `stat->prev`
and the pending hole rectangle `bk_rect` exactly as they were before the call;
the underlay index and the frame it designates (a frame older than the one
being composited) stay the same too. -/
theorem composite_frame_restore (K : consts) (B : blend_ops) (fset : frameset)
    (stat : ani_status) (settings : ls_settings) (frame : image_frame)
    (hK1 : K.FM_DISP_RESTORE ≠ K.FM_DISP_REMOVE) (hK2 : K.FM_DISP_RESTORE ≠ K.FM_DISP_LEAVE)
    (hlast : fset.frames.getLast? = some frame) (hmode : K.ANM_RAW < stat.mode)
    (hdisp : frame.flags &&& K.FM_DISPOSAL = K.FM_DISP_RESTORE) :
    (composite_frame K B fset stat settings).2.1.prev = stat.prev ∧
    (composite_frame K B fset stat settings).2.1.bk_rect = stat.bk_rect ∧
    (stat.prev_idx < fset.cnt →
      (composite_frame K B fset stat settings).2.1.prev_idx = stat.prev_idx ∧
      (stat.prev_idx ≠ 0 →
        (composite_frame K B fset stat settings).1.frames.get? (stat.prev_idx - 1) =
          fset.frames.get? (stat.prev_idx - 1))) := by
  rw [composite_frame_comp K B fset stat settings frame hlast hmode]
  have hd : composite_frame_dispose K
      (fset.set_last (composite_frame_render K B frame stat settings).1) stat
      (composite_frame_render K B frame stat settings).2
      (composite_frame_render K B frame stat settings).1 (frame.flags &&& K.FM_DISPOSAL) =
      (fset.set_last (composite_frame_render K B frame stat settings).1, stat) := by
    unfold composite_frame_dispose
    rw [hdisp, if_neg (by intro h; cases h with
      | inl h => exact hK1 h
      | inr h => exact hK2 h)]
    simp only [if_neg hK1, if_neg hK2]
  rw [hd]
  obtain ⟨k1, k2, k3⟩ := composite_frame_cleanup_keep K
    (fset.set_last (composite_frame_render K B frame stat settings).1) stat
  refine ⟨k1, k2, ?_⟩
  intro hidx
  have hcnt := set_last_cnt fset (composite_frame_render K B frame stat settings).1 frame hlast
  obtain ⟨k4, k5⟩ := k3 (by rw [hcnt]; exact hidx)
  refine ⟨k4, ?_⟩
  intro h0
  rw [k5 h0, set_last_get? fset _ _ (by omega)]

/-- Witness for `composite_frame_restore`: the frame `hole_frame` with disposal
code RestoreToPrevious; the pending hole is kept. -/
theorem composite_frame_restore_witness :
    (composite_frame consts_default blend_ops_copy (hole_fset 2) hole_stat
      hole_settings).2.1.bk_rect = hole_stat.bk_rect :=
  (composite_frame_restore consts_default blend_ops_copy (hole_fset 2) hole_stat hole_settings
    { hole_frame with flags := 2 } (by decide) (by decide) rfl (by decide) (by decide)).2.1

/-! ## Palette reconciliation: the combined palette -/

/-! ### The colours seen so far -/

theorem seen_colors_succ_marked_new (cmap : Nat → Nat) (prev pal : palette) (i : Nat)
    (h : cmap i ≠ 0 ∧ ext_color prev pal i ∉ seen_colors cmap prev pal i) :
    seen_colors cmap prev pal (i + 1) = seen_colors cmap prev pal i ++ [ext_color prev pal i] := by
  rw [seen_colors, if_pos h]

theorem seen_colors_succ_other (cmap : Nat → Nat) (prev pal : palette) (i : Nat)
    (h : ¬ (cmap i ≠ 0 ∧ ext_color prev pal i ∉ seen_colors cmap prev pal i)) :
    seen_colors cmap prev pal (i + 1) = seen_colors cmap prev pal i := by
  rw [seen_colors, if_neg h]

theorem seen_colors_prefix (cmap : Nat → Nat) (prev pal : palette) (i n : Nat) :
    ∃ t, seen_colors cmap prev pal (i + n) = seen_colors cmap prev pal i ++ t := by
  induction n with
  | zero => exact ⟨[], by simp⟩
  | succ n ih =>
    obtain ⟨t, ht⟩ := ih
    by_cases h : cmap (i + n) ≠ 0 ∧
        ext_color prev pal (i + n) ∉ seen_colors cmap prev pal (i + n)
    · refine ⟨t ++ [ext_color prev pal (i + n)], ?_⟩
      rw [← Nat.add_assoc, seen_colors_succ_marked_new _ _ _ _ h, ht, List.append_assoc]
    · exact ⟨t, by rw [← Nat.add_assoc, seen_colors_succ_other _ _ _ _ h, ht]⟩

theorem seen_colors_length_mono (cmap : Nat → Nat) (prev pal : palette) (i n : Nat) :
    (seen_colors cmap prev pal i).length ≤ (seen_colors cmap prev pal (i + n)).length := by
  obtain ⟨t, ht⟩ := seen_colors_prefix cmap prev pal i n
  rw [ht, List.length_append]
  omega

theorem seen_colors_nodup (cmap : Nat → Nat) (prev pal : palette) (i : Nat) :
    (seen_colors cmap prev pal i).Nodup := by
  induction i with
  | zero => simp [seen_colors]
  | succ i ih =>
    by_cases h : cmap i ≠ 0 ∧ ext_color prev pal i ∉ seen_colors cmap prev pal i
    · rw [seen_colors_succ_marked_new _ _ _ _ h]
      rw [List.nodup_append]
      refine ⟨ih, by simp, ?_⟩
      intro a ha hb
      simp only [List.mem_singleton] at hb
      subst hb
      exact h.2 ha
    · rw [seen_colors_succ_other _ _ _ _ h]
      exact ih

theorem mem_seen_colors (cmap : Nat → Nat) (prev pal : palette) (i v : Nat) :
    v ∈ seen_colors cmap prev pal i ↔ ∃ j, j < i ∧ cmap j ≠ 0 ∧ ext_color prev pal j = v := by
  induction i with
  | zero => simp [seen_colors]
  | succ i ih =>
    by_cases h : cmap i ≠ 0 ∧ ext_color prev pal i ∉ seen_colors cmap prev pal i
    · rw [seen_colors_succ_marked_new _ _ _ _ h, List.mem_append, ih, List.mem_singleton]
      constructor
      · rintro (⟨j, hj, hm, hc⟩ | hv)
        · exact ⟨j, by omega, hm, hc⟩
        · exact ⟨i, by omega, h.1, hv.symm⟩
      · rintro ⟨j, hj, hm, hc⟩
        by_cases hji : j = i
        · subst hji
          exact Or.inr hc.symm
        · exact Or.inl ⟨j, by omega, hm, hc⟩
    · rw [seen_colors_succ_other _ _ _ _ h, ih]
      constructor
      · rintro ⟨j, hj, hm, hc⟩
        exact ⟨j, by omega, hm, hc⟩
      · rintro ⟨j, hj, hm, hc⟩
        by_cases hji : j = i
        · subst hji
          have : ext_color prev pal j ∈ seen_colors cmap prev pal j := by
            by_contra hn
            exact h ⟨hm, hn⟩
          rw [hc] at this
          exact ih.mp this
        · exact ⟨j, by omega, hm, hc⟩

theorem seen_colors_succ_length (cmap : Nat → Nat) (prev pal : palette) (i : Nat) :
    (seen_colors cmap prev pal (i + 1)).length ≤ (seen_colors cmap prev pal i).length + 1 := by
  by_cases h : cmap i ≠ 0 ∧ ext_color prev pal i ∉ seen_colors cmap prev pal i
  · rw [seen_colors_succ_marked_new _ _ _ _ h, List.length_append]
    simp
  · rw [seen_colors_succ_other _ _ _ _ h]
    omega

/-! ### The combined palette loop -/

theorem agf_find_color_eq (tmpal : Nat → Nat) (v : Nat) (L : List Nat) :
    ∀ j0, (∀ a, a < L.length → tmpal (j0 + a) = L.getD a 0) →
      agf_find_color tmpal v L.length j0 = j0 + L.indexOf v := by
  induction L with
  | nil => intro j0 _; simp [agf_find_color]
  | cons x xs ih =>
    intro j0 h
    have hx : tmpal j0 = x := by simpa using h 0 (by simp)
    rw [List.length_cons, agf_find_color, hx, List.indexOf_cons]
    by_cases hxv : x = v
    · simp [hxv]
    · have hb : (x == v) = false := by simpa using hxv
      rw [if_pos hxv, hb, cond_false, ih (j0 + 1)]
      · omega
      · intro a ha
        have := h (a + 1) (by simp; omega)
        simpa [Nat.add_assoc, Nat.add_comm 1 a] using this

theorem agf_merge_loop_spec (cmap : Nat → Nat) (prev pal : palette) (n : Nat) :
    ∀ (i ul : Nat) (tmpal xlat : Nat → Nat),
      ul = (seen_colors cmap prev pal i).length → ul ≤ 257 →
      (∀ a, a < ul → tmpal a = (seen_colors cmap prev pal i).getD a 0) →
      (257 ≤ (seen_colors cmap prev pal (i + n)).length →
        (agf_merge_loop cmap prev pal n i (ul, tmpal, xlat)).1 = 257) ∧
      ((seen_colors cmap prev pal (i + n)).length < 257 →
        (agf_merge_loop cmap prev pal n i (ul, tmpal, xlat)).1 =
          (seen_colors cmap prev pal (i + n)).length ∧
        (∀ a, a < (seen_colors cmap prev pal (i + n)).length →
          (agf_merge_loop cmap prev pal n i (ul, tmpal, xlat)).2.1 a =
            (seen_colors cmap prev pal (i + n)).getD a 0) ∧
        (∀ j, i ≤ j → j < i + n → cmap j ≠ 0 →
          (agf_merge_loop cmap prev pal n i (ul, tmpal, xlat)).2.2 j =
            (seen_colors cmap prev pal (i + n)).indexOf (ext_color prev pal j) % 256)) ∧
      (∀ j, (j < i ∨ i + n ≤ j ∨ cmap j = 0) →
        (agf_merge_loop cmap prev pal n i (ul, tmpal, xlat)).2.2 j = xlat j) := by
  induction n with
  | zero =>
    intro i ul tmpal xlat hul hle htm
    rw [agf_merge_loop, Nat.add_zero]
    refine ⟨fun h => by omega, fun _ => ⟨hul, fun a ha => htm a (by omega), ?_⟩, ?_⟩
    · intro j h1 h2
      omega
    · intro j _
      rfl
  | succ n ih =>
    intro i ul tmpal xlat hul hle htm
    have hmono := seen_colors_length_mono cmap prev pal i (n + 1)
    have e1 : i + 1 + n = i + (n + 1) := by omega
    by_cases hstop : ul < 257
    · by_cases hc : cmap i = 0
      · -- unmarked index: nothing changes
        have hs : seen_colors cmap prev pal (i + 1) = seen_colors cmap prev pal i :=
          seen_colors_succ_other _ _ _ _ (fun h => h.1 hc)
        obtain ⟨k1, k2, k3⟩ := ih (i + 1) ul tmpal xlat (by rw [hs]; exact hul) hle
          (by rw [hs]; exact htm)
        rw [e1] at k1 k2
        have hr : agf_merge_loop cmap prev pal (n + 1) i (ul, tmpal, xlat) =
            agf_merge_loop cmap prev pal n (i + 1) (ul, tmpal, xlat) := by
          rw [agf_merge_loop, if_neg (not_not.mpr hstop), if_pos hc]
        rw [hr]
        refine ⟨k1, fun h => ⟨(k2 h).1, (k2 h).2.1, ?_⟩, ?_⟩
        · intro j h1 h2 h3
          have : j ≠ i := fun hji => h3 (hji ▸ hc)
          exact (k2 h).2.2 j (by omega) (by omega) h3
        · intro j hj
          apply k3
          rcases hj with hj | hj | hj
          · exact Or.inl (by omega)
          · exact Or.inr (Or.inl (by omega))
          · exact Or.inr (Or.inr hj)
      · -- marked index
        have hfind : agf_find_color tmpal (ext_color prev pal i) ul 0 =
            (seen_colors cmap prev pal i).indexOf (ext_color prev pal i) := by
          have := agf_find_color_eq tmpal (ext_color prev pal i) (seen_colors cmap prev pal i) 0
            (by intro a ha; rw [Nat.zero_add]; exact htm a (by omega))
          rw [← hul, Nat.zero_add] at this
          exact this
        have hr : agf_merge_loop cmap prev pal (n + 1) i (ul, tmpal, xlat) =
            agf_merge_loop cmap prev pal n (i + 1)
              (if (seen_colors cmap prev pal i).indexOf (ext_color prev pal i) = ul
                then ul + 1 else ul,
               if (seen_colors cmap prev pal i).indexOf (ext_color prev pal i) = ul
                then Function.update tmpal ul (ext_color prev pal i) else tmpal,
               Function.update xlat i
                ((seen_colors cmap prev pal i).indexOf (ext_color prev pal i) % 256)) := by
          rw [agf_merge_loop, if_neg (not_not.mpr hstop), if_neg hc]
          simp only [hfind]
        rw [hr]
        by_cases hnew : ext_color prev pal i ∈ seen_colors cmap prev pal i
        · -- colour already seen
          have hs : seen_colors cmap prev pal (i + 1) = seen_colors cmap prev pal i :=
            seen_colors_succ_other _ _ _ _ (fun h => h.2 hnew)
          have hlt := List.indexOf_lt_length.mpr hnew
          have hne : ¬ (seen_colors cmap prev pal i).indexOf (ext_color prev pal i) = ul := by
            omega
          rw [if_neg hne, if_neg hne]
          obtain ⟨k1, k2, k3⟩ := ih (i + 1) ul tmpal
            (Function.update xlat i
              ((seen_colors cmap prev pal i).indexOf (ext_color prev pal i) % 256))
            (by rw [hs]; exact hul) hle (by rw [hs]; exact htm)
          rw [e1] at k1 k2
          refine ⟨k1, fun h => ⟨(k2 h).1, (k2 h).2.1, ?_⟩, ?_⟩
          · intro j h1 h2 h3
            by_cases hji : j = i
            · subst hji
              rw [k3 j (Or.inl (by omega)), Function.update_same]
              obtain ⟨t, ht⟩ := seen_colors_prefix cmap prev pal j (n + 1)
              rw [ht, List.indexOf_append_of_mem hnew]
            · exact (k2 h).2.2 j (by omega) (by omega) h3
          · intro j hj
            have hji : j ≠ i := by
              rintro rfl
              rcases hj with hj | hj | hj
              · omega
              · omega
              · exact hc hj
            rw [k3 j (by
              rcases hj with hj | hj | hj
              · exact Or.inl (by omega)
              · exact Or.inr (Or.inl (by omega))
              · exact Or.inr (Or.inr hj)), Function.update_noteq hji]
        · -- new colour
          have hs : seen_colors cmap prev pal (i + 1) =
              seen_colors cmap prev pal i ++ [ext_color prev pal i] :=
            seen_colors_succ_marked_new _ _ _ _ ⟨hc, hnew⟩
          have heq : (seen_colors cmap prev pal i).indexOf (ext_color prev pal i) = ul := by
            rw [hul]; exact List.indexOf_eq_length.mpr hnew
          rw [if_pos heq, if_pos heq, heq]
          obtain ⟨k1, k2, k3⟩ := ih (i + 1) (ul + 1)
            (Function.update tmpal ul (ext_color prev pal i))
            (Function.update xlat i (ul % 256))
            (by rw [hs, List.length_append, ← hul]; rfl) (by omega)
            (by
              intro a ha
              rw [hs]
              by_cases hau : a = ul
              · subst hau
                rw [Function.update_same, List.getD_append_right _ _ _ _ (by omega), hul]
                simp
              · rw [Function.update_noteq hau, List.getD_append _ _ _ _ (by omega)]
                exact htm a (by omega))
          rw [e1] at k1 k2
          refine ⟨k1, fun h => ⟨(k2 h).1, (k2 h).2.1, ?_⟩, ?_⟩
          · intro j h1 h2 h3
            by_cases hji : j = i
            · subst hji
              rw [k3 j (Or.inl (by omega)), Function.update_same]
              obtain ⟨t, ht⟩ := seen_colors_prefix cmap prev pal (j + 1) n
              rw [e1] at ht
              rw [ht, hs, List.append_assoc, List.indexOf_append_of_not_mem hnew]
              simp [List.indexOf_cons, hul]
            · exact (k2 h).2.2 j (by omega) (by omega) h3
          · intro j hj
            have hji : j ≠ i := by
              rintro rfl
              rcases hj with hj | hj | hj
              · omega
              · omega
              · exact hc hj
            rw [k3 j (by
              rcases hj with hj | hj | hj
              · exact Or.inl (by omega)
              · exact Or.inr (Or.inl (by omega))
              · exact Or.inr (Or.inr hj)), Function.update_noteq hji]
    · -- the loop has stopped: 257 colours
      have hr : agf_merge_loop cmap prev pal (n + 1) i (ul, tmpal, xlat) = (ul, tmpal, xlat) := by
        rw [agf_merge_loop, if_pos hstop]
      rw [hr]
      refine ⟨fun _ => by omega, fun h => by omega, fun _ _ => rfl⟩

theorem agf_build_pal_apply (tmpal : Nat → Nat) (n : Nat) :
    ∀ (i : Nat) (pal : palette) (j : Nat),
      agf_build_pal tmpal n i pal j =
        if i ≤ j ∧ j < i + n then INT_2_png (tmpal j) else pal j := by
  induction n with
  | zero =>
    intro i pal j
    rw [agf_build_pal, if_neg (by omega)]
  | succ n ih =>
    intro i pal j
    rw [agf_build_pal, ih]
    by_cases hj : j = i
    · subst hj
      rw [if_neg (by omega), if_pos (by omega), Function.update_same]
    · rw [Function.update_noteq hj]
      by_cases h : i + 1 ≤ j ∧ j < i + 1 + n
      · rw [if_pos h, if_pos (by omega)]
      · rw [if_neg h, if_neg (by omega)]

/-- The number of output slots that the combined palette needs: one per distinct
colour of a marked index, and one for the background if it is visible. -/
theorem agf_merge_success_iff (stat : ani_status) (cmap : Nat → Nat) (prev pal : palette)
    (prevtr : Int) :
    (agf_merge stat cmap prev pal prevtr).1 = true ↔
      (seen_colors cmap prev pal 512).length + (if cmap 512 ≠ 0 then 1 else 0) ≤ 256 := by
  obtain ⟨k1, k2, _⟩ := agf_merge_loop_spec cmap prev pal 512 0 0 (fun _ => 0) stat.xlat
    (by simp [seen_colors]) (by omega) (by intro a ha; omega)
  rw [Nat.zero_add] at k1 k2
  unfold agf_merge
  by_cases hlen : (seen_colors cmap prev pal 512).length < 257
  · obtain ⟨h1, _, _⟩ := k2 hlen
    simp only [h1]
    by_cases hbg : cmap 512 ≠ 0
    · simp only [hlen, hbg, decide_True, Bool.and_self, if_true, ne_eq, not_false_eq_true]
      split <;> simp_all
      all_goals omega
    · simp only [hbg, decide_False, Bool.and_false, if_false, Bool.false_eq_true]
      split <;> simp_all
      all_goals omega
  · have h1 := k1 (by omega)
    simp only [h1]
    simp
    split <;> omega

/-- The state left by a successful combined palette. -/
theorem agf_merge_result (stat : ani_status) (cmap : Nat → Nat) (prev pal : palette)
    (prevtr : Int) (h : (agf_merge stat cmap prev pal prevtr).1 = true) :
    (agf_merge stat cmap prev pal prevtr).2.newcols =
      (((seen_colors cmap prev pal 512).length + (if cmap 512 ≠ 0 then 1 else 0) : Nat) : Int) ∧
    (agf_merge stat cmap prev pal prevtr).2.newtrans =
      (if cmap 512 ≠ 0 then ((seen_colors cmap prev pal 512).length : Int)
       else stat.newtrans) ∧
    (cmap 512 ≠ 0 →
      (agf_merge stat cmap prev pal prevtr).2.xlat 512 =
        (seen_colors cmap prev pal 512).length) ∧
    (∀ j, j < 512 → cmap j ≠ 0 → ¬ (cmap 512 ≠ 0 ∧ prevtr = (j : Int)) →
      (agf_merge stat cmap prev pal prevtr).2.xlat j =
        (seen_colors cmap prev pal 512).indexOf (ext_color prev pal j)) ∧
    (∀ a, a < (seen_colors cmap prev pal 512).length →
      (agf_merge stat cmap prev pal prevtr).2.newpal a =
        INT_2_png ((seen_colors cmap prev pal 512).getD a 0)) := by
  have hlen := (agf_merge_success_iff stat cmap prev pal prevtr).mp h
  obtain ⟨_, k2, k3⟩ := agf_merge_loop_spec cmap prev pal 512 0 0 (fun _ => 0) stat.xlat
    (by simp [seen_colors]) (by omega) (by intro a ha; omega)
  rw [Nat.zero_add] at k2
  have hlt : (seen_colors cmap prev pal 512).length < 257 := by
    split at hlen <;> omega
  obtain ⟨h1, h2, h3⟩ := k2 hlt
  have hidx : ∀ j, j < 512 → cmap j ≠ 0 →
      (seen_colors cmap prev pal 512).indexOf (ext_color prev pal j) % 256 =
        (seen_colors cmap prev pal 512).indexOf (ext_color prev pal j) := by
    intro j hj hm
    apply Nat.mod_eq_of_lt
    have hmem : ext_color prev pal j ∈ seen_colors cmap prev pal 512 :=
      (mem_seen_colors cmap prev pal 512 _).mpr ⟨j, hj, hm, rfl⟩
    have := List.indexOf_lt_length.mpr hmem
    split at hlen <;> omega
  by_cases hbg : cmap 512 ≠ 0
  · rw [if_pos hbg] at hlen
    have hm : agf_merge stat cmap prev pal prevtr =
        (true, { stat with
          xlat := Function.update
            (if prevtr ≥ 0 then
              Function.update
                (agf_merge_loop cmap prev pal 512 0 (0, fun _ => 0, stat.xlat)).2.2
                prevtr.toNat ((seen_colors cmap prev pal 512).length % 256)
             else (agf_merge_loop cmap prev pal 512 0 (0, fun _ => 0, stat.xlat)).2.2)
            512 ((seen_colors cmap prev pal 512).length % 256),
          newtrans := ((seen_colors cmap prev pal 512).length : Int),
          newpal := agf_build_pal
            (Function.update (agf_merge_loop cmap prev pal 512 0 (0, fun _ => 0, stat.xlat)).2.1
              (seen_colors cmap prev pal 512).length 0)
            ((seen_colors cmap prev pal 512).length + 1) 0 stat.newpal,
          newcols := (((seen_colors cmap prev pal 512).length + 1 : Nat) : Int) }) := by
      unfold agf_merge
      simp only [h1, hlt, hbg, decide_True, Bool.and_self, if_true, ne_eq, not_false_eq_true]
      rw [if_pos (by omega)]
    rw [hm]
    simp only [if_pos hbg]
    refine ⟨trivial, trivial, ?_, ?_, ?_⟩
    · intro _
      rw [Function.update_same]
      exact Nat.mod_eq_of_lt (by omega)
    · intro j hj hm2 hnp
      have hj512 : j ≠ 512 := by omega
      rw [Function.update_noteq hj512]
      have hpj : ¬ (prevtr ≥ 0 ∧ prevtr.toNat = j) := by
        intro hp
        apply hnp
        refine ⟨hbg, ?_⟩
        omega
      by_cases hp0 : prevtr ≥ 0
      · rw [if_pos hp0, Function.update_noteq (fun e => hpj ⟨hp0, e.symm⟩),
          h3 j (Nat.zero_le j) hj hm2, hidx j hj hm2]
      · rw [if_neg hp0, h3 j (Nat.zero_le j) hj hm2, hidx j hj hm2]
    · intro a ha
      show agf_build_pal _ _ 0 stat.newpal a = _
      rw [agf_build_pal_apply, if_pos (by omega), Function.update_noteq (by omega), h2 a ha]
  · rw [if_neg hbg] at hlen
    have hm : agf_merge stat cmap prev pal prevtr =
        (true, { stat with
          xlat := (agf_merge_loop cmap prev pal 512 0 (0, fun _ => 0, stat.xlat)).2.2,
          newtrans := stat.newtrans,
          newpal := agf_build_pal
            (agf_merge_loop cmap prev pal 512 0 (0, fun _ => 0, stat.xlat)).2.1
            (seen_colors cmap prev pal 512).length 0 stat.newpal,
          newcols := (((seen_colors cmap prev pal 512).length : Nat) : Int) }) := by
      unfold agf_merge
      simp only [h1, hbg, decide_False, Bool.and_false, if_false, Bool.false_eq_true]
      rw [if_pos (by omega)]
    rw [hm]
    simp only [if_neg hbg]
    refine ⟨by simp, trivial, ?_, ?_, ?_⟩
    · intro hc
      exact absurd hc hbg
    · intro j hj hm2 _
      show (agf_merge_loop cmap prev pal 512 0 (0, fun _ => 0, stat.xlat)).2.2 j = _
      rw [h3 j (Nat.zero_le j) hj hm2, hidx j hj hm2]
    · intro a ha
      show agf_build_pal _ _ 0 stat.newpal a = _
      rw [agf_build_pal_apply, if_pos (by omega), h2 a ha]

theorem agf_rgb_code (stat : ani_status) (cmap : Nat → Nat) (su : Bool) :
    (agf_rgb stat cmap su).1 = 3 ∨ (agf_rgb stat cmap su).1 = 4 := by
  unfold agf_rgb
  cases h : ((su && stat.prev.img.alpha.isSome) || decide (cmap 512 ≠ 0))
  · left; simp
  · right; simp

theorem agf_rgb_newtrans (stat : ani_status) (cmap : Nat → Nat) (su : Bool) :
    (agf_rgb stat cmap su).2.newtrans = -1 := rfl

/-- In compositing mode with the canvas within the limits and no trivial first
frame, `analyze_gif_frame` is its second half run on the prepared state. -/
theorem analyze_gif_frame_eq_decide (K : consts) (stat : ani_status) (settings : ls_settings)
    (hmode : K.ANM_RAW < stat.mode)
    (hlim : stat.defw ≤ K.MAX_WIDTH ∧ stat.defh ≤ K.MAX_HEIGHT)
    (hfirst : ¬ (stat.prev_idx = 0 ∧
      (same_size (agf_prepare K stat settings) settings = true ∨ settings.xpm_trans ≥ 0))) :
    analyze_gif_frame K stat settings = agf_decide (agf_prepare K stat settings) settings := by
  unfold analyze_gif_frame
  rw [if_neg (by omega), if_neg (by omega)]
  have h1 : ¬ ((ani_init_xlat (ani_map_frame K.MAX_WIDTH K.MAX_HEIGHT
      { stat with newpal := (agf_pal stat settings).1, newcols := (agf_pal stat settings).2,
                  newtrans := settings.xpm_trans } settings)).prev_idx = 0 ∧
      same_size (ani_init_xlat (ani_map_frame K.MAX_WIDTH K.MAX_HEIGHT
      { stat with newpal := (agf_pal stat settings).1, newcols := (agf_pal stat settings).2,
                  newtrans := settings.xpm_trans } settings)) settings = true) := by
    intro h
    exact hfirst ⟨h.1, Or.inl h.2⟩
  have h2 : ¬ ((ani_init_xlat (ani_map_frame K.MAX_WIDTH K.MAX_HEIGHT
      { stat with newpal := (agf_pal stat settings).1, newcols := (agf_pal stat settings).2,
                  newtrans := settings.xpm_trans } settings)).prev_idx = 0 ∧
      settings.xpm_trans ≥ 0) := by
    intro h
    exact hfirst ⟨h.1, Or.inr h.2⟩
  simp only [if_neg h1, if_neg h2]

/-- The combined palette branch of the second half of the analysis. -/
theorem agf_decide_merge (stat : ani_status) (settings : ls_settings)
    (hrgb : ¬ (agf_show_under stat settings = true ∧ stat.prev.bpp = 3))
    (hsingle : agf_single stat settings = none) :
    agf_decide stat settings =
      if (agf_merge (agf_stat1 stat settings) (agf_cmap stat settings) (agf_prev_pal stat)
          (agf_pal stat settings).1 (agf_prevtr stat)).1 = true then
        (if same_size stat settings then 0 else 1,
         (agf_merge (agf_stat1 stat settings) (agf_cmap stat settings) (agf_prev_pal stat)
          (agf_pal stat settings).1 (agf_prevtr stat)).2)
      else agf_rgb (agf_merge (agf_stat1 stat settings) (agf_cmap stat settings)
          (agf_prev_pal stat) (agf_pal stat settings).1 (agf_prevtr stat)).2
        (agf_cmap stat settings) (agf_show_under stat settings) := by
  unfold agf_decide
  simp only [if_neg hrgb, hsingle]

theorem agf_cmap_prevtr (stat : ani_status) (settings : ls_settings) (j : Nat)
    (h : agf_prevtr stat = (j : Int)) : agf_cmap stat settings j = 0 := by
  unfold agf_prevtr at h
  unfold agf_cmap
  by_cases hp : stat.prev_idx ≠ 0
  · rw [if_pos hp] at h ⊢
    unfold agf_move_trans
    rw [if_pos (by omega)]
    have : stat.prev.trans.toNat = j := by omega
    rw [this, Function.update_same]
  · rw [if_neg hp] at h
    omega

/-- C10: whenever `analyze_gif_frame` takes the merged-palette branch and
succeeds, the marked extended indices are processed in increasing order
(underlay indices 0..255, then new-frame indices 256..511): an index whose RGB
colour was not seen before receives the next sequential output slot (the number
of distinct colours seen before it, so the slots start at 0), an index whose
colour was already seen reuses that colour's slot, and when a
background/transparent pixel is visible the transparent index is the single slot
right after the last colour slot. `seen_colors cmap prev pal i` lists the
distinct colours of the marked indices below `i` in first-seen order. -/
theorem analyze_gif_frame_merged_palette (K : consts) (stat : ani_status)
    (settings : ls_settings)
    (hmerge : agf_takes_merge K stat settings = true)
    (hok : (analyze_gif_frame K stat settings).1 = 0 ∨
      (analyze_gif_frame K stat settings).1 = 1) :
    (∀ i, i < 512 → agf_cmap (agf_prepare K stat settings) settings i ≠ 0 →
      (ext_color (agf_prev_pal (agf_prepare K stat settings))
          (agf_pal (agf_prepare K stat settings) settings).1 i ∉
        seen_colors (agf_cmap (agf_prepare K stat settings) settings)
          (agf_prev_pal (agf_prepare K stat settings))
          (agf_pal (agf_prepare K stat settings) settings).1 i →
        (analyze_gif_frame K stat settings).2.xlat i =
          (seen_colors (agf_cmap (agf_prepare K stat settings) settings)
            (agf_prev_pal (agf_prepare K stat settings))
            (agf_pal (agf_prepare K stat settings) settings).1 i).length) ∧
      (∀ j, j < i → agf_cmap (agf_prepare K stat settings) settings j ≠ 0 →
        ext_color (agf_prev_pal (agf_prepare K stat settings))
            (agf_pal (agf_prepare K stat settings) settings).1 j =
          ext_color (agf_prev_pal (agf_prepare K stat settings))
            (agf_pal (agf_prepare K stat settings) settings).1 i →
        (analyze_gif_frame K stat settings).2.xlat i =
          (analyze_gif_frame K stat settings).2.xlat j)) ∧
    (agf_cmap (agf_prepare K stat settings) settings 512 ≠ 0 →
      (analyze_gif_frame K stat settings).2.newtrans =
        ((seen_colors (agf_cmap (agf_prepare K stat settings) settings)
          (agf_prev_pal (agf_prepare K stat settings))
          (agf_pal (agf_prepare K stat settings) settings).1 512).length : Int) ∧
      (analyze_gif_frame K stat settings).2.xlat 512 =
        (seen_colors (agf_cmap (agf_prepare K stat settings) settings)
          (agf_prev_pal (agf_prepare K stat settings))
          (agf_pal (agf_prepare K stat settings) settings).1 512).length ∧
      (analyze_gif_frame K stat settings).2.newcols =
        (((seen_colors (agf_cmap (agf_prepare K stat settings) settings)
          (agf_prev_pal (agf_prepare K stat settings))
          (agf_pal (agf_prepare K stat settings) settings).1 512).length + 1 : Nat) : Int)) ∧
    (agf_cmap (agf_prepare K stat settings) settings 512 = 0 →
      (analyze_gif_frame K stat settings).2.newcols =
        ((seen_colors (agf_cmap (agf_prepare K stat settings) settings)
          (agf_prev_pal (agf_prepare K stat settings))
          (agf_pal (agf_prepare K stat settings) settings).1 512).length : Int)) := by
  unfold agf_takes_merge at hmerge
  simp only [Bool.and_eq_true, decide_eq_true_eq, Option.isNone_iff_eq_none] at hmerge
  obtain ⟨⟨⟨⟨hmode, hlim⟩, hfirst⟩, hrgb⟩, hsingle⟩ := hmerge
  have heq := analyze_gif_frame_eq_decide K stat settings hmode hlim hfirst
  rw [agf_decide_merge _ _ hrgb hsingle] at heq
  have hm : (agf_merge (agf_stat1 (agf_prepare K stat settings) settings)
      (agf_cmap (agf_prepare K stat settings) settings)
      (agf_prev_pal (agf_prepare K stat settings))
      (agf_pal (agf_prepare K stat settings) settings).1
      (agf_prevtr (agf_prepare K stat settings))).1 = true := by
    by_contra hn
    rw [if_neg hn] at heq
    rw [heq] at hok
    rcases agf_rgb_code (agf_merge (agf_stat1 (agf_prepare K stat settings) settings)
      (agf_cmap (agf_prepare K stat settings) settings)
      (agf_prev_pal (agf_prepare K stat settings))
      (agf_pal (agf_prepare K stat settings) settings).1
      (agf_prevtr (agf_prepare K stat settings))).2
      (agf_cmap (agf_prepare K stat settings) settings)
      (agf_show_under (agf_prepare K stat settings) settings) with h | h <;>
      rw [h] at hok <;> omega
  rw [if_pos hm] at heq
  rw [heq]
  obtain ⟨r1, r2, r3, r4, _⟩ := agf_merge_result _ _ _ _ _ hm
  refine ⟨?_, ?_, ?_⟩
  · intro i hi hmark
    have hnp : ¬ (agf_cmap (agf_prepare K stat settings) settings 512 ≠ 0 ∧
        agf_prevtr (agf_prepare K stat settings) = (i : Int)) :=
      fun h => hmark (agf_cmap_prevtr _ _ i h.2)
    have hxi := r4 i hi hmark hnp
    constructor
    · intro hnew
      show (agf_merge _ _ _ _ _).2.xlat i = _
      rw [hxi]
      obtain ⟨t, ht⟩ := seen_colors_prefix (agf_cmap (agf_prepare K stat settings) settings)
        (agf_prev_pal (agf_prepare K stat settings))
        (agf_pal (agf_prepare K stat settings) settings).1 (i + 1) (512 - (i + 1))
      rw [show i + 1 + (512 - (i + 1)) = 512 by omega] at ht
      rw [ht, seen_colors_succ_marked_new _ _ _ _ ⟨hmark, hnew⟩, List.append_assoc,
        List.indexOf_append_of_not_mem hnew]
      simp [List.indexOf_cons]
    · intro j hj hmj hcol
      have hnpj : ¬ (agf_cmap (agf_prepare K stat settings) settings 512 ≠ 0 ∧
          agf_prevtr (agf_prepare K stat settings) = (j : Int)) :=
        fun h => hmj (agf_cmap_prevtr _ _ j h.2)
      show (agf_merge _ _ _ _ _).2.xlat i = (agf_merge _ _ _ _ _).2.xlat j
      rw [hxi, r4 j (by omega) hmj hnpj, hcol]
  · intro hbg
    refine ⟨?_, r3 hbg, ?_⟩
    · show (agf_merge _ _ _ _ _).2.newtrans = _
      rw [r2, if_pos hbg]
    · show (agf_merge _ _ _ _ _).2.newcols = _
      rw [r1, if_pos hbg]
  · intro hbg
    show (agf_merge _ _ _ _ _).2.newcols = _
    rw [r1, if_neg (not_not.mpr hbg)]
    simp

/-- Witness for `analyze_gif_frame_merged_palette`: the underlay palette
{red, green, blue} and the new palette {yellow, cyan, magenta} with a one-pixel
hole give the slots 0-2 and 3-5 and the transparency slot 6. -/
theorem analyze_gif_frame_merged_palette_witness :
    agf_takes_merge consts_default merge_stat merge_settings = true ∧
    (analyze_gif_frame consts_default merge_stat merge_settings).1 = 1 ∧
    (List.range 3).map (analyze_gif_frame consts_default merge_stat merge_settings).2.xlat =
      [0, 1, 2] ∧
    (List.range 3).map (fun i =>
      (analyze_gif_frame consts_default merge_stat merge_settings).2.xlat (256 + i)) =
      [3, 4, 5] ∧
    (analyze_gif_frame consts_default merge_stat merge_settings).2.newtrans = 6 ∧
    (agf_cmap (agf_prepare consts_default merge_stat merge_settings) merge_settings 512 ≠ 0 →
      (analyze_gif_frame consts_default merge_stat merge_settings).2.newtrans =
        ((seen_colors (agf_cmap (agf_prepare consts_default merge_stat merge_settings)
            merge_settings)
          (agf_prev_pal (agf_prepare consts_default merge_stat merge_settings))
          (agf_pal (agf_prepare consts_default merge_stat merge_settings) merge_settings).1
          512).length : Int) ∧
      (analyze_gif_frame consts_default merge_stat merge_settings).2.xlat 512 =
        (seen_colors (agf_cmap (agf_prepare consts_default merge_stat merge_settings)
            merge_settings)
          (agf_prev_pal (agf_prepare consts_default merge_stat merge_settings))
          (agf_pal (agf_prepare consts_default merge_stat merge_settings) merge_settings).1
          512).length ∧
      (analyze_gif_frame consts_default merge_stat merge_settings).2.newcols =
        (((seen_colors (agf_cmap (agf_prepare consts_default merge_stat merge_settings)
            merge_settings)
          (agf_prev_pal (agf_prepare consts_default merge_stat merge_settings))
          (agf_pal (agf_prepare consts_default merge_stat merge_settings) merge_settings).1
          512).length + 1 : Nat) : Int)) :=
  ⟨by decide!, by decide!, by decide!, by decide!, by decide!,
   (analyze_gif_frame_merged_palette consts_default merge_stat merge_settings (by decide!)
      (Or.inr (by decide!))).2.1⟩

/-! ## Palette reconciliation: indexed or not -/

/-! ### The colours bitmap -/

theorem agf_scan_row_apply (lmap : Nat → Nat) (tp : Int) (fgbuf bgbuf : List Nat)
    (bmask : Nat) (fg bg : Int) (n : Nat) :
    ∀ (x : Nat) (cmap : Nat → Nat) (k : Nat),
      agf_scan_row lmap tp fgbuf bgbuf bmask fg bg n x cmap k =
        if ∃ a, a < n ∧ ext_index (lmap (x + a) &&& bmask) tp
            (peek fgbuf (fg + (x + a : Nat))) (peek bgbuf (bg + (x + a : Nat))) = k
        then 1 else cmap k := by
  induction n with
  | zero =>
    intro x cmap k
    rw [agf_scan_row, if_neg]
    rintro ⟨a, ha, _⟩
    omega
  | succ n ih =>
    intro x cmap k
    rw [agf_scan_row, ih]
    by_cases h : ∃ a, a < n ∧ ext_index (lmap (x + 1 + a) &&& bmask) tp
        (peek fgbuf (fg + (x + 1 + a : Nat))) (peek bgbuf (bg + (x + 1 + a : Nat))) = k
    · rw [if_pos h, if_pos]
      obtain ⟨a, ha, he⟩ := h
      refine ⟨a + 1, by omega, ?_⟩
      rw [show x + (a + 1) = x + 1 + a by omega]
      exact he
    · rw [if_neg h]
      by_cases h0 : ext_index (lmap x &&& bmask) tp (peek fgbuf (fg + x)) (peek bgbuf (bg + x)) = k
      · rw [h0, Function.update_same, if_pos]
        exact ⟨0, by omega, by simpa using h0⟩
      · rw [Function.update_noteq (Ne.symm h0), if_neg]
        rintro ⟨a, ha, he⟩
        cases a with
        | zero => exact h0 (by simpa using he)
        | succ a =>
          apply h
          refine ⟨a, by omega, ?_⟩
          rw [show x + 1 + a = x + (a + 1) by omega]
          exact he

theorem agf_scan_rows_apply (lmap : Nat → Nat) (tp : Int) (fgbuf bgbuf : List Nat)
    (ww : Nat) (fgw bgw : Int) (m : Nat) :
    ∀ (y : Nat) (fg bg : Int) (cmap : Nat → Nat) (k : Nat),
      ((∃ j a, j < m ∧ a < ww ∧ ext_index (lmap a &&& (lmap (y + j) >>> 4)) tp
            (peek fgbuf (fg + j * fgw + a)) (peek bgbuf (bg + j * bgw + a)) = k) →
        agf_scan_rows lmap tp fgbuf bgbuf ww fgw bgw m y fg bg cmap k = 1) ∧
      (¬ (∃ j a, j < m ∧ a < ww ∧ ext_index (lmap a &&& (lmap (y + j) >>> 4)) tp
            (peek fgbuf (fg + j * fgw + a)) (peek bgbuf (bg + j * bgw + a)) = k) →
        agf_scan_rows lmap tp fgbuf bgbuf ww fgw bgw m y fg bg cmap k = cmap k) := by
  induction m with
  | zero =>
    intro y fg bg cmap k
    constructor
    · rintro ⟨j, a, hj, _⟩
      omega
    · intro _
      rfl
  | succ m ih =>
    intro y fg bg cmap k
    rw [agf_scan_rows]
    obtain ⟨ih1, ih2⟩ := ih (y + 1) (fg + fgw) (bg + bgw)
      (agf_scan_row lmap tp fgbuf bgbuf (lmap y >>> 4) fg bg ww 0 cmap) k
    have hshift : ∀ j a : Nat,
        ext_index (lmap a &&& (lmap (y + (j + 1)) >>> 4)) tp
          (peek fgbuf (fg + ((j + 1 : Nat) : Int) * fgw + a))
          (peek bgbuf (bg + ((j + 1 : Nat) : Int) * bgw + a)) =
        ext_index (lmap a &&& (lmap (y + 1 + j) >>> 4)) tp
          (peek fgbuf (fg + fgw + j * fgw + a)) (peek bgbuf (bg + bgw + j * bgw + a)) := by
      intro j a
      rw [show y + (j + 1) = y + 1 + j by omega,
        show fg + ((j + 1 : Nat) : Int) * fgw + a = fg + fgw + j * fgw + a by push_cast; ring,
        show bg + ((j + 1 : Nat) : Int) * bgw + a = bg + bgw + j * bgw + a by push_cast; ring]
    have hzero : ∀ a : Nat,
        ext_index (lmap a &&& (lmap (y + 0) >>> 4)) tp
          (peek fgbuf (fg + ((0 : Nat) : Int) * fgw + a))
          (peek bgbuf (bg + ((0 : Nat) : Int) * bgw + a)) =
        ext_index (lmap (0 + a) &&& (lmap y >>> 4)) tp
          (peek fgbuf (fg + (0 + a : Nat))) (peek bgbuf (bg + (0 + a : Nat))) := by
      intro a
      simp only [Nat.zero_add, Nat.add_zero, Nat.cast_zero, zero_mul, add_zero]
    by_cases h : ∃ j a, j < m ∧ a < ww ∧ ext_index (lmap a &&& (lmap (y + 1 + j) >>> 4)) tp
        (peek fgbuf (fg + fgw + j * fgw + a)) (peek bgbuf (bg + bgw + j * bgw + a)) = k
    · constructor
      · intro _
        exact ih1 h
      · intro hn
        exfalso
        apply hn
        obtain ⟨j, a, hj, ha, he⟩ := h
        exact ⟨j + 1, a, by omega, ha, by rw [hshift]; exact he⟩
    · rw [ih2 h, agf_scan_row_apply]
      constructor
      · rintro ⟨j, a, hj, ha, he⟩
        rw [if_pos]
        cases j with
        | zero => exact ⟨a, ha, by rw [← hzero]; exact he⟩
        | succ j =>
          exfalso
          apply h
          exact ⟨j, a, by omega, ha, by rw [← hshift]; exact he⟩
      · intro hn
        rw [if_neg]
        rintro ⟨a, ha, he⟩
        apply hn
        exact ⟨0, a, by omega, ha, by rw [hzero]; exact he⟩

theorem mem_visible_indices (stat : ani_status) (settings : ls_settings) (k : Nat) :
    k ∈ visible_indices stat settings ↔
      ∃ x y, x < stat.defw ∧ y < stat.defh ∧ canvas_index stat settings x y = k := by
  unfold visible_indices
  simp only [Finset.mem_image, Finset.mem_product, Finset.mem_range, Prod.exists]
  constructor
  · rintro ⟨x, y, ⟨hx, hy⟩, h⟩
    exact ⟨x, y, hx, hy, h⟩
  · rintro ⟨x, y, hx, hy, h⟩
    exact ⟨x, y, ⟨hx, hy⟩, h⟩

/-- The scan marks exactly the extended indices that the canvas shows. -/
theorem agf_scan_apply (stat : ani_status) (settings : ls_settings) (k : Nat) :
    agf_scan stat settings k = if k ∈ visible_indices stat settings then 1 else 0 := by
  unfold agf_scan
  have hiff : (∃ j a, j < stat.defh ∧ a < stat.defw ∧
      ext_index (stat.lmap a &&& (stat.lmap (0 + j) >>> 4)) settings.xpm_trans
        (peek (settings.img.image.getD [])
          (-((settings.y : Int) * settings.width + settings.x) + j * (settings.width : Int) + a))
        (peek (stat.prev.img.image.getD [])
          (-((stat.prev.y : Int) * stat.prev.width + stat.prev.x) +
            j * (stat.prev.width : Int) + a)) = k) ↔
      k ∈ visible_indices stat settings := by
    rw [mem_visible_indices]
    have hpix : ∀ x y : Nat, canvas_index stat settings x y =
        ext_index (stat.lmap x &&& (stat.lmap (0 + y) >>> 4)) settings.xpm_trans
        (peek (settings.img.image.getD [])
          (-((settings.y : Int) * settings.width + settings.x) + y * (settings.width : Int) + x))
        (peek (stat.prev.img.image.getD [])
          (-((stat.prev.y : Int) * stat.prev.width + stat.prev.x) +
            y * (stat.prev.width : Int) + x)) := by
      intro x y
      unfold canvas_index underlay_pixel frame_pixel bflag
      rw [Nat.zero_add]
      congr 2 <;> ring
    constructor
    · rintro ⟨j, a, hj, ha, he⟩
      exact ⟨a, j, ha, hj, by rw [hpix]; exact he⟩
    · rintro ⟨x, y, hx, hy, he⟩
      exact ⟨y, x, hy, hx, by rw [← hpix]; exact he⟩
  obtain ⟨s1, s2⟩ := agf_scan_rows_apply stat.lmap settings.xpm_trans
    (settings.img.image.getD []) (stat.prev.img.image.getD []) stat.defw settings.width
    stat.prev.width stat.defh 0 (-((settings.y : Int) * settings.width + settings.x))
    (-((stat.prev.y : Int) * stat.prev.width + stat.prev.x)) (fun _ => 0) k
  by_cases h : k ∈ visible_indices stat settings
  · rw [if_pos h]
    exact s1 (hiff.mpr h)
  · rw [if_neg h]
    exact s2 (fun hh => h (hiff.mp hh))

/-- Below 512 the colours bitmap marks the visible indices other than the
underlayer's transparent colour. -/
theorem agf_cmap_ne_zero (stat : ani_status) (settings : ls_settings) (k : Nat) (hk : k < 512) :
    agf_cmap stat settings k ≠ 0 ↔
      (k ∈ visible_indices stat settings ∧ (k : Int) ≠ agf_prevtr stat) := by
  unfold agf_cmap agf_prevtr
  by_cases hp : stat.prev_idx ≠ 0
  · rw [if_pos hp, if_pos hp]
    unfold agf_move_trans
    by_cases ht : stat.prev.trans ≥ 0
    · rw [if_pos ht]
      by_cases hkp : k = stat.prev.trans.toNat
      · rw [hkp, Function.update_same]
        constructor
        · intro h; exact absurd rfl h
        · rintro ⟨_, h⟩
          exfalso
          apply h
          omega
      · rw [Function.update_noteq hkp, Function.update_noteq (by omega), agf_scan_apply]
        constructor
        · intro h
          refine ⟨by by_contra hn; rw [if_neg hn] at h; exact h rfl, by omega⟩
        · rintro ⟨h, _⟩
          rw [if_pos h]
          decide
    · rw [if_neg ht, agf_scan_apply]
      constructor
      · intro h
        refine ⟨by by_contra hn; rw [if_neg hn] at h; exact h rfl, by omega⟩
      · rintro ⟨h, _⟩
        rw [if_pos h]
        decide
  · rw [if_neg hp, if_neg hp, agf_scan_apply]
    constructor
    · intro h
      refine ⟨by by_contra hn; rw [if_neg hn] at h; exact h rfl, by omega⟩
    · rintro ⟨h, _⟩
      rw [if_pos h]
      decide

/-- The entries of the colours bitmap are 0 or 1. -/
theorem agf_cmap_bool (stat : ani_status) (settings : ls_settings) (k : Nat) :
    agf_cmap stat settings k = 0 ∨ agf_cmap stat settings k = 1 := by
  have hs : ∀ j, agf_scan stat settings j = 0 ∨ agf_scan stat settings j = 1 := by
    intro j
    rw [agf_scan_apply]
    split
    · exact Or.inr rfl
    · exact Or.inl rfl
  unfold agf_cmap agf_move_trans
  by_cases hp : stat.prev_idx ≠ 0
  · rw [if_pos hp]
    by_cases ht : stat.prev.trans ≥ 0
    · rw [if_pos ht]
      by_cases hkp : k = stat.prev.trans.toNat
      · rw [hkp, Function.update_same]
        exact Or.inl rfl
      · rw [Function.update_noteq hkp]
        by_cases hk : k = 512
        · rw [hk, Function.update_same]
          rcases hs 512 with h1 | h1 <;> rcases hs stat.prev.trans.toNat with h2 | h2 <;>
            rw [h1, h2] <;> decide
        · rw [Function.update_noteq hk]
          exact hs k
    · rw [if_neg ht]
      exact hs k
  · rw [if_neg hp]
    exact hs k

/-- The background entry of the colours bitmap tells whether background or
transparency is visible. -/
theorem agf_cmap_512 (stat : ani_status) (settings : ls_settings)
    (hptr : stat.prev.trans < 512) :
    agf_cmap stat settings 512 ≠ 0 ↔ background_visible stat settings := by
  unfold agf_cmap background_visible agf_prevtr
  by_cases hp : stat.prev_idx ≠ 0
  · rw [if_pos hp, if_pos hp]
    unfold agf_move_trans
    by_cases ht : stat.prev.trans ≥ 0
    · rw [if_pos ht, Function.update_noteq (by omega), Function.update_same, agf_scan_apply,
        agf_scan_apply]
      have hex : (∃ e : Nat, e ∈ visible_indices stat settings ∧ (e : Int) = stat.prev.trans) ↔
          stat.prev.trans.toNat ∈ visible_indices stat settings := by
        constructor
        · rintro ⟨e, he, h⟩
          have : e = stat.prev.trans.toNat := by omega
          rw [← this]
          exact he
        · intro h
          exact ⟨_, h, by omega⟩
      rw [hex]
      by_cases h1 : 512 ∈ visible_indices stat settings <;>
        by_cases h2 : stat.prev.trans.toNat ∈ visible_indices stat settings <;>
        simp [h1, h2]
    · rw [if_neg ht, agf_scan_apply]
      have hex : ¬ (∃ e : Nat, e ∈ visible_indices stat settings ∧ (e : Int) = stat.prev.trans) := by
        rintro ⟨e, _, h⟩
        omega
      by_cases h1 : 512 ∈ visible_indices stat settings <;> simp [h1, hex]
  · rw [if_neg hp, if_neg hp, agf_scan_apply]
    have hex : ¬ (∃ e : Nat, e ∈ visible_indices stat settings ∧ (e : Int) = -1) := by
      rintro ⟨e, _, h⟩
      omega
    by_cases h1 : 512 ∈ visible_indices stat settings <;> simp [h1, hex]

/-! ### The palette check -/

theorem bit_clear_small (u t : Nat) (hu : u < 4) (ht : t < 4) :
    bit_clear u t < 4 ∧
    (2 ≤ bit_clear u t ↔ (2 ≤ u ∧ t < 2)) ∧
    (bit_clear u t % 2 = 1 ↔ (u % 2 = 1 ∧ t % 2 = 0)) := by
  interval_cases u <;> interval_cases t <;> decide

/-- The palette check: bit 1 of the result survives iff no underlayer colour in
use mismatches, bit 0 iff no colour in use of the new frame does. -/
theorem agf_pal_loop_spec (cmap : Nat → Nat) (prev pal : palette) (k : Int)
    (hc : ∀ j, cmap j = 0 ∨ cmap j = 1) (n : Nat) :
    ∀ (i ul : Nat), ul < 4 →
      agf_pal_loop cmap prev pal k n i ul < 4 ∧
      (2 ≤ agf_pal_loop cmap prev pal k n i ul ↔
        (2 ≤ ul ∧ ∀ j, i ≤ j → j < i + n → cmap j ≠ 0 →
          ¬ ((j : Int) ≥ k ∨ PNG_2_INT (prev j) ≠ PNG_2_INT (pal j)))) ∧
      (agf_pal_loop cmap prev pal k n i ul % 2 = 1 ↔
        (ul % 2 = 1 ∧ ∀ j, i ≤ j → j < i + n → cmap (256 + j) ≠ 0 →
          ¬ ((j : Int) ≥ k ∨ PNG_2_INT (prev j) ≠ PNG_2_INT (pal j)))) := by
  induction n with
  | zero =>
    intro i ul hul
    rw [agf_pal_loop]
    refine ⟨hul, ⟨fun h => ⟨h, fun j h1 h2 => by omega⟩, fun h => h.1⟩,
      ⟨fun h => ⟨h, fun j h1 h2 => by omega⟩, fun h => h.1⟩⟩
  | succ n ih =>
    intro i ul hul
    rw [agf_pal_loop]
    by_cases h0 : ul = 0
    · rw [if_pos h0, h0]
      refine ⟨by omega, ⟨fun h => by omega, fun h => by omega⟩,
        ⟨fun h => by omega, fun h => by omega⟩⟩
    · rw [if_neg h0]
      dsimp only
      have htf : cmap i * 2 + cmap (256 + i) < 4 := by
        rcases hc i with h1 | h1 <;> rcases hc (256 + i) with h2 | h2 <;> rw [h1, h2] <;> decide
      obtain ⟨b1, b2, b3⟩ := bit_clear_small ul (cmap i * 2 + cmap (256 + i)) hul htf
      by_cases hmm : (i : Int) ≥ k ∨ PNG_2_INT (prev i) ≠ PNG_2_INT (pal i)
      · by_cases htf0 : cmap i * 2 + cmap (256 + i) ≠ 0
        · rw [if_pos ⟨htf0, hmm⟩]
          obtain ⟨r1, r2, r3⟩ := ih (i + 1) _ b1
          refine ⟨r1, ?_, ?_⟩
          · rw [r2, b2]
            constructor
            · rintro ⟨⟨hu, ht⟩, hall⟩
              refine ⟨hu, ?_⟩
              intro j h1 h2 h3
              by_cases hji : j = i
              · subst hji
                exfalso
                rcases hc j with h4 | h4
                · exact h3 h4
                · rw [h4] at ht
                  omega
              · exact hall j (by omega) (by omega) h3
            · rintro ⟨hu, hall⟩
              refine ⟨⟨hu, ?_⟩, fun j h1 h2 h3 => hall j (by omega) (by omega) h3⟩
              have hci : cmap i = 0 := by
                by_contra hne
                exact hall i (le_refl i) (by omega) hne hmm
              rw [hci]
              rcases hc (256 + i) with h4 | h4 <;> rw [h4] <;> decide
          · rw [r3, b3]
            constructor
            · rintro ⟨⟨hu, ht⟩, hall⟩
              refine ⟨hu, ?_⟩
              intro j h1 h2 h3
              by_cases hji : j = i
              · subst hji
                exfalso
                rcases hc (256 + j) with h4 | h4
                · exact h3 h4
                · rw [h4] at ht
                  omega
              · exact hall j (by omega) (by omega) h3
            · rintro ⟨hu, hall⟩
              refine ⟨⟨hu, ?_⟩, fun j h1 h2 h3 => hall j (by omega) (by omega) h3⟩
              have hci : cmap (256 + i) = 0 := by
                by_contra hne
                exact hall i (le_refl i) (by omega) hne hmm
              rw [hci]
              omega
        · rw [if_neg (fun h => htf0 h.1)]
          have hz : cmap i = 0 ∧ cmap (256 + i) = 0 := by
            rcases hc i with h1 | h1 <;> rcases hc (256 + i) with h2 | h2 <;>
              rw [h1, h2] at htf0 <;> simp at htf0
            exact ⟨h1, h2⟩
          obtain ⟨r1, r2, r3⟩ := ih (i + 1) ul hul
          refine ⟨r1, ?_, ?_⟩
          · rw [r2]
            constructor
            · rintro ⟨hu, hall⟩
              refine ⟨hu, ?_⟩
              intro j h1 h2 h3
              by_cases hji : j = i
              · subst hji
                exact absurd hz.1 h3
              · exact hall j (by omega) (by omega) h3
            · rintro ⟨hu, hall⟩
              exact ⟨hu, fun j h1 h2 h3 => hall j (by omega) (by omega) h3⟩
          · rw [r3]
            constructor
            · rintro ⟨hu, hall⟩
              refine ⟨hu, ?_⟩
              intro j h1 h2 h3
              by_cases hji : j = i
              · subst hji
                exact absurd hz.2 h3
              · exact hall j (by omega) (by omega) h3
            · rintro ⟨hu, hall⟩
              exact ⟨hu, fun j h1 h2 h3 => hall j (by omega) (by omega) h3⟩
      · rw [if_neg (fun h => hmm h.2)]
        obtain ⟨r1, r2, r3⟩ := ih (i + 1) ul hul
        refine ⟨r1, ?_, ?_⟩
        · rw [r2]
          constructor
          · rintro ⟨hu, hall⟩
            refine ⟨hu, ?_⟩
            intro j h1 h2 h3
            by_cases hji : j = i
            · subst hji
              exact hmm
            · exact hall j (by omega) (by omega) h3
          · rintro ⟨hu, hall⟩
            exact ⟨hu, fun j h1 h2 h3 => hall j (by omega) (by omega) h3⟩
        · rw [r3]
          constructor
          · rintro ⟨hu, hall⟩
            refine ⟨hu, ?_⟩
            intro j h1 h2 h3
            by_cases hji : j = i
            · subst hji
              exact hmm
            · exact hall j (by omega) (by omega) h3
          · rintro ⟨hu, hall⟩
            exact ⟨hu, fun j h1 h2 h3 => hall j (by omega) (by omega) h3⟩

/-! ### Placing the transparent colour -/

theorem agf_find_slot_spec (cmap : Nat → Nat) (n : Nat) :
    ∀ i, -1 ≤ agf_find_slot cmap n i ∧
      (0 ≤ agf_find_slot cmap n i →
        (agf_find_slot cmap n i).toNat < i + n ∧
        cmap (agf_find_slot cmap n i).toNat ||| cmap ((agf_find_slot cmap n i).toNat + 256) = 0) := by
  induction n with
  | zero =>
    intro i
    rw [agf_find_slot]
    exact ⟨le_refl _, fun h => by omega⟩
  | succ n ih =>
    intro i
    rw [agf_find_slot]
    by_cases h : cmap i ||| cmap (i + 256) = 0
    · rw [if_pos h]
      refine ⟨by omega, fun _ => ⟨by simp, by simpa using h⟩⟩
    · rw [if_neg h]
      obtain ⟨h1, h2⟩ := ih (i + 1)
      exact ⟨h1, fun h0 => ⟨by have := (h2 h0).1; omega, (h2 h0).2⟩⟩

/-- When background is visible and a transparent slot is had, either some slot
below the palette size is unused, or the palette has room for one more. -/
theorem agf_place_trans_some (stat : ani_status) (cmap : Nat → Nat) (prevtr tp : Int)
    (st : ani_status) (hbg : cmap 512 ≠ 0) (h : agf_place_trans stat cmap prevtr tp = some st) :
    (∃ l : Nat, (l : Int) < stat.newcols ∧ cmap l ||| cmap (l + 256) = 0) ∨
      stat.newcols < 256 := by
  unfold agf_place_trans at h
  rw [if_pos hbg] at h
  simp only at h
  have hfree : ∀ l : Int, agf_slot_taken cmap stat.newcols l = false →
      ∃ l' : Nat, (l' : Int) < stat.newcols ∧ cmap l' ||| cmap (l' + 256) = 0 := by
    intro l hl
    unfold agf_slot_taken at hl
    simp only [Bool.or_eq_false_iff, decide_eq_false_iff_not, not_lt, ge_iff_le, not_le,
      ne_eq, not_not] at hl
    exact ⟨l.toNat, by omega, hl.2⟩
  by_cases hneg : (if agf_slot_taken cmap stat.newcols
      (if agf_slot_taken cmap stat.newcols prevtr = true then tp else prevtr) = true
      then agf_find_slot cmap stat.newcols.toNat 0
      else if agf_slot_taken cmap stat.newcols prevtr = true then tp else prevtr) < 0
  · rw [if_pos hneg] at h
    by_cases hnc : stat.newcols ≥ 256
    · rw [if_pos hnc] at h
      cases h
    · right
      omega
  · left
    by_cases ht1 : agf_slot_taken cmap stat.newcols
        (if agf_slot_taken cmap stat.newcols prevtr = true then tp else prevtr) = true
    · rw [if_pos ht1] at hneg
      obtain ⟨_, f2⟩ := agf_find_slot_spec cmap stat.newcols.toNat 0
      obtain ⟨g1, g2⟩ := f2 (by omega)
      exact ⟨_, by omega, g2⟩
    · exact hfree _ (by simpa using ht1)

/-! ### Counting the colours -/

theorem memchr_256_iff (cmap : Nat → Nat) :
    memchr_256 cmap = true ↔ ∃ i, i < 256 ∧ cmap i = 1 := by
  unfold memchr_256
  simp only [List.any_eq_true, List.mem_range, beq_iff_eq]

/-- The colours seen by the combined palette loop are the visible colours. -/
theorem seen_colors_card (stat : ani_status) (settings : ls_settings) :
    (seen_colors (agf_cmap stat settings) (agf_prev_pal stat) (agf_pal stat settings).1
      512).length = (visible_colors stat settings).card := by
  rw [← List.toFinset_card_of_nodup (seen_colors_nodup _ _ _ _)]
  congr 1
  ext v
  rw [List.mem_toFinset, mem_seen_colors]
  unfold visible_colors
  simp only [Finset.mem_image, Finset.mem_filter]
  constructor
  · rintro ⟨j, hj, hm, hc⟩
    exact ⟨j, ⟨((agf_cmap_ne_zero stat settings j hj).mp hm).1, hj,
      ((agf_cmap_ne_zero stat settings j hj).mp hm).2⟩, hc⟩
  · rintro ⟨j, ⟨hv, hj, hp⟩, hc⟩
    exact ⟨j, hj, (agf_cmap_ne_zero stat settings j hj).mpr ⟨hv, hp⟩, hc⟩

theorem colors_needed_eq (stat : ani_status) (settings : ls_settings)
    (hptr : stat.prev.trans < 512) :
    colors_needed stat settings =
      (seen_colors (agf_cmap stat settings) (agf_prev_pal stat) (agf_pal stat settings).1
        512).length + (if agf_cmap stat settings 512 ≠ 0 then 1 else 0) := by
  unfold colors_needed
  rw [seen_colors_card]
  congr 1
  by_cases h : background_visible stat settings
  · rw [if_pos h, if_pos ((agf_cmap_512 stat settings hptr).mpr h)]
  · rw [if_neg h, if_neg (fun hh => h ((agf_cmap_512 stat settings hptr).mp hh))]

theorem lor_eq_zero (a b : Nat) (h : a ||| b = 0) : a = 0 ∧ b = 0 := by
  constructor
  · apply Nat.eq_of_testBit_eq
    intro i
    have := congrArg (fun n => Nat.testBit n i) h
    simp only [Nat.testBit_lor, Nat.zero_testBit, Bool.or_eq_false_iff] at this ⊢
    exact this.1
  · apply Nat.eq_of_testBit_eq
    intro i
    have := congrArg (fun n => Nat.testBit n i) h
    simp only [Nat.testBit_lor, Nat.zero_testBit, Bool.or_eq_false_iff] at this ⊢
    exact this.2

theorem used_slots_card_le (cmap : Nat → Nat) : (used_slots cmap).card ≤ 256 := by
  have := Finset.card_le_card (Finset.filter_subset
    (fun i => cmap i ≠ 0 ∨ cmap (256 + i) ≠ 0) (Finset.range 256))
  simpa [used_slots] using this

theorem used_slots_card_free (cmap : Nat → Nat) (l : Nat) (hl : l < 256)
    (hfree : cmap l ||| cmap (l + 256) = 0) : (used_slots cmap).card ≤ 255 := by
  have h0 := lor_eq_zero _ _ hfree
  have hsub : used_slots cmap ⊆ (Finset.range 256).erase l := by
    intro i hi
    unfold used_slots at hi
    simp only [Finset.mem_filter, Finset.mem_range] at hi
    rw [Finset.mem_erase, Finset.mem_range]
    refine ⟨?_, hi.1⟩
    rintro rfl
    rcases hi.2 with h | h
    · exact h h0.1
    · rw [Nat.add_comm] at h
      exact h h0.2
  have := Finset.card_le_card hsub
  rw [Finset.card_erase_of_mem (Finset.mem_range.mpr hl), Finset.card_range] at this
  exact this

theorem used_slots_card_below (cmap : Nat → Nat) (nc : Int) (hnc : nc < 256)
    (h : ∀ i, i < 256 → (cmap i ≠ 0 ∨ cmap (256 + i) ≠ 0) → (i : Int) < nc) :
    (used_slots cmap).card ≤ 255 := by
  have hsub : used_slots cmap ⊆ Finset.range nc.toNat := by
    intro i hi
    unfold used_slots at hi
    simp only [Finset.mem_filter, Finset.mem_range] at hi
    rw [Finset.mem_range]
    have := h i hi.1 hi.2
    omega
  have := Finset.card_le_card hsub
  rw [Finset.card_range] at this
  omega

/-- When one palette `g` gives every marked index its colour, the visible
colours are at most as many as the palette slots in use. -/
theorem visible_colors_card_le (stat : ani_status) (settings : ls_settings) (g : Nat → Nat)
    (hlow : ∀ e, e < 256 → agf_cmap stat settings e ≠ 0 →
      PNG_2_INT (agf_prev_pal stat e) = g e)
    (hhigh : ∀ i, i < 256 → agf_cmap stat settings (256 + i) ≠ 0 →
      PNG_2_INT ((agf_pal stat settings).1 i) = g i) :
    (visible_colors stat settings).card ≤ (used_slots (agf_cmap stat settings)).card := by
  have hsub : visible_colors stat settings ⊆ (used_slots (agf_cmap stat settings)).image g := by
    intro v hv
    unfold visible_colors at hv
    simp only [Finset.mem_image, Finset.mem_filter] at hv
    obtain ⟨e, ⟨he, he512, hep⟩, hc⟩ := hv
    have hm := (agf_cmap_ne_zero stat settings e he512).mpr ⟨he, hep⟩
    rw [Finset.mem_image]
    unfold ext_color at hc
    by_cases hlt : e < 256
    · refine ⟨e, ?_, ?_⟩
      · unfold used_slots
        simp only [Finset.mem_filter, Finset.mem_range]
        exact ⟨hlt, Or.inl hm⟩
      · rw [if_pos hlt] at hc
        rw [← hlow e hlt hm, hc]
    · have he2 : e = 256 + (e - 256) := by omega
      refine ⟨e - 256, ?_, ?_⟩
      · unfold used_slots
        simp only [Finset.mem_filter, Finset.mem_range]
        refine ⟨by omega, Or.inr ?_⟩
        rw [← he2]
        exact hm
      · rw [if_neg hlt] at hc
        rw [← hhigh (e - 256) (by omega) (by rw [← he2]; exact hm), hc]
  exact le_trans (Finset.card_le_card hsub) Finset.card_image_le

/-- What the palette check guarantees about the marked indices, given that
every visible pixel value is below its own palette's size. -/
theorem agf_ul_spec (stat : ani_status) (settings : ls_settings)
    (hnounder : stat.prev_idx = 0 → ∀ e, e < 256 → agf_cmap stat settings e = 0)
    (hP : ∀ e, e < 512 → agf_cmap stat settings e ≠ 0 →
      (e < 256 → (e : Int) < agf_lprev stat) ∧
      (256 ≤ e → ((e - 256 : Nat) : Int) < (agf_pal stat settings).2)) :
    agf_ul stat settings < 4 ∧
    ((¬ (agf_show_under stat settings = true ∧ agf_ul stat settings = 1) →
      agf_ul stat settings ≠ 0 →
      ∀ e, e < 256 → agf_cmap stat settings e ≠ 0 →
        ((e : Int) < (agf_pal stat settings).2 ∧
          PNG_2_INT (agf_prev_pal stat e) = PNG_2_INT ((agf_pal stat settings).1 e))) ∧
     ((agf_show_under stat settings = true ∧ agf_ul stat settings = 1) →
      ∀ i, i < 256 → agf_cmap stat settings (256 + i) ≠ 0 →
        ((i : Int) < agf_lprev stat ∧
          PNG_2_INT (agf_prev_pal stat i) = PNG_2_INT ((agf_pal stat settings).1 i)))) := by
  by_cases hsu : agf_show_under stat settings = true
  · -- the underlayer is visible: the loop decides
    have hul : agf_ul stat settings =
        agf_pal_loop (agf_cmap stat settings) (agf_prev_pal stat) (agf_pal stat settings).1
          (if agf_lprev stat > (agf_pal stat settings).2 then (agf_pal stat settings).2
            else agf_lprev stat)
          (if agf_lprev stat > (agf_pal stat settings).2 then agf_lprev stat
            else (agf_pal stat settings).2).toNat 0 3 := by
      unfold agf_ul
      simp only [hsu, if_true]
    obtain ⟨r1, r2, r3⟩ := agf_pal_loop_spec (agf_cmap stat settings) (agf_prev_pal stat)
      (agf_pal stat settings).1
      (if agf_lprev stat > (agf_pal stat settings).2 then (agf_pal stat settings).2
        else agf_lprev stat) (agf_cmap_bool stat settings)
      (if agf_lprev stat > (agf_pal stat settings).2 then agf_lprev stat
        else (agf_pal stat settings).2).toNat 0 3 (by omega)
    rw [← hul] at r1 r2 r3
    refine ⟨r1, ?_, ?_⟩
    · intro hn1 hn0 e he hm
      have h2 : 2 ≤ agf_ul stat settings := by
        by_contra hlt
        have : agf_ul stat settings = 1 := by omega
        exact hn1 ⟨hsu, this⟩
      have hA := (r2.mp h2).2 e (Nat.zero_le e) (by
        have := (hP e (by omega) hm).1 he
        split <;> omega) hm
      simp only [not_or, not_le, ne_eq, not_not, ge_iff_le] at hA
      refine ⟨?_, hA.2⟩
      have := hA.1
      split at this <;> omega
    · rintro ⟨_, h1⟩ i hi hm
      have hB := (r3.mp (by omega)).2 i (Nat.zero_le i) (by
        have := (hP (256 + i) (by omega) hm).2 (by omega)
        have e : 256 + i - 256 = i := by omega
        rw [e] at this
        split <;> omega) hm
      simp only [not_or, not_le, ne_eq, not_not, ge_iff_le] at hB
      refine ⟨?_, hB.2⟩
      have := hB.1
      split at this <;> omega
  · -- the underlayer is not visible: the new palette is taken
    have hul : agf_ul stat settings = 2 := by
      unfold agf_ul
      simp only [hsu, if_false, Bool.false_eq_true]
    have hnone : ∀ e, e < 256 → agf_cmap stat settings e = 0 := by
      intro e he
      by_cases hp : stat.prev_idx = 0
      · exact hnounder hp e he
      · have hmem : ¬ memchr_256 (agf_cmap stat settings) = true := by
          intro hmc
          apply hsu
          unfold agf_show_under
          simp [hp, hmc]
        rw [memchr_256_iff] at hmem
        rcases agf_cmap_bool stat settings e with h | h
        · exact h
        · exact absurd ⟨e, he, h⟩ hmem
    refine ⟨by omega, ?_, ?_⟩
    · intro _ _ e he hm
      exact absurd (hnone e he) hm
    · rintro ⟨h, _⟩
      exact absurd h hsu

/-- When a single palette is kept, at most 256 palette entries are needed. -/
theorem agf_single_some_bound (stat : ani_status) (settings : ls_settings) (st2 : ani_status)
    (hptr : stat.prev.trans < 512)
    (hcols : stat.newcols = (agf_pal stat settings).2 ∧ (agf_pal stat settings).2 ≤ 256 ∧
      agf_lprev stat ≤ 256)
    (hnounder : stat.prev_idx = 0 → ∀ e, e < 256 → agf_cmap stat settings e = 0)
    (hP : ∀ e, e < 512 → agf_cmap stat settings e ≠ 0 →
      (e < 256 → (e : Int) < agf_lprev stat) ∧
      (256 ≤ e → ((e - 256 : Nat) : Int) < (agf_pal stat settings).2))
    (hs : agf_single stat settings = some st2) :
    colors_needed stat settings ≤ 256 := by
  obtain ⟨u1, u2, u3⟩ := agf_ul_spec stat settings hnounder hP
  unfold agf_single at hs
  have hul0 : agf_ul stat settings ≠ 0 := by
    intro h0
    rw [if_neg (not_not.mpr h0)] at hs
    cases hs
  rw [if_pos hul0] at hs
  rw [colors_needed_eq stat settings hptr, seen_colors_card]
  -- the visible colours are at most as many as the slots in use
  have hcard : (visible_colors stat settings).card ≤
      (used_slots (agf_cmap stat settings)).card := by
    by_cases hold : agf_show_under stat settings = true ∧ agf_ul stat settings = 1
    · apply visible_colors_card_le stat settings (fun i => PNG_2_INT (agf_prev_pal stat i))
      · intro e _ _
        rfl
      · intro i hi hm
        exact ((u3 hold i hi hm).2).symm
    · apply visible_colors_card_le stat settings
        (fun i => PNG_2_INT ((agf_pal stat settings).1 i))
      · intro e he hm
        exact (u2 hold hul0 e he hm).2
      · intro i _ _
        rfl
  by_cases hbg : agf_cmap stat settings 512 ≠ 0
  · rw [if_pos hbg]
    have h255 : (used_slots (agf_cmap stat settings)).card ≤ 255 := by
      rcases agf_place_trans_some _ _ _ _ _ hbg hs with ⟨l, hl, hfree⟩ | hnc
      · apply used_slots_card_free _ l _ hfree
        have hle : (agf_stat1 stat settings).newcols ≤ 256 := by
          unfold agf_stat1
          split
          · exact hcols.2.2
          · rw [hcols.1]; exact hcols.2.1
        omega
      · apply used_slots_card_below _ _ hnc
        intro i hi hm
        by_cases hold : agf_show_under stat settings = true ∧ agf_ul stat settings = 1
        · have hn : (agf_stat1 stat settings).newcols = agf_lprev stat := by
            unfold agf_stat1
            rw [if_pos hold]
          rw [hn]
          rcases hm with hm | hm
          · exact (hP i (by omega) hm).1 hi
          · exact (u3 hold i hi hm).1
        · have hn : (agf_stat1 stat settings).newcols = (agf_pal stat settings).2 := by
            unfold agf_stat1
            rw [if_neg hold, hcols.1]
          rw [hn]
          rcases hm with hm | hm
          · exact (u2 hold hul0 i hi hm).1
          · have := (hP (256 + i) (by omega) hm).2 (by omega)
            have e : 256 + i - 256 = i := by omega
            rw [e] at this
            exact this
    omega
  · rw [if_neg hbg]
    have := used_slots_card_le (agf_cmap stat settings)
    omega

/-- The second half of the analysis keeps the output indexed iff at most 256
palette entries are needed. -/
theorem agf_decide_indexed_iff (stat : ani_status) (settings : ls_settings)
    (hunder : stat.prev_idx ≠ 0 → stat.prev.bpp = 1)
    (hptr : stat.prev.trans < 512)
    (hcols : stat.newcols = (agf_pal stat settings).2 ∧ (agf_pal stat settings).2 ≤ 256 ∧
      agf_lprev stat ≤ 256)
    (hnounder : stat.prev_idx = 0 → ∀ e, e < 256 → agf_cmap stat settings e = 0)
    (hP : ∀ e, e < 512 → agf_cmap stat settings e ≠ 0 →
      (e < 256 → (e : Int) < agf_lprev stat) ∧
      (256 ≤ e → ((e - 256 : Nat) : Int) < (agf_pal stat settings).2)) :
    (((agf_decide stat settings).1 = 0 ∨ (agf_decide stat settings).1 = 1) ↔
      colors_needed stat settings ≤ 256) ∧
    (¬ colors_needed stat settings ≤ 256 →
      ((agf_decide stat settings).1 = 3 ∨ (agf_decide stat settings).1 = 4)) := by
  have hrgb : ¬ (agf_show_under stat settings = true ∧ stat.prev.bpp = 3) := by
    rintro ⟨hsu, h3⟩
    unfold agf_show_under at hsu
    simp only [Bool.and_eq_true, decide_eq_true_eq] at hsu
    have := hunder hsu.1
    omega
  have hcode : ∀ b : Bool, ((if b = true then (0 : Int) else 1) = 0 ∨
      (if b = true then (0 : Int) else 1) = 1) := by
    intro b
    cases b <;> simp
  cases hs : agf_single stat settings with
  | some st2 =>
    have hb := agf_single_some_bound stat settings st2 hptr hcols hnounder hP hs
    have hd : agf_decide stat settings = (if same_size stat settings then 0 else 1, st2) := by
      unfold agf_decide
      simp only [if_neg hrgb, hs]
    rw [hd]
    exact ⟨⟨fun _ => hb, fun _ => hcode _⟩, fun h => absurd hb h⟩
  | none =>
    rw [agf_decide_merge stat settings hrgb hs, colors_needed_eq stat settings hptr,
      ← agf_merge_success_iff (agf_stat1 stat settings) (agf_cmap stat settings)
        (agf_prev_pal stat) (agf_pal stat settings).1 (agf_prevtr stat)]
    by_cases hm : (agf_merge (agf_stat1 stat settings) (agf_cmap stat settings)
        (agf_prev_pal stat) (agf_pal stat settings).1 (agf_prevtr stat)).1 = true
    · rw [if_pos hm]
      exact ⟨⟨fun _ => hm, fun _ => hcode _⟩, fun h => absurd hm h⟩
    · rw [if_neg hm]
      refine ⟨⟨fun h => ?_, fun h => absurd h hm⟩, fun _ => agf_rgb_code _ _ _⟩
      exfalso
      rcases agf_rgb_code (agf_merge (agf_stat1 stat settings) (agf_cmap stat settings)
        (agf_prev_pal stat) (agf_pal stat settings).1 (agf_prevtr stat)).2
        (agf_cmap stat settings) (agf_show_under stat settings) with h3 | h3 <;>
        rw [h3] at h <;> omega

/-! ### The whole analysis -/

theorem peek_lt_256 (buf : List Nat) (h : ∀ b ∈ buf, b < 256) (i : Int) : peek buf i < 256 := by
  unfold peek
  split
  · decide
  · rw [List.getD_eq_getElem?_getD]
    cases hg : buf[i.toNat]? with
    | none => simp
    | some b =>
      simp only [Option.getD_some]
      exact h b (List.getElem?_mem hg)

theorem agf_prepare_lmap (K : consts) (stat : ani_status) (settings : ls_settings) :
    (agf_prepare K stat settings).lmap =
      (ani_map_frame K.MAX_WIDTH K.MAX_HEIGHT
        { stat with newpal := (agf_pal stat settings).1, newcols := (agf_pal stat settings).2,
                    newtrans := settings.xpm_trans } settings).lmap := rfl

theorem same_size_iff (stat : ani_status) (settings : ls_settings) :
    same_size stat settings = true ↔
      (settings.x = 0 ∧ settings.y = 0 ∧ stat.defw = settings.width ∧
        stat.defh = settings.height) := by
  unfold same_size
  simp only [decide_eq_true_eq]
  constructor
  · intro h
    obtain ⟨h1, h2⟩ := lor_eq_zero _ _ h
    obtain ⟨h3, h4⟩ := lor_eq_zero _ _ h1
    obtain ⟨h5, h6⟩ := lor_eq_zero _ _ h3
    exact ⟨h5, h6, Nat.xor_eq_zero.mp h4, Nat.xor_eq_zero.mp h2⟩
  · rintro ⟨h1, h2, h3, h4⟩
    rw [h1, h2, h3, h4]
    simp

/-- The extended index of a canvas pixel in the prepared state, by region bits. -/
theorem canvas_index_prepared (K : consts) (stat : ani_status) (settings : ls_settings)
    (x y : Nat) (hfg : ∀ b ∈ settings.img.image.getD [], b < 256)
    (hbg : ∀ b ∈ stat.prev.img.image.getD [], b < 256)
    (hx : x < (agf_prepare K stat settings).defw)
    (hy : y < (agf_prepare K stat settings).defh) :
    (canvas_index (agf_prepare K stat settings) settings x y = 512 ∨
      (canvas_index (agf_prepare K stat settings) settings x y < 256 ∧ stat.prev_idx ≠ 0) ∨
      (∃ v : Nat, v < 256 ∧ (v : Int) ≠ settings.xpm_trans ∧
        canvas_index (agf_prepare K stat settings) settings x y = 256 + v)) ∧
    ((stat.have_frames = false → stat.defw ≤ K.MAX_WIDTH ∧ stat.defh ≤ K.MAX_HEIGHT) →
      same_size (agf_prepare K stat settings) settings = true →
      settings.xpm_trans < 0 →
      canvas_index (agf_prepare K stat settings) settings x y ≠ 512) := by
  obtain ⟨b0, b1, _, b3⟩ := ani_map_frame_bits K.MAX_WIDTH K.MAX_HEIGHT
    { stat with newpal := (agf_pal stat settings).1, newcols := (agf_pal stat settings).2,
                newtrans := settings.xpm_trans } settings x y hx hy
  rw [← agf_prepare_lmap] at b0 b1 b3
  have hv := peek_lt_256 _ hfg (((y : Int) - settings.y) * settings.width + ((x : Int) - settings.x))
  have hu : underlay_pixel (agf_prepare K stat settings) x y < 256 := peek_lt_256 _ hbg _
  constructor
  · unfold canvas_index
    rw [ext_index_bits]
    unfold frame_pixel
    split
    · rename_i h
      exact Or.inr (Or.inr ⟨_, hv, h.2, Nat.add_comm _ _⟩)
    · split
      · rename_i h
        exact Or.inr (Or.inl ⟨hu, (b1.mp h.1).1⟩)
      · exact Or.inl rfl
  · intro hl hss htp
    obtain ⟨s1, s2, s3, s4⟩ := (same_size_iff _ _).mp hss
    have hb0 : (bflag (agf_prepare K stat settings).lmap x y).testBit 0 = true := by
      apply (b3 hl).mpr
      have hx' : x < (agf_prepare K stat settings).defw := hx
      have hy' : y < (agf_prepare K stat settings).defh := hy
      show in_rect settings.x settings.y
        (min (settings.x + settings.width) (agf_prepare K stat settings).defw)
        (min (settings.y + settings.height) (agf_prepare K stat settings).defh) x y
      simp only [in_rect]
      omega
    unfold canvas_index
    rw [ext_index_bits, if_pos]
    · unfold frame_pixel
      omega
    · refine ⟨hb0, ?_⟩
      have : (0 : Int) ≤ (frame_pixel (settings.img.image.getD []) settings.x settings.y
        settings.width x y : Int) := Int.ofNat_nonneg _
      omega

/-- A first frame that is kept as it is needs at most 256 palette entries. -/
theorem first_frame_bound (K : consts) (stat : ani_status) (settings : ls_settings)
    (hfg : ∀ b ∈ settings.img.image.getD [], b < 256)
    (hbg : ∀ b ∈ stat.prev.img.image.getD [], b < 256)
    (hl : stat.have_frames = false → stat.defw ≤ K.MAX_WIDTH ∧ stat.defh ≤ K.MAX_HEIGHT)
    (hp : stat.prev_idx = 0) (htp : settings.xpm_trans < 256)
    (hcase : same_size (agf_prepare K stat settings) settings = true ∨
      settings.xpm_trans ≥ 0) :
    colors_needed (agf_prepare K stat settings) settings ≤ 256 := by
  have hptr : agf_prevtr (agf_prepare K stat settings) = -1 := by
    unfold agf_prevtr
    have hp2 : (agf_prepare K stat settings).prev_idx = 0 := hp
    rw [if_neg (not_not.mpr hp2)]
  -- the visible colours come from the new frame's values other than the transparent one
  have hsub : visible_colors (agf_prepare K stat settings) settings ⊆
      ((Finset.range 256).filter (fun v : Nat => (v : Int) ≠ settings.xpm_trans)).image
        (fun v => ext_color (agf_prev_pal (agf_prepare K stat settings))
          (agf_pal (agf_prepare K stat settings) settings).1 (256 + v)) := by
    intro c hc
    unfold visible_colors at hc
    simp only [Finset.mem_image, Finset.mem_filter] at hc
    obtain ⟨e, ⟨he, he512, _⟩, hcol⟩ := hc
    obtain ⟨x, y, hx, hy, hxy⟩ := (mem_visible_indices _ _ _).mp he
    rcases (canvas_index_prepared K stat settings x y hfg hbg hx hy).1 with h | h | h
    · omega
    · exact absurd hp h.2
    · obtain ⟨v, hv, hvt, hve⟩ := h
      rw [Finset.mem_image]
      refine ⟨v, ?_, ?_⟩
      · simp only [Finset.mem_filter, Finset.mem_range]
        exact ⟨hv, hvt⟩
      · rw [← hve, hxy, hcol]
  have hcard := le_trans (Finset.card_le_card hsub) Finset.card_image_le
  unfold colors_needed
  by_cases ht0 : settings.xpm_trans ≥ 0
  · have h255 : ((Finset.range 256).filter
        (fun v : Nat => (v : Int) ≠ settings.xpm_trans)).card ≤ 255 := by
      have hs2 : (Finset.range 256).filter (fun v : Nat => (v : Int) ≠ settings.xpm_trans) ⊆
          (Finset.range 256).erase settings.xpm_trans.toNat := by
        intro v hv
        simp only [Finset.mem_filter, Finset.mem_range] at hv
        rw [Finset.mem_erase, Finset.mem_range]
        exact ⟨by omega, hv.1⟩
      have := Finset.card_le_card hs2
      rw [Finset.card_erase_of_mem (Finset.mem_range.mpr (by omega)), Finset.card_range] at this
      exact this
    split <;> omega
  · have hss : same_size (agf_prepare K stat settings) settings = true := by
      rcases hcase with h | h
      · exact h
      · exact absurd h ht0
    have hnb : ¬ background_visible (agf_prepare K stat settings) settings := by
      unfold background_visible
      rintro (h | ⟨e, _, h⟩)
      · obtain ⟨x, y, hx, hy, hxy⟩ := (mem_visible_indices _ _ _).mp h
        exact (canvas_index_prepared K stat settings x y hfg hbg hx hy).2 hl hss (by omega) hxy
      · rw [hptr] at h
        omega
    rw [if_neg hnb]
    have h256 : ((Finset.range 256).filter
        (fun v : Nat => (v : Int) ≠ settings.xpm_trans)).card ≤ 256 := by
      have := Finset.card_le_card (Finset.filter_subset
        (fun v : Nat => (v : Int) ≠ settings.xpm_trans) (Finset.range 256))
      rwa [Finset.card_range] at this
    omega

/-- C8 (amended): in compositing mode with an indexed (or absent) underlay, a
canvas within the size limits, byte-valued pixels, palette sizes and transparent
indices within 256, and every visible pixel value below its own frame's palette
size, `analyze_gif_frame` keeps the output indexed (returns 0 or 1) if and only
if the number of distinct RGB colours among the visible underlay and new-frame
pixels, plus one when any background/transparent pixel is visible, is at most
256; otherwise it returns 3 or 4. -/
theorem analyze_gif_frame_indexed_iff (K : consts) (stat : ani_status) (settings : ls_settings)
    (hmode : K.ANM_RAW < stat.mode)
    (hlim : stat.defw ≤ K.MAX_WIDTH ∧ stat.defh ≤ K.MAX_HEIGHT)
    (hunder : stat.prev_idx ≠ 0 → stat.prev.bpp = 1)
    (hfg : ∀ b ∈ settings.img.image.getD [], b < 256)
    (hbg : ∀ b ∈ stat.prev.img.image.getD [], b < 256)
    (htp : settings.xpm_trans < 256) (hptr : stat.prev.trans < 256)
    (hcols : (agf_pal stat settings).2 ≤ 256 ∧ agf_lprev stat ≤ 256)
    (hP : ∀ e ∈ visible_indices (agf_prepare K stat settings) settings,
      (e < 256 → (e : Int) ≠ agf_prevtr stat → (e : Int) < agf_lprev stat) ∧
      (256 ≤ e → e < 512 → ((e - 256 : Nat) : Int) < (agf_pal stat settings).2)) :
    (((analyze_gif_frame K stat settings).1 = 0 ∨ (analyze_gif_frame K stat settings).1 = 1) ↔
      colors_needed (agf_prepare K stat settings) settings ≤ 256) ∧
    (¬ colors_needed (agf_prepare K stat settings) settings ≤ 256 →
      ((analyze_gif_frame K stat settings).1 = 3 ∨
        (analyze_gif_frame K stat settings).1 = 4)) := by
  by_cases hfirst : stat.prev_idx = 0 ∧
      (same_size (agf_prepare K stat settings) settings = true ∨ settings.xpm_trans ≥ 0)
  · -- a first frame that is kept as it is
    have hb := first_frame_bound K stat settings hfg hbg (fun _ => hlim) hfirst.1 htp hfirst.2
    have hcode : (analyze_gif_frame K stat settings).1 = 0 ∨
        (analyze_gif_frame K stat settings).1 = 1 := by
      unfold analyze_gif_frame
      rw [if_neg (by omega), if_neg (by omega)]
      dsimp only
      by_cases hss : same_size (agf_prepare K stat settings) settings = true
      · left
        have hc : (ani_init_xlat (ani_map_frame K.MAX_WIDTH K.MAX_HEIGHT
            { stat with newpal := (agf_pal stat settings).1,
                        newcols := (agf_pal stat settings).2,
                        newtrans := settings.xpm_trans } settings)).prev_idx = 0 ∧
            same_size (ani_init_xlat (ani_map_frame K.MAX_WIDTH K.MAX_HEIGHT
            { stat with newpal := (agf_pal stat settings).1,
                        newcols := (agf_pal stat settings).2,
                        newtrans := settings.xpm_trans } settings)) settings = true :=
          ⟨hfirst.1, hss⟩
        rw [if_pos hc]
      · right
        have hc1 : ¬ ((ani_init_xlat (ani_map_frame K.MAX_WIDTH K.MAX_HEIGHT
            { stat with newpal := (agf_pal stat settings).1,
                        newcols := (agf_pal stat settings).2,
                        newtrans := settings.xpm_trans } settings)).prev_idx = 0 ∧
            same_size (ani_init_xlat (ani_map_frame K.MAX_WIDTH K.MAX_HEIGHT
            { stat with newpal := (agf_pal stat settings).1,
                        newcols := (agf_pal stat settings).2,
                        newtrans := settings.xpm_trans } settings)) settings = true) :=
          fun h => hss h.2
        have hc2 : (ani_init_xlat (ani_map_frame K.MAX_WIDTH K.MAX_HEIGHT
            { stat with newpal := (agf_pal stat settings).1,
                        newcols := (agf_pal stat settings).2,
                        newtrans := settings.xpm_trans } settings)).prev_idx = 0 ∧
            settings.xpm_trans ≥ 0 := by
          refine ⟨hfirst.1, ?_⟩
          rcases hfirst.2 with h | h
          · exact absurd h hss
          · exact h
        rw [if_neg hc1, if_pos hc2]
    refine ⟨⟨fun _ => hb, fun _ => hcode⟩, fun h => absurd hb h⟩
  · rw [analyze_gif_frame_eq_decide K stat settings hmode hlim hfirst]
    apply agf_decide_indexed_iff (agf_prepare K stat settings) settings hunder
      (lt_trans hptr (by decide)) ⟨rfl, hcols.1, hcols.2⟩
    · -- without underlay no underlay index is marked
      intro hp e he
      by_contra hne
      obtain ⟨hv, _⟩ := (agf_cmap_ne_zero _ settings e (by omega)).mp hne
      obtain ⟨x, y, hx, hy, hxy⟩ := (mem_visible_indices _ _ _).mp hv
      rcases (canvas_index_prepared K stat settings x y hfg hbg hx hy).1 with h | h | h
      · omega
      · exact h.2 hp
      · obtain ⟨v, _, _, hve⟩ := h
        omega
    · intro e he hm
      obtain ⟨hv, hne⟩ := (agf_cmap_ne_zero _ settings e he).mp hm
      exact ⟨fun h1 => (hP e hv).1 h1 hne, fun h2 => (hP e hv).2 h2 he⟩

/-- Witness for `analyze_gif_frame_indexed_iff`: the three-colour underlay and
the three-colour new frame of `merge_stat` need 7 entries and stay indexed. -/
theorem analyze_gif_frame_indexed_iff_witness :
    (analyze_gif_frame consts_default merge_stat merge_settings).1 = 1 ∧
    colors_needed (agf_prepare consts_default merge_stat merge_settings) merge_settings = 7 ∧
    ((((analyze_gif_frame consts_default merge_stat merge_settings).1 = 0 ∨
        (analyze_gif_frame consts_default merge_stat merge_settings).1 = 1) ↔
      colors_needed (agf_prepare consts_default merge_stat merge_settings) merge_settings ≤ 256) ∧
    (¬ colors_needed (agf_prepare consts_default merge_stat merge_settings) merge_settings ≤ 256 →
      ((analyze_gif_frame consts_default merge_stat merge_settings).1 = 3 ∨
        (analyze_gif_frame consts_default merge_stat merge_settings).1 = 4))) :=
  ⟨by decide!, by decide!,
   analyze_gif_frame_indexed_iff consts_default merge_stat merge_settings (by decide)
    ⟨by decide, by decide⟩ (fun _ => rfl) (by decide) (by decide) (by decide) (by decide)
    ⟨by decide, by decide⟩ (by decide!)⟩

/-! ### A frame whose pixel values exceed its palette -/

theorem agf_place_trans_isSome (stat : ani_status) (cmap : Nat → Nat) (prevtr tp : Int)
    (h : stat.newcols < 256) : (agf_place_trans stat cmap prevtr tp).isSome = true := by
  unfold agf_place_trans
  dsimp only
  split_ifs <;> first | rfl | (exfalso; omega)

theorem peek_range (n : Nat) (i : Nat) (h : i < n) : peek (List.range n) (i : Int) = i := by
  rw [peek_natCast, List.getD_eq_getElem?_getD, List.getElem?_range h]
  rfl

theorem over_defw : (agf_prepare consts_default over_stat over_settings).defw = 257 := rfl

theorem over_defh : (agf_prepare consts_default over_stat over_settings).defh = 1 := rfl

theorem agf_decide_single (stat : ani_status) (settings : ls_settings) (st2 : ani_status)
    (hrgb : ¬ (agf_show_under stat settings = true ∧ stat.prev.bpp = 3))
    (hs : agf_single stat settings = some st2) :
    agf_decide stat settings = (if same_size stat settings then 0 else 1, st2) := by
  unfold agf_decide
  simp only [if_neg hrgb, hs]

/-- The extended indices of the pixels of the canvas of `over_stat`. -/
theorem over_canvas_index (x : Nat) (hx : x < 257) :
    canvas_index (agf_prepare consts_default over_stat over_settings) over_settings x 0 =
      if x < 256 then 256 + x else 512 := by
  obtain ⟨b0, b1, b2, _⟩ := ani_map_frame_bits consts_default.MAX_WIDTH
    consts_default.MAX_HEIGHT
    { over_stat with newpal := (agf_pal over_stat over_settings).1,
                     newcols := (agf_pal over_stat over_settings).2,
                     newtrans := over_settings.xpm_trans } over_settings x 0
    (by show x < (agf_prepare consts_default over_stat over_settings).defw
        rw [over_defw]; exact hx)
    (by show 0 < (agf_prepare consts_default over_stat over_settings).defh
        rw [over_defh]; decide)
  rw [← agf_prepare_lmap] at b0 b1 b2
  have hb2 : (bflag (agf_prepare consts_default over_stat over_settings).lmap x 0).testBit 2
      = true := by
    rw [b2]
    show in_rect 0 0 (min 257 (agf_prepare consts_default over_stat over_settings).defw)
      (min 1 (agf_prepare consts_default over_stat over_settings).defh) x 0
    rw [over_defw, over_defh]
    simp only [in_rect]
    omega
  unfold canvas_index
  rw [ext_index_bits]
  by_cases hlt : x < 256
  · have hb0 : (bflag (agf_prepare consts_default over_stat over_settings).lmap x 0).testBit 0
        = true := by
      rw [b0]
      show in_rect 0 0 (min (0 + 256) 257) (min (0 + 1) 1) x 0
      simp only [in_rect]
      omega
    have hpix : frame_pixel (over_settings.img.image.getD []) over_settings.x over_settings.y
        over_settings.width x 0 = x := by
      show peek (List.range 256) ((((0 : Nat) : Int) - (0 : Nat)) * (256 : Nat) +
        ((x : Int) - (0 : Nat))) = x
      rw [show (((0 : Nat) : Int) - (0 : Nat)) * (256 : Nat) + ((x : Int) - (0 : Nat)) =
        (x : Int) by simp]
      exact peek_range 256 x hlt
    rw [hpix, if_pos, if_pos hlt, Nat.add_comm]
    refine ⟨hb0, ?_⟩
    show (x : Int) ≠ -1
    omega
  · have hb0 : ¬ (bflag (agf_prepare consts_default over_stat over_settings).lmap x 0).testBit 0
        = true := by
      rw [b0]
      show ¬ in_rect 0 0 (min (0 + 256) 257) (min (0 + 1) 1) x 0
      simp only [in_rect]
      omega
    rw [if_neg (fun h => hb0 h.1), if_neg (by rw [hb2]; simp), if_neg hlt]

theorem over_visible (e : Nat) :
    e ∈ visible_indices (agf_prepare consts_default over_stat over_settings) over_settings ↔
      ((256 ≤ e ∧ e < 512) ∨ e = 512) := by
  rw [mem_visible_indices, over_defw, over_defh]
  constructor
  · rintro ⟨x, y, hx, hy, h⟩
    have hy0 : y = 0 := by omega
    subst hy0
    rw [over_canvas_index x hx] at h
    split at h <;> omega
  · rintro (⟨h1, h2⟩ | h)
    · refine ⟨e - 256, 0, by omega, by omega, ?_⟩
      rw [over_canvas_index _ (by omega), if_pos (by omega)]
      omega
    · refine ⟨256, 0, by omega, by omega, ?_⟩
      rw [over_canvas_index _ (by omega), if_neg (by omega), h]

theorem over_prevtr : agf_prevtr (agf_prepare consts_default over_stat over_settings) = -1 := by
  unfold agf_prevtr
  rw [if_pos (by decide)]
  rfl

theorem over_pal_color (e : Nat) (he : 256 ≤ e) :
    ext_color (agf_prev_pal (agf_prepare consts_default over_stat over_settings))
      (agf_pal (agf_prepare consts_default over_stat over_settings) over_settings).1 e =
      (e - 256) * 65536 := by
  have hp : (agf_pal (agf_prepare consts_default over_stat over_settings) over_settings).1 =
      pal_ramp := by
    unfold agf_pal
    rw [if_pos (by decide)]
    rfl
  rw [hp]
  unfold ext_color
  rw [if_neg (by omega)]
  simp [PNG_2_INT, pal_ramp, Nat.shiftLeft_eq]

theorem over_bgv : background_visible (agf_prepare consts_default over_stat over_settings)
      over_settings := Or.inl ((over_visible 512).mpr (Or.inr rfl))

theorem over_hcol : visible_colors (agf_prepare consts_default over_stat over_settings) over_settings =
      (Finset.range 256).image (fun v => v * 65536) := by
    ext c
    unfold visible_colors
    simp only [Finset.mem_image, Finset.mem_filter, Finset.mem_range]
    constructor
    · rintro ⟨e, ⟨he, he512, _⟩, hc⟩
      rcases (over_visible e).mp he with ⟨h1, h2⟩ | h
      · refine ⟨e - 256, by omega, ?_⟩
        rw [← hc, over_pal_color e h1]
      · omega
    · rintro ⟨v, hv, hc⟩
      refine ⟨256 + v, ⟨(over_visible _).mpr (Or.inl ⟨by omega, by omega⟩), by omega, ?_⟩, ?_⟩
      · rw [over_prevtr]
        omega
      · rw [← hc, over_pal_color _ (by omega)]
        congr 1
        omega

theorem over_card : ((Finset.range 256).image (fun v => v * 65536)).card = 256 := by
  rw [Finset.card_image_of_injective _ (by
    intro a b hab
    simp only at hab
    omega), Finset.card_range]

theorem colors_needed_bg (stat : ani_status) (settings : ls_settings) (n : Nat)
    (hbg : background_visible stat settings) (hc : (visible_colors stat settings).card = n) :
    colors_needed stat settings = n + 1 := by
  unfold colors_needed
  rw [if_pos hbg, hc]

theorem over_colors_needed :
    colors_needed (agf_prepare consts_default over_stat over_settings) over_settings = 257 :=
  colors_needed_bg _ _ 256 over_bgv (by rw [over_hcol, over_card])

theorem over_code : (analyze_gif_frame consts_default over_stat over_settings).1 = 1 := by
  rw [analyze_gif_frame_eq_decide consts_default over_stat over_settings (by decide)
    (by decide) (by decide)]
  have hnone : ∀ i, i < 256 →
      agf_cmap (agf_prepare consts_default over_stat over_settings) over_settings i = 0 := by
    intro i hi
    by_contra hne
    have := ((agf_cmap_ne_zero _ _ i (by omega)).mp hne).1
    rcases (over_visible i).mp this with h | h <;> omega
  have hsu : agf_show_under (agf_prepare consts_default over_stat over_settings) over_settings
      = false := by
    unfold agf_show_under
    have : memchr_256 (agf_cmap (agf_prepare consts_default over_stat over_settings)
        over_settings) = false := by
      rw [← Bool.not_eq_true, memchr_256_iff]
      rintro ⟨i, hi, h1⟩
      rw [hnone i hi] at h1
      omega
    rw [this, Bool.and_false]
  have hul : agf_ul (agf_prepare consts_default over_stat over_settings) over_settings = 2 := by
    unfold agf_ul
    simp only [hsu, if_false, Bool.false_eq_true]
  have hst : agf_stat1 (agf_prepare consts_default over_stat over_settings) over_settings =
      agf_prepare consts_default over_stat over_settings := by
    unfold agf_stat1
    rw [if_neg (by rw [hsu]; simp)]
  have hsome := agf_place_trans_isSome
    (agf_prepare consts_default over_stat over_settings)
    (agf_cmap (agf_prepare consts_default over_stat over_settings) over_settings)
    (agf_prevtr (agf_prepare consts_default over_stat over_settings)) over_settings.xpm_trans
    (by decide)
  obtain ⟨st2, hst2⟩ := Option.isSome_iff_exists.mp hsome
  have hsingle : agf_single (agf_prepare consts_default over_stat over_settings) over_settings =
      some st2 := by
    unfold agf_single
    rw [if_pos (by rw [hul]; decide), hst, hst2]
  rw [agf_decide_single _ _ st2 (by rw [hsu]; simp) hsingle]
  have hss : same_size (agf_prepare consts_default over_stat over_settings) over_settings
      = false := by decide!
  show (if same_size (agf_prepare consts_default over_stat over_settings) over_settings = true
    then (0 : Int) else 1) = 1
  rw [hss]
  rfl

/-- C8 (as stated, refuted): the new frame `over_settings` has a palette of 128
entries but pixels of all 256 byte values, shown on a 257 × 1 canvas whose
underlay was disposed to background. The new palette passes the check of the
entries in use, so `analyze_gif_frame` returns 1 (indexed), while the visible
pixels show 256 distinct colours beside the background: 257 entries are
needed. -/
theorem analyze_gif_frame_indexed_counterexample :
    consts_default.ANM_RAW < over_stat.mode ∧
    (over_stat.defw ≤ consts_default.MAX_WIDTH ∧ over_stat.defh ≤ consts_default.MAX_HEIGHT) ∧
    over_stat.prev.bpp = 1 ∧
    (analyze_gif_frame consts_default over_stat over_settings).1 = 1 ∧
    colors_needed (agf_prepare consts_default over_stat over_settings) over_settings = 257 ∧
    ¬ (((analyze_gif_frame consts_default over_stat over_settings).1 = 0 ∨
        (analyze_gif_frame consts_default over_stat over_settings).1 = 1) ↔
      colors_needed (agf_prepare consts_default over_stat over_settings) over_settings ≤ 256) := by
  refine ⟨by decide, ⟨by decide, by decide⟩, rfl, over_code, over_colors_needed, ?_⟩
  intro h
  have := h.mp (Or.inr over_code)
  rw [over_colors_needed] at this
  omega

/-! ## Identical palettes -/

theorem ani_init_xlat_loop_apply (n : Nat) :
    ∀ (i : Nat) (xlat : Nat → Nat) (k : Nat), n ≤ 256 →
      ani_init_xlat_loop n i xlat k =
        if i ≤ k ∧ k < i + n then k
        else if i + 256 ≤ k ∧ k < i + 256 + n then k - 256
        else xlat k := by
  induction n with
  | zero =>
    intro i xlat k _
    have h1 : ¬ (i ≤ k ∧ k < i + 0) := by omega
    have h2 : ¬ (i + 256 ≤ k ∧ k < i + 256 + 0) := by omega
    rw [ani_init_xlat_loop, if_neg h1, if_neg h2]
  | succ n ih =>
    intro i xlat k hn
    rw [ani_init_xlat_loop, ih (i + 1) _ k (by omega)]
    by_cases h1 : i + 1 ≤ k ∧ k < i + 1 + n
    · rw [if_pos h1, if_pos (by omega)]
    · rw [if_neg h1]
      by_cases h2 : i + 1 + 256 ≤ k ∧ k < i + 1 + 256 + n
      · rw [if_pos h2, if_neg (by omega), if_pos (by omega)]
      · rw [if_neg h2]
        by_cases h3 : k = i
        · subst h3
          rw [Function.update_same, if_pos (by omega)]
        · rw [Function.update_noteq h3]
          by_cases h4 : k = i + 256
          · subst h4
            rw [Function.update_same, if_neg (by omega), if_pos (by omega)]
            omega
          · rw [Function.update_noteq h4, if_neg (by omega), if_neg (by omega)]

theorem agf_prepare_xlat (K : consts) (stat : ani_status) (settings : ls_settings) (i : Nat)
    (hi : i < 256) :
    (agf_prepare K stat settings).xlat i = i ∧
      (agf_prepare K stat settings).xlat (256 + i) = i := by
  constructor
  · show Function.update (ani_init_xlat_loop 256 0 _) 512 _ i = i
    rw [Function.update_noteq (by omega), ani_init_xlat_loop_apply 256 0 _ i (le_refl _),
      if_pos (by omega)]
  · show Function.update (ani_init_xlat_loop 256 0 _) 512 _ (256 + i) = i
    rw [Function.update_noteq (by omega), ani_init_xlat_loop_apply 256 0 _ _ (le_refl _),
      if_neg (by omega), if_pos (by omega)]
    omega

theorem agf_prepare_dims (K : consts) (stat : ani_status) (settings : ls_settings)
    (hf : stat.have_frames = true) :
    (agf_prepare K stat settings).defw = stat.defw ∧
      (agf_prepare K stat settings).defh = stat.defh :=
  (ani_new_dims_spec K.MAX_WIDTH K.MAX_HEIGHT
    { stat with newpal := (agf_pal stat settings).1, newcols := (agf_pal stat settings).2,
                newtrans := settings.xpm_trans } settings).2.2.1 hf

/-- With a full-canvas underlay and no pending hole, every canvas pixel shows
the new frame or the underlay. -/
theorem canvas_index_covered (K : consts) (stat : ani_status) (settings : ls_settings)
    (x y : Nat)
    (hf : stat.have_frames = true) (hp : stat.prev_idx ≠ 0)
    (hfull : stat.prev.x = 0 ∧ stat.prev.y = 0 ∧ stat.prev.width = stat.defw ∧
      stat.prev.height = stat.defh)
    (hhole : stat.bk_rect = (0, 0, 0, 0))
    (hfg : ∀ b ∈ settings.img.image.getD [], b < 256)
    (hbg : ∀ b ∈ stat.prev.img.image.getD [], b < 256)
    (hx : x < (agf_prepare K stat settings).defw)
    (hy : y < (agf_prepare K stat settings).defh) :
    canvas_index (agf_prepare K stat settings) settings x y < 512 := by
  obtain ⟨_, b1, b2, _⟩ := ani_map_frame_bits K.MAX_WIDTH K.MAX_HEIGHT
    { stat with newpal := (agf_pal stat settings).1, newcols := (agf_pal stat settings).2,
                newtrans := settings.xpm_trans } settings x y hx hy
  rw [← agf_prepare_lmap] at b1 b2
  obtain ⟨dw, dh⟩ := agf_prepare_dims K stat settings hf
  have hv := peek_lt_256 _ hfg (((y : Int) - settings.y) * settings.width + ((x : Int) - settings.x))
  have hu : underlay_pixel (agf_prepare K stat settings) x y < 256 := peek_lt_256 _ hbg _
  have hb1 : (bflag (agf_prepare K stat settings).lmap x y).testBit 1 = true := by
    apply b1.mpr
    refine ⟨hp, ?_⟩
    show in_rect stat.prev.x stat.prev.y (stat.prev.x + stat.prev.width)
      (stat.prev.y + stat.prev.height) x y
    simp only [in_rect]
    omega
  have hb2 : (bflag (agf_prepare K stat settings).lmap x y).testBit 2 = false := by
    rw [← Bool.not_eq_true, b2]
    show ¬ in_rect stat.bk_rect.1 stat.bk_rect.2.1 (min stat.bk_rect.2.2.1 _)
      (min stat.bk_rect.2.2.2 _) x y
    rw [hhole]
    simp only [in_rect]
    omega
  unfold canvas_index
  rw [ext_index_bits]
  unfold frame_pixel
  split
  · omega
  · rw [if_pos ⟨hb1, hb2⟩]
    omega

/-- With a full-canvas underlay without transparent index and no pending hole,
no background is visible. -/
theorem agf_cmap_512_covered (K : consts) (stat : ani_status) (settings : ls_settings)
    (hf : stat.have_frames = true) (hp : stat.prev_idx ≠ 0)
    (hfull : stat.prev.x = 0 ∧ stat.prev.y = 0 ∧ stat.prev.width = stat.defw ∧
      stat.prev.height = stat.defh)
    (hhole : stat.bk_rect = (0, 0, 0, 0))
    (hptr : stat.prev.trans < 0)
    (hfg : ∀ b ∈ settings.img.image.getD [], b < 256)
    (hbg : ∀ b ∈ stat.prev.img.image.getD [], b < 256) :
    agf_cmap (agf_prepare K stat settings) settings 512 = 0 := by
  by_contra hne
  have hbv := (agf_cmap_512 (agf_prepare K stat settings) settings
    (show stat.prev.trans < 512 by omega)).mp hne
  have hpt : agf_prevtr (agf_prepare K stat settings) = stat.prev.trans := by
    unfold agf_prevtr
    rw [if_pos (show (agf_prepare K stat settings).prev_idx ≠ 0 from hp)]
    rfl
  rcases hbv with h | ⟨e, _, h⟩
  · obtain ⟨x, y, hx, hy, hxy⟩ := (mem_visible_indices _ _ _).mp h
    have := canvas_index_covered K stat settings x y hf hp hfull hhole hfg hbg hx hy
    omega
  · rw [hpt] at h
    omega

/-- The palette check keeps both palettes when they agree below their common
size. -/
theorem agf_ul_identical (stat : ani_status) (settings : ls_settings)
    (hsize : agf_lprev stat = (agf_pal stat settings).2)
    (hsame : ∀ i : Nat, (i : Int) < agf_lprev stat →
      agf_prev_pal stat i = (agf_pal stat settings).1 i) :
    agf_ul stat settings = 2 ∨ agf_ul stat settings = 3 := by
  unfold agf_ul
  dsimp only
  split
  · right
    rw [if_neg (by omega), if_neg (by omega)]
    obtain ⟨h4, h2, h1⟩ := agf_pal_loop_spec (agf_cmap stat settings) (agf_prev_pal stat)
      (agf_pal stat settings).1 (agf_lprev stat) (agf_cmap_bool stat settings)
      ((agf_pal stat settings).2).toNat 0 3 (by decide)
    have hok : ∀ j : Nat, 0 ≤ j → j < 0 + ((agf_pal stat settings).2).toNat →
        ¬ ((j : Int) ≥ agf_lprev stat ∨
          PNG_2_INT (agf_prev_pal stat j) ≠ PNG_2_INT ((agf_pal stat settings).1 j)) := by
      intro j _ hj
      have hjl : (j : Int) < agf_lprev stat := by omega
      rw [hsame j hjl]
      intro h
      rcases h with h | h
      · omega
      · exact h rfl
    have a2 := h2.mpr ⟨by decide, fun j h0 hj _ => hok j h0 hj⟩
    have a1 := h1.mpr ⟨by decide, fun j h0 hj _ => hok j h0 hj⟩
    omega
  · left
    rfl

/-- With a full-canvas indexed underlay that has the new frame's palette and no
transparent index, and no pending hole, the analysis keeps the prepared state:
the new palette, no transparency, the translation table 1:1. -/
theorem analyze_gif_frame_identical (K : consts) (stat : ani_status)
    (settings : ls_settings) (q : palette)
    (hmode : K.ANM_RAW < stat.mode)
    (hlim : stat.defw ≤ K.MAX_WIDTH ∧ stat.defh ≤ K.MAX_HEIGHT)
    (hf : stat.have_frames = true) (hp : stat.prev_idx ≠ 0) (hbpp : stat.prev.bpp = 1)
    (hfull : stat.prev.x = 0 ∧ stat.prev.y = 0 ∧ stat.prev.width = stat.defw ∧
      stat.prev.height = stat.defh)
    (hhole : stat.bk_rect = (0, 0, 0, 0))
    (hptr : stat.prev.trans < 0)
    (hfg : ∀ b ∈ settings.img.image.getD [], b < 256)
    (hbg : ∀ b ∈ stat.prev.img.image.getD [], b < 256)
    (hq : stat.prev.pal = some q)
    (hsize : stat.prev.cols = (agf_pal stat settings).2)
    (hsame : ∀ i : Nat, (i : Int) < stat.prev.cols → q i = (agf_pal stat settings).1 i) :
    analyze_gif_frame K stat settings =
      (if same_size (agf_prepare K stat settings) settings then 0 else 1,
       agf_prepare K stat settings) := by
  rw [analyze_gif_frame_eq_decide K stat settings hmode hlim (fun h => hp h.1)]
  have hc512 := agf_cmap_512_covered K stat settings hf hp hfull hhole hptr hfg hbg
  have hlp : agf_lprev (agf_prepare K stat settings) = stat.prev.cols := by
    unfold agf_lprev
    rw [if_pos (show (agf_prepare K stat settings).prev_idx ≠ 0 from hp)]
    rfl
  have hpal : agf_pal (agf_prepare K stat settings) settings = agf_pal stat settings := rfl
  have hpp : agf_prev_pal (agf_prepare K stat settings) = q := by
    unfold agf_prev_pal
    rw [if_pos (show (agf_prepare K stat settings).prev_idx ≠ 0 from hp)]
    show stat.prev.pal.getD _ = q
    rw [hq]
    rfl
  have hul := agf_ul_identical (agf_prepare K stat settings) settings
    (by rw [hlp, hpal]; exact hsize)
    (by
      intro i hi
      rw [hpp, hpal]
      exact hsame i (by rw [← hlp]; exact hi))
  have hst : agf_stat1 (agf_prepare K stat settings) settings = agf_prepare K stat settings := by
    unfold agf_stat1
    rw [if_neg (fun h => by omega)]
  have hsingle : agf_single (agf_prepare K stat settings) settings =
      some (agf_prepare K stat settings) := by
    unfold agf_single
    rw [if_pos (by omega), hst]
    unfold agf_place_trans
    rw [if_neg (not_not.mpr hc512)]
  exact agf_decide_single _ _ _ (fun h => by
    have h3 : stat.prev.bpp = 3 := h.2
    omega) hsingle

/-- C9: for every pair of indexed frames (a full-canvas underlay and a new frame)
that have identical palettes of the same size, no transparent index in the
underlay (whatever the new frame's transparent index) and no pending disposal
hole, `analyze_gif_frame` (compositing mode, canvas within the size limits)
returns an indexed result (0 or 1), the output palette `newpal`/`newcols` equals
that palette, `newtrans` is -1, and the translation table is the identity on
both the underlay half (0..255) and the new-frame half (256..511). -/
theorem analyze_gif_frame_identical_palettes (K : consts) (stat : ani_status)
    (settings : ls_settings) (q : palette)
    (hmode : K.ANM_RAW < stat.mode)
    (hlim : stat.defw ≤ K.MAX_WIDTH ∧ stat.defh ≤ K.MAX_HEIGHT)
    (hf : stat.have_frames = true) (hp : stat.prev_idx ≠ 0) (hbpp : stat.prev.bpp = 1)
    (hfull : stat.prev.x = 0 ∧ stat.prev.y = 0 ∧ stat.prev.width = stat.defw ∧
      stat.prev.height = stat.defh)
    (hhole : stat.bk_rect = (0, 0, 0, 0))
    (hptr : stat.prev.trans < 0)
    (hfg : ∀ b ∈ settings.img.image.getD [], b < 256)
    (hbg : ∀ b ∈ stat.prev.img.image.getD [], b < 256)
    (hq : stat.prev.pal = some q)
    (hsize : stat.prev.cols = (agf_pal stat settings).2)
    (hsame : ∀ i : Nat, (i : Int) < stat.prev.cols → q i = (agf_pal stat settings).1 i) :
    ((analyze_gif_frame K stat settings).1 = 0 ∨ (analyze_gif_frame K stat settings).1 = 1) ∧
    (analyze_gif_frame K stat settings).2.newpal = (agf_pal stat settings).1 ∧
    (analyze_gif_frame K stat settings).2.newcols = (agf_pal stat settings).2 ∧
    (analyze_gif_frame K stat settings).2.newtrans = -1 ∧
    ∀ i, i < 256 → (analyze_gif_frame K stat settings).2.xlat i = i ∧
      (analyze_gif_frame K stat settings).2.xlat (256 + i) = i := by
  rw [analyze_gif_frame_identical K stat settings q hmode hlim hf hp hbpp hfull hhole hptr
    hfg hbg hq hsize hsame]
  refine ⟨?_, rfl, rfl, rfl, fun i hi => agf_prepare_xlat K stat settings i hi⟩
  show (if same_size (agf_prepare K stat settings) settings = true then (0 : Int) else 1) = 0 ∨
    (if same_size (agf_prepare K stat settings) settings = true then (0 : Int) else 1) = 1
  split
  · exact Or.inl rfl
  · exact Or.inr rfl

/-- Witness for `analyze_gif_frame_identical_palettes`: the 2 × 2 underlay A B / A B
and a one-pixel frame with the same two-colour palette. -/
theorem analyze_gif_frame_identical_palettes_witness :
    (analyze_gif_frame consts_default ab_stat ab_settings).1 = 1 ∧
    (((analyze_gif_frame consts_default ab_stat ab_settings).1 = 0 ∨
      (analyze_gif_frame consts_default ab_stat ab_settings).1 = 1) ∧
    (analyze_gif_frame consts_default ab_stat ab_settings).2.newpal =
      (agf_pal ab_stat ab_settings).1 ∧
    (analyze_gif_frame consts_default ab_stat ab_settings).2.newcols =
      (agf_pal ab_stat ab_settings).2 ∧
    (analyze_gif_frame consts_default ab_stat ab_settings).2.newtrans = -1 ∧
    ∀ i, i < 256 → (analyze_gif_frame consts_default ab_stat ab_settings).2.xlat i = i ∧
      (analyze_gif_frame consts_default ab_stat ab_settings).2.xlat (256 + i) = i) :=
  ⟨by decide!,
   analyze_gif_frame_identical_palettes consts_default ab_stat ab_settings pal_ab (by decide)
    ⟨by decide, by decide⟩ rfl (by decide) rfl ⟨rfl, rfl, rfl, rfl⟩ rfl (by decide)
    (by decide) (by decide) rfl rfl (fun _ _ => rfl)⟩

/-! ## Adding frames and coalescing -/

theorem add_frame_frames (K : consts) (ani : ani_settings) (stat : ani_status)
    (settings : ls_settings) (bpp : Nat) (disposal : Nat) :
    (add_frame K ani stat settings bpp disposal).1.fset.frames =
      ani.fset.frames ++ [add_frame_new K ani stat settings bpp disposal] := by
  simp [add_frame, mem_add_frame, frameset.set_last]

theorem add_frame_fset_pal (K : consts) (ani : ani_settings) (stat : ani_status)
    (settings : ls_settings) (bpp : Nat) (disposal : Nat) :
    (add_frame K ani stat settings bpp disposal).1.fset.pal =
      if ani.fset.pal.isSome then ani.fset.pal else some stat.newpal := rfl

theorem add_frame_new_flags (K : consts) (ani : ani_settings) (stat : ani_status)
    (settings : ls_settings) (bpp : Nat) (disposal : Nat) :
    (add_frame_new K ani stat settings bpp disposal).flags =
      (if stat.mode = K.ANM_NOZERO ∧ settings.gif_delay = 0 then disposal ||| K.FM_NUKE
       else disposal) ∧
    (add_frame_new K ani stat settings bpp disposal).delay = settings.gif_delay := by
  unfold add_frame_new
  constructor
  · by_cases h : stat.mode = K.ANM_NOZERO ∧ settings.gif_delay = 0
    · rw [if_pos h]
      split <;> simp [h.1, h.2]
    · rw [if_neg h]
      split <;> simp [h]
  · split <;> rfl

theorem flags_at_append_left (F L : List image_frame) (pal : Option palette) (i : Nat)
    (h : i < F.length) :
    frameset.flags_at { frames := F ++ L, pal := pal } i =
      frameset.flags_at { frames := F, pal := pal } i := by
  unfold frameset.flags_at
  simp only [List.get?_eq_getElem?]
  rw [List.getElem?_append_left h]

theorem flags_at_concat (F : List image_frame) (f : image_frame) (pal : Option palette) :
    frameset.flags_at { frames := F ++ [f], pal := pal } F.length = f.flags := by
  unfold frameset.flags_at
  simp

/-- The final cleanup of `composite_frame` on a sequence of one frame. -/
theorem composite_frame_cleanup_single (K : consts) (c : image_frame) (pal : Option palette)
    (stat : ani_status) :
    composite_frame_cleanup K { frames := [c], pal := pal } stat =
      ({ frames := [c], pal := pal }, stat) := by
  apply composite_frame_cleanup_neg
  intro h
  have := h.1
  simp [frameset.cnt] at this

/-- The final cleanup of `composite_frame` on a sequence that ends in `f, c`:
`f` is removed when it is tagged for deletion and is not the underlayer. -/
theorem composite_frame_cleanup_concat (K : consts) (F : List image_frame)
    (f c : image_frame) (pal : Option palette) (stat : ani_status) :
    (composite_frame_cleanup K { frames := F ++ [f, c], pal := pal } stat).1.frames =
      (if stat.prev_idx ≠ F.length + 1 ∧ f.flags &&& K.FM_NUKE ≠ 0 then F ++ [c]
       else F ++ [f, c]) ∧
    (composite_frame_cleanup K { frames := F ++ [f, c], pal := pal } stat).2.prev_idx =
      (if stat.prev_idx ≠ F.length + 1 ∧ f.flags &&& K.FM_NUKE ≠ 0 ∧
          stat.prev_idx > F.length + 1 then F.length + 1
       else stat.prev_idx) := by
  have hcnt : frameset.cnt { frames := F ++ [f, c], pal := pal } = F.length + 2 := by
    simp [frameset.cnt]
  have hfl : frameset.flags_at { frames := F ++ [f, c], pal := pal } F.length = f.flags := by
    have := flags_at_append_left (F ++ [f]) [c] pal F.length (by simp)
    rw [List.append_assoc] at this
    rw [show F ++ [f, c] = F ++ ([f] ++ [c]) from rfl, this, flags_at_concat]
  by_cases hc : stat.prev_idx ≠ F.length + 1 ∧ f.flags &&& K.FM_NUKE ≠ 0
  · have hc2 : frameset.cnt { frames := F ++ [f, c], pal := pal } > 1 ∧
        stat.prev_idx ≠ frameset.cnt { frames := F ++ [f, c], pal := pal } - 1 ∧
        frameset.flags_at { frames := F ++ [f, c], pal := pal }
          (frameset.cnt { frames := F ++ [f, c], pal := pal } - 2) &&& K.FM_NUKE ≠ 0 := by
      rw [hcnt]
      refine ⟨by omega, by simpa using hc.1, ?_⟩
      rw [show F.length + 2 - 2 = F.length by omega, hfl]
      exact hc.2
    rw [composite_frame_cleanup_pos K _ stat hc2, if_pos hc]
    have hrem : (mem_remove_frame { frames := F ++ [f, c], pal := pal }
        (frameset.cnt { frames := F ++ [f, c], pal := pal } - 2)).frames = F ++ [c] := by
      rw [hcnt]
      show (F ++ [f, c]).eraseIdx (F.length + 2 - 2) = F ++ [c]
      rw [show F.length + 2 - 2 = F.length by omega,
        List.eraseIdx_append_of_length_le (le_refl _)]
      simp
    have hrc : (mem_remove_frame { frames := F ++ [f, c], pal := pal }
        (frameset.cnt { frames := F ++ [f, c], pal := pal } - 2)).cnt = F.length + 1 := by
      unfold frameset.cnt at hrem ⊢
      rw [hrem]
      simp
    refine ⟨hrem, ?_⟩
    rw [hrc]
    by_cases hgt : stat.prev_idx > F.length + 1
    · rw [if_pos hgt, if_pos ⟨hc.1, hc.2, hgt⟩]
    · rw [if_neg hgt, if_neg (fun h => hgt h.2.2)]
  · have hc2 : ¬ (frameset.cnt { frames := F ++ [f, c], pal := pal } > 1 ∧
        stat.prev_idx ≠ frameset.cnt { frames := F ++ [f, c], pal := pal } - 1 ∧
        frameset.flags_at { frames := F ++ [f, c], pal := pal }
          (frameset.cnt { frames := F ++ [f, c], pal := pal } - 2) &&& K.FM_NUKE ≠ 0) := by
      rw [hcnt, show F.length + 2 - 2 = F.length by omega, hfl]
      intro h
      exact hc ⟨by simpa using h.2.1, h.2.2⟩
    rw [composite_frame_cleanup_neg K _ stat hc2, if_neg hc, if_neg (fun h => hc ⟨h.1, h.2.1⟩)]
    exact ⟨rfl, rfl⟩

theorem set_last_concat (F : List image_frame) (g c : image_frame) (fset : frameset)
    (hF : fset.frames = F ++ [g]) :
    fset.set_last c = { frames := F ++ [c], pal := fset.pal } := by
  unfold frameset.set_last
  rw [hF, List.dropLast_concat]

/-- The disposal part of `composite_frame` in list form, when the current frame
becomes the underlayer: the old underlayer is removed if it is tagged for
deletion. -/
theorem composite_frame_dispose_frames (K : consts) (F : List image_frame) (c : image_frame)
    (pal : Option palette) (stat : ani_status) (settings : ls_settings) (disposal : Nat)
    (hp : stat.prev_idx ≤ F.length)
    (hd : disposal = K.FM_DISP_REMOVE ∨ disposal = K.FM_DISP_LEAVE) :
    (composite_frame_dispose K { frames := F ++ [c], pal := pal } stat settings c disposal).1 =
      { frames := (if stat.prev_idx ≠ 0 ∧
          frameset.flags_at { frames := F, pal := pal } (stat.prev_idx - 1) &&& K.FM_NUKE ≠ 0
          then F.eraseIdx (stat.prev_idx - 1) else F) ++ [c], pal := pal } ∧
    (composite_frame_dispose K { frames := F ++ [c], pal := pal } stat settings c
      disposal).2.prev_idx =
      (if stat.prev_idx ≠ 0 ∧
          frameset.flags_at { frames := F, pal := pal } (stat.prev_idx - 1) &&& K.FM_NUKE ≠ 0
          then F.eraseIdx (stat.prev_idx - 1) else F).length + 1 := by
  unfold composite_frame_dispose
  rw [if_pos hd]
  dsimp only
  by_cases hc : stat.prev_idx ≠ 0 ∧
      frameset.flags_at { frames := F, pal := pal } (stat.prev_idx - 1) &&& K.FM_NUKE ≠ 0
  · have hlt : stat.prev_idx - 1 < F.length := by
      have := hc.1
      omega
    have hc2 : stat.prev_idx ≠ 0 ∧
        frameset.flags_at { frames := F ++ [c], pal := pal } (stat.prev_idx - 1) &&&
          K.FM_NUKE ≠ 0 := by
      rw [flags_at_append_left F [c] pal _ hlt]
      exact hc
    rw [if_pos hc2, if_pos hc]
    have he : (mem_remove_frame { frames := F ++ [c], pal := pal } (stat.prev_idx - 1)) =
        { frames := F.eraseIdx (stat.prev_idx - 1) ++ [c], pal := pal } := by
      unfold mem_remove_frame
      rw [List.eraseIdx_append_of_lt_length hlt]
    rw [he]
    refine ⟨rfl, ?_⟩
    simp [frameset.cnt]
  · have hc2 : ¬ (stat.prev_idx ≠ 0 ∧
        frameset.flags_at { frames := F ++ [c], pal := pal } (stat.prev_idx - 1) &&&
          K.FM_NUKE ≠ 0) := by
      intro h
      apply hc
      refine ⟨h.1, ?_⟩
      rw [← flags_at_append_left F [c] pal _ (by have := h.1; omega)]
      exact h.2
    rw [if_neg hc2, if_neg hc]
    refine ⟨rfl, ?_⟩
    simp [frameset.cnt]

/-- What `composite_frame` in compositing mode leaves of a sequence that ends in
a frame `f` tagged for deletion and the new frame `g`. -/
theorem composite_frame_nuke (K : consts) (B : blend_ops) (fset : frameset)
    (stat : ani_status) (settings : ls_settings) (F0 : List image_frame) (f g : image_frame)
    (hF : fset.frames = F0 ++ [f, g]) (hmode : K.ANM_RAW < stat.mode)
    (hp : stat.prev_idx ≤ F0.length + 1) (hn : f.flags &&& K.FM_NUKE ≠ 0) :
    (¬ (stat.prev_idx = F0.length + 1 ∧
        ¬ (g.flags &&& K.FM_DISPOSAL = K.FM_DISP_REMOVE ∨
          g.flags &&& K.FM_DISPOSAL = K.FM_DISP_LEAVE)) →
      ∃ F1, (composite_frame K B fset stat settings).1.frames =
          F1 ++ [(composite_frame_render K B g stat settings).1] ∧ F1.Sublist F0) ∧
    ((stat.prev_idx = F0.length + 1 ∧
        ¬ (g.flags &&& K.FM_DISPOSAL = K.FM_DISP_REMOVE ∨
          g.flags &&& K.FM_DISPOSAL = K.FM_DISP_LEAVE)) →
      (composite_frame K B fset stat settings).1.frames =
        F0 ++ [f, (composite_frame_render K B g stat settings).1]) := by
  have hF2 : fset.frames = (F0 ++ [f]) ++ [g] := by rw [hF]; simp
  have hlast : fset.frames.getLast? = some g := by rw [hF2]; simp
  rw [composite_frame_comp K B fset stat settings g hlast hmode,
    set_last_concat (F0 ++ [f]) g _ fset hF2]
  by_cases hd : g.flags &&& K.FM_DISPOSAL = K.FM_DISP_REMOVE ∨
      g.flags &&& K.FM_DISPOSAL = K.FM_DISP_LEAVE
  · -- the new frame becomes the underlayer
    refine ⟨fun _ => ?_, fun h => absurd hd h.2⟩
    obtain ⟨d1, d2⟩ := composite_frame_dispose_frames K (F0 ++ [f])
      (composite_frame_render K B g stat settings).1 fset.pal stat
      (composite_frame_render K B g stat settings).2 (g.flags &&& K.FM_DISPOSAL)
      (by simpa using hp) hd
    rw [show composite_frame_dispose K { frames := F0 ++ [f] ++
        [(composite_frame_render K B g stat settings).1], pal := fset.pal } stat
        (composite_frame_render K B g stat settings).2
        (composite_frame_render K B g stat settings).1 (g.flags &&& K.FM_DISPOSAL) =
      ((composite_frame_dispose K { frames := F0 ++ [f] ++
        [(composite_frame_render K B g stat settings).1], pal := fset.pal } stat
        (composite_frame_render K B g stat settings).2
        (composite_frame_render K B g stat settings).1 (g.flags &&& K.FM_DISPOSAL)).1,
       (composite_frame_dispose K { frames := F0 ++ [f] ++
        [(composite_frame_render K B g stat settings).1], pal := fset.pal } stat
        (composite_frame_render K B g stat settings).2
        (composite_frame_render K B g stat settings).1 (g.flags &&& K.FM_DISPOSAL)).2) from rfl,
      d1]
    generalize (composite_frame_dispose K { frames := F0 ++ [f] ++
        [(composite_frame_render K B g stat settings).1], pal := fset.pal } stat
        (composite_frame_render K B g stat settings).2
        (composite_frame_render K B g stat settings).1 (g.flags &&& K.FM_DISPOSAL)).2 = st2
      at d2 ⊢
    by_cases hc : stat.prev_idx ≠ 0 ∧
        frameset.flags_at { frames := F0 ++ [f], pal := fset.pal } (stat.prev_idx - 1) &&&
          K.FM_NUKE ≠ 0
    · rw [if_pos hc] at d2 ⊢
      by_cases hlt : stat.prev_idx - 1 < F0.length
      · -- an older underlayer is removed, then the tagged frame
        rw [List.eraseIdx_append_of_lt_length hlt] at d2 ⊢
        rw [List.append_assoc]
        obtain ⟨c1, _⟩ := composite_frame_cleanup_concat K (F0.eraseIdx (stat.prev_idx - 1)) f
          (composite_frame_render K B g stat settings).1 fset.pal st2
        refine ⟨F0.eraseIdx (stat.prev_idx - 1), ?_, List.eraseIdx_sublist _ _⟩
        rw [show [f] ++ [(composite_frame_render K B g stat settings).1] =
          [f, (composite_frame_render K B g stat settings).1] from rfl, c1,
          if_pos ⟨by rw [d2]; simp, hn⟩]
      · -- the tagged frame is the underlayer
        have he : (F0 ++ [f]).eraseIdx (stat.prev_idx - 1) = F0 := by
          rw [List.eraseIdx_append_of_length_le (by omega)]
          have : stat.prev_idx - 1 - F0.length = 0 := by omega
          rw [this]
          simp
        rw [he] at d2 ⊢
        rcases List.eq_nil_or_concat F0 with h0 | ⟨F00, f0, h0⟩
        · refine ⟨F0, ?_, List.Sublist.refl _⟩
          rw [h0, List.nil_append, composite_frame_cleanup_single]
        · rw [List.concat_eq_append] at h0
          obtain ⟨c1, _⟩ := composite_frame_cleanup_concat K F00 f0
            (composite_frame_render K B g stat settings).1 fset.pal st2
          rw [h0, List.append_assoc,
            show [f0] ++ [(composite_frame_render K B g stat settings).1] =
              [f0, (composite_frame_render K B g stat settings).1] from rfl, c1]
          split
          · exact ⟨F00, rfl, List.sublist_append_left _ _⟩
          · refine ⟨F00 ++ [f0], ?_, List.Sublist.refl _⟩
            simp
    · rw [if_neg hc] at d2 ⊢
      rw [List.append_assoc]
      obtain ⟨c1, _⟩ := composite_frame_cleanup_concat K F0 f
        (composite_frame_render K B g stat settings).1 fset.pal st2
      refine ⟨F0, ?_, List.Sublist.refl _⟩
      rw [show [f] ++ [(composite_frame_render K B g stat settings).1] =
        [f, (composite_frame_render K B g stat settings).1] from rfl, c1,
        if_pos ⟨by rw [d2]; simp, hn⟩]
  · -- the underlayer stays
    have hdis : composite_frame_dispose K { frames := F0 ++ [f] ++
        [(composite_frame_render K B g stat settings).1], pal := fset.pal } stat
        (composite_frame_render K B g stat settings).2
        (composite_frame_render K B g stat settings).1 (g.flags &&& K.FM_DISPOSAL) =
        ({ frames := F0 ++ [f] ++ [(composite_frame_render K B g stat settings).1],
           pal := fset.pal },
         { stat with bk_rect := stat.bk_rect }) := by
      unfold composite_frame_dispose
      rw [if_neg hd]
      have h1 : ¬ g.flags &&& K.FM_DISPOSAL = K.FM_DISP_REMOVE := fun h => hd (Or.inl h)
      have h2 : ¬ g.flags &&& K.FM_DISPOSAL = K.FM_DISP_LEAVE := fun h => hd (Or.inr h)
      simp only [if_neg h1, if_neg h2]
    rw [hdis, List.append_assoc]
    obtain ⟨c1, _⟩ := composite_frame_cleanup_concat K F0 f
      (composite_frame_render K B g stat settings).1 fset.pal
      { stat with bk_rect := stat.bk_rect }
    rw [show [f] ++ [(composite_frame_render K B g stat settings).1] =
      [f, (composite_frame_render K B g stat settings).1] from rfl, c1]
    constructor
    · intro hne
      have hpn : stat.prev_idx ≠ F0.length + 1 := fun h => hne ⟨h, hd⟩
      exact ⟨F0, by rw [if_pos ⟨hpn, hn⟩], List.Sublist.refl _⟩
    · intro hex
      rw [if_neg (fun h => h.1 hex.1)]

theorem land_lor_mask (d n m : Nat) (h1 : d &&& m = d) (h2 : n &&& m = 0) :
    (d ||| n) &&& m = d := by
  rw [Nat.and_distrib_right, h1, h2, Nat.or_zero]

theorem lor_land_self (d n : Nat) : (d ||| n) &&& n = n := by
  apply Nat.eq_of_testBit_eq
  intro i
  simp only [Nat.testBit_and, Nat.testBit_or]
  cases d.testBit i <;> cases n.testBit i <;> rfl

theorem add_frame_new_disposal (K : consts) (ani : ani_settings) (stat : ani_status)
    (settings : ls_settings) (bpp : Nat) (disposal : Nat)
    (hK : K.FM_NUKE &&& K.FM_DISPOSAL = 0) (hd : disposal &&& K.FM_DISPOSAL = disposal) :
    (add_frame_new K ani stat settings bpp disposal).flags &&& K.FM_DISPOSAL = disposal := by
  rw [(add_frame_new_flags K ani stat settings bpp disposal).1]
  split
  · exact land_lor_mask _ _ _ hd hK
  · exact hd

/-- C12 (as stated, refuted): in coalescing mode, a first frame with zero delay
and disposal Leave, followed by a second frame with zero delay and disposal
RestoreToPrevious: after the second frame has been added and composited the
first frame is still in the frame sequence (both frames have delay 0 and carry
the deletion tag), because it is the underlay. -/
theorem coalesce_restore_counterexample :
    (gif_frames_run consts_default blend_ops_copy (ani_settings_empty, nz_stat)
      [(nz_frame 0 0, 1), (nz_frame 1 0, 2)]).map
      (fun r => (r.1.fset.frames.map (fun f => (f.delay, f.flags, f.img.image)), r.2.prev_idx)) =
      some ([(0, 4, some [0]), (0, 4, some [1])], 1) := by
  decide!

/-- C12 (amended): in compositing mode (coalescing mode included), when the last
frame `f` of the frame sequence is flagged for deferred deletion, then once the
next frame has been added (`add_frame`) and composited (`composite_frame`), `f`
is no longer in the frame sequence: the sequence is a subsequence `F1` of the
frames before `f`, followed by the new composited frame. The one exception is
when `f` is the underlay and the next frame's disposal code is neither
RemoveToBackground nor Leave (RestoreToPrevious): the underlay is kept, so
the sequence is the old one followed by the new frame. A frame added with zero
delay in coalescing mode carries the flag. -/
theorem add_composite_nuke (K : consts) (B : blend_ops) (ani : ani_settings)
    (stat : ani_status) (settings : ls_settings) (bpp disposal : Nat)
    (F0 : List image_frame) (f : image_frame)
    (hmode : K.ANM_RAW < stat.mode)
    (hK : K.FM_NUKE &&& K.FM_DISPOSAL = 0) (hd : disposal &&& K.FM_DISPOSAL = disposal)
    (hF : ani.fset.frames = F0 ++ [f]) (hn : f.flags &&& K.FM_NUKE ≠ 0)
    (hp : stat.prev_idx ≤ F0.length + 1) :
    (¬ (stat.prev_idx = F0.length + 1 ∧
        ¬ (disposal = K.FM_DISP_REMOVE ∨ disposal = K.FM_DISP_LEAVE)) →
      ∃ F1, (composite_frame K B (add_frame K ani stat settings bpp disposal).1.fset stat
          (add_frame K ani stat settings bpp disposal).2).1.frames =
          F1 ++ [(composite_frame_render K B (add_frame_new K ani stat settings bpp disposal)
            stat (add_frame K ani stat settings bpp disposal).2).1] ∧ F1.Sublist F0) ∧
    ((stat.prev_idx = F0.length + 1 ∧
        ¬ (disposal = K.FM_DISP_REMOVE ∨ disposal = K.FM_DISP_LEAVE)) →
      (composite_frame K B (add_frame K ani stat settings bpp disposal).1.fset stat
          (add_frame K ani stat settings bpp disposal).2).1.frames =
        F0 ++ [f, (composite_frame_render K B (add_frame_new K ani stat settings bpp disposal)
            stat (add_frame K ani stat settings bpp disposal).2).1]) ∧
    (stat.mode = K.ANM_NOZERO → settings.gif_delay = 0 →
      (add_frame_new K ani stat settings bpp disposal).flags &&& K.FM_NUKE = K.FM_NUKE) := by
  have hfr : (add_frame K ani stat settings bpp disposal).1.fset.frames =
      F0 ++ [f, add_frame_new K ani stat settings bpp disposal] := by
    rw [add_frame_frames, hF]
    simp
  have hdisp := add_frame_new_disposal K ani stat settings bpp disposal hK hd
  obtain ⟨n1, n2⟩ := composite_frame_nuke K B (add_frame K ani stat settings bpp disposal).1.fset
    stat (add_frame K ani stat settings bpp disposal).2 F0 f
    (add_frame_new K ani stat settings bpp disposal) hfr hmode hp hn
  rw [hdisp] at n1 n2
  refine ⟨n1, n2, ?_⟩
  intro hm hz
  rw [(add_frame_new_flags K ani stat settings bpp disposal).1, if_pos ⟨hm, hz⟩]
  exact lor_land_self _ _

/-- Witness for `add_composite_nuke`: the flagged frame `hole_prev` is the
underlay; a new frame with disposal Leave is added and composited, and only the
new frame is left. -/
theorem add_composite_nuke_witness :
    ∃ F1, (composite_frame consts_default blend_ops_copy
        (add_frame consts_default nuke_ani hole_stat hole_settings 1 1).1.fset hole_stat
        (add_frame consts_default nuke_ani hole_stat hole_settings 1 1).2).1.frames =
        F1 ++ [(composite_frame_render consts_default blend_ops_copy
          (add_frame_new consts_default nuke_ani hole_stat hole_settings 1 1)
          hole_stat (add_frame consts_default nuke_ani hole_stat hole_settings 1 1).2).1] ∧
      F1.Sublist [] :=
  (add_composite_nuke consts_default blend_ops_copy nuke_ani hole_stat hole_settings 1 1 []
    { hole_prev with flags := 4 } (by decide) (by decide) (by decide) rfl (by decide)
    (by decide)).1 (by decide)

/-! ### Fields that the analysis and the compositing leave alone -/

theorem agf_rgb_keeps (stat : ani_status) (cmap : Nat → Nat) (su : Bool) :
    (agf_rgb stat cmap su).2.prev_idx = stat.prev_idx ∧
    (agf_rgb stat cmap su).2.mode = stat.mode := by
  unfold agf_rgb
  dsimp only
  split <;> exact ⟨rfl, rfl⟩

theorem agf_stat1_keeps (stat : ani_status) (settings : ls_settings) :
    (agf_stat1 stat settings).prev_idx = stat.prev_idx ∧
    (agf_stat1 stat settings).mode = stat.mode := by
  unfold agf_stat1
  split <;> exact ⟨rfl, rfl⟩

theorem agf_place_trans_keeps (stat : ani_status) (cmap : Nat → Nat) (prevtr tp : Int)
    (st : ani_status) (h : agf_place_trans stat cmap prevtr tp = some st) :
    st.prev_idx = stat.prev_idx ∧ st.mode = stat.mode := by
  unfold agf_place_trans at h
  dsimp only at h
  split_ifs at h <;> (cases h; exact ⟨rfl, rfl⟩)

theorem agf_merge_keeps (stat : ani_status) (cmap : Nat → Nat) (prev pal : palette)
    (prevtr : Int) :
    (agf_merge stat cmap prev pal prevtr).2.prev_idx = stat.prev_idx ∧
    (agf_merge stat cmap prev pal prevtr).2.mode = stat.mode := by
  unfold agf_merge
  dsimp only
  split_ifs <;> exact ⟨rfl, rfl⟩

theorem agf_decide_keeps (stat : ani_status) (settings : ls_settings) :
    (agf_decide stat settings).2.prev_idx = stat.prev_idx ∧
    (agf_decide stat settings).2.mode = stat.mode := by
  unfold agf_decide
  dsimp only
  split
  · exact agf_rgb_keeps _ _ _
  · split
    · rename_i st2 hs
      unfold agf_single at hs
      split at hs
      · obtain ⟨h1, h2⟩ := agf_place_trans_keeps _ _ _ _ _ hs
        obtain ⟨h3, h4⟩ := agf_stat1_keeps stat settings
        exact ⟨h1.trans h3, h2.trans h4⟩
      · cases hs
    · obtain ⟨h3, h4⟩ := agf_stat1_keeps stat settings
      obtain ⟨h1, h2⟩ := agf_merge_keeps (agf_stat1 stat settings) (agf_cmap stat settings)
        (agf_prev_pal stat) (agf_pal stat settings).1 (agf_prevtr stat)
      split
      · exact ⟨h1.trans h3, h2.trans h4⟩
      · obtain ⟨h5, h6⟩ := agf_rgb_keeps (agf_merge (agf_stat1 stat settings)
          (agf_cmap stat settings) (agf_prev_pal stat) (agf_pal stat settings).1
          (agf_prevtr stat)).2 (agf_cmap stat settings) (agf_show_under stat settings)
        exact ⟨h5.trans (h1.trans h3), h6.trans (h2.trans h4)⟩

/-- The analysis does not touch the index of the underlayer nor the mode. -/
theorem analyze_gif_frame_keeps (K : consts) (stat : ani_status) (settings : ls_settings) :
    (analyze_gif_frame K stat settings).2.prev_idx = stat.prev_idx ∧
    (analyze_gif_frame K stat settings).2.mode = stat.mode := by
  unfold analyze_gif_frame
  dsimp only
  split
  · exact ⟨rfl, rfl⟩
  · split
    · exact ⟨rfl, rfl⟩
    · split
      · exact ⟨rfl, rfl⟩
      · split
        · exact ⟨rfl, rfl⟩
        · obtain ⟨h1, h2⟩ := agf_decide_keeps (agf_prepare K stat settings) settings
          exact ⟨h1.trans rfl, h2.trans rfl⟩

theorem composite_indexed_frame_meta (frame : image_frame) (stat : ani_status)
    (settings : ls_settings) :
    (composite_indexed_frame frame stat settings).flags = frame.flags ∧
    (composite_indexed_frame frame stat settings).delay = frame.delay := by
  unfold composite_indexed_frame
  dsimp only
  split <;> split <;> exact ⟨rfl, rfl⟩

theorem composite_rgba_frame_meta (B : blend_ops) (frame : image_frame) (stat : ani_status)
    (settings : ls_settings) :
    (composite_rgba_frame B frame stat settings).flags = frame.flags ∧
    (composite_rgba_frame B frame stat settings).delay = frame.delay := by
  unfold composite_rgba_frame
  split
  · exact ⟨rfl, rfl⟩
  · dsimp only
    split <;> exact ⟨rfl, rfl⟩

/-- The compositing part of `composite_frame`, step by step. -/
theorem composite_frame_render_eq (K : consts) (B : blend_ops) (frame : image_frame)
    (stat : ani_status) (settings : ls_settings) :
    (composite_frame_render K B frame stat settings).1 =
      trans_to_alpha stat.newpal
        (drop_unused_alpha (composite_frame_pixels K B frame stat settings)) := by
  unfold composite_frame_render trans_to_alpha drop_unused_alpha composite_frame_pixels
  by_cases h3 : settings.bpp = 3
  · simp only [if_pos h3]
  · simp only [if_neg h3]

theorem drop_unused_alpha_meta (f : image_frame) :
    (drop_unused_alpha f).flags = f.flags ∧ (drop_unused_alpha f).delay = f.delay ∧
    (drop_unused_alpha f).trans = f.trans ∧
    (drop_unused_alpha f).img.image = f.img.image ∧
    (drop_unused_alpha f).width = f.width ∧ (drop_unused_alpha f).height = f.height := by
  unfold drop_unused_alpha
  split
  · split <;> exact ⟨rfl, rfl, rfl, rfl, rfl, rfl⟩
  · exact ⟨rfl, rfl, rfl, rfl, rfl, rfl⟩

theorem trans_to_alpha_meta (newpal : palette) (f : image_frame) :
    (trans_to_alpha newpal f).flags = f.flags ∧ (trans_to_alpha newpal f).delay = f.delay := by
  unfold trans_to_alpha
  split
  · split <;> exact ⟨rfl, rfl⟩
  · exact ⟨rfl, rfl⟩

/-- The compositing part of `composite_frame` keeps the delay of the frame, and
replaces the disposal code in its flags. -/
theorem composite_frame_render_meta (K : consts) (B : blend_ops) (frame : image_frame)
    (stat : ani_status) (settings : ls_settings) :
    (composite_frame_render K B frame stat settings).1.flags =
      frame.flags ^^^ ((frame.flags &&& K.FM_DISPOSAL) ^^^ K.FM_DISP_REMOVE) ∧
    (composite_frame_render K B frame stat settings).1.delay = frame.delay := by
  rw [composite_frame_render_eq]
  constructor
  · rw [(trans_to_alpha_meta _ _).1, (drop_unused_alpha_meta _).1]
    unfold composite_frame_pixels
    dsimp only
    split
    · rw [(composite_rgba_frame_meta _ _ _ _).1]
    · rw [(composite_indexed_frame_meta _ _ _).1]
  · rw [(trans_to_alpha_meta _ _).2, (drop_unused_alpha_meta _).2.1]
    unfold composite_frame_pixels
    dsimp only
    split
    · rw [(composite_rgba_frame_meta _ _ _ _).2]
    · rw [(composite_indexed_frame_meta _ _ _).2]

theorem composite_frame_cleanup_getLast (K : consts) (fset : frameset) (stat : ani_status) :
    (composite_frame_cleanup K fset stat).1.frames.getLast? = fset.frames.getLast? := by
  by_cases hc : fset.cnt > 1 ∧ stat.prev_idx ≠ fset.cnt - 1 ∧
      fset.flags_at (fset.cnt - 2) &&& K.FM_NUKE ≠ 0
  · rw [composite_frame_cleanup_pos K fset stat hc]
    apply getLast?_eraseIdx_of_lt
    have := hc.1
    unfold frameset.cnt at this ⊢
    omega
  · rw [composite_frame_cleanup_neg K fset stat hc]

/-- In compositing mode the frame that `composite_frame` has composited is the
last frame of the sequence it leaves. -/
theorem composite_frame_last (K : consts) (B : blend_ops) (fset : frameset)
    (stat : ani_status) (settings : ls_settings) (frame : image_frame)
    (hlast : fset.frames.getLast? = some frame) (hmode : K.ANM_RAW < stat.mode)
    (hidx : stat.prev_idx < fset.cnt) :
    (composite_frame K B fset stat settings).1.frames.getLast? =
      some (composite_frame_render K B frame stat settings).1 := by
  rw [composite_frame_comp K B fset stat settings frame hlast hmode]
  show (composite_frame_cleanup K _ _).1.frames.getLast? = _
  rw [composite_frame_cleanup_getLast]
  by_cases hd : frame.flags &&& K.FM_DISPOSAL = K.FM_DISP_REMOVE ∨
      frame.flags &&& K.FM_DISPOSAL = K.FM_DISP_LEAVE
  · exact (composite_frame_dispose_new K
      (fset.set_last (composite_frame_render K B frame stat settings).1) stat
      (composite_frame_render K B frame stat settings).2
      (composite_frame_render K B frame stat settings).1 (frame.flags &&& K.FM_DISPOSAL)
      (set_last_getLast? _ _) (by rw [set_last_cnt fset _ frame hlast]; exact hidx) hd).2.1
  · unfold composite_frame_dispose
    rw [if_neg hd]
    exact set_last_getLast? _ _

theorem mem_mask_colors_length (mask img : List Nat) (v n : Nat) (tr : Int) :
    (mem_mask_colors mask img v n tr).length = mask.length := by
  simp [mem_mask_colors]

theorem mem_mask_colors_getD (mask img : List Nat) (v n : Nat) (tr : Int) (i : Nat)
    (hi : i < mask.length) :
    (mem_mask_colors mask img v n tr).getD i 0 =
      if i < n ∧ (((img.getD (3 * i) 0 <<< 16) + (img.getD (3 * i + 1) 0 <<< 8) +
        img.getD (3 * i + 2) 0 : Nat) : Int) = tr then v else mask.getD i 0 := by
  unfold mem_mask_colors
  rw [List.getD_eq_getElem?_getD, List.getElem?_map, List.getElem?_range hi]
  rfl

/-- C16: after `composite_frame` in compositing mode, the produced frame (the
last frame of the sequence) never carries both a transparent colour index
(`trans >= 0`) and an alpha plane: if both are present once the pixels are
composited and an unused alpha plane is dropped, `trans` is reset to -1 and the
pixels whose RGB value is the key colour `newpal[trans]` get alpha 0 (the alpha
of the other pixels is kept). -/
theorem composite_frame_trans_alpha (K : consts) (B : blend_ops) (fset : frameset)
    (stat : ani_status) (settings : ls_settings) (frame : image_frame)
    (hlast : fset.frames.getLast? = some frame) (hmode : K.ANM_RAW < stat.mode)
    (hidx : stat.prev_idx < fset.cnt) :
    (composite_frame K B fset stat settings).1.frames.getLast? =
      some (composite_frame_render K B frame stat settings).1 ∧
    ¬ ((composite_frame_render K B frame stat settings).1.trans ≥ 0 ∧
      (composite_frame_render K B frame stat settings).1.img.alpha.isSome = true) ∧
    (∀ a, (drop_unused_alpha (composite_frame_pixels K B frame stat settings)).img.alpha =
        some a →
      (drop_unused_alpha (composite_frame_pixels K B frame stat settings)).trans ≥ 0 →
      (composite_frame_render K B frame stat settings).1.trans = -1 ∧
      ∃ a', (composite_frame_render K B frame stat settings).1.img.alpha = some a' ∧
        a'.length = a.length ∧
        ∀ i, i < a.length →
          a'.getD i 0 =
            if i < (composite_frame_pixels K B frame stat settings).width *
                (composite_frame_pixels K B frame stat settings).height ∧
              ((((composite_frame_pixels K B frame stat settings).img.image.getD []).getD
                  (3 * i) 0 <<< 16) +
                (((composite_frame_pixels K B frame stat settings).img.image.getD []).getD
                  (3 * i + 1) 0 <<< 8) +
                ((composite_frame_pixels K B frame stat settings).img.image.getD []).getD
                  (3 * i + 2) 0 : Nat) =
              PNG_2_INT (stat.newpal
                (composite_frame_pixels K B frame stat settings).trans.toNat)
            then 0 else a.getD i 0) := by
  refine ⟨composite_frame_last K B fset stat settings frame hlast hmode hidx, ?_, ?_⟩
  · rw [composite_frame_render_eq]
    unfold trans_to_alpha
    split
    · rename_i a ha
      split
      · rintro ⟨h, _⟩
        simp at h
      · rename_i hn
        exact fun h => hn h.1
    · rename_i ha
      rintro ⟨_, h⟩
      rw [ha] at h
      simp at h
  · intro a ha ht
    obtain ⟨_, _, m3, m4, m5, m6⟩ :=
      drop_unused_alpha_meta (composite_frame_pixels K B frame stat settings)
    rw [composite_frame_render_eq]
    unfold trans_to_alpha
    rw [ha]
    dsimp only
    rw [if_pos ht]
    refine ⟨rfl, _, rfl, mem_mask_colors_length _ _ _ _ _, ?_⟩
    intro i hi
    rw [mem_mask_colors_getD _ _ _ _ _ _ hi, m3, m4, m5, m6]
    simp only [Nat.cast_inj]

/-- Witness for `composite_frame_trans_alpha`: the frame `hole_frame_alpha`, which
has an alpha plane, composited over `hole_prev`. -/
theorem composite_frame_trans_alpha_witness :
    (composite_frame consts_default blend_ops_copy
      { frames := [hole_prev, hole_frame_alpha], pal := none } hole_stat
      hole_settings).1.frames.getLast? =
      some (composite_frame_render consts_default blend_ops_copy hole_frame_alpha hole_stat
        hole_settings).1 ∧
    ¬ ((composite_frame_render consts_default blend_ops_copy hole_frame_alpha hole_stat
        hole_settings).1.trans ≥ 0 ∧
      (composite_frame_render consts_default blend_ops_copy hole_frame_alpha hole_stat
        hole_settings).1.img.alpha.isSome = true) :=
  ⟨(composite_frame_trans_alpha consts_default blend_ops_copy
      { frames := [hole_prev, hole_frame_alpha], pal := none } hole_stat hole_settings
      hole_frame_alpha rfl (by decide) (by decide)).1,
   (composite_frame_trans_alpha consts_default blend_ops_copy
      { frames := [hole_prev, hole_frame_alpha], pal := none } hole_stat hole_settings
      hole_frame_alpha rfl (by decide) (by decide)).2.1⟩

/-! ### Coalescing of zero-delay frames -/

theorem nuke_kept (L N D R : Nat) (hN : N ≠ 0) (hND : N &&& D = 0) (hL : L &&& D = L)
    (hR : R &&& D = R) :
    ((L ||| N) ^^^ (((L ||| N) &&& D) ^^^ R)) &&& N ≠ 0 := by
  rw [land_lor_mask L N D hL hND]
  obtain ⟨i, hi⟩ := Nat.ne_zero_implies_bit_true hN
  intro h
  have h1 := congrArg (fun v => Nat.testBit v i) h
  have h2 := congrArg (fun v => Nat.testBit v i) hND
  have h3 := congrArg (fun v => Nat.testBit v i) hL
  have h4 := congrArg (fun v => Nat.testBit v i) hR
  simp only [Nat.testBit_and, Nat.testBit_or, Nat.testBit_xor, Nat.zero_testBit, hi] at h1 h2 h3 h4
  cases hl : L.testBit i <;> cases hd : D.testBit i <;> cases hr : R.testBit i <;>
    simp_all

/-- One image of the loop of `load_gif_frames` in coalescing: when the sequence
is empty, or holds one frame tagged for deletion that is the underlayer, a new
frame with the disposal code Leave leaves the sequence with the composited new
frame alone, which is the underlayer. -/
theorem gif_frame_step_coalesce (K : consts) (B : blend_ops) (ani : ani_settings)
    (stat : ani_status) (s : ls_settings)
    (hmode : K.ANM_RAW < stat.mode)
    (hND : K.FM_NUKE &&& K.FM_DISPOSAL = 0)
    (hL : K.FM_DISP_LEAVE &&& K.FM_DISPOSAL = K.FM_DISP_LEAVE)
    (hinv : (ani.fset.frames = [] ∧ stat.prev_idx = 0) ∨
      (∃ f, ani.fset.frames = [f] ∧ f.flags &&& K.FM_NUKE ≠ 0 ∧ stat.prev_idx = 1)) :
    gif_frame_step K B ani stat s K.FM_DISP_LEAVE =
      (compose_step K B K.FM_DISP_LEAVE ani.fset.pal stat s).map (fun x =>
        ({ fset := { frames := [x.1], pal := x.2.1 },
           lastzero := decide (stat.mode = K.ANM_NOZERO) && decide (s.gif_delay = 0) },
         x.2.2)) := by
  by_cases hok : (analyze_gif_frame K stat s).1 < 0
  · unfold gif_frame_step compose_step
    dsimp only
    rw [if_pos hok, if_pos hok]
    rfl
  have hcs : compose_step K B K.FM_DISP_LEAVE ani.fset.pal stat s =
      some ((composite_frame_render K B
          (add_frame_new K ani (analyze_gif_frame K stat s).2 s
            (analyze_gif_frame K stat s).1.toNat K.FM_DISP_LEAVE)
          (analyze_gif_frame K stat s).2
          (add_frame K ani (analyze_gif_frame K stat s).2 s
            (analyze_gif_frame K stat s).1.toNat K.FM_DISP_LEAVE).2).1,
        (add_frame K ani (analyze_gif_frame K stat s).2 s
          (analyze_gif_frame K stat s).1.toNat K.FM_DISP_LEAVE).1.fset.pal,
        { (analyze_gif_frame K stat s).2 with
          prev :=
            { (composite_frame_render K B
                (add_frame_new K ani (analyze_gif_frame K stat s).2 s
                  (analyze_gif_frame K stat s).1.toNat K.FM_DISP_LEAVE)
                (analyze_gif_frame K stat s).2
                (add_frame K ani (analyze_gif_frame K stat s).2 s
                  (analyze_gif_frame K stat s).1.toNat K.FM_DISP_LEAVE).2).1 with
              pal := if (composite_frame_render K B
                (add_frame_new K ani (analyze_gif_frame K stat s).2 s
                  (analyze_gif_frame K stat s).1.toNat K.FM_DISP_LEAVE)
                (analyze_gif_frame K stat s).2
                (add_frame K ani (analyze_gif_frame K stat s).2 s
                  (analyze_gif_frame K stat s).1.toNat K.FM_DISP_LEAVE).2).1.pal.isNone then
                  (add_frame K ani (analyze_gif_frame K stat s).2 s
                    (analyze_gif_frame K stat s).1.toNat K.FM_DISP_LEAVE).1.fset.pal
                else (composite_frame_render K B
                (add_frame_new K ani (analyze_gif_frame K stat s).2 s
                  (analyze_gif_frame K stat s).1.toNat K.FM_DISP_LEAVE)
                (analyze_gif_frame K stat s).2
                (add_frame K ani (analyze_gif_frame K stat s).2 s
                  (analyze_gif_frame K stat s).1.toNat K.FM_DISP_LEAVE).2).1.pal },
          bk_rect := (0, 0, 0, 0), prev_idx := 1 }) := by
    unfold compose_step
    dsimp only
    rw [if_neg hok]
    rfl
  rw [hcs, Option.map_some']
  dsimp only
  obtain ⟨hpi, hmd⟩ := analyze_gif_frame_keeps K stat s
  unfold gif_frame_step
  dsimp only
  rw [if_neg hok]
  generalize analyze_gif_frame K stat s = a at hpi hmd hok ⊢
  have hfr := add_frame_frames K ani a.2 s a.1.toNat K.FM_DISP_LEAVE
  have hdisp := add_frame_new_disposal K ani a.2 s a.1.toNat K.FM_DISP_LEAVE hND hL
  have hlast : (add_frame K ani a.2 s a.1.toNat K.FM_DISP_LEAVE).1.fset.frames.getLast? =
      some (add_frame_new K ani a.2 s a.1.toNat K.FM_DISP_LEAVE) := by
    rw [hfr]
    simp
  rw [composite_frame_comp K B _ a.2 _ _ hlast (by rw [hmd]; exact hmode),
    set_last_concat ani.fset.frames _ _ _ hfr, hdisp]
  generalize composite_frame_render K B (add_frame_new K ani a.2 s a.1.toNat K.FM_DISP_LEAVE)
    a.2 (add_frame K ani a.2 s a.1.toNat K.FM_DISP_LEAVE).2 = c
  generalize (add_frame K ani a.2 s a.1.toNat K.FM_DISP_LEAVE).1.fset.pal = pal1
  rw [show (add_frame K ani a.2 s a.1.toNat K.FM_DISP_LEAVE).1.lastzero =
    (decide (a.2.mode = K.ANM_NOZERO) && decide (s.gif_delay = 0)) from rfl, hmd]
  obtain ⟨d1, d2⟩ := composite_frame_dispose_frames K ani.fset.frames c.1 pal1 a.2 c.2
    K.FM_DISP_LEAVE
    (by rw [hpi]; rcases hinv with ⟨h1, h2⟩ | ⟨f, h1, _, h2⟩ <;> rw [h1, h2] <;> simp)
    (Or.inr rfl)
  have hF1 : (if a.2.prev_idx ≠ 0 ∧
      frameset.flags_at (frameset.mk ani.fset.frames pal1) (a.2.prev_idx - 1) &&&
        K.FM_NUKE ≠ 0
      then ani.fset.frames.eraseIdx (a.2.prev_idx - 1) else ani.fset.frames) = [] := by
    rcases hinv with ⟨h1, h2⟩ | ⟨f, h1, h3, h2⟩
    · rw [h1]
      split <;> rfl
    · rw [hpi, h2, h1, if_pos]
      · rfl
      · exact ⟨by decide, h3⟩
  rw [hF1] at d1 d2
  have hst : (composite_frame_dispose K (frameset.mk (ani.fset.frames ++ [c.1]) pal1) a.2 c.2
      c.1 K.FM_DISP_LEAVE).2 =
      { a.2 with
        prev := { c.1 with pal := if c.1.pal.isNone then pal1 else c.1.pal },
        bk_rect := (0, 0, 0, 0), prev_idx := 1 } := by
    have hd2 := d2
    unfold composite_frame_dispose at hd2 ⊢
    rw [if_pos (Or.inr rfl)] at hd2 ⊢
    dsimp only at hd2 ⊢
    rw [hd2, if_pos rfl]
    rfl
  rw [show composite_frame_dispose K (frameset.mk (ani.fset.frames ++ [c.1]) pal1) a.2 c.2
      c.1 K.FM_DISP_LEAVE =
    ((composite_frame_dispose K (frameset.mk (ani.fset.frames ++ [c.1]) pal1) a.2 c.2
      c.1 K.FM_DISP_LEAVE).1,
     (composite_frame_dispose K (frameset.mk (ani.fset.frames ++ [c.1]) pal1) a.2 c.2
      c.1 K.FM_DISP_LEAVE).2) from rfl,
    d1, List.nil_append, composite_frame_cleanup_single, hst]
  dsimp only
  rw [hmd]

/-- What `compose_step` produces: the frame has the delay of the input frame and
is the underlayer; a zero-delay frame made in coalescing mode is tagged for
deletion. -/
theorem compose_step_some (K : consts) (B : blend_ops) (pal : Option palette)
    (stat : ani_status) (s : ls_settings) (x : image_frame × Option palette × ani_status)
    (h : compose_step K B K.FM_DISP_LEAVE pal stat s = some x) :
    x.1.delay = s.gif_delay ∧ x.2.2.prev_idx = 1 ∧ x.2.2.mode = stat.mode ∧
    (stat.mode = K.ANM_NOZERO → s.gif_delay = 0 → K.FM_NUKE ≠ 0 →
      K.FM_NUKE &&& K.FM_DISPOSAL = 0 →
      K.FM_DISP_LEAVE &&& K.FM_DISPOSAL = K.FM_DISP_LEAVE →
      K.FM_DISP_REMOVE &&& K.FM_DISPOSAL = K.FM_DISP_REMOVE →
      x.1.flags &&& K.FM_NUKE ≠ 0) := by
  obtain ⟨_, hmd⟩ := analyze_gif_frame_keeps K stat s
  unfold compose_step at h
  dsimp only at h
  split at h
  · cases h
  · cases h
    dsimp only
    obtain ⟨m1, m2⟩ := composite_frame_render_meta K B
      (add_frame_new K { fset := { frames := [], pal := pal }, lastzero := false }
        (analyze_gif_frame K stat s).2 s (analyze_gif_frame K stat s).1.toNat K.FM_DISP_LEAVE)
      (analyze_gif_frame K stat s).2
      (add_frame K { fset := { frames := [], pal := pal }, lastzero := false }
        (analyze_gif_frame K stat s).2 s (analyze_gif_frame K stat s).1.toNat
        K.FM_DISP_LEAVE).2
    obtain ⟨f1, f2⟩ := add_frame_new_flags K
      { fset := { frames := [], pal := pal }, lastzero := false }
      (analyze_gif_frame K stat s).2 s (analyze_gif_frame K stat s).1.toNat K.FM_DISP_LEAVE
    refine ⟨m2.trans f2, rfl, hmd, ?_⟩
    intro hm hz hN hND hL hR
    rw [m1, f1, if_pos ⟨hmd.trans hm, hz⟩]
    exact nuke_kept _ _ _ _ hN hND hL hR

/-- C11: in coalescing mode (`ANM_NOZERO`), processing three frames with
inter-frame delays 0, 0, 5 (disposal Leave) through `add_frame` and
`composite_frame`, as the loop of `load_gif_frames` does starting from an empty
frame sequence, leaves exactly one frame in the frameset; that frame carries
delay 5 and it is the result of compositing the three frames in order
(`compose_in_order`: each frame composited over the frame produced before it). -/
theorem coalesce_three_frames (K : consts) (B : blend_ops) (pal0 : Option palette)
    (stat0 : ani_status) (s1 s2 s3 : ls_settings) (r : ani_settings × ani_status)
    (hmode : stat0.mode = K.ANM_NOZERO) (hraw : K.ANM_RAW < K.ANM_NOZERO)
    (hN : K.FM_NUKE ≠ 0) (hND : K.FM_NUKE &&& K.FM_DISPOSAL = 0)
    (hL : K.FM_DISP_LEAVE &&& K.FM_DISPOSAL = K.FM_DISP_LEAVE)
    (hR : K.FM_DISP_REMOVE &&& K.FM_DISPOSAL = K.FM_DISP_REMOVE)
    (hp0 : stat0.prev_idx = 0)
    (hd1 : s1.gif_delay = 0) (hd2 : s2.gif_delay = 0) (hd3 : s3.gif_delay = 5)
    (hrun : gif_frames_run K B
      ({ fset := { frames := [], pal := pal0 }, lastzero := false }, stat0)
      [(s1, K.FM_DISP_LEAVE), (s2, K.FM_DISP_LEAVE), (s3, K.FM_DISP_LEAVE)] = some r) :
    ∃ c, r.1.fset.frames = [c] ∧ c.delay = 5 ∧
      compose_in_order K B K.FM_DISP_LEAVE pal0 stat0 none [s1, s2, s3] = some c := by
  -- first frame
  have e1 := gif_frame_step_coalesce K B
    { fset := { frames := [], pal := pal0 }, lastzero := false } stat0 s1
    (by rw [hmode]; exact hraw) hND hL (Or.inl ⟨rfl, hp0⟩)
  dsimp only at e1
  unfold gif_frames_run at hrun
  dsimp only at hrun
  rw [e1] at hrun
  unfold compose_in_order
  cases h1 : compose_step K B K.FM_DISP_LEAVE pal0 stat0 s1 with
  | none =>
    rw [h1] at hrun
    cases hrun
  | some x1 =>
    rw [h1] at hrun
    obtain ⟨_, a2, a3, a4⟩ := compose_step_some K B pal0 stat0 s1 x1 h1
    -- second frame
    have e2 := gif_frame_step_coalesce K B
      { fset := { frames := [x1.1], pal := x1.2.1 },
        lastzero := decide (stat0.mode = K.ANM_NOZERO) && decide (s1.gif_delay = 0) }
      x1.2.2 s2 (by rw [a3, hmode]; exact hraw) hND hL
      (Or.inr ⟨x1.1, rfl, a4 hmode hd1 hN hND hL hR, a2⟩)
    dsimp only at e2
    dsimp only [Option.map_some'] at hrun ⊢
    unfold gif_frames_run at hrun
    dsimp only at hrun
    rw [e2] at hrun
    unfold compose_in_order
    cases h2 : compose_step K B K.FM_DISP_LEAVE x1.2.1 x1.2.2 s2 with
    | none =>
      rw [h2] at hrun
      cases hrun
    | some x2 =>
      rw [h2] at hrun
      obtain ⟨_, b2, b3, b4⟩ := compose_step_some K B x1.2.1 x1.2.2 s2 x2 h2
      -- third frame
      have e3 := gif_frame_step_coalesce K B
        { fset := { frames := [x2.1], pal := x2.2.1 },
          lastzero := decide (x1.2.2.mode = K.ANM_NOZERO) && decide (s2.gif_delay = 0) }
        x2.2.2 s3 (by rw [b3, a3, hmode]; exact hraw) hND hL
        (Or.inr ⟨x2.1, rfl, b4 (a3.trans hmode) hd2 hN hND hL hR, b2⟩)
      dsimp only at e3
      dsimp only [Option.map_some'] at hrun ⊢
      unfold gif_frames_run at hrun
      dsimp only at hrun
      rw [e3] at hrun
      unfold compose_in_order
      cases h3 : compose_step K B K.FM_DISP_LEAVE x2.2.1 x2.2.2 s3 with
      | none =>
        rw [h3] at hrun
        cases hrun
      | some x3 =>
        rw [h3] at hrun
        obtain ⟨c1, _, _, _⟩ := compose_step_some K B x2.2.1 x2.2.2 s3 x3 h3
        dsimp only [Option.map_some'] at hrun ⊢
        unfold gif_frames_run at hrun
        cases hrun
        unfold compose_in_order
        exact ⟨x3.1, rfl, c1.trans hd3, rfl⟩

/-- Witness for `coalesce_three_frames`: three 1 × 1 frames of colours 0, 1, 0 with
the delays 0, 0, 5 in coalescing mode leave one frame of colour 0 with delay 5. -/
theorem coalesce_three_frames_witness :
    (gif_frames_run consts_default blend_ops_copy (ani_settings_empty, nz_stat)
      [(nz_frame 0 0, 1), (nz_frame 1 0, 1), (nz_frame 0 5, 1)]).map
      (fun r => r.1.fset.frames.map (fun f => (f.delay, f.img.image))) =
      some [(5, some [0])] ∧
    ∃ r c, gif_frames_run consts_default blend_ops_copy (ani_settings_empty, nz_stat)
        [(nz_frame 0 0, 1), (nz_frame 1 0, 1), (nz_frame 0 5, 1)] = some r ∧
      r.1.fset.frames = [c] ∧ c.delay = 5 ∧
      compose_in_order consts_default blend_ops_copy 1 none nz_stat none
        [nz_frame 0 0, nz_frame 1 0, nz_frame 0 5] = some c := by
  refine ⟨by decide!, ?_⟩
  have hs : (gif_frames_run consts_default blend_ops_copy (ani_settings_empty, nz_stat)
      [(nz_frame 0 0, 1), (nz_frame 1 0, 1), (nz_frame 0 5, 1)]).isSome = true := by decide!
  obtain ⟨r, hr⟩ := Option.isSome_iff_exists.mp hs
  obtain ⟨c, h⟩ := coalesce_three_frames consts_default blend_ops_copy none nz_stat
    (nz_frame 0 0) (nz_frame 1 0) (nz_frame 0 5) r (by decide) (by decide) (by decide)
    (by decide) (by decide) (by decide) (by decide) (by decide) (by decide) (by decide) hr
  exact ⟨r, c, hr, h⟩

/-! ## Compositing over an underlay with the same palette -/

/-- C14 (as stated, refuted): on the 2 × 2 canvas whose first frame has the pixels
A B A B in row-major order, compositing the 1 × 1 frame of colour A at `(1, 1)`
does not yield the canvas A B / B A. -/
theorem composite_two_frames_counterexample :
    (gif_frames_run consts_default blend_ops_copy (ani_settings_empty, ab_stat0)
      [(ab_first, 1), (ab_settings, 1)]).map
      (fun r => r.1.fset.frames.getLast?.map (fun f => (f.img.image.getD []).map pal_ab)) ≠
      some (some [col_A, col_B, col_B, col_A]) := by
  decide!

/-- C14 (amended): for a 2 × 2 canvas whose first frame is fully opaque indexed
with pixels A B A B in row-major order, compositing a second 1 × 1 indexed frame
of colour A at offset `(1, 1)` with disposal Leave, blend on and no transparent
index yields the composited canvas A B / A A: only the bottom-right pixel
changes, the rest equals the first frame. -/
theorem composite_two_frames :
    (gif_frames_run consts_default blend_ops_copy (ani_settings_empty, ab_stat0)
      [(ab_first, 1), (ab_settings, 1)]).map
      (fun r => r.1.fset.frames.map (fun f => (f.img.image.getD []).map pal_ab)) =
      some [[col_A, col_B, col_A, col_B], [col_A, col_B, col_A, col_A]] := by
  decide!

/-! ## LZW: the code size -/

theorem one_shiftLeft (n : Nat) : 1 <<< n = 2 ^ n := by
  rw [Nat.shiftLeft_eq, Nat.one_mul]

theorem emitlzw_loop_keeps (n : Nat) :
    ∀ (g : gifcbuf) (w : Int) (bits : Nat),
      (emitlzw_loop n (g, w, bits)).1.lc0 = g.lc0 ∧
      (emitlzw_loop n (g, w, bits)).1.lc = g.lc ∧
      (emitlzw_loop n (g, w, bits)).1.nxc = g.nxc ∧
      (emitlzw_loop n (g, w, bits)).1.nxc2 = g.nxc2 ∧
      (emitlzw_loop n (g, w, bits)).1.clear = g.clear ∧
      (emitlzw_loop n (g, w, bits)).1.log = g.log ∧
      (emitlzw_loop n (g, w, bits)).1.codes = g.codes ∧
      (emitlzw_loop n (g, w, bits)).1.nxmap = g.nxmap ∧
      (emitlzw_loop n (g, w, bits)).1.prev = g.prev := by
  induction n with
  | zero => intro g w bits; exact ⟨rfl, rfl, rfl, rfl, rfl, rfl, rfl, rfl, rfl⟩
  | succ n ih =>
    intro g w bits
    rw [emitlzw_loop]
    split
    · dsimp only
      split
      · exact ih _ _ _
      · exact ih _ _ _
    · exact ⟨rfl, rfl, rfl, rfl, rfl, rfl, rfl, rfl, rfl⟩

/-- What `emitlzw` does to the fields of the encoder other than the output. -/
theorem emitlzw_fields (g : gifcbuf) (c : Int) :
    (emitlzw g c).lc0 = g.lc0 ∧ (emitlzw g c).nxc = g.nxc ∧ (emitlzw g c).clear = g.clear ∧
    (emitlzw g c).log = g.log ++ [(c, g.lc)] ∧ (emitlzw g c).codes = g.codes ∧
    (emitlzw g c).nxmap = g.nxmap ∧ (emitlzw g c).prev = g.prev ∧
    (emitlzw g c).lc = (if g.nxc ≥ g.nxc2 then g.lc + 1 else g.lc) ∧
    (emitlzw g c).nxc2 = (if g.nxc ≥ g.nxc2 then 1 <<< (g.lc + 1) else g.nxc2) := by
  obtain ⟨h1, h2, h3, h4, h5, h6, h7, h8, h9⟩ := emitlzw_loop_keeps ((g.bits + g.lc) / 8)
    { g with log := g.log ++ [(c, g.lc)] } (Int.lor g.w (c <<< (g.bits : Int))) (g.bits + g.lc)
  dsimp only at h1 h2 h3 h4 h5 h6 h7 h8 h9
  unfold emitlzw
  dsimp only
  rw [h3, h4]
  split
  · dsimp only
    rw [h1, h2, h5, h6, h7, h8, h9]
    exact ⟨rfl, rfl, rfl, rfl, rfl, rfl, rfl, rfl, rfl⟩
  · dsimp only
    rw [h1, h2, h5, h6, h7, h8, h9]
    exact ⟨rfl, rfl, rfl, rfl, rfl, rfl, rfl, rfl, rfl⟩

theorem enc_inv_emitlzw {m : Nat} (g : gifcbuf) (c : Int) (h : enc_inv m g) : enc_inv m (emitlzw g c) := by
  obtain ⟨a0, a1, a2, a3, a4, a5, a6, a7⟩ := h
  obtain ⟨e1, e2, e3, e4, _, _, _, e8, e9⟩ := emitlzw_fields g c
  unfold enc_inv
  rw [e1, e2, e3, e4, e8, e9]
  have hlog : ∀ e ∈ g.log ++ [(c, g.lc)], g.lc0 + 1 ≤ e.2 ∧ e.2 ≤ 12 := by
    intro e he
    rcases List.mem_append.mp he with h | h
    · exact a7 e h
    · rw [List.mem_singleton] at h
      rw [h]
      exact ⟨a2, a3⟩
  by_cases hc : g.nxc ≥ g.nxc2
  · rw [if_pos hc, if_pos hc]
    have hlt : g.lc < 12 := by
      by_contra hn
      have h12 : g.lc = 12 := by omega
      rw [a4, h12] at hc
      norm_num at hc
      omega
    exact ⟨a0, a1, by omega, by omega, one_shiftLeft _, a5, a6, hlog⟩
  · rw [if_neg hc, if_neg hc]
    exact ⟨a0, a1, a2, a3, a4, a5, a6, hlog⟩

theorem enc_inv_resetclzw {m : Nat} (g : gifcbuf) (h : enc_inv m g) : enc_inv m (resetclzw g) := by
  obtain ⟨a0, a1, a2, a3, a4, a5, a6, a7⟩ := h
  unfold enc_inv resetclzw
  dsimp only
  refine ⟨a0, a1, le_refl _, by omega, one_shiftLeft _, ?_, a6, ?_⟩
  · rw [a6]
    have : 2 ^ g.lc0 ≤ 2 ^ 11 := Nat.pow_le_pow_right (by decide) a1
    omega
  · intro e he
    rcases List.mem_append.mp he with h | h
    · exact a7 e h
    · rw [List.mem_singleton] at h
      rw [h]
      exact ⟨a2, a3⟩

theorem enc_inv_initclzw (g : gifcbuf) (m : Nat) (fp : List Nat) (hm : m ≤ 11) :
    enc_inv (if m < 2 then 2 else m) (initclzw g m fp) := by
  have h11 : (if m < 2 then 2 else m) ≤ 11 := by split <;> omega
  unfold initclzw resetclzw enc_inv
  dsimp only
  refine ⟨rfl, h11, le_refl _, by omega, one_shiftLeft _, ?_, one_shiftLeft _, ?_⟩
  · rw [one_shiftLeft]
    have : 2 ^ (if m < 2 then 2 else m) ≤ 2 ^ 11 := Nat.pow_le_pow_right (by decide) h11
    omega
  · intro e he
    rw [List.nil_append, List.mem_singleton] at he
    rw [he]
    exact ⟨le_refl _, by omega⟩

theorem enc_inv_putlzw_loop {m : Nat} (src : List Nat) :
    ∀ (g : gifcbuf) (prev : Int), enc_inv m g → enc_inv m (putlzw_loop src (g, prev)).1 := by
  induction src with
  | nil => intro g prev h; exact h
  | cons c src ih =>
    intro g prev h
    rw [putlzw_loop]
    split
    · exact ih _ _ h
    · dsimp only
      split
      · exact ih _ _ h
      · have he := enc_inv_emitlzw g prev h
        split
        · exact ih _ _ (enc_inv_resetclzw _ he)
        · rename_i hnx
          apply ih
          obtain ⟨a0, a1, a2, a3, a4, a5, a6, a7⟩ := he
          split
          · exact ⟨a0, a1, a2, a3, a4, by dsimp only; omega, a6, a7⟩
          · exact ⟨a0, a1, a2, a3, a4, by dsimp only; omega, a6, a7⟩

theorem enc_inv_putlzw {m : Nat} (g : gifcbuf) (src : List Nat) (h : enc_inv m g) :
    enc_inv m (putlzw g src) :=
  enc_inv_putlzw_loop src g g.prev h

theorem enc_inv_donelzw {m : Nat} (g : gifcbuf) (h : enc_inv m g) : enc_inv m (donelzw g) := by
  have h2 := enc_inv_emitlzw _ ((emitlzw g g.prev).clear + 1) (enc_inv_emitlzw g g.prev h)
  unfold donelzw
  dsimp only
  split
  · exact h2
  · exact h2

theorem getlzw_fill_keeps (lc n : Nat) :
    ∀ (g : gifbuf) (w bits : Nat),
      (getlzw_fill lc n (g, w, bits)).2.1.lc0 = g.lc0 ∧
      (getlzw_fill lc n (g, w, bits)).2.1.lc = g.lc ∧
      (getlzw_fill lc n (g, w, bits)).2.1.cmask = g.cmask ∧
      (getlzw_fill lc n (g, w, bits)).2.1.log = g.log ∧
      (getlzw_fill lc n (g, w, bits)).2.1.clear = g.clear ∧
      (getlzw_fill lc n (g, w, bits)).2.1.nxc = g.nxc ∧
      (getlzw_fill lc n (g, w, bits)).2.1.prev = g.prev ∧
      (getlzw_fill lc n (g, w, bits)).2.1.nxcode = g.nxcode ∧
      (getlzw_fill lc n (g, w, bits)).2.1.cchar = g.cchar := by
  induction n with
  | zero => intro g w bits; exact ⟨rfl, rfl, rfl, rfl, rfl, rfl, rfl, rfl, rfl⟩
  | succ n ih =>
    intro g w bits
    rw [getlzw_fill]
    split
    · split
      · dsimp only
        split
        · exact ⟨rfl, rfl, rfl, rfl, rfl, rfl, rfl, rfl, rfl⟩
        · exact ih _ _ _
      · exact ih _ _ _
    · exact ⟨rfl, rfl, rfl, rfl, rfl, rfl, rfl, rfl, rfl⟩

theorem dec_inv_resetlzw {m : Nat} (g : gifbuf) (h : dec_inv m g) : dec_inv m (resetlzw g) := by
  obtain ⟨a0, a1, a2, a3, a4, a5⟩ := h
  exact ⟨a0, a1, le_refl _, by show g.lc0 + 1 ≤ 12; omega,
    by show 1 <<< (g.lc0 + 1) - 1 = _; rw [one_shiftLeft]; rfl, a5⟩

theorem dec_inv_initlzw (mem : gifbuf) (fp : List Nat) (h : (initlzw mem fp).1 = true) :
    dec_inv (initlzw mem fp).2.lc0 (initlzw mem fp).2 := by
  unfold initlzw at h ⊢
  cases fp with
  | nil => cases h
  | cons i rest =>
    dsimp only at h ⊢
    split at h
    · cases h
    · rename_i hi
      rw [if_neg hi]
      exact ⟨rfl, by show i ≤ 11; omega, le_refl _, by show i + 1 ≤ 12; omega,
        by show 1 <<< (i + 1) - 1 = _; rw [one_shiftLeft]; rfl,
        by intro e he; cases he⟩

theorem dec_inv_getlzw_update {m : Nat} (g : gifbuf) (c : Nat) (h : dec_inv m g) :
    dec_inv m (getlzw_update g g.cmask c) := by
  obtain ⟨a0, a1, a2, a3, a4, a5⟩ := h
  unfold getlzw_update
  dsimp only
  split
  · split
    · rename_i hc
      have hlt : g.lc < 12 := by
        by_contra hn
        have h12 : g.lc = 12 := by omega
        rw [a4, h12] at hc
        norm_num at hc
      exact ⟨a0, a1, by show g.lc0 + 1 ≤ g.lc + 1; omega, by show g.lc + 1 ≤ 12; omega,
        by show 1 <<< (g.lc + 1) - 1 = _; rw [one_shiftLeft], a5⟩
    · exact ⟨a0, a1, a2, a3, a4, a5⟩
  · exact ⟨a0, a1, a2, a3, a4, a5⟩

theorem dec_inv_getlzw_string {m : Nat} (g : gifbuf) (nxc c tail cnt : Nat) (out : List Nat) (g1 : gifbuf)
    (h : dec_inv m g) (h1 : (getlzw_string g nxc c tail cnt out).gif = some g1) :
    dec_inv m g1 := by
  unfold getlzw_string at h1
  split at h1
  · cases h1
  · cases h1
    exact h

theorem dec_inv_getlzw_decode {m : Nat} (g : gifbuf) (c tail cnt : Nat) (out : List Nat) (g1 : gifbuf)
    (h : dec_inv m g) (h1 : (getlzw_decode g g.cmask c tail cnt out).gif = some g1) :
    dec_inv m g1 := by
  unfold getlzw_decode at h1
  split at h1
  · cases h1
    exact dec_inv_resetlzw g h
  split at h1
  · cases h1
    exact h
  dsimp only at h1
  split at h1
  · cases h1; exact dec_inv_getlzw_update g c h
  split at h1
  · cases h1; exact dec_inv_getlzw_update g c h
  · exact dec_inv_getlzw_string _ _ _ _ _ _ _ (dec_inv_getlzw_update g c h) h1

theorem dec_inv_getlzw_step {m : Nat} (g : gifbuf) (tail cnt : Nat) (g1 : gifbuf)
    (h : dec_inv m g) (h1 : (getlzw_step g tail cnt).gif = some g1) : dec_inv m g1 := by
  obtain ⟨a0, a1, a2, a3, a4, a5⟩ := h
  obtain ⟨f1, f2, f3, f4, _⟩ := getlzw_fill_keeps g.lc g.lc g g.w g.bits
  have hf : dec_inv m (getlzw_fill g.lc g.lc (g, g.w, g.bits)).2.1 := by
    unfold dec_inv
    rw [f1, f2, f3, f4]
    exact ⟨a0, a1, a2, a3, a4, a5⟩
  unfold getlzw_step at h1
  dsimp only at h1
  generalize (if tail > cnt then cnt else tail) = l at h1
  by_cases hc : cnt - l = 0
  · rw [if_pos hc] at h1
    cases h1
    exact ⟨a0, a1, a2, a3, a4, a5⟩
  rw [if_neg hc] at h1
  split at h1
  · cases h1
    exact hf
  · refine dec_inv_getlzw_decode _ _ _ _ _ _ ?_ h1
    obtain ⟨b0, b1, b2, b3, b4, b5⟩ := hf
    refine ⟨b0, b1, b2, b3, b4, ?_⟩
    intro e he
    rcases List.mem_append.mp he with h | h
    · exact b5 e h
    · rw [List.mem_singleton] at h
      rw [h]
      exact ⟨b2, b3⟩

theorem dec_inv_reach {m : Nat} (g0 g : gifbuf) (h0 : dec_inv m g0) (h : getlzw_reach g0 g) : dec_inv m g := by
  induction h with
  | start => exact h0
  | turn g g1 tail cnt _ h1 ih => exact dec_inv_getlzw_step g tail cnt g1 ih h1

theorem enc_inv_reach {m : Nat} (g0 g : gifcbuf) (h0 : enc_inv m g0) (h : putlzw_reach g0 g) : enc_inv m g := by
  induction h with
  | start => exact h0
  | put g src _ ih => exact enc_inv_putlzw g src ih
  | emit g c _ ih => exact enc_inv_emitlzw g c ih
  | reset g _ ih => exact enc_inv_resetclzw g ih
  | done g _ ih => exact enc_inv_donelzw g ih

theorem getlzw_reach_trans (a b c : gifbuf) (h1 : getlzw_reach a b) (h2 : getlzw_reach b c) :
    getlzw_reach a c := by
  induction h2 with
  | start => exact h1
  | turn x y t n _ hb ih2 => exact getlzw_reach.turn x y t n ih2 hb

theorem getlzw_loop_reach (n : Nat) :
    ∀ (g : gifbuf) (tail cnt : Nat) (dest : List Nat) (r : Bool × List Nat × gifbuf),
      getlzw_loop n g tail cnt dest = some r → getlzw_reach g r.2.2 := by
  induction n with
  | zero => intro g tail cnt dest r h; cases h
  | succ n ih =>
    intro g tail cnt dest r h
    rw [getlzw_loop] at h
    split at h
    · rename_i g1 tail1 cnt1 out hs
      exact getlzw_reach_trans _ _ _
        (getlzw_reach.turn g g1 tail cnt getlzw_reach.start (by rw [hs]; rfl)) (ih _ _ _ _ _ h)
    · rename_i g1 out hs
      cases h
      exact getlzw_reach.turn g g1 tail cnt getlzw_reach.start (by rw [hs]; rfl)
    · rename_i g1 out hs
      cases h
      exact getlzw_reach.turn g g1 tail cnt getlzw_reach.start (by rw [hs]; rfl)
    · cases h

/-- C17: at every point of decoding (any state reached by turns of the loop of
`getlzw` after `initlzw` accepted the minimum code size `md`, which it does up
to 11) and of encoding (any state reached by `putlzw`, `emitlzw`, `resetclzw` and
`donelzw` after `initclzw` with a minimum code size `m` in 2..11), the minimum
code size is unchanged and the code size `lc` lies in `m + 1 .. 12`; so does the
code size at which every code was read or written. -/
theorem lzw_code_size_bounds (mem : gifbuf) (md : Nat) (rest : List Nat) (g : gifbuf)
    (memc : gifcbuf) (m : Nat) (fpc : List Nat) (gc : gifcbuf)
    (hmd : md ≤ 11) (hg : getlzw_reach (initlzw mem (md :: rest)).2 g)
    (hm2 : 2 ≤ m) (hm11 : m ≤ 11) (hgc : putlzw_reach (initclzw memc m fpc) gc) :
    ((initlzw mem (md :: rest)).1 = true ∧ g.lc0 = md ∧ md + 1 ≤ g.lc ∧ g.lc ≤ 12 ∧
      ∀ e ∈ g.log, md + 1 ≤ e.2 ∧ e.2 ≤ 12) ∧
    (gc.lc0 = m ∧ m + 1 ≤ gc.lc ∧ gc.lc ≤ 12 ∧ ∀ e ∈ gc.log, m + 1 ≤ e.2 ∧ e.2 ≤ 12) := by
  have hi : (initlzw mem (md :: rest)).1 = true := by
    unfold initlzw
    dsimp only
    rw [if_neg (by omega)]
  have hl : (initlzw mem (md :: rest)).2.lc0 = md := by
    unfold initlzw
    dsimp only
    rw [if_neg (by omega)]
    rfl
  have hd := dec_inv_reach _ g (dec_inv_initlzw mem (md :: rest) hi) hg
  rw [hl] at hd
  obtain ⟨a0, _, a2, a3, _, a5⟩ := hd
  have he := enc_inv_reach _ gc (enc_inv_initclzw memc m fpc hm11) hgc
  rw [if_neg (by omega)] at he
  obtain ⟨b0, _, b2, b3, _, _, _, b7⟩ := he
  rw [a0] at a2 a5
  rw [b0] at b2 b7
  exact ⟨⟨hi, a0, a2, a3, a5⟩, b0, b2, b3, b7⟩

theorem lzw_code_size_bounds_witness :
    ((initlzw gifbuf_zero [2, 2, 76, 1, 0]).1 = true ∧
      (((getlzw_step (initlzw gifbuf_zero [2, 2, 76, 1, 0]).2 0 1).gif).getD gifbuf_zero).lc0 = 2 ∧
      2 + 1 ≤ (((getlzw_step (initlzw gifbuf_zero [2, 2, 76, 1, 0]).2 0 1).gif).getD gifbuf_zero).lc ∧
      (((getlzw_step (initlzw gifbuf_zero [2, 2, 76, 1, 0]).2 0 1).gif).getD gifbuf_zero).lc ≤ 12 ∧
      ∀ e ∈ (((getlzw_step (initlzw gifbuf_zero [2, 2, 76, 1, 0]).2 0 1).gif).getD gifbuf_zero).log,
        2 + 1 ≤ e.2 ∧ e.2 ≤ 12) ∧
    ((donelzw (putlzw (initclzw gifcbuf_zero 2 []) [0, 1, 0, 1])).lc0 = 2 ∧
      2 + 1 ≤ (donelzw (putlzw (initclzw gifcbuf_zero 2 []) [0, 1, 0, 1])).lc ∧
      (donelzw (putlzw (initclzw gifcbuf_zero 2 []) [0, 1, 0, 1])).lc ≤ 12 ∧
      ∀ e ∈ (donelzw (putlzw (initclzw gifcbuf_zero 2 []) [0, 1, 0, 1])).log,
        2 + 1 ≤ e.2 ∧ e.2 ≤ 12) :=
  lzw_code_size_bounds gifbuf_zero 2 [2, 76, 1, 0] _ gifcbuf_zero 2 [] _ (by decide)
    (getlzw_reach.turn _ _ 0 1 getlzw_reach.start rfl) (by decide) (by decide)
    (putlzw_reach.done _ (putlzw_reach.put _ _ putlzw_reach.start))

/-! ## LZW: the sub-blocks of the encoder -/

theorem int_shr (w : Int) (n : Nat) : w >>> (n : Int) = w >>> n := by
  cases w with
  | ofNat m => exact Int.shiftRight_coe_nat m n
  | negSucc m => exact Int.shiftRight_negSucc m n

theorem int_shiftRight_zero (w : Int) : w >>> (0 : Nat) = w := by
  rw [Int.shiftRight_eq_div_pow]
  simp

theorem put_blocks_append (Bs : List (List Nat)) (B : List Nat) :
    put_blocks (Bs ++ [B]) = put_blocks Bs ++ 255 :: B := by
  induction Bs with
  | nil => simp [put_blocks]
  | cons b r ih => simp [put_blocks, ih]

theorem cbuf_data_length (g : gifcbuf) : (cbuf_data g).length = g.cnt := by
  simp [cbuf_data]

theorem range_map_update_zero (buf : Nat → Nat) (v n : Nat) :
    (List.range (n + 1)).map (Function.update buf 0 v) =
      v :: (List.range n).map (fun i => buf (i + 1)) := by
  rw [List.range_succ_eq_map, List.map_cons, List.map_map, Function.update_same]
  congr 1

theorem cbuf_data_push (g : gifcbuf) (b : Nat) :
    (List.range (g.cnt + 1)).map (fun i => Function.update g.buf (g.cnt + 1) b (i + 1)) =
      cbuf_data g ++ [b] := by
  rw [List.range_succ, List.map_append]
  congr 1
  · apply List.map_congr_left
    intro a ha
    rw [List.mem_range] at ha
    exact Function.update_noteq (by omega) _ _
  · simp

/-- One turn of the loop of `emitlzw` adds the byte to the data, in the block
buffer or in a new full sub-block. -/
theorem emitlzw_loop_out (pre : List Nat) (n : Nat) :
    ∀ (g : gifcbuf) (w : Int) (bits : Nat) (Bs : List (List Nat)), enc_out g pre Bs →
      ∃ Bs1, enc_out (emitlzw_loop n (g, w, bits)).1 pre Bs1 ∧
        Bs1.flatten ++ cbuf_data (emitlzw_loop n (g, w, bits)).1 =
          Bs.flatten ++ cbuf_data g ++ emit_bytes (min n (bits / 8)) w ∧
        (emitlzw_loop n (g, w, bits)).2.1 = w >>> (8 * min n (bits / 8)) ∧
        (emitlzw_loop n (g, w, bits)).2.2 = bits - 8 * min n (bits / 8) := by
  induction n with
  | zero =>
    intro g w bits Bs h
    refine ⟨Bs, h, ?_, ?_, ?_⟩
    · simp [emitlzw_loop, emit_bytes]
    · simp [emitlzw_loop, int_shiftRight_zero]
    · simp [emitlzw_loop]
  | succ n ih =>
    intro g w bits Bs h
    obtain ⟨h1, h2, h3⟩ := h
    rw [emitlzw_loop]
    by_cases hb : bits ≥ 8
    · rw [if_pos hb]
      dsimp only
      have hk : min (n + 1) (bits / 8) = min n ((bits - 8) / 8) + 1 := by
        have : bits / 8 = (bits - 8) / 8 + 1 := by omega
        omega
      have hsh : (w >>> (8 : Int)) >>> (8 * min n ((bits - 8) / 8)) =
          w >>> (8 * (min n ((bits - 8) / 8) + 1)) := by
        rw [Nat.mul_add, Nat.mul_one, Nat.add_comm, Int.shiftRight_add w 8]
        exact congrArg (fun v : Int => v >>> (8 * min n ((bits - 8) / 8))) (int_shr w 8)
      rw [hk, emit_bytes]
      by_cases hc : g.cnt + 1 ≥ 255
      · rw [if_pos hc]
        have hcnt : g.cnt = 254 := by omega
        obtain ⟨Bs1, e1, e2, e3, e4⟩ := ih
          { g with cnt := 0, buf := Function.update (Function.update g.buf (g.cnt + 1) (to_uchar w)) 0 255,
                   f := g.f ++ (List.range 256).map
                     (Function.update (Function.update g.buf (g.cnt + 1) (to_uchar w)) 0 255) }
          (w >>> 8) (bits - 8) (Bs ++ [cbuf_data g ++ [to_uchar w]]) (by
            refine ⟨?_, ?_, Nat.zero_lt_succ 254⟩
            · show g.f ++ _ = _
              rw [put_blocks_append, h1, List.append_assoc, range_map_update_zero]
              have := cbuf_data_push g (to_uchar w)
              rw [hcnt] at this
              rw [hcnt, this]
            · intro b hb
              rcases List.mem_append.mp hb with hb | hb
              · exact h2 b hb
              · rw [List.mem_singleton] at hb
                rw [hb, List.length_append, cbuf_data_length, hcnt]
                rfl)
        refine ⟨Bs1, e1, ?_, ?_, ?_⟩
        · rw [e2]
          simp [cbuf_data]
        · rw [e3, hsh]
        · rw [e4]; omega
      · rw [if_neg hc]
        obtain ⟨Bs1, e1, e2, e3, e4⟩ := ih
          { g with cnt := g.cnt + 1, buf := Function.update g.buf (g.cnt + 1) (to_uchar w) }
          (w >>> 8) (bits - 8) Bs ⟨h1, h2, by show g.cnt + 1 < 255; omega⟩
        refine ⟨Bs1, e1, ?_, ?_, ?_⟩
        · rw [e2]
          have := cbuf_data_push g (to_uchar w)
          unfold cbuf_data
          dsimp only
          rw [this]
          simp [cbuf_data]
        · rw [e3, hsh]
        · rw [e4]; omega
    · rw [if_neg hb]
      have hk : min (n + 1) (bits / 8) = 0 := by
        have : bits / 8 = 0 := by omega
        omega
      rw [hk]
      exact ⟨Bs, ⟨h1, h2, h3⟩, by simp [emit_bytes], by simp [int_shiftRight_zero], by simp⟩

/-- What `emitlzw` does to the output: the whole bytes of the shifter are added
to the data. -/
theorem emitlzw_out (pre : List Nat) (g : gifcbuf) (c : Int) (Bs : List (List Nat))
    (h : enc_out g pre Bs) :
    ∃ Bs1, enc_out (emitlzw g c) pre Bs1 ∧
      Bs1.flatten ++ cbuf_data (emitlzw g c) =
        Bs.flatten ++ cbuf_data g ++
          emit_bytes ((g.bits + g.lc) / 8) (Int.lor g.w (c <<< (g.bits : Int))) ∧
      (emitlzw g c).w = (Int.lor g.w (c <<< (g.bits : Int))) >>> (8 * ((g.bits + g.lc) / 8)) ∧
      (emitlzw g c).bits = (g.bits + g.lc) % 8 := by
  obtain ⟨Bs1, e1, e2, e3, e4⟩ := emitlzw_loop_out pre ((g.bits + g.lc) / 8)
    { g with log := g.log ++ [(c, g.lc)] } (Int.lor g.w (c <<< (g.bits : Int))) (g.bits + g.lc)
    Bs h
  rw [Nat.min_self] at e2 e3 e4
  refine ⟨Bs1, ?_, ?_, ?_, ?_⟩
  · unfold emitlzw
    dsimp only
    split
    · exact e1
    · exact e1
  · unfold emitlzw
    dsimp only
    split
    · exact e2
    · exact e2
  · unfold emitlzw
    dsimp only
    split
    · exact e3
    · exact e3
  · have : (g.bits + g.lc) % 8 = g.bits + g.lc - 8 * ((g.bits + g.lc) / 8) := by omega
    rw [this]
    unfold emitlzw
    dsimp only
    split
    · exact e4
    · exact e4

theorem enc_out_resetclzw (pre : List Nat) (g : gifcbuf) (Bs : List (List Nat))
    (h : enc_out g pre Bs) : enc_out (resetclzw g) pre Bs := h

theorem enc_out_initclzw (mem : gifcbuf) (m : Nat) (fp : List Nat) :
    enc_out (initclzw mem m fp) (fp ++ [(if m < 2 then 2 else m) % 256]) [] ∧
      cbuf_data (initclzw mem m fp) = [] :=
  ⟨⟨by simp [initclzw, resetclzw, put_blocks], by simp, Nat.zero_lt_succ 254⟩, rfl⟩

theorem enc_out_putlzw_loop (pre : List Nat) (src : List Nat) :
    ∀ (g : gifcbuf) (prev : Int) (Bs : List (List Nat)), enc_out g pre Bs →
      ∃ Bs1, enc_out (putlzw_loop src (g, prev)).1 pre Bs1 := by
  induction src with
  | nil => intro g prev Bs h; exact ⟨Bs, h⟩
  | cons c src ih =>
    intro g prev Bs h
    rw [putlzw_loop]
    split
    · exact ih _ _ _ h
    · dsimp only
      split
      · exact ih _ _ _ h
      · obtain ⟨Bs1, he, _⟩ := emitlzw_out pre g prev Bs h
        split
        · exact ih _ _ _ (enc_out_resetclzw pre _ _ he)
        · apply ih _ _ Bs1
          split
          · exact he
          · exact he

theorem enc_out_putlzw (pre : List Nat) (g : gifcbuf) (src : List Nat) (Bs : List (List Nat))
    (h : enc_out g pre Bs) : ∃ Bs1, enc_out (putlzw g src) pre Bs1 :=
  enc_out_putlzw_loop pre src g g.prev Bs h

theorem range_map_update_last (b : Nat → Nat) (v n : Nat) :
    (List.range (n + 2)).map (Function.update (Function.update b 0 v) (n + 1) 0) =
      v :: (List.range n).map (fun i => b (i + 1)) ++ [0] := by
  rw [List.range_succ, List.map_append, List.map_singleton, Function.update_same]
  congr 1
  rw [List.range_succ_eq_map, List.map_cons, List.map_map,
    Function.update_noteq (Nat.succ_ne_zero n).symm, Function.update_same]
  congr 1
  apply List.map_congr_left
  intro a ha
  rw [List.mem_range] at ha
  show Function.update (Function.update b 0 v) (n + 1) 0 (a + 1) = b (a + 1)
  rw [Function.update_noteq (by omega), Function.update_noteq (by omega)]

theorem donelzw_flush_out (pre : List Nat) (g : gifcbuf) (Bs : List (List Nat))
    (h : enc_out g pre Bs) (g3 : gifcbuf)
    (h3 : g3 = if g.bits ≠ 0 then
        { g with cnt := g.cnt + 1, buf := Function.update g.buf (g.cnt + 1) (to_uchar g.w) }
      else g) :
    g3.f ++ (List.range (g3.cnt + 2)).map
        (Function.update (Function.update g3.buf 0 (g3.cnt % 256)) (g3.cnt + 1) 0) =
      pre ++ put_blocks Bs ++
        (cbuf_data g ++ (if g.bits ≠ 0 then [to_uchar g.w] else [])).length ::
          (cbuf_data g ++ (if g.bits ≠ 0 then [to_uchar g.w] else [])) ++ [0] ∧
    (cbuf_data g ++ (if g.bits ≠ 0 then [to_uchar g.w] else [])).length ≤ 255 := by
  obtain ⟨h1, h2, hc⟩ := h
  by_cases hb : g.bits ≠ 0
  · rw [if_pos hb] at h3
    rw [if_pos hb, h3]
    dsimp only
    rw [range_map_update_last, cbuf_data_push, h1, List.length_append, cbuf_data_length,
      List.length_singleton, Nat.mod_eq_of_lt (by omega)]
    exact ⟨by simp, by omega⟩
  · rw [if_neg hb] at h3
    rw [if_neg hb, h3, range_map_update_last, h1, List.append_nil, cbuf_data_length,
      Nat.mod_eq_of_lt (by omega)]
    exact ⟨by simp [cbuf_data], by omega⟩

/-- What `donelzw` writes: the full sub-blocks, then the bytes `T` left in the block
buffer after their count, then a zero byte. The data is that of the two codes
emitted, and the last bits of the shifter if there are any. -/
theorem donelzw_out (pre : List Nat) (g : gifcbuf) (Bs : List (List Nat))
    (h : enc_out g pre Bs) :
    ∃ Bs2, enc_out (emitlzw (emitlzw g g.prev) ((emitlzw g g.prev).clear + 1)) pre Bs2 ∧
      (donelzw g).f = pre ++ put_blocks Bs2 ++
        (cbuf_data (emitlzw (emitlzw g g.prev) ((emitlzw g g.prev).clear + 1)) ++
          (if (emitlzw (emitlzw g g.prev) ((emitlzw g g.prev).clear + 1)).bits ≠ 0 then
            [to_uchar (emitlzw (emitlzw g g.prev) ((emitlzw g g.prev).clear + 1)).w]
           else [])).length ::
        (cbuf_data (emitlzw (emitlzw g g.prev) ((emitlzw g g.prev).clear + 1)) ++
          (if (emitlzw (emitlzw g g.prev) ((emitlzw g g.prev).clear + 1)).bits ≠ 0 then
            [to_uchar (emitlzw (emitlzw g g.prev) ((emitlzw g g.prev).clear + 1)).w]
           else [])) ++ [0] ∧
      (cbuf_data (emitlzw (emitlzw g g.prev) ((emitlzw g g.prev).clear + 1)) ++
          (if (emitlzw (emitlzw g g.prev) ((emitlzw g g.prev).clear + 1)).bits ≠ 0 then
            [to_uchar (emitlzw (emitlzw g g.prev) ((emitlzw g g.prev).clear + 1)).w]
           else [])).length ≤ 255 := by
  obtain ⟨Bsa, ha, _⟩ := emitlzw_out pre g g.prev Bs h
  obtain ⟨Bs2, hb, _⟩ := emitlzw_out pre _ ((emitlzw g g.prev).clear + 1) Bsa ha
  obtain ⟨e1, e2⟩ := donelzw_flush_out pre _ Bs2 hb _ rfl
  exact ⟨Bs2, hb, e1, e2⟩

/-- The output of the encoder: the minimum code size, full sub-blocks, the last
bytes `T` after their count, and a zero byte. -/
theorem lzw_encode_out (m : Nat) (x : List Nat) :
    ∃ Bs T, lzw_encode m x =
        [(if m < 2 then 2 else m) % 256] ++ put_blocks Bs ++ T.length :: T ++ [0] ∧
      (∀ b ∈ Bs, b.length = 255) ∧ T.length ≤ 255 := by
  obtain ⟨Bs1, h1⟩ := enc_out_putlzw _ _ x [] (enc_out_initclzw gifcbuf_zero m []).1
  obtain ⟨Bs2, h2, h3, h4⟩ := donelzw_out _ _ Bs1 h1
  exact ⟨Bs2, _, h3, h2.2.1, h4⟩

theorem gif_blocks_put_blocks (Bs : List (List Nat)) (s : List Nat)
    (hs : ∀ k, gif_blocks (k + 1) s = true) :
    ∀ (k : Nat), (∀ b ∈ Bs, b.length = 255) →
      Bs.length < k → gif_blocks k (put_blocks Bs ++ s) = true := by
  induction Bs with
  | nil =>
    intro k _ hk
    cases k with
    | zero => omega
    | succ k => exact hs k
  | cons b r ih =>
    intro k hb hk
    cases k with
    | zero => omega
    | succ k =>
      have hbl : b.length = 255 := hb b (List.mem_cons_self _ _)
      have hr := ih k (fun c hc => hb c (List.mem_cons_of_mem _ hc))
        (by simp only [List.length_cons] at hk; omega)
      have hd : List.drop 255 (b ++ (put_blocks r ++ s)) = put_blocks r ++ s := by
        rw [← hbl, List.drop_left]
      have he : put_blocks (b :: r) ++ s = 255 :: (b ++ (put_blocks r ++ s)) := by
        simp [put_blocks]
      rw [he, gif_blocks, hd, hr]
      simp [hbl]

theorem gif_blocks_last (T : List Nat) (h1 : 1 ≤ T.length) (h2 : T.length ≤ 255) (k : Nat) :
    gif_blocks (k + 1) (T.length :: T ++ [0]) = true := by
  have he : T.length :: T ++ [0] = T.length :: (T ++ [0]) := rfl
  rw [he, gif_blocks, List.drop_left]
  simp [h1, h2]

theorem put_blocks_length (Bs : List (List Nat)) (s : List Nat) :
    Bs.length < (put_blocks Bs ++ s).length + 1 := by
  induction Bs with
  | nil => simp
  | cons b r ih =>
    simp only [put_blocks, List.length_cons, List.length_append] at ih ⊢
    omega

/-- The sub-blocks of the encoder are framed as they should be when bytes are left
for the last sub-block. -/
theorem lzw_encode_framed (m : Nat) (x : List Nat) :
    ∃ Bs T, lzw_encode m x =
        [(if m < 2 then 2 else m) % 256] ++ put_blocks Bs ++ T.length :: T ++ [0] ∧
      (∀ b ∈ Bs, b.length = 255) ∧ T.length ≤ 255 ∧
      (T ≠ [] → gif_framed (lzw_encode m x).tail = true) := by
  obtain ⟨Bs, T, h1, h2, h3⟩ := lzw_encode_out m x
  refine ⟨Bs, T, h1, h2, h3, ?_⟩
  intro hT
  rw [h1]
  have hl : 1 ≤ T.length := by
    cases T with
    | nil => exact absurd rfl hT
    | cons a t => simp
  have hk : Bs.length < (put_blocks Bs ++ (T.length :: T ++ [0])).length := by
    have := put_blocks_length Bs T
    simp only [List.length_append, List.length_cons, List.length_singleton] at this ⊢
    omega
  have := gif_blocks_put_blocks Bs (T.length :: T ++ [0]) (gif_blocks_last T hl h3) _ h2 hk
  unfold gif_framed
  simp only [List.cons_append, List.nil_append, List.append_assoc, List.tail_cons] at this ⊢
  exact this

set_option maxHeartbeats 4000000 in
/-- C13: the framing fails when the codes fill the last sub-block of 255 bytes
exactly. For the minimum code size 2 and the 888 bytes of `aligned_input`, all
below 4, the encoder writes the minimum code size, one full sub-block of 255
bytes, and then two zero bytes: an empty sub-block before the terminator. -/
theorem lzw_encode_framing_counterexample :
    (∀ b ∈ aligned_input, b < 2 ^ 2) ∧ aligned_input.length = 888 ∧
    gif_framed (lzw_encode 2 aligned_input).tail = false ∧
    (lzw_encode 2 aligned_input).length = 259 ∧
    (lzw_encode 2 aligned_input).take 2 = [2, 255] ∧
    (lzw_encode 2 aligned_input).drop 257 = [0, 0] := by decide!

/-! ## LZW: the turns of the decoder -/

theorem getlzw_step_of_tail (g : gifbuf) (tail cnt : Nat) (h : cnt ≤ tail) :
    getlzw_step g tail cnt = .done { g with tail := tail - cnt } (getlzw_out g.buf cnt tail) := by
  unfold getlzw_step
  dsimp only
  by_cases h1 : tail > cnt
  · rw [if_pos h1, if_pos (by omega)]
  · have : tail = cnt := by omega
    rw [if_neg h1, if_pos (by omega), this]

theorem getlzw_step_of_nodata (g : gifbuf) (tail cnt : Nat) (h : tail < cnt)
    (hf : (getlzw_fill g.lc g.lc (g, g.w, g.bits)).1 = false) :
    getlzw_step g tail cnt =
      .fail (getlzw_fill g.lc g.lc (g, g.w, g.bits)).2.1 (getlzw_out g.buf tail tail) := by
  have hl : (if tail > cnt then cnt else tail) = tail := if_neg (by omega)
  unfold getlzw_step
  dsimp only
  rw [hl, if_neg (show ¬ (cnt - tail = 0) by omega), hf]
  rfl

theorem getlzw_step_of_code (g : gifbuf) (tail cnt c : Nat)
    (h : getlzw_code g tail cnt = some c) :
    tail < cnt ∧ (getlzw_fill g.lc g.lc (g, g.w, g.bits)).1 = true ∧
    c = (getlzw_fill g.lc g.lc (g, g.w, g.bits)).2.2.1 &&& g.cmask ∧
    getlzw_step g tail cnt =
      getlzw_decode (getlzw_taken g) g.cmask c 0 (cnt - tail) (getlzw_out g.buf tail tail) := by
  obtain ⟨_, f2, f3, _⟩ := getlzw_fill_keeps g.lc g.lc g g.w g.bits
  unfold getlzw_code at h
  dsimp only at h
  by_cases h1 : cnt ≤ tail
  · rw [if_pos h1] at h
    cases h
  rw [if_neg h1] at h
  by_cases h2 : (getlzw_fill g.lc g.lc (g, g.w, g.bits)).1 = true
  · rw [if_pos h2, f3] at h
    injection h with h
    refine ⟨by omega, h2, h.symm, ?_⟩
    have hl : (if tail > cnt then cnt else tail) = tail := if_neg (by omega)
    unfold getlzw_step getlzw_taken
    dsimp only
    rw [hl, if_neg (show ¬ (cnt - tail = 0) by omega), h2, f2, f3, h, Nat.sub_self]
    rfl
  · rw [if_neg h2] at h
    cases h

theorem getlzw_taken_keeps (g : gifbuf) :
    (getlzw_taken g).lc0 = g.lc0 ∧ (getlzw_taken g).lc = g.lc ∧
    (getlzw_taken g).cmask = g.cmask ∧ (getlzw_taken g).clear = g.clear ∧
    (getlzw_taken g).nxc = g.nxc ∧ (getlzw_taken g).prev = g.prev ∧
    (getlzw_taken g).nxcode = g.nxcode ∧ (getlzw_taken g).cchar = g.cchar := by
  obtain ⟨f1, f2, f3, _, f5, f6, f7, f8, f9⟩ := getlzw_fill_keeps g.lc g.lc g g.w g.bits
  exact ⟨f1, f2, f3, f5, f6, f7, f8, f9⟩

/-- C23 (as the code has it): when a turn of the loop of `getlzw` reads the end
code `clear + 1`, the turn ends the loop with `return (FALSE)`: decoding stops
and the call reports failure, with the bytes stored so far. -/
theorem getlzw_end_code (g : gifbuf) (tail cnt n : Nat) (dest : List Nat)
    (h : getlzw_code g tail cnt = some (g.clear + 1)) :
    getlzw_step g tail cnt = .fail (getlzw_taken g) (getlzw_out g.buf tail tail) ∧
    getlzw_loop (n + 1) g tail cnt dest =
      some (false, dest ++ getlzw_out g.buf tail tail, getlzw_taken g) := by
  obtain ⟨_, _, _, h4⟩ := getlzw_step_of_code g tail cnt _ h
  obtain ⟨_, _, _, k4, _⟩ := getlzw_taken_keeps g
  have hs : getlzw_step g tail cnt = .fail (getlzw_taken g) (getlzw_out g.buf tail tail) := by
    rw [h4]
    unfold getlzw_decode
    rw [k4, if_neg (by omega), if_pos rfl]
  refine ⟨hs, ?_⟩
  rw [getlzw_loop, hs]

theorem getlzw_end_code_witness :
    getlzw_step (initlzw gifbuf_zero [2, 1, 5, 0]).2 0 1 =
      .fail (getlzw_taken (initlzw gifbuf_zero [2, 1, 5, 0]).2)
        (getlzw_out (initlzw gifbuf_zero [2, 1, 5, 0]).2.buf 0 0) ∧
    getlzw_loop (0 + 1) (initlzw gifbuf_zero [2, 1, 5, 0]).2 0 1 [] =
      some (false, [] ++ getlzw_out (initlzw gifbuf_zero [2, 1, 5, 0]).2.buf 0 0,
        getlzw_taken (initlzw gifbuf_zero [2, 1, 5, 0]).2) :=
  getlzw_end_code (initlzw gifbuf_zero [2, 1, 5, 0]).2 0 1 0 [] (by decide)

/-- C23 fails as stated: for the stream of the clear code and the end code at the
minimum code size 2, `getlzw` asked for one byte returns `FALSE`, not success. -/
theorem getlzw_end_code_counterexample :
    (getlzw 1 (initlzw gifbuf_zero [2, 1, 44, 0]).2).map (fun r => (r.1, r.2.1)) =
      some (false, []) ∧
    (getlzw 1 (initlzw gifbuf_zero [2, 1, 44, 0]).2).map (fun r => r.2.2.log) =
      some [(4, 3), (5, 3)] := by
  decide

theorem initlzw_loop_spec (n : Nat) :
    ∀ (nx : Nat → Int) (cc : Nat → Nat) (c : Nat),
      (initlzw_loop n (nx, cc)).1 c = (if c < n then -1 else nx c) ∧
      (initlzw_loop n (nx, cc)).2 c = (if c < n then c % 256 else cc c) := by
  induction n with
  | zero => intro nx cc c; simp [initlzw_loop]
  | succ n ih =>
    intro nx cc c
    rw [initlzw_loop]
    obtain ⟨h1, h2⟩ := ih (Function.update nx n (-1)) (Function.update cc n (n % 256)) c
    rw [h1, h2]
    by_cases hc : c < n
    · rw [if_pos hc, if_pos hc, if_pos (by omega), if_pos (by omega)]
      exact ⟨rfl, rfl⟩
    · rw [if_neg hc, if_neg hc]
      by_cases he : c = n
      · rw [he, Function.update_same, Function.update_same, if_pos (by omega), if_pos (by omega)]
        exact ⟨rfl, rfl⟩
      · rw [Function.update_noteq he, Function.update_noteq he, if_neg (by omega),
          if_neg (by omega)]
        exact ⟨rfl, rfl⟩

theorem clear_le (lc0 : Nat) (h : lc0 ≤ 11) : 2 ^ lc0 ≤ 2048 :=
  Nat.pow_le_pow_right (by decide) h

theorem cmask_le (lc : Nat) (h : lc ≤ 12) : 2 ^ lc - 1 ≤ 4095 := by
  have : 2 ^ lc ≤ 2 ^ 12 := Nat.pow_le_pow_right (by decide) h
  omega

theorem dec_tab_resetlzw (g : gifbuf) (h : dec_tab g) : dec_tab (resetlzw g) := by
  obtain ⟨a0, a1, _, _, a3, _, _⟩ := h
  have hc := clear_le g.lc0 a0.2.1
  refine ⟨dec_inv_resetlzw g a0, a1, le_refl _, ?_, a3, ?_, Or.inl rfl⟩
  · show g.clear + 2 ≤ 4096
    omega
  · intro c h1 h2
    have h2' : c < g.clear + 2 := h2
    have h1' : g.clear + 2 ≤ c := h1
    omega

theorem dec_tab_initlzw (mem : gifbuf) (fp : List Nat) (h : (initlzw mem fp).1 = true) :
    dec_tab (initlzw mem fp).2 := by
  have hi := dec_inv_initlzw mem fp h
  unfold initlzw at h hi ⊢
  cases fp with
  | nil => cases h
  | cons i rest =>
    dsimp only at h hi ⊢
    split at h
    · cases h
    · rename_i hle
      rw [if_neg hle] at hi ⊢
      have hc := clear_le i (by omega)
      refine ⟨hi, one_shiftLeft i, le_refl _, ?_, ?_, ?_, Or.inl rfl⟩
      · show 1 <<< i + 2 ≤ 4096
        rw [one_shiftLeft]
        omega
      · intro c hc
        have hc' : c < 1 <<< i := hc
        show (initlzw_loop (1 <<< i) (mem.nxcode, mem.cchar)).1 c = -1
        rw [(initlzw_loop_spec _ _ _ c).1, if_pos hc']
      · intro c h1 h2
        have h2' : c < 1 <<< i + 2 := h2
        have h1' : 1 <<< i + 2 ≤ c := h1
        omega

theorem getlzw_update_fields (g : gifbuf) (c : Nat) :
    (getlzw_update g g.cmask c).prev = c ∧
    (getlzw_update g g.cmask c).nxcode = Function.update g.nxcode g.nxc g.prev ∧
    (getlzw_update g g.cmask c).cchar = g.cchar ∧
    (getlzw_update g g.cmask c).clear = g.clear ∧
    (getlzw_update g g.cmask c).lc0 = g.lc0 ∧
    (getlzw_update g g.cmask c).buf = g.buf ∧
    (getlzw_update g g.cmask c).nxc = (if g.prev ≥ 0 ∧ g.nxc < 4096 then g.nxc + 1 else g.nxc) ∧
    (getlzw_update g g.cmask c).lc =
      (if g.prev ≥ 0 ∧ g.nxc < 4096 ∧ g.nxc + 1 > g.cmask ∧ g.cmask < 4096 - 1 then g.lc + 1
       else g.lc) ∧
    (getlzw_update g g.cmask c).log = g.log := by
  unfold getlzw_update
  dsimp only
  by_cases h1 : g.prev ≥ 0 ∧ g.nxc < 4096
  · rw [if_pos h1, if_pos h1]
    by_cases h2 : g.nxc + 1 > g.cmask ∧ g.cmask < 4096 - 1
    · rw [if_pos h2, if_pos ⟨h1.1, h1.2, h2.1, h2.2⟩]
      exact ⟨rfl, rfl, rfl, rfl, rfl, rfl, rfl, rfl, rfl⟩
    · rw [if_neg h2, if_neg (fun h => h2 ⟨h.2.2.1, h.2.2.2⟩)]
      exact ⟨rfl, rfl, rfl, rfl, rfl, rfl, rfl, rfl, rfl⟩
  · rw [if_neg h1, if_neg h1, if_neg (fun h => h1 ⟨h.1, h.2.1⟩)]
    exact ⟨rfl, rfl, rfl, rfl, rfl, rfl, rfl, rfl, rfl⟩

theorem dec_tab_getlzw_update (g : gifbuf) (c : Nat) (h : dec_tab g) (hc : code_ok g c)
    (hm : c ≤ 4095) : dec_tab (getlzw_update g g.cmask c) := by
  obtain ⟨a0, a1, a2, a3, a4, a5, a6⟩ := h
  obtain ⟨c1, c2, c3, c4⟩ := hc
  obtain ⟨u1, u2, _, u4, u5, _, u7, _, _⟩ := getlzw_update_fields g c
  have hd := dec_inv_getlzw_update g c a0
  unfold dec_tab
  rw [u1, u2, u4, u5, u7]
  refine ⟨hd, a1, ?_, ?_, ?_, ?_, Or.inr ⟨by omega, ?_, ?_, ?_⟩⟩
  · split <;> omega
  · split <;> omega
  · intro x hx
    rw [Function.update_noteq (by omega)]
    exact a4 x hx
  · intro x h1 h2
    by_cases hx : x = g.nxc
    · rw [hx, Function.update_same]
      rw [hx] at h2
      by_cases hp : g.prev ≥ 0 ∧ g.nxc < 4096
      · rcases a6 with a6 | a6
        · omega
        · exact ⟨a6.1, a6.2.1, a6.2.2.1, a6.2.2.2⟩
      · rw [if_neg hp] at h2
        omega
    · rw [Function.update_noteq hx]
      have : x < g.nxc := by
        split at h2 <;> omega
      exact a5 x h1 this
  · by_cases hp : g.prev ≥ 0 ∧ g.nxc < 4096
    · rw [if_pos hp]
      omega
    · rw [if_neg hp]
      by_cases hq : g.prev ≥ 0
      · have : g.nxc = 4096 := by omega
        omega
      · have : c ≠ g.nxc := fun e => c4 ⟨e, by omega⟩
        omega
  · exact_mod_cast c1
  · exact_mod_cast c2

/-! ## LZW: the strings of the decoder -/

theorem lzw_string_fuel (nxcode : Nat → Int) (cchar : Nat → Nat) (V : Nat → Prop)
    (hV : ∀ c, V c → nxcode c < (c : Int) ∧ (0 ≤ nxcode c → V (nxcode c).toNat)) (n : Nat) :
    ∀ (n1 c : Nat), V c → c < n → c < n1 →
      lzw_string nxcode cchar n c = lzw_string nxcode cchar n1 c := by
  induction n with
  | zero => intro n1 c _ h; omega
  | succ n ih =>
    intro n1 c hc h1 h2
    cases n1 with
    | zero => omega
    | succ n1 =>
      rw [lzw_string, lzw_string, if_pos (Int.natCast_nonneg c), if_pos (Int.natCast_nonneg c),
        Int.toNat_natCast]
      obtain ⟨v1, v2⟩ := hV c hc
      by_cases hp : 0 ≤ nxcode c
      · have hp2 : ((nxcode c).toNat : Int) = nxcode c := Int.toNat_of_nonneg hp
        rw [← hp2, ih n1 (nxcode c).toNat (v2 hp) (by omega) (by omega)]
      · cases n with
        | zero =>
          cases n1 with
          | zero => rfl
          | succ n1 => rw [lzw_string, lzw_string, if_neg hp]
        | succ n =>
          cases n1 with
          | zero => rw [lzw_string, lzw_string, if_neg hp]
          | succ n1 => rw [lzw_string, lzw_string, if_neg hp, if_neg hp]

theorem lzw_string_congr (nxcode nxcode1 : Nat → Int) (cchar cchar1 : Nat → Nat) (V : Nat → Prop)
    (hV : ∀ c, V c → nxcode c < (c : Int) ∧ (0 ≤ nxcode c → V (nxcode c).toNat))
    (he : ∀ c, V c → nxcode1 c = nxcode c ∧ cchar1 c = cchar c) (n : Nat) :
    ∀ (c : Nat), V c → lzw_string nxcode1 cchar1 n c = lzw_string nxcode cchar n c := by
  induction n with
  | zero => intro c _; rfl
  | succ n ih =>
    intro c hc
    rw [lzw_string, lzw_string, if_pos (Int.natCast_nonneg c), if_pos (Int.natCast_nonneg c),
      Int.toNat_natCast, (he c hc).1, (he c hc).2]
    obtain ⟨v1, v2⟩ := hV c hc
    by_cases hp : 0 ≤ nxcode c
    · have hp2 : ((nxcode c).toNat : Int) = nxcode c := Int.toNat_of_nonneg hp
      rw [← hp2, ih (nxcode c).toNat (v2 hp)]
    · cases n with
      | zero => rfl
      | succ n => rw [lzw_string, lzw_string, if_neg hp, if_neg hp]

theorem lzw_string_length_le (nxcode : Nat → Int) (cchar : Nat → Nat) (n : Nat) :
    ∀ (cx : Int), (lzw_string nxcode cchar n cx).length ≤ n := by
  induction n with
  | zero => intro cx; simp [lzw_string]
  | succ n ih =>
    intro cx
    rw [lzw_string]
    split
    · rw [List.length_append, List.length_singleton]
      have := ih (nxcode cx.toNat)
      omega
    · simp

/-- The loop of `getlzw` over the chain of the code `cx` stores the string of
`cx` in front of the `tail` bytes at the end of the buffer, and nothing else. -/
theorem getlzw_chain_spec (nxcode : Nat → Int) (cchar : Nat → Nat) (V : Nat → Prop)
    (hV : ∀ c, V c → nxcode c < (c : Int) ∧ (0 ≤ nxcode c → V (nxcode c).toNat)) (n : Nat) :
    ∀ (cx : Int) (buf : Nat → Nat) (tail : Nat),
      (cx < 0 ∨ (V cx.toNat ∧ cx < n)) →
      tail + (lzw_string nxcode cchar n cx).length ≤ GIF_BUFSIZE →
      ∃ buf1, getlzw_chain nxcode cchar n cx (buf, tail) =
          some (buf1, tail + (lzw_string nxcode cchar n cx).length) ∧
        (∀ i, i < (lzw_string nxcode cchar n cx).length →
          buf1 (GIF_BUFSIZE - (tail + (lzw_string nxcode cchar n cx).length - i)) =
            (lzw_string nxcode cchar n cx).getD i 0) ∧
        (∀ x, (x < GIF_BUFSIZE - (tail + (lzw_string nxcode cchar n cx).length) ∨
            GIF_BUFSIZE - tail ≤ x) → buf1 x = buf x) := by
  induction n with
  | zero =>
    intro cx buf tail h _
    have hcx : ¬ cx ≥ 0 := by
      rcases h with h | h
      · omega
      · have := h.2
        omega
    refine ⟨buf, ?_, ?_, ?_⟩
    · rw [getlzw_chain, if_neg hcx]
      rfl
    · intro i hi
      simp [lzw_string] at hi
    · intro x _
      rfl
  | succ n ih =>
    intro cx buf tail h hl
    by_cases hcx : cx ≥ 0
    · have hv : V cx.toNat ∧ cx < ((n + 1 : Nat) : Int) := by
        rcases h with h | h
        · omega
        · exact h
      obtain ⟨v1, v2⟩ := hV _ hv.1
      have hcn : ((cx.toNat : Nat) : Int) = cx := Int.toNat_of_nonneg hcx
      have hs : lzw_string nxcode cchar (n + 1) cx =
          lzw_string nxcode cchar n (nxcode cx.toNat) ++ [cchar cx.toNat] := by
        rw [lzw_string, if_pos hcx]
      rw [hs] at hl ⊢
      rw [List.length_append, List.length_singleton] at hl ⊢
      generalize hS : lzw_string nxcode cchar n (nxcode cx.toNat) = S at hl ⊢
      have hpar : nxcode cx.toNat < 0 ∨ (V (nxcode cx.toNat).toNat ∧ nxcode cx.toNat < n) := by
        by_cases hp : 0 ≤ nxcode cx.toNat
        · exact Or.inr ⟨v2 hp, by have := hv.2; push_cast at this; omega⟩
        · exact Or.inl (by omega)
      obtain ⟨buf1, e1, e2, e3⟩ := ih (nxcode cx.toNat)
        (Function.update buf (GIF_BUFSIZE - (tail + 1)) (cchar cx.toNat)) (tail + 1) hpar
        (by rw [hS]; omega)
      rw [hS] at e1 e2 e3
      refine ⟨buf1, ?_, ?_, ?_⟩
      · rw [getlzw_chain, if_pos hcx, e1]
        congr 2
        omega
      · intro i hi
        by_cases hi2 : i < S.length
        · have := e2 i hi2
          rw [List.getD_append _ _ _ _ hi2, ← this]
          congr 2
          omega
        · have hie : i = S.length := by omega
          rw [hie, List.getD_append_right _ _ _ _ (le_refl _), Nat.sub_self]
          have := e3 (GIF_BUFSIZE - (tail + 1)) (Or.inr (le_refl _))
          rw [Function.update_same] at this
          rw [← this]
          congr 2
          omega
      · intro x hx
        rw [e3 x (by omega), Function.update_noteq]
        unfold GIF_BUFSIZE at hx hl ⊢
        omega
    · have hs : lzw_string nxcode cchar (n + 1) cx = [] := by
        rw [lzw_string, if_neg hcx]
      rw [hs]
      refine ⟨buf, ?_, ?_, ?_⟩
      · rw [getlzw_chain, if_neg hcx]
        rfl
      · intro i hi
        simp at hi
      · intro x _
        rfl

theorem getlzw_out_eq (buf : Nat → Nat) (n : Nat) :
    ∀ tail, getlzw_out buf n tail =
      (List.range n).map (fun j => buf (GIF_BUFSIZE - (tail - j))) := by
  induction n with
  | zero => intro tail; rfl
  | succ n ih =>
    intro tail
    rw [getlzw_out, ih, List.range_succ_eq_map, List.map_cons, List.map_map]
    congr 1
    apply List.map_congr_left
    intro a _
    show buf (GIF_BUFSIZE - (tail - 1 - a)) = buf (GIF_BUFSIZE - (tail - (a + 1)))
    congr 2
    omega

theorem getlzw_out_of_string (buf : Nat → Nat) (S : List Nat)
    (h : ∀ i, i < S.length → buf (GIF_BUFSIZE - (S.length - i)) = S.getD i 0) :
    getlzw_out buf S.length S.length = S := by
  rw [getlzw_out_eq]
  apply List.ext_getElem
  · simp
  · intro i h1 h2
    rw [List.getElem_map, List.getElem_range, h i h2, List.getD_eq_getElem _ _ h2]

theorem dec_code_hV (g : gifbuf) (h : dec_tab g) :
    ∀ c, dec_code g c → g.nxcode c < (c : Int) ∧ (0 ≤ g.nxcode c → dec_code g (g.nxcode c).toNat) := by
  obtain ⟨_, _, _, _, a4, a5, _⟩ := h
  intro c hc
  rcases hc with hc | hc
  · rw [a4 c hc]
    exact ⟨by omega, fun h => absurd h (by decide)⟩
  · obtain ⟨b1, b2, b3, b4⟩ := a5 c hc.1 hc.2
    refine ⟨b2, fun _ => ?_⟩
    unfold dec_code
    omega

theorem lzw_string_ne_nil (nxcode : Nat → Int) (cchar : Nat → Nat) (n : Nat) (c : Nat) :
    lzw_string nxcode cchar (n + 1) c ≠ [] := by
  rw [lzw_string, if_pos (Int.natCast_nonneg c)]
  simp

/-- What the part `Decode this one` of a turn does with a code `c` whose chain
ends: the string `S` of `c` in the dictionary of `g` is stored at the end of the
buffer, but for its last byte, which is the byte of `c` after the entry `nxc` got
the first byte of `S`. -/
theorem getlzw_string_spec (g : gifbuf) (nxc c cnt : Nat) (out : List Nat) (V : Nat → Prop)
    (hV : ∀ c, V c → g.nxcode c < (c : Int) ∧ (0 ≤ g.nxcode c → V (g.nxcode c).toNat))
    (hc : V c) (hc2 : c < 4097) :
    ∃ buf1, getlzw_string g nxc c 0 cnt out =
        .next { g with
            buf := Function.update buf1 (GIF_BUFSIZE - 1)
              (Function.update g.cchar nxc ((dec_string g c).getD 0 0) c),
            cchar := Function.update g.cchar nxc ((dec_string g c).getD 0 0) }
          (dec_string g c).length cnt out ∧
      getlzw_out (Function.update buf1 (GIF_BUFSIZE - 1)
          (Function.update g.cchar nxc ((dec_string g c).getD 0 0) c))
        (dec_string g c).length (dec_string g c).length =
        (dec_string g c).dropLast ++ [Function.update g.cchar nxc ((dec_string g c).getD 0 0) c] := by
  have hlen := lzw_string_length_le g.nxcode g.cchar 4097 c
  have hne := lzw_string_ne_nil g.nxcode g.cchar 4096 c
  obtain ⟨buf1, e1, e2, e3⟩ := getlzw_chain_spec g.nxcode g.cchar V hV 4097 c g.buf 0
    (Or.inr ⟨by rw [Int.toNat_natCast]; exact hc, by exact_mod_cast hc2⟩)
    (by unfold GIF_BUFSIZE; omega)
  rw [Nat.zero_add] at e1 e2
  refine ⟨buf1, ?_, ?_⟩
  · unfold getlzw_string
    rw [e1]
    dsimp only
    have := e2 0 (by
      rcases hS : lzw_string g.nxcode g.cchar 4097 c with _ | ⟨a, t⟩
      · exact absurd hS hne
      · simp)
    rw [Nat.sub_zero] at this
    unfold dec_string
    rw [this]
  · unfold dec_string
    generalize lzw_string g.nxcode g.cchar 4097 c = S at *
    generalize Function.update g.cchar nxc (S.getD 0 0) c = v
    have hl : 0 < S.length := by
      cases S with
      | nil => exact absurd rfl hne
      | cons a t => simp
    have key : getlzw_out (Function.update buf1 (GIF_BUFSIZE - 1) v)
        (S.dropLast ++ [v]).length (S.dropLast ++ [v]).length = S.dropLast ++ [v] := by
      apply getlzw_out_of_string
      intro i hi
      have hl2 : (S.dropLast ++ [v]).length = S.length := by
        rw [List.length_append, List.length_dropLast, List.length_singleton]
        omega
      rw [hl2] at hi ⊢
      by_cases hi2 : i = S.length - 1
      · have h1 : GIF_BUFSIZE - (S.length - i) = GIF_BUFSIZE - 1 := by
          unfold GIF_BUFSIZE; omega
        rw [h1, Function.update_same, List.getD_append_right _ _ _ _ (by
          rw [List.length_dropLast]; omega), List.length_dropLast, hi2, Nat.sub_self]
        rfl
      · have h1 : GIF_BUFSIZE - (S.length - i) ≠ GIF_BUFSIZE - 1 := by
          unfold GIF_BUFSIZE; omega
        rw [Function.update_noteq h1, e2 i hi, List.getD_append _ _ _ _ (by
          rw [List.length_dropLast]; omega)]
        rw [List.getD_eq_getElem _ _ hi, List.getD_eq_getElem _ _ (by
          rw [List.length_dropLast]; omega), List.getElem_dropLast]
    have hl2 : (S.dropLast ++ [v]).length = S.length := by
      rw [List.length_append, List.length_dropLast, List.length_singleton]
      omega
    rw [hl2] at key
    exact key

theorem lzw_string_neg (nxcode : Nat → Int) (cchar : Nat → Nat) (n : Nat) (cx : Int)
    (h : ¬ 0 ≤ cx) : lzw_string nxcode cchar n cx = [] := by
  cases n with
  | zero => rfl
  | succ n => rw [lzw_string, if_neg h]

theorem dec_string_succ (g : gifbuf) (c : Nat) (V : Nat → Prop)
    (hV : ∀ c, V c → g.nxcode c < (c : Int) ∧ (0 ≤ g.nxcode c → V (g.nxcode c).toNat))
    (hc : V c) (hc2 : c < 4097) :
    dec_string g c = dec_string g (g.nxcode c) ++ [g.cchar c] := by
  obtain ⟨v1, v2⟩ := hV c hc
  have key : lzw_string g.nxcode g.cchar 4096 (g.nxcode c) =
      lzw_string g.nxcode g.cchar 4097 (g.nxcode c) := by
    by_cases hp : 0 ≤ g.nxcode c
    · have hp2 : ((g.nxcode c).toNat : Int) = g.nxcode c := Int.toNat_of_nonneg hp
      rw [← hp2]
      exact lzw_string_fuel g.nxcode g.cchar V hV 4096 4097 _ (v2 hp) (by omega) (by omega)
    · rw [lzw_string_neg _ _ _ _ hp, lzw_string_neg _ _ _ _ hp]
  have h1 : lzw_string g.nxcode g.cchar (4096 + 1) c =
      lzw_string g.nxcode g.cchar 4096 (g.nxcode c) ++ [g.cchar c] := by
    rw [lzw_string, if_pos (Int.natCast_nonneg c), Int.toNat_natCast]
  unfold dec_string
  exact h1.trans (by rw [key])

theorem dec_string_neg (g : gifbuf) (c : Int) (h : c < 0) : dec_string g c = [] := by
  unfold dec_string
  rw [lzw_string, if_neg (by omega)]

theorem dec_string_congr (g g1 : gifbuf) (V : Nat → Prop)
    (hV : ∀ c, V c → g.nxcode c < (c : Int) ∧ (0 ≤ g.nxcode c → V (g.nxcode c).toNat))
    (he : ∀ c, V c → g1.nxcode c = g.nxcode c ∧ g1.cchar c = g.cchar c) (c : Nat) (hc : V c) :
    dec_string g1 c = dec_string g c :=
  lzw_string_congr g.nxcode g1.nxcode g.cchar g1.cchar V hV he 4097 c hc

theorem getD_zero_append (S : List Nat) (v : Nat) (h : S ≠ []) :
    (S ++ [v]).getD 0 0 = S.getD 0 0 := by
  cases S with
  | nil => exact absurd rfl h
  | cons a t => rfl

theorem getD_zero_dropLast (S : List Nat) (v : Nat) (h : S ≠ [])
    (h1 : S.length = 1 → v = S.getD 0 0) : (S.dropLast ++ [v]).getD 0 0 = S.getD 0 0 := by
  cases S with
  | nil => exact absurd rfl h
  | cons a t =>
    cases t with
    | nil => exact h1 rfl
    | cons b t2 => rfl

theorem dec_string_ne_nil (g : gifbuf) (c : Nat) : dec_string g c ≠ [] :=
  lzw_string_ne_nil g.nxcode g.cchar 4096 c

/-- What a turn of the loop of `getlzw` does with a code `c` that passes the
checks: the string `str` of the code is stored at the end of the buffer, which is
the string of `c` in the dictionary, or for the next free code the string of the
previous code and its first byte again; the strings of the dictionary stay, and
the next free code gets the string of the previous code and the first byte of
`str`. -/
theorem getlzw_decode_spec (g : gifbuf) (c cnt : Nat) (out : List Nat)
    (h : dec_tab g) (hc : code_ok g c) (hm : c ≤ 4095) :
    ∃ buf1 cchar1 str,
      getlzw_decode g g.cmask c 0 cnt out =
        .next { getlzw_update g g.cmask c with buf := buf1, cchar := cchar1 } str.length cnt out ∧
      getlzw_out buf1 str.length str.length = str ∧
      str = (if c = g.nxc then dec_string g g.prev ++ [(dec_string g g.prev).getD 0 0]
             else dec_string g c) ∧
      dec_tab { getlzw_update g g.cmask c with buf := buf1, cchar := cchar1 } ∧
      (∀ x, x ≠ g.nxc → cchar1 x = g.cchar x) ∧
      (∀ x, dec_code g x →
        dec_string { getlzw_update g g.cmask c with buf := buf1, cchar := cchar1 } x =
          dec_string g x) ∧
      (g.prev ≥ 0 → g.nxc < 4096 →
        dec_string { getlzw_update g g.cmask c with buf := buf1, cchar := cchar1 } g.nxc =
          dec_string g g.prev ++ [str.getD 0 0]) := by
  have ht := dec_tab_getlzw_update g c h hc hm
  obtain ⟨c1, c2, c3, c4⟩ := hc
  obtain ⟨u1, u2, u3, u4, u5, u6, u7, u8, u9⟩ := getlzw_update_fields g c
  have hV := dec_code_hV g h
  have hV1 := dec_code_hV _ ht
  obtain ⟨a0, a1, a2, a3, a4, a5, a6⟩ := h
  have hc1 : dec_code (getlzw_update g g.cmask c) c := by
    obtain ⟨_, _, _, _, _, _, b6⟩ := ht
    rw [u1] at b6
    unfold dec_code
    rw [u4]
    rcases b6 with b6 | b6
    · omega
    · have := b6.2.1
      omega
  obtain ⟨buf1, e1, e2⟩ := getlzw_string_spec (getlzw_update g g.cmask c) g.nxc c cnt out _ hV1
    hc1 (by omega)
  -- the strings of the old codes
  have hold : ∀ x, dec_code g x → dec_string (getlzw_update g g.cmask c) x = dec_string g x := by
    intro x hx
    refine dec_string_congr g _ (dec_code g) hV ?_ x hx
    intro y hy
    rw [u2, u3]
    refine ⟨Function.update_noteq ?_ _ _, rfl⟩
    unfold dec_code at hy
    omega
  -- the string of the code in the updated dictionary
  have hS : dec_string (getlzw_update g g.cmask c) c =
      (if c = g.nxc then dec_string g g.prev ++ [g.cchar g.nxc] else dec_string g c) := by
    by_cases hcn : c = g.nxc
    · have hn1 : Function.update g.nxcode g.nxc g.prev c = g.prev := by
        rw [hcn, Function.update_same]
      rw [if_pos hcn, dec_string_succ _ c _ hV1 hc1 (by omega), u2, u3, hn1, ← hcn]
      congr 1
      have hp : 0 ≤ g.prev := by
        by_contra hn
        exact c4 ⟨hcn, by omega⟩
      rcases a6 with a6 | a6
      · omega
      have hp2 : ((g.prev.toNat : Nat) : Int) = g.prev := Int.toNat_of_nonneg hp
      rw [← hp2]
      apply hold
      unfold dec_code
      omega
    · rw [if_neg hcn]
      apply hold
      unfold dec_code
      omega
  generalize hS1 : dec_string (getlzw_update g g.cmask c) c = S1 at e1 e2 hS
  generalize hb2 : Function.update buf1 (GIF_BUFSIZE - 1)
    (Function.update (getlzw_update g g.cmask c).cchar g.nxc (S1.getD 0 0) c) = buf2 at e1 e2
  generalize hcc : Function.update (getlzw_update g g.cmask c).cchar g.nxc (S1.getD 0 0) = cchar2
    at e1 e2 hb2
  have hlen : (S1.dropLast ++ [cchar2 c]).length = S1.length := by
    have : S1 ≠ [] := by rw [← hS1]; exact dec_string_ne_nil _ c
    have : 0 < S1.length := List.length_pos.mpr this
    rw [List.length_append, List.length_dropLast, List.length_singleton]
    omega
  have hcc1 : ∀ x, x ≠ g.nxc → cchar2 x = g.cchar x := by
    intro x hx
    rw [← hcc, Function.update_noteq hx, u3]
  have hstr : S1.dropLast ++ [cchar2 c] =
      (if c = g.nxc then dec_string g g.prev ++ [(dec_string g g.prev).getD 0 0]
       else dec_string g c) := by
    by_cases hcn : c = g.nxc
    · rw [if_pos hcn] at hS ⊢
      rw [hS, List.dropLast_concat, ← hcc, hcn, Function.update_same, hS]
      have hp : 0 ≤ g.prev := by
        by_contra hn
        exact c4 ⟨hcn, by omega⟩
      have hp2 : ((g.prev.toNat : Nat) : Int) = g.prev := Int.toNat_of_nonneg hp
      rw [getD_zero_append _ _ (by rw [← hp2]; exact dec_string_ne_nil g _)]
    · rw [if_neg hcn] at hS ⊢
      rw [hcc1 c hcn, hS]
      have hg : dec_code g c := by unfold dec_code; omega
      rw [dec_string_succ g c _ hV hg (by omega), List.dropLast_concat]
  have ht2 : dec_tab { getlzw_update g g.cmask c with buf := buf2, cchar := cchar2 } := ht
  refine ⟨buf2, cchar2, S1.dropLast ++ [cchar2 c], ?_, ?_, hstr, ht2, hcc1, ?_, ?_⟩
  · unfold getlzw_decode
    rw [if_neg c1, if_neg c2]
    dsimp only
    rw [if_neg (by omega), if_neg c4, e1, hlen]
  · rw [hlen]
    exact e2
  · intro x hx
    rw [← hold x hx]
    refine dec_string_congr (getlzw_update g g.cmask c) _ (dec_code g) ?_ ?_ x hx
    · intro y hy
      rw [u2]
      have : y ≠ g.nxc := by unfold dec_code at hy; omega
      rw [Function.update_noteq this]
      exact hV y hy
    · intro y hy
      have : y ≠ g.nxc := by unfold dec_code at hy; omega
      exact ⟨rfl, by show cchar2 y = _; rw [hcc1 y this, u3]⟩
  · intro hp hn
    have hp2 : ((g.prev.toNat : Nat) : Int) = g.prev := Int.toNat_of_nonneg hp
    have hnx : dec_code (getlzw_update g g.cmask c) g.nxc := by
      unfold dec_code
      rw [u4, u7, if_pos ⟨hp, hn⟩]
      omega
    have hpd : dec_code g g.prev.toNat := by
      rcases a6 with a6 | a6
      · omega
      unfold dec_code
      omega
    rw [dec_string_succ { getlzw_update g g.cmask c with buf := buf2, cchar := cchar2 } g.nxc
      _ hV1 hnx (by omega)]
    show dec_string _ ((getlzw_update g g.cmask c).nxcode g.nxc) ++ [cchar2 g.nxc] = _
    rw [u2, Function.update_same, ← hcc, Function.update_same, ← hp2]
    congr 1
    · rw [← hold _ hpd]
      refine dec_string_congr (getlzw_update g g.cmask c) _ (dec_code g) ?_ ?_ _ hpd
      · intro y hy
        rw [u2]
        have : y ≠ g.nxc := by unfold dec_code at hy; omega
        rw [Function.update_noteq this]
        exact hV y hy
      · intro y hy
        have : y ≠ g.nxc := by unfold dec_code at hy; omega
        exact ⟨rfl, by show Function.update _ _ _ y = _; rw [Function.update_noteq this]⟩
    · congr 1
      have hne : S1 ≠ [] := by rw [← hS1]; exact dec_string_ne_nil _ c
      rw [hcc]
      refine (getD_zero_dropLast S1 (cchar2 c) hne ?_).symm
      intro hl
      by_cases hcn : c = g.nxc
      · rw [← hcc, hcn, Function.update_same]
      · rw [hcc1 c hcn]
        have h2 := dec_string_succ _ c _ hV1 hc1 (by omega)
        rw [hS1, u3] at h2
        have h3 : (dec_string (getlzw_update g g.cmask c)
            ((getlzw_update g g.cmask c).nxcode c)).length = 0 := by
          have := congrArg List.length h2
          rw [List.length_append, List.length_singleton] at this
          omega
        rw [List.length_eq_zero] at h3
        rw [h2, h3]
        rfl

/-! ## LZW: the dictionary of the decoder along a run -/

theorem getlzw_code_le (g : gifbuf) (tail cnt c : Nat) (h : dec_tab g)
    (hc : getlzw_code g tail cnt = some c) : c ≤ 4095 := by
  obtain ⟨_, _, h3, _⟩ := getlzw_step_of_code g tail cnt c hc
  obtain ⟨_, _, _, a3, a4, _⟩ := h.1
  have := cmask_le g.lc a3
  rw [h3, a4]
  exact le_trans Nat.and_le_right this

theorem dec_tab_taken (g : gifbuf) (h : dec_tab g) : dec_tab (getlzw_taken g) := by
  obtain ⟨k1, k2, k3, k4, k5, k6, k7, k8⟩ := getlzw_taken_keeps g
  obtain ⟨a0, a1, a2, a3, a4, a5, a6⟩ := h
  obtain ⟨f1, f2, f3, f4, _⟩ := getlzw_fill_keeps g.lc g.lc g g.w g.bits
  unfold dec_tab
  rw [k1, k4, k5, k6, k7]
  refine ⟨?_, a1, a2, a3, a4, a5, a6⟩
  obtain ⟨b0, b1, b2, b3, b4, b5⟩ := a0
  unfold dec_inv
  rw [k1, k2, k3]
  refine ⟨b0, b1, b2, b3, b4, ?_⟩
  intro e he
  have he' : e ∈ (getlzw_fill g.lc g.lc (g, g.w, g.bits)).2.1.log ++
      [((getlzw_fill g.lc g.lc (g, g.w, g.bits)).2.2.1 &&&
          (getlzw_fill g.lc g.lc (g, g.w, g.bits)).2.1.cmask,
        (getlzw_fill g.lc g.lc (g, g.w, g.bits)).2.1.lc)] := he
  rw [f4, f2] at he'
  rcases List.mem_append.mp he' with h | h
  · exact b5 e h
  · rw [List.mem_singleton] at h
    rw [h]
    exact ⟨b2, b3⟩

theorem dec_string_taken (g : gifbuf) (c : Int) : dec_string (getlzw_taken g) c = dec_string g c := by
  obtain ⟨_, _, _, _, _, _, k7, k8⟩ := getlzw_taken_keeps g
  unfold dec_string
  rw [k7, k8]

theorem dec_tab_step (g g1 : gifbuf) (tail cnt : Nat) (h : dec_tab g)
    (h1 : (getlzw_step g tail cnt).live = some g1) : dec_tab g1 := by
  by_cases hc : cnt ≤ tail
  · rw [getlzw_step_of_tail g tail cnt hc] at h1
    cases h1
    exact h
  by_cases hf : (getlzw_fill g.lc g.lc (g, g.w, g.bits)).1 = true
  · have hcode : getlzw_code g tail cnt =
        some ((getlzw_fill g.lc g.lc (g, g.w, g.bits)).2.2.1 &&& g.cmask) := by
      obtain ⟨_, _, f3, _⟩ := getlzw_fill_keeps g.lc g.lc g g.w g.bits
      unfold getlzw_code
      dsimp only
      rw [if_neg hc, if_pos hf, f3]
    generalize (getlzw_fill g.lc g.lc (g, g.w, g.bits)).2.2.1 &&& g.cmask = c at hcode
    have hle := getlzw_code_le g tail cnt c h hcode
    obtain ⟨_, _, _, h4⟩ := getlzw_step_of_code g tail cnt c hcode
    obtain ⟨k1, k2, k3, k4, k5, k6, k7, k8⟩ := getlzw_taken_keeps g
    have ht := dec_tab_taken g h
    rw [h4] at h1
    by_cases hcl : c = (getlzw_taken g).clear
    · unfold getlzw_decode at h1
      rw [if_pos hcl] at h1
      cases h1
      exact dec_tab_resetlzw _ ht
    by_cases hce : c = (getlzw_taken g).clear + 1
    · unfold getlzw_decode at h1
      rw [if_neg hcl, if_pos hce] at h1
      cases h1
    by_cases hok : code_ok (getlzw_taken g) c
    · obtain ⟨buf1, cchar1, str, e1, _, _, e4, _⟩ :=
        getlzw_decode_spec (getlzw_taken g) c (cnt - tail) (getlzw_out g.buf tail tail) ht hok hle
      rw [← k3, e1] at h1
      cases h1
      exact e4
    · unfold getlzw_decode at h1
      rw [if_neg hcl, if_neg hce] at h1
      dsimp only at h1
      unfold code_ok at hok
      by_cases h5 : c > (getlzw_taken g).nxc
      · rw [if_pos h5] at h1
        cases h1
      · rw [if_neg h5] at h1
        by_cases h6 : c = (getlzw_taken g).nxc ∧ (getlzw_taken g).prev < 0
        · rw [if_pos h6] at h1
          cases h1
        · exact absurd ⟨hcl, hce, by omega, h6⟩ hok
  · have hf2 : (getlzw_fill g.lc g.lc (g, g.w, g.bits)).1 = false := by
      cases hb : (getlzw_fill g.lc g.lc (g, g.w, g.bits)).1
      · rfl
      · exact absurd hb hf
    rw [getlzw_step_of_nodata g tail cnt (by omega) hf2] at h1
    cases h1

theorem dec_tab_run (g0 g : gifbuf) (h0 : dec_tab g0) (h : getlzw_run g0 g) : dec_tab g := by
  induction h with
  | start => exact h0
  | turn g g1 tail cnt _ h1 ih => exact dec_tab_step g g1 tail cnt ih h1

theorem initlzw_ok (mem : gifbuf) (md : Nat) (rest : List Nat) (hmd : md ≤ 11) :
    (initlzw mem (md :: rest)).1 = true := by
  unfold initlzw
  dsimp only
  rw [if_neg (by omega)]

/-- C21: whenever a turn of the loop of `getlzw`, in a state that decoding
reaches after `initlzw` accepted the minimum code size, reads a code above the
next free code, or the next free code when there is no previous code since the
last clear or the start, the turn ends the loop with `return (FALSE)`; the bytes
of the requested ones that were still missing are not produced. -/
theorem getlzw_broken_code (mem : gifbuf) (md : Nat) (rest : List Nat) (g : gifbuf)
    (tail cnt c n : Nat) (dest : List Nat) (hmd : md ≤ 11)
    (hg : getlzw_run (initlzw mem (md :: rest)).2 g)
    (hc : getlzw_code g tail cnt = some c)
    (hbad : c > g.nxc ∨ (c = g.nxc ∧ g.prev < 0)) :
    tail < cnt ∧
    ∃ g1, getlzw_step g tail cnt = .fail g1 (getlzw_out g.buf tail tail) ∧
      getlzw_loop (n + 1) g tail cnt dest =
        some (false, dest ++ getlzw_out g.buf tail tail, g1) := by
  have ht := dec_tab_run _ g (dec_tab_initlzw mem (md :: rest) (initlzw_ok mem md rest hmd)) hg
  obtain ⟨h1, _, _, h4⟩ := getlzw_step_of_code g tail cnt c hc
  obtain ⟨k1, k2, k3, k4, k5, k6, k7, k8⟩ := getlzw_taken_keeps g
  obtain ⟨_, _, a2, _⟩ := ht
  have hs : getlzw_step g tail cnt =
      .fail (getlzw_update (getlzw_taken g) g.cmask c) (getlzw_out g.buf tail tail) := by
    rw [h4]
    unfold getlzw_decode
    rw [k4, k5, k6, if_neg (by omega), if_neg (by omega)]
    dsimp only
    rcases hbad with hb | hb
    · rw [if_pos hb]
    · by_cases h5 : c > g.nxc
      · rw [if_pos h5]
      · rw [if_neg h5, if_pos hb]
  refine ⟨h1, _, hs, ?_⟩
  rw [getlzw_loop, hs]

theorem getlzw_broken_code_witness :
    0 < 1 ∧
    ∃ g1, getlzw_step (((getlzw_step (initlzw gifbuf_zero [2, 1, 60, 0]).2 0 1).live).getD
          gifbuf_zero) 0 1 =
        .fail g1 (getlzw_out (((getlzw_step (initlzw gifbuf_zero [2, 1, 60, 0]).2 0 1).live).getD
          gifbuf_zero).buf 0 0) ∧
      getlzw_loop (0 + 1) (((getlzw_step (initlzw gifbuf_zero [2, 1, 60, 0]).2 0 1).live).getD
          gifbuf_zero) 0 1 [] =
        some (false, [] ++ getlzw_out
          (((getlzw_step (initlzw gifbuf_zero [2, 1, 60, 0]).2 0 1).live).getD gifbuf_zero).buf
          0 0, g1) :=
  getlzw_broken_code gifbuf_zero 2 [1, 60, 0] _ 0 1 7 0 [] (by decide)
    (getlzw_run.turn _ _ 0 1 getlzw_run.start rfl) (by decide) (Or.inl (by decide))

theorem getlzw_out_take (buf : Nat → Nat) (l tail : Nat) (h : l ≤ tail) :
    getlzw_out buf l tail = (getlzw_out buf tail tail).take l := by
  rw [getlzw_out_eq, getlzw_out_eq, ← List.map_take, List.take_range, Nat.min_eq_left h]

/-- C20: whenever a turn of the loop of `getlzw`, in a state that decoding
reaches after `initlzw` accepted the minimum code size, reads the next free code
`nxc` while there is a previous code, the turn stores at the end of the buffer,
for the turns that follow to copy to `dest`, the string of the previous code
followed by the first byte of that string, and this is the string of the code
`nxc` in the dictionary from then on. -/
theorem getlzw_next_free_code (mem : gifbuf) (md : Nat) (rest : List Nat) (g : gifbuf)
    (tail cnt : Nat) (hmd : md ≤ 11)
    (hg : getlzw_run (initlzw mem (md :: rest)).2 g)
    (hc : getlzw_code g tail cnt = some g.nxc) (hp : 0 ≤ g.prev) :
    dec_string g g.prev ≠ [] ∧
    ∃ g1, getlzw_step g tail cnt =
        .next g1 ((dec_string g g.prev).length + 1) (cnt - tail) (getlzw_out g.buf tail tail) ∧
      getlzw_out g1.buf ((dec_string g g.prev).length + 1) ((dec_string g g.prev).length + 1) =
        dec_string g g.prev ++ [(dec_string g g.prev).getD 0 0] ∧
      (∀ l, l ≤ (dec_string g g.prev).length + 1 →
        getlzw_out g1.buf l ((dec_string g g.prev).length + 1) =
          (dec_string g g.prev ++ [(dec_string g g.prev).getD 0 0]).take l) ∧
      dec_string g1 g.nxc = dec_string g g.prev ++ [(dec_string g g.prev).getD 0 0] ∧
      g1.nxc = g.nxc + 1 ∧ g1.prev = g.nxc := by
  have ht := dec_tab_run _ g (dec_tab_initlzw mem (md :: rest) (initlzw_ok mem md rest hmd)) hg
  have hle := getlzw_code_le g tail cnt _ ht hc
  obtain ⟨h1, _, _, h4⟩ := getlzw_step_of_code g tail cnt _ hc
  obtain ⟨k1, k2, k3, k4, k5, k6, k7, k8⟩ := getlzw_taken_keeps g
  have ht2 := dec_tab_taken g ht
  have hok : code_ok (getlzw_taken g) g.nxc := by
    unfold code_ok
    rw [k4, k5, k6]
    have := ht.2.2.1
    exact ⟨by omega, by omega, le_refl _, fun h => by omega⟩
  obtain ⟨buf1, cchar1, str, e1, e2, e3, _, _, _, e7⟩ :=
    getlzw_decode_spec (getlzw_taken g) g.nxc (cnt - tail) (getlzw_out g.buf tail tail) ht2 hok hle
  rw [k5, k6, if_pos rfl, dec_string_taken] at e3
  rw [k3, k5, k6, dec_string_taken] at e7
  have hp2 : ((g.prev.toNat : Nat) : Int) = g.prev := Int.toNat_of_nonneg hp
  have hne : dec_string g g.prev ≠ [] := by
    rw [← hp2]
    exact dec_string_ne_nil g _
  have hlen : str.length = (dec_string g g.prev).length + 1 := by
    rw [e3, List.length_append, List.length_singleton]
  obtain ⟨u1, _, _, _, _, _, u7, _, _⟩ := getlzw_update_fields (getlzw_taken g) g.nxc
  rw [k3, k5, k6] at u7
  rw [k3] at u1
  rw [k3, hlen] at e1
  rw [hlen, e3] at e2
  refine ⟨hne, _, by rw [h4]; exact e1, e2, ?_, ?_, ?_, ?_⟩
  · intro l hl
    rw [getlzw_out_take _ _ _ hl, e2]
  · rw [e7 hp (by omega), e3, getD_zero_append _ _ hne]
  · show (getlzw_update (getlzw_taken g) g.cmask g.nxc).nxc = g.nxc + 1
    rw [u7, if_pos ⟨hp, by omega⟩]
  · show (getlzw_update (getlzw_taken g) g.cmask g.nxc).prev = g.nxc
    rw [u1]

theorem getlzw_next_free_code_witness :
    dec_string next_free_state next_free_state.prev ≠ [] ∧
    ∃ g1, getlzw_step next_free_state 1 3 =
        .next g1 ((dec_string next_free_state next_free_state.prev).length + 1) (3 - 1)
          (getlzw_out next_free_state.buf 1 1) ∧
      getlzw_out g1.buf ((dec_string next_free_state next_free_state.prev).length + 1)
          ((dec_string next_free_state next_free_state.prev).length + 1) =
        dec_string next_free_state next_free_state.prev ++
          [(dec_string next_free_state next_free_state.prev).getD 0 0] ∧
      (∀ l, l ≤ (dec_string next_free_state next_free_state.prev).length + 1 →
        getlzw_out g1.buf l ((dec_string next_free_state next_free_state.prev).length + 1) =
          (dec_string next_free_state next_free_state.prev ++
            [(dec_string next_free_state next_free_state.prev).getD 0 0]).take l) ∧
      dec_string g1 next_free_state.nxc =
        dec_string next_free_state next_free_state.prev ++
          [(dec_string next_free_state next_free_state.prev).getD 0 0] ∧
      g1.nxc = next_free_state.nxc + 1 ∧ g1.prev = next_free_state.nxc :=
  getlzw_next_free_code gifbuf_zero 2 [2, 132, 11, 0] next_free_state 1 3 (by decide)
    (getlzw_run.turn _ _ 0 3 (getlzw_run.turn _ _ 0 3 getlzw_run.start rfl) rfl)
    (by decide) (by decide)

/-! ## The analysis: too large a canvas -/

theorem agf_decide_code (stat : ani_status) (settings : ls_settings) :
    (agf_decide stat settings).1 = 0 ∨ (agf_decide stat settings).1 = 1 ∨
    (agf_decide stat settings).1 = 3 ∨ (agf_decide stat settings).1 = 4 := by
  have hcode : ∀ b : Bool, ((if b = true then (0 : Int) else 1) = 0 ∨
      (if b = true then (0 : Int) else 1) = 1) := by
    intro b
    cases b <;> simp
  unfold agf_decide
  dsimp only
  split
  · exact Or.inr (Or.inr (agf_rgb_code _ _ _))
  · split
    · rcases hcode (same_size stat settings) with h | h
      · exact Or.inl h
      · exact Or.inr (Or.inl h)
    · split
      · rcases hcode (same_size stat settings) with h | h
        · exact Or.inl h
        · exact Or.inr (Or.inl h)
      · exact Or.inr (Or.inr (agf_rgb_code _ _ _))

theorem analyze_gif_frame_code (K : consts) (stat : ani_status) (settings : ls_settings)
    (hlim : ¬ (stat.defw > K.MAX_WIDTH ∨ stat.defh > K.MAX_HEIGHT)) :
    (analyze_gif_frame K stat settings).1 = 0 ∨ (analyze_gif_frame K stat settings).1 = 1 ∨
    (analyze_gif_frame K stat settings).1 = 3 ∨ (analyze_gif_frame K stat settings).1 = 4 := by
  unfold analyze_gif_frame
  dsimp only
  by_cases hm : stat.mode ≤ K.ANM_RAW
  · rw [if_pos hm]
    exact Or.inl rfl
  · rw [if_neg hm, if_neg hlim]
    split
    · exact Or.inl rfl
    · split
      · exact Or.inr (Or.inl rfl)
      · exact agf_decide_code _ _

theorem analyze_rgba_frame_code (K : consts) (stat : ani_status) (settings : ls_settings)
    (hlim : ¬ (stat.defw > K.MAX_WIDTH ∨ stat.defh > K.MAX_HEIGHT)) :
    (analyze_rgba_frame K stat settings).1 = 0 ∨ (analyze_rgba_frame K stat settings).1 = 1 ∨
    (analyze_rgba_frame K stat settings).1 = 3 ∨ (analyze_rgba_frame K stat settings).1 = 4 := by
  unfold analyze_rgba_frame
  dsimp only
  by_cases hm : stat.mode ≤ K.ANM_RAW
  · rw [if_pos hm]
    exact Or.inl rfl
  · rw [if_neg hm, if_neg hlim]
    split_ifs <;> simp

/-- In compositing mode `analyze_gif_frame` returns a negative result exactly when
the canvas is too large. -/
theorem analyze_too_large_aux (K : consts) (stat : ani_status) (settings : ls_settings)
    (hmode : K.ANM_RAW < stat.mode) :
    ((analyze_gif_frame K stat settings).1 < 0 ↔
      (stat.defw > K.MAX_WIDTH ∨ stat.defh > K.MAX_HEIGHT)) ∧
    ((analyze_gif_frame K stat settings).1 < 0 → (analyze_gif_frame K stat settings).1 = -1) := by
  have hm : ¬ stat.mode ≤ K.ANM_RAW := by omega
  by_cases hlim : stat.defw > K.MAX_WIDTH ∨ stat.defh > K.MAX_HEIGHT
  · have hg : analyze_gif_frame K stat settings =
        (-1, { stat with newpal := (agf_pal stat settings).1,
                         newcols := (agf_pal stat settings).2,
                         newtrans := settings.xpm_trans }) := by
      unfold analyze_gif_frame
      dsimp only
      rw [if_neg hm, if_pos hlim]
    rw [hg]
    have hneg : (-1 : Int) < 0 := by omega
    exact ⟨⟨fun _ => hlim, fun _ => hneg⟩, fun _ => rfl⟩
  · have hg := analyze_gif_frame_code K stat settings hlim
    refine ⟨⟨fun h => ?_, fun h => absurd h hlim⟩, fun h => ?_⟩
    all_goals omega

/-- C30: in compositing mode (`mode > ANM_RAW`), `analyze_gif_frame` and
`analyze_rgba_frame` return a negative result, which is -1, exactly when the
canvas is wider than `MAX_WIDTH` or higher than `MAX_HEIGHT`; and then they leave
the region map, the underlay snapshot with its index, the pending hole rectangle
and the canvas size as they were. -/
theorem analyze_too_large (K : consts) (stat : ani_status) (settings : ls_settings)
    (hmode : K.ANM_RAW < stat.mode) :
    (((analyze_gif_frame K stat settings).1 < 0 ↔
        (stat.defw > K.MAX_WIDTH ∨ stat.defh > K.MAX_HEIGHT)) ∧
      ((analyze_gif_frame K stat settings).1 < 0 → (analyze_gif_frame K stat settings).1 = -1) ∧
      ((analyze_rgba_frame K stat settings).1 < 0 ↔
        (stat.defw > K.MAX_WIDTH ∨ stat.defh > K.MAX_HEIGHT)) ∧
      ((analyze_rgba_frame K stat settings).1 < 0 →
        (analyze_rgba_frame K stat settings).1 = -1)) ∧
    ((stat.defw > K.MAX_WIDTH ∨ stat.defh > K.MAX_HEIGHT) →
      ((analyze_gif_frame K stat settings).2.lmap = stat.lmap ∧
        (analyze_gif_frame K stat settings).2.prev = stat.prev ∧
        (analyze_gif_frame K stat settings).2.prev_idx = stat.prev_idx ∧
        (analyze_gif_frame K stat settings).2.bk_rect = stat.bk_rect ∧
        (analyze_gif_frame K stat settings).2.defw = stat.defw ∧
        (analyze_gif_frame K stat settings).2.defh = stat.defh) ∧
      (analyze_rgba_frame K stat settings).2 = stat) := by
  have hm : ¬ stat.mode ≤ K.ANM_RAW := by omega
  by_cases hlim : stat.defw > K.MAX_WIDTH ∨ stat.defh > K.MAX_HEIGHT
  · have hg : analyze_gif_frame K stat settings =
        (-1, { stat with newpal := (agf_pal stat settings).1,
                         newcols := (agf_pal stat settings).2,
                         newtrans := settings.xpm_trans }) := by
      unfold analyze_gif_frame
      dsimp only
      rw [if_neg hm, if_pos hlim]
    have hr : analyze_rgba_frame K stat settings = (-1, stat) := by
      unfold analyze_rgba_frame
      rw [if_neg hm, if_pos hlim]
    rw [hg, hr]
    have hneg : (-1 : Int) < 0 := by omega
    exact ⟨⟨⟨fun _ => hlim, fun _ => hneg⟩, fun _ => rfl, ⟨fun _ => hlim, fun _ => hneg⟩,
      fun _ => rfl⟩, fun _ => ⟨⟨rfl, rfl, rfl, rfl, rfl, rfl⟩, rfl⟩⟩
  · have hg := analyze_gif_frame_code K stat settings hlim
    have hr := analyze_rgba_frame_code K stat settings hlim
    refine ⟨⟨⟨fun h => ?_, fun h => absurd h hlim⟩, fun h => ?_,
      ⟨fun h => ?_, fun h => absurd h hlim⟩, fun h => ?_⟩, fun h => absurd h hlim⟩
    all_goals omega

theorem analyze_too_large_witness :
    (((analyze_gif_frame consts_default too_wide_stat (ls_settings_indexed 0 0 1 1 [0])).1 < 0 ↔
        (too_wide_stat.defw > consts_default.MAX_WIDTH ∨
          too_wide_stat.defh > consts_default.MAX_HEIGHT)) ∧
      ((analyze_gif_frame consts_default too_wide_stat (ls_settings_indexed 0 0 1 1 [0])).1 < 0 →
        (analyze_gif_frame consts_default too_wide_stat (ls_settings_indexed 0 0 1 1 [0])).1 =
          -1) ∧
      ((analyze_rgba_frame consts_default too_wide_stat (ls_settings_indexed 0 0 1 1 [0])).1 < 0 ↔
        (too_wide_stat.defw > consts_default.MAX_WIDTH ∨
          too_wide_stat.defh > consts_default.MAX_HEIGHT)) ∧
      ((analyze_rgba_frame consts_default too_wide_stat (ls_settings_indexed 0 0 1 1 [0])).1 < 0 →
        (analyze_rgba_frame consts_default too_wide_stat (ls_settings_indexed 0 0 1 1 [0])).1 =
          -1)) ∧
    ((too_wide_stat.defw > consts_default.MAX_WIDTH ∨
        too_wide_stat.defh > consts_default.MAX_HEIGHT) →
      ((analyze_gif_frame consts_default too_wide_stat
            (ls_settings_indexed 0 0 1 1 [0])).2.lmap = too_wide_stat.lmap ∧
        (analyze_gif_frame consts_default too_wide_stat
            (ls_settings_indexed 0 0 1 1 [0])).2.prev = too_wide_stat.prev ∧
        (analyze_gif_frame consts_default too_wide_stat
            (ls_settings_indexed 0 0 1 1 [0])).2.prev_idx = too_wide_stat.prev_idx ∧
        (analyze_gif_frame consts_default too_wide_stat
            (ls_settings_indexed 0 0 1 1 [0])).2.bk_rect = too_wide_stat.bk_rect ∧
        (analyze_gif_frame consts_default too_wide_stat
            (ls_settings_indexed 0 0 1 1 [0])).2.defw = too_wide_stat.defw ∧
        (analyze_gif_frame consts_default too_wide_stat
            (ls_settings_indexed 0 0 1 1 [0])).2.defh = too_wide_stat.defh) ∧
      (analyze_rgba_frame consts_default too_wide_stat (ls_settings_indexed 0 0 1 1 [0])).2 =
        too_wide_stat) :=
  analyze_too_large consts_default too_wide_stat (ls_settings_indexed 0 0 1 1 [0]) (by decide)

/-! ## The analysis of RGB(A) frames: the depth -/

/-- C28 fails as stated: with blending on, an RGB new frame with an alpha plane
over an RGB underlay without alpha plane and without pending hole is not kept as
it is, yet the result is 3 (RGB), not 4: the new frame's alpha is blended over an
opaque underlay. -/
theorem analyze_rgba_frame_counterexample :
    consts_default.ANM_RAW < blend_stat.mode ∧
    rgba_settings.img.alpha.isSome = true ∧
    (analyze_rgba_frame consts_default blend_stat rgba_settings).1 = 3 := by
  decide

/-- C28 (amended): in compositing mode with the canvas within the limits, when
`analyze_rgba_frame` does not keep the input frame as it is (result other than 0)
and the new frame is not an indexed frame with a transparent colour (which stays
indexed), the result is 4 (RGBA) if the underlay has an alpha plane, or there is
no underlay, or a pending hole inside the canvas shows a background with alpha
below 255, or the new frame has an alpha plane and blending is off; otherwise it
is the maximum of the underlay's depth and the new frame's depth. -/
theorem analyze_rgba_frame_depth (K : consts) (stat : ani_status) (settings : ls_settings)
    (hmode : K.ANM_RAW < stat.mode)
    (hlim : stat.defw ≤ K.MAX_WIDTH ∧ stat.defh ≤ K.MAX_HEIGHT)
    (hb1 : settings.bpp = 1 ∨ settings.bpp = 3)
    (hb2 : stat.prev.bpp ≤ 1 ∨ stat.prev.bpp = 3)
    (hidx : ¬ (settings.bpp = 1 ∧ settings.xpm_trans ≥ 0))
    (hres : (analyze_rgba_frame K stat settings).1 ≠ 0) :
    (analyze_rgba_frame K stat settings).1 =
      (if stat.prev.img.alpha.isSome = true ∨ stat.prev_idx = 0 ∨
          (((ani_map_frame K.MAX_WIDTH K.MAX_HEIGHT stat settings).bk_rect.1 <
              (ani_map_frame K.MAX_WIDTH K.MAX_HEIGHT stat settings).bk_rect.2.2.1 ∧
            (ani_map_frame K.MAX_WIDTH K.MAX_HEIGHT stat settings).bk_rect.2.1 <
              (ani_map_frame K.MAX_WIDTH K.MAX_HEIGHT stat settings).bk_rect.2.2.2) ∧
            stat.bkg.2.2.2 < 255) ∨
          (stat.blend = false ∧ settings.img.alpha.isSome = true)
        then 4 else ((max stat.prev.bpp settings.bpp : Nat) : Int)) := by
  have hm : ¬ stat.mode ≤ K.ANM_RAW := by omega
  have hl : ¬ (stat.defw > K.MAX_WIDTH ∨ stat.defh > K.MAX_HEIGHT) := by omega
  have hprev : (ani_map_frame K.MAX_WIDTH K.MAX_HEIGHT stat settings).prev = stat.prev := rfl
  have hpi : (ani_map_frame K.MAX_WIDTH K.MAX_HEIGHT stat settings).prev_idx = stat.prev_idx := rfl
  have hbl : (ani_map_frame K.MAX_WIDTH K.MAX_HEIGHT stat settings).blend = stat.blend := rfl
  have hbk : (ani_map_frame K.MAX_WIDTH K.MAX_HEIGHT stat settings).bkg = stat.bkg := rfl
  unfold analyze_rgba_frame at hres ⊢
  rw [if_neg hm, if_neg hl] at hres ⊢
  dsimp only at hres ⊢
  rw [hprev, hpi, hbl, hbk] at hres ⊢
  generalize (ani_map_frame K.MAX_WIDTH K.MAX_HEIGHT stat settings).bk_rect = bk at hres ⊢
  generalize same_size (ani_map_frame K.MAX_WIDTH K.MAX_HEIGHT stat settings) settings = ss
    at hres ⊢
  have hmax : ((max stat.prev.bpp settings.bpp : Nat) : Int) =
      (if stat.prev.bpp = 3 ∨ settings.bpp = 3 then 3 else 1) := by
    split <;> rcases hb1 with h | h <;> rcases hb2 with h2 | h2 <;> simp_all
    all_goals omega
  rw [hmax]
  cases ss <;> cases hb : stat.blend <;> cases ha : stat.prev.img.alpha.isSome <;>
    cases hs : settings.img.alpha.isSome <;>
    by_cases hp : stat.prev_idx = 0 <;>
    by_cases hk : bk.1 < bk.2.2.1 ∧ bk.2.1 < bk.2.2.2 <;>
    by_cases hg : stat.bkg.2.2.2 < 255 <;>
    simp [hb, ha, hs, hp, hk, hg, hidx] at hres ⊢

theorem analyze_rgba_frame_depth_witness :
    (analyze_rgba_frame consts_default blend_stat rgba_settings).1 =
      (if blend_stat.prev.img.alpha.isSome = true ∨ blend_stat.prev_idx = 0 ∨
          (((ani_map_frame consts_default.MAX_WIDTH consts_default.MAX_HEIGHT blend_stat
                rgba_settings).bk_rect.1 <
              (ani_map_frame consts_default.MAX_WIDTH consts_default.MAX_HEIGHT blend_stat
                rgba_settings).bk_rect.2.2.1 ∧
            (ani_map_frame consts_default.MAX_WIDTH consts_default.MAX_HEIGHT blend_stat
                rgba_settings).bk_rect.2.1 <
              (ani_map_frame consts_default.MAX_WIDTH consts_default.MAX_HEIGHT blend_stat
                rgba_settings).bk_rect.2.2.2) ∧
            blend_stat.bkg.2.2.2 < 255) ∨
          (blend_stat.blend = false ∧ rgba_settings.img.alpha.isSome = true)
        then 4 else ((max blend_stat.prev.bpp rgba_settings.bpp : Nat) : Int)) :=
  analyze_rgba_frame_depth consts_default blend_stat rgba_settings (by decide) (by decide)
    (by decide) (by decide) (by decide) (by decide)

/-! ## Region map: the canvas and the new frame -/

/-- Bit `b` of any map byte after the marking pass: outside the cleared part of
the map the old bits stay. -/
theorem ani_mark_testBit_all (lmap : Nat → Nat) (j sx sy w h prev_idx : Nat)
    (prev : image_frame) (bk : Nat × Nat × Nat × Nat) (hole : Bool) (k b : Nat) :
    (ani_mark lmap j sx sy w h prev_idx prev bk hole k).testBit b =
      ((decide (j ≤ k) && (lmap k).testBit b) ||
       (decide (sx ≤ k ∧ k < w) && decide (b = 0)) ||
       (decide (sy ≤ k ∧ k < h) && decide (b = 4)) ||
       (decide (prev_idx ≠ 0 ∧ prev.x ≤ k ∧ k < prev.x + prev.width) && decide (b = 1)) ||
       (decide (prev_idx ≠ 0 ∧ prev.y ≤ k ∧ k < prev.y + prev.height) && decide (b = 5)) ||
       (decide (hole = true ∧ bk.1 ≤ k ∧ k < bk.2.2.1) && decide (b = 2)) ||
       (decide (hole = true ∧ bk.2.1 ≤ k ∧ k < bk.2.2.2) && decide (b = 6))) := by
  have t1 : Nat.testBit 1 b = decide (b = 0) := testBit_pow2 0 b
  have t2 : Nat.testBit 2 b = decide (b = 1) := testBit_pow2 1 b
  have t4 : Nat.testBit 4 b = decide (b = 2) := testBit_pow2 2 b
  have t16 : Nat.testBit 16 b = decide (b = 4) := testBit_pow2 4 b
  have t32 : Nat.testBit 32 b = decide (b = 5) := testBit_pow2 5 b
  have t64 : Nat.testBit 64 b = decide (b = 6) := testBit_pow2 6 b
  have hx : (sx ≤ k ∧ k < sx + (w - sx)) ↔ (sx ≤ k ∧ k < w) := by omega
  have hy : (sy ≤ k ∧ k < sy + (h - sy)) ↔ (sy ≤ k ∧ k < h) := by omega
  have hbx : (bk.1 ≤ k ∧ k < bk.1 + (bk.2.2.1 - bk.1)) ↔ (bk.1 ≤ k ∧ k < bk.2.2.1) := by omega
  have hby : (bk.2.1 ≤ k ∧ k < bk.2.1 + (bk.2.2.2 - bk.2.1)) ↔ (bk.2.1 ≤ k ∧ k < bk.2.2.2) := by
    omega
  unfold ani_mark
  by_cases hk : k < j
  · have hk2 : ¬ j ≤ k := by omega
    by_cases hp : prev_idx = 0 <;> cases hole <;>
      simp [hp, mark_loop_testBit, memset0, hk, hk2, t1, t2, t4, t16, t32, t64, hx, hy, hbx, hby]
  · have hk2 : j ≤ k := by omega
    by_cases hp : prev_idx = 0 <;> cases hole <;>
      simp [hp, mark_loop_testBit, memset0, hk, hk2, t1, t2, t4, t16, t32, t64, hx, hy, hbx, hby]

/-- Bits 0 and 4 of any map byte after the marking pass: set by the marks of the
new frame, and left as they were outside the cleared part of the map. -/
theorem ani_mark_new_bits (lmap : Nat → Nat) (j sx sy w h prev_idx : Nat)
    (prev : image_frame) (bk : Nat × Nat × Nat × Nat) (hole : Bool) (k : Nat) :
    (ani_mark lmap j sx sy w h prev_idx prev bk hole k).testBit 0 =
      ((decide (j ≤ k) && (lmap k).testBit 0) || decide (sx ≤ k ∧ k < w)) ∧
    (ani_mark lmap j sx sy w h prev_idx prev bk hole k).testBit 4 =
      ((decide (j ≤ k) && (lmap k).testBit 4) || decide (sy ≤ k ∧ k < h)) := by
  constructor
  · rw [ani_mark_testBit_all]
    simp
  · rw [ani_mark_testBit_all]
    simp

/-- C29: on the first frame of an animation `ani_map_frame` makes the canvas
hold the right and bottom edges of the frame, each capped at `MAX_WIDTH` /
`MAX_HEIGHT`, and never makes it smaller; on every later frame it leaves the
size of the canvas as it is. In both cases the region bit of the new frame is set
only inside the canvas, and there only inside the rectangle of the new frame
clipped to the canvas. The map bytes past the canvas have the bits of the new
frame clear before, as after `memset(&stat, 0, sizeof(stat))`, and still have
them clear after. -/
theorem ani_map_frame_canvas (MW MH : Nat) (stat : ani_status) (settings : ls_settings)
    (hz : ∀ i, max stat.defw stat.defh ≤ i →
      (stat.lmap i).testBit 0 = false ∧ (stat.lmap i).testBit 4 = false) :
    (stat.have_frames = false →
      (ani_map_frame MW MH stat settings).defw =
        max stat.defw (min (settings.x + settings.width) MW) ∧
      (ani_map_frame MW MH stat settings).defh =
        max stat.defh (min (settings.y + settings.height) MH)) ∧
    (stat.have_frames = true →
      (ani_map_frame MW MH stat settings).defw = stat.defw ∧
      (ani_map_frame MW MH stat settings).defh = stat.defh) ∧
    (ani_map_frame MW MH stat settings).have_frames = true ∧
    (∀ x y, (bflag (ani_map_frame MW MH stat settings).lmap x y).testBit 0 = true →
      (x < (ani_map_frame MW MH stat settings).defw ∧
        y < (ani_map_frame MW MH stat settings).defh) ∧
      in_rect settings.x settings.y
        (min (settings.x + settings.width) (ani_map_frame MW MH stat settings).defw)
        (min (settings.y + settings.height) (ani_map_frame MW MH stat settings).defh) x y) ∧
    (∀ i, max (ani_map_frame MW MH stat settings).defw (ani_map_frame MW MH stat settings).defh ≤ i →
      ((ani_map_frame MW MH stat settings).lmap i).testBit 0 = false ∧
      ((ani_map_frame MW MH stat settings).lmap i).testBit 4 = false) := by
  obtain ⟨d1, d2, d3, d4⟩ := ani_new_dims_spec MW MH stat settings
  have hj : ∀ a b : Nat, (if a > b then a else b) = max a b := by
    intro a b; split <;> omega
  have hdw : (ani_map_frame MW MH stat settings).defw = (ani_new_dims MW MH stat settings).2.1 :=
    rfl
  have hdh : (ani_map_frame MW MH stat settings).defh = (ani_new_dims MW MH stat settings).2.2 :=
    rfl
  have hlm : ∀ k, ((ani_map_frame MW MH stat settings).lmap k).testBit 0 =
        ((decide (max (ani_new_dims MW MH stat settings).2.1
              (ani_new_dims MW MH stat settings).2.2 ≤ k) && (stat.lmap k).testBit 0) ||
          decide (settings.x ≤ k ∧ k < (ani_new_dims MW MH stat settings).1.1)) ∧
      ((ani_map_frame MW MH stat settings).lmap k).testBit 4 =
        ((decide (max (ani_new_dims MW MH stat settings).2.1
              (ani_new_dims MW MH stat settings).2.2 ≤ k) && (stat.lmap k).testBit 4) ||
          decide (settings.y ≤ k ∧ k < (ani_new_dims MW MH stat settings).1.2)) := by
    intro k
    have := ani_mark_new_bits stat.lmap
      (if (ani_new_dims MW MH stat settings).2.1 > (ani_new_dims MW MH stat settings).2.2
        then (ani_new_dims MW MH stat settings).2.1 else (ani_new_dims MW MH stat settings).2.2)
      settings.x settings.y (ani_new_dims MW MH stat settings).1.1
      (ani_new_dims MW MH stat settings).1.2 stat.prev_idx stat.prev
      (clip 0 0 (ani_new_dims MW MH stat settings).2.1 (ani_new_dims MW MH stat settings).2.2
        stat.bk_rect).1
      (clip 0 0 (ani_new_dims MW MH stat settings).2.1 (ani_new_dims MW MH stat settings).2.2
        stat.bk_rect).2 k
    have e : (ani_map_frame MW MH stat settings).lmap = ani_mark stat.lmap
      (if (ani_new_dims MW MH stat settings).2.1 > (ani_new_dims MW MH stat settings).2.2
        then (ani_new_dims MW MH stat settings).2.1 else (ani_new_dims MW MH stat settings).2.2)
      settings.x settings.y (ani_new_dims MW MH stat settings).1.1
      (ani_new_dims MW MH stat settings).1.2 stat.prev_idx stat.prev
      (clip 0 0 (ani_new_dims MW MH stat settings).2.1 (ani_new_dims MW MH stat settings).2.2
        stat.bk_rect).1
      (clip 0 0 (ani_new_dims MW MH stat settings).2.1 (ani_new_dims MW MH stat settings).2.2
        stat.bk_rect).2 := rfl
    rw [e, ← hj]
    exact this
  -- the edges of the marks lie inside the canvas, which does not shrink
  have hw : (ani_new_dims MW MH stat settings).1.1 ≤ (ani_new_dims MW MH stat settings).2.1 ∧
      (ani_new_dims MW MH stat settings).1.2 ≤ (ani_new_dims MW MH stat settings).2.2 ∧
      stat.defw ≤ (ani_new_dims MW MH stat settings).2.1 ∧
      stat.defh ≤ (ani_new_dims MW MH stat settings).2.2 ∧
      (ani_new_dims MW MH stat settings).1.1 ≤ settings.x + settings.width ∧
      (ani_new_dims MW MH stat settings).1.2 ≤ settings.y + settings.height := by
    cases hf : stat.have_frames
    · obtain ⟨e1, e2⟩ := d4 hf
      rw [d1] at e1
      rw [d2] at e2
      rw [d1, d2]
      simp only [hf, Bool.false_eq_true, if_false] at e1 e2 ⊢
      omega
    · obtain ⟨e1, e2⟩ := d3 hf
      rw [d1, d2]
      simp only [hf, if_true]
      omega
  have hstale : ∀ k, max (ani_new_dims MW MH stat settings).2.1
      (ani_new_dims MW MH stat settings).2.2 ≤ k →
      (stat.lmap k).testBit 0 = false ∧ (stat.lmap k).testBit 4 = false := by
    intro k hk
    exact hz k (by omega)
  refine ⟨?_, ?_, rfl, ?_, ?_⟩
  · intro hf
    obtain ⟨e1, e2⟩ := d4 hf
    rw [hdw, hdh, e1, e2, d1, d2]
    simp only [hf, Bool.false_eq_true, if_false, and_self]
  · intro hf
    exact d3 hf
  · intro x y hb
    rw [hdw, hdh]
    simp only [bflag, Nat.testBit_land, Nat.testBit_shiftRight, Bool.and_eq_true] at hb
    obtain ⟨hb0, hb4⟩ := hb
    rw [Nat.add_zero] at hb4
    rw [(hlm x).1] at hb0
    rw [(hlm y).2] at hb4
    have hx : settings.x ≤ x ∧ x < (ani_new_dims MW MH stat settings).1.1 := by
      by_cases hk : max (ani_new_dims MW MH stat settings).2.1
          (ani_new_dims MW MH stat settings).2.2 ≤ x
      · rw [(hstale x hk).1] at hb0
        simpa using hb0
      · simpa [hk] using hb0
    have hy : settings.y ≤ y ∧ y < (ani_new_dims MW MH stat settings).1.2 := by
      by_cases hk : max (ani_new_dims MW MH stat settings).2.1
          (ani_new_dims MW MH stat settings).2.2 ≤ y
      · rw [(hstale y hk).2] at hb4
        simpa using hb4
      · simpa [hk] using hb4
    simp only [in_rect]
    omega
  · intro i hi
    rw [hdw, hdh] at hi
    rw [(hlm i).1, (hlm i).2, (hstale i hi).1, (hstale i hi).2]
    have h1 : ¬ (settings.x ≤ i ∧ i < (ani_new_dims MW MH stat settings).1.1) := by omega
    have h2 : ¬ (settings.y ≤ i ∧ i < (ani_new_dims MW MH stat settings).1.2) := by omega
    simp [h1, h2]

theorem ani_map_frame_canvas_witness :
    (ani_map_frame 16384 16384 ani_status_zero (ls_settings_indexed 1 1 2 2 [0, 0, 0, 0])).defw =
      max ani_status_zero.defw (min (1 + 2) 16384) ∧
    (ani_map_frame 16384 16384 ani_status_zero (ls_settings_indexed 1 1 2 2 [0, 0, 0, 0])).defh =
      max ani_status_zero.defh (min (1 + 2) 16384) :=
  (ani_map_frame_canvas 16384 16384 ani_status_zero (ls_settings_indexed 1 1 2 2 [0, 0, 0, 0])
    (fun _ _ => ⟨Nat.zero_testBit 0, Nat.zero_testBit 4⟩)).1 rfl

/-! ## The analysis of indexed frames: the fallback to RGB -/

theorem agf_merge_prev (stat : ani_status) (cmap : Nat → Nat) (prev pal : palette)
    (prevtr : Int) : (agf_merge stat cmap prev pal prevtr).2.prev = stat.prev := by
  unfold agf_merge
  dsimp only
  split_ifs <;> rfl

theorem agf_stat1_prev (stat : ani_status) (settings : ls_settings) :
    (agf_stat1 stat settings).prev = stat.prev := by
  unfold agf_stat1
  split <;> rfl

theorem agf_single_none_bg (stat : ani_status) (settings : ls_settings)
    (hs : agf_single stat settings = none) (hsu : agf_show_under stat settings = false) :
    agf_cmap stat settings 512 ≠ 0 := by
  have hul : agf_ul stat settings = 2 := by
    unfold agf_ul
    dsimp only
    rw [hsu]
    rfl
  unfold agf_single at hs
  rw [if_pos (by rw [hul]; decide)] at hs
  intro h0
  unfold agf_place_trans at hs
  rw [if_neg (by rw [h0]; exact fun h => h rfl)] at hs
  cases hs

/-- The second half of the analysis, when it ends at the exit `RGB:`. -/
theorem agf_decide_rgb (stat : ani_status) (settings : ls_settings)
    (h : (agf_decide stat settings).1 = 3 ∨ (agf_decide stat settings).1 = 4) :
    (agf_decide stat settings).1 =
      (if stat.prev.img.alpha.isSome = true ∨ agf_cmap stat settings 512 ≠ 0 then 4 else 3) ∧
    (agf_decide stat settings).2.newtrans = -1 := by
  have hcode : ∀ b : Bool, ¬ ((if b = true then (0 : Int) else 1) = 3 ∨
      (if b = true then (0 : Int) else 1) = 4) := by
    intro b
    cases b <;> simp
  have hrgb : ∀ (st : ani_status) (su : Bool), st.prev = stat.prev →
      (su = false → agf_cmap stat settings 512 ≠ 0) →
      (agf_rgb st (agf_cmap stat settings) su).1 =
        (if stat.prev.img.alpha.isSome = true ∨ agf_cmap stat settings 512 ≠ 0 then 4 else 3) := by
    intro st su hp hsu
    unfold agf_rgb
    dsimp only
    rw [hp]
    cases su
    · have := hsu rfl
      simp [this]
    · by_cases hb : agf_cmap stat settings 512 ≠ 0
      · simp [hb]
      · cases ha : stat.prev.img.alpha.isSome <;> simp [hb, ha]
  by_cases h3 : agf_show_under stat settings = true ∧ stat.prev.bpp = 3
  · have hd : agf_decide stat settings =
        agf_rgb stat (agf_cmap stat settings) (agf_show_under stat settings) := by
      unfold agf_decide
      simp only [if_pos h3]
    rw [hd]
    exact ⟨hrgb stat _ rfl (fun hf => by rw [h3.1] at hf; cases hf), rfl⟩
  · cases hs : agf_single stat settings with
    | some st2 =>
      have hd : agf_decide stat settings = (if same_size stat settings then 0 else 1, st2) := by
        unfold agf_decide
        simp only [if_neg h3, hs]
      rw [hd] at h
      exact absurd h (hcode _)
    | none =>
      have hd := agf_decide_merge stat settings h3 hs
      rw [hd] at h ⊢
      by_cases hm : (agf_merge (agf_stat1 stat settings) (agf_cmap stat settings)
          (agf_prev_pal stat) (agf_pal stat settings).1 (agf_prevtr stat)).1 = true
      · rw [if_pos hm] at h
        exact absurd h (hcode _)
      · rw [if_neg hm]
        refine ⟨hrgb _ _ ((agf_merge_prev _ _ _ _ _).trans (agf_stat1_prev _ _)) ?_, rfl⟩
        intro hsu
        exact agf_single_none_bg stat settings hs hsu

/-- C27: whenever `analyze_gif_frame` abandons indexed mode (returns 3 or 4) in
compositing mode, it returns 4 (RGBA) if the underlay has an alpha plane or some
background or transparent pixel of the canvas is visible, and 3 (RGB) otherwise;
in both cases the output transparent index `newtrans` is -1. -/
theorem analyze_gif_frame_rgb (K : consts) (stat : ani_status) (settings : ls_settings)
    (hmode : K.ANM_RAW < stat.mode) (hptr : stat.prev.trans < 512)
    (h : (analyze_gif_frame K stat settings).1 = 3 ∨ (analyze_gif_frame K stat settings).1 = 4) :
    (analyze_gif_frame K stat settings).1 =
      (if stat.prev.img.alpha.isSome = true ∨
          background_visible (agf_prepare K stat settings) settings then 4 else 3) ∧
    (analyze_gif_frame K stat settings).2.newtrans = -1 := by
  have hm : ¬ stat.mode ≤ K.ANM_RAW := by omega
  by_cases hlim : stat.defw > K.MAX_WIDTH ∨ stat.defh > K.MAX_HEIGHT
  · have hneg := ((analyze_too_large_aux K stat settings hmode).1).2 hlim
    omega
  by_cases hfirst : stat.prev_idx = 0 ∧
      (same_size (agf_prepare K stat settings) settings = true ∨ settings.xpm_trans ≥ 0)
  · exfalso
    unfold analyze_gif_frame at h
    rw [if_neg hm, if_neg hlim] at h
    dsimp only at h
    by_cases hss : same_size (agf_prepare K stat settings) settings = true
    · have hc : ((ani_init_xlat (ani_map_frame K.MAX_WIDTH K.MAX_HEIGHT
          { stat with newpal := (agf_pal stat settings).1,
                      newcols := (agf_pal stat settings).2,
                      newtrans := settings.xpm_trans } settings)).prev_idx = 0 ∧
          same_size (ani_init_xlat (ani_map_frame K.MAX_WIDTH K.MAX_HEIGHT
          { stat with newpal := (agf_pal stat settings).1,
                      newcols := (agf_pal stat settings).2,
                      newtrans := settings.xpm_trans } settings)) settings = true) :=
        ⟨hfirst.1, hss⟩
      rw [if_pos hc] at h
      rcases h with h | h <;> cases h
    · have hc : ¬ ((ani_init_xlat (ani_map_frame K.MAX_WIDTH K.MAX_HEIGHT
          { stat with newpal := (agf_pal stat settings).1,
                      newcols := (agf_pal stat settings).2,
                      newtrans := settings.xpm_trans } settings)).prev_idx = 0 ∧
          same_size (ani_init_xlat (ani_map_frame K.MAX_WIDTH K.MAX_HEIGHT
          { stat with newpal := (agf_pal stat settings).1,
                      newcols := (agf_pal stat settings).2,
                      newtrans := settings.xpm_trans } settings)) settings = true) :=
        fun hh => hss hh.2
      have hc2 : ((ani_init_xlat (ani_map_frame K.MAX_WIDTH K.MAX_HEIGHT
          { stat with newpal := (agf_pal stat settings).1,
                      newcols := (agf_pal stat settings).2,
                      newtrans := settings.xpm_trans } settings)).prev_idx = 0 ∧
          settings.xpm_trans ≥ 0) := by
        rcases hfirst.2 with hh | hh
        · exact absurd hh hss
        · exact ⟨hfirst.1, hh⟩
      rw [if_neg hc, if_pos hc2] at h
      rcases h with h | h <;> cases h
  · have he := analyze_gif_frame_eq_decide K stat settings hmode (by omega) hfirst
    rw [he] at h ⊢
    obtain ⟨r1, r2⟩ := agf_decide_rgb (agf_prepare K stat settings) settings h
    refine ⟨?_, r2⟩
    rw [r1]
    have hp : (agf_prepare K stat settings).prev = stat.prev := rfl
    have hb := agf_cmap_512 (agf_prepare K stat settings) settings (by rw [hp]; exact hptr)
    rw [hp]
    by_cases hbg : agf_cmap (agf_prepare K stat settings) settings 512 ≠ 0
    · rw [if_pos (Or.inr hbg), if_pos (Or.inr (hb.mp hbg))]
    · have hbg2 : ¬ background_visible (agf_prepare K stat settings) settings :=
        fun hh => hbg (hb.mpr hh)
      by_cases ha : stat.prev.img.alpha.isSome = true
      · rw [if_pos (Or.inl ha), if_pos (Or.inl ha)]
      · rw [if_neg (fun hh => hh.elim ha hbg), if_neg (fun hh => hh.elim ha hbg2)]

theorem analyze_gif_frame_rgb_witness :
    (analyze_gif_frame consts_default rgb_under_stat (ls_settings_indexed 0 0 1 1 [0])).1 =
      (if rgb_under_stat.prev.img.alpha.isSome = true ∨
          background_visible (agf_prepare consts_default rgb_under_stat
            (ls_settings_indexed 0 0 1 1 [0])) (ls_settings_indexed 0 0 1 1 [0]) then 4 else 3) ∧
    (analyze_gif_frame consts_default rgb_under_stat
      (ls_settings_indexed 0 0 1 1 [0])).2.newtrans = -1 :=
  analyze_gif_frame_rgb consts_default rgb_under_stat (ls_settings_indexed 0 0 1 1 [0])
    (by decide) (by decide) (by decide)

/-! ## The analysis of indexed frames: the transparent index -/

theorem agf_place_trans_newtrans (stat : ani_status) (cmap : Nat → Nat) (prevtr tp : Int)
    (st : ani_status) (h : agf_place_trans stat cmap prevtr tp = some st)
    (h0 : stat.newtrans = -1) : st.newtrans = -1 ∨ st.newtrans < st.newcols := by
  unfold agf_place_trans at h
  by_cases hbg : cmap 512 ≠ 0
  · rw [if_pos hbg] at h
    dsimp only at h
    generalize hl1 : (if agf_slot_taken cmap stat.newcols prevtr = true then tp else prevtr) = l1
      at h
    generalize hl2 : (if agf_slot_taken cmap stat.newcols l1 = true then
        agf_find_slot cmap stat.newcols.toNat 0 else l1) = l2 at h
    by_cases hneg : l2 < 0
    · rw [if_pos hneg] at h
      by_cases hnc : stat.newcols ≥ 256
      · rw [if_pos hnc] at h
        cases h
      · rw [if_neg hnc] at h
        cases h
        right
        show stat.newcols < stat.newcols + 1
        omega
    · rw [if_neg hneg] at h
      cases h
      right
      show l2 < stat.newcols
      by_cases ht : agf_slot_taken cmap stat.newcols l1 = true
      · rw [if_pos ht] at hl2
        obtain ⟨_, f2⟩ := agf_find_slot_spec cmap stat.newcols.toNat 0
        rw [hl2] at f2
        have := (f2 (by omega)).1
        omega
      · rw [if_neg ht] at hl2
        rw [← hl2]
        unfold agf_slot_taken at ht
        simp only [Bool.or_eq_true, decide_eq_true_eq, not_or, not_lt, not_le] at ht
        omega
  · rw [if_neg hbg] at h
    cases h
    exact Or.inl h0

theorem agf_merge_newtrans (stat : ani_status) (cmap : Nat → Nat) (prev pal : palette)
    (prevtr : Int) (h : (agf_merge stat cmap prev pal prevtr).1 = true)
    (h0 : stat.newtrans = -1) :
    (agf_merge stat cmap prev pal prevtr).2.newtrans = -1 ∨
      (agf_merge stat cmap prev pal prevtr).2.newtrans <
        (agf_merge stat cmap prev pal prevtr).2.newcols := by
  unfold agf_merge at h ⊢
  dsimp only at h ⊢
  generalize (agf_merge_loop cmap prev pal 512 0 (0, fun _ => 0, stat.xlat)) = r at h ⊢
  by_cases ha : (decide (r.1 < 257) && decide (cmap 512 ≠ 0)) = true
  · simp only [ha, if_true] at h ⊢
    by_cases hlt : r.1 + 1 < 257
    · rw [if_pos hlt]
      right
      show (r.1 : Int) < ((r.1 + 1 : Nat) : Int)
      omega
    · rw [if_neg hlt] at h
      cases h
  · simp only [ha, Bool.false_eq_true, if_false] at h ⊢
    by_cases hlt : r.1 < 257
    · rw [if_pos hlt]
      exact Or.inl h0
    · rw [if_neg hlt] at h
      cases h

theorem agf_decide_newtrans (stat : ani_status) (settings : ls_settings)
    (h0 : stat.newtrans = -1) :
    (agf_decide stat settings).2.newtrans = -1 ∨
      (agf_decide stat settings).2.newtrans < (agf_decide stat settings).2.newcols := by
  have h1 : (agf_stat1 stat settings).newtrans = -1 := by
    unfold agf_stat1
    split <;> exact h0
  by_cases h3 : agf_show_under stat settings = true ∧ stat.prev.bpp = 3
  · have hd : agf_decide stat settings =
        agf_rgb stat (agf_cmap stat settings) (agf_show_under stat settings) := by
      unfold agf_decide
      simp only [if_pos h3]
    rw [hd]
    exact Or.inl rfl
  · cases hs : agf_single stat settings with
    | some st2 =>
      rw [agf_decide_single stat settings st2 h3 hs]
      unfold agf_single at hs
      split at hs
      · exact agf_place_trans_newtrans _ _ _ _ _ hs h1
      · cases hs
    | none =>
      have hd := agf_decide_merge stat settings h3 hs
      rw [hd]
      by_cases hm : (agf_merge (agf_stat1 stat settings) (agf_cmap stat settings)
          (agf_prev_pal stat) (agf_pal stat settings).1 (agf_prevtr stat)).1 = true
      · rw [if_pos hm]
        exact agf_merge_newtrans _ _ _ _ _ hm h1
      · rw [if_neg hm]
        exact Or.inl rfl

/-- C25 fails as stated: a first frame that covers the canvas is returned as it
is (result 0) with its own transparent index, which nothing compares with the
size of the palette: here the index 5 with a palette of two colours. -/
theorem analyze_gif_frame_newtrans_counterexample :
    consts_default.ANM_RAW < trans_stat.mode ∧
    (analyze_gif_frame consts_default trans_stat trans_settings).1 = 0 ∧
    (analyze_gif_frame consts_default trans_stat trans_settings).2.newtrans = 5 ∧
    (analyze_gif_frame consts_default trans_stat trans_settings).2.newcols = 2 := by
  decide

/-- C25 (amended): whenever `analyze_gif_frame` returns an indexed result (0 or 1)
in compositing mode for a new frame whose own transparent index is -1 or below
the size of its palette, the output transparent index `newtrans` is either -1 or
strictly smaller than the output palette size `newcols`. -/
theorem analyze_gif_frame_newtrans (K : consts) (stat : ani_status) (settings : ls_settings)
    (hmode : K.ANM_RAW < stat.mode)
    (hxt : settings.xpm_trans = -1 ∨ settings.xpm_trans < (agf_pal stat settings).2)
    (h : (analyze_gif_frame K stat settings).1 = 0 ∨ (analyze_gif_frame K stat settings).1 = 1) :
    (analyze_gif_frame K stat settings).2.newtrans = -1 ∨
      (analyze_gif_frame K stat settings).2.newtrans <
        (analyze_gif_frame K stat settings).2.newcols := by
  have hm : ¬ stat.mode ≤ K.ANM_RAW := by omega
  by_cases hlim : stat.defw > K.MAX_WIDTH ∨ stat.defh > K.MAX_HEIGHT
  · have hneg := ((analyze_too_large_aux K stat settings hmode).1).2 hlim
    omega
  by_cases hfirst : stat.prev_idx = 0 ∧
      (same_size (agf_prepare K stat settings) settings = true ∨ settings.xpm_trans ≥ 0)
  · have hst : (analyze_gif_frame K stat settings).2.newtrans = settings.xpm_trans ∧
        (analyze_gif_frame K stat settings).2.newcols = (agf_pal stat settings).2 := by
      unfold analyze_gif_frame
      rw [if_neg hm, if_neg hlim]
      dsimp only
      by_cases hss : same_size (agf_prepare K stat settings) settings = true
      · have hc : ((ani_init_xlat (ani_map_frame K.MAX_WIDTH K.MAX_HEIGHT
            { stat with newpal := (agf_pal stat settings).1,
                        newcols := (agf_pal stat settings).2,
                        newtrans := settings.xpm_trans } settings)).prev_idx = 0 ∧
            same_size (ani_init_xlat (ani_map_frame K.MAX_WIDTH K.MAX_HEIGHT
            { stat with newpal := (agf_pal stat settings).1,
                        newcols := (agf_pal stat settings).2,
                        newtrans := settings.xpm_trans } settings)) settings = true) :=
          ⟨hfirst.1, hss⟩
        rw [if_pos hc]
        exact ⟨rfl, rfl⟩
      · have hc : ¬ ((ani_init_xlat (ani_map_frame K.MAX_WIDTH K.MAX_HEIGHT
            { stat with newpal := (agf_pal stat settings).1,
                        newcols := (agf_pal stat settings).2,
                        newtrans := settings.xpm_trans } settings)).prev_idx = 0 ∧
            same_size (ani_init_xlat (ani_map_frame K.MAX_WIDTH K.MAX_HEIGHT
            { stat with newpal := (agf_pal stat settings).1,
                        newcols := (agf_pal stat settings).2,
                        newtrans := settings.xpm_trans } settings)) settings = true) :=
          fun hh => hss hh.2
        have hc2 : ((ani_init_xlat (ani_map_frame K.MAX_WIDTH K.MAX_HEIGHT
            { stat with newpal := (agf_pal stat settings).1,
                        newcols := (agf_pal stat settings).2,
                        newtrans := settings.xpm_trans } settings)).prev_idx = 0 ∧
            settings.xpm_trans ≥ 0) := by
          rcases hfirst.2 with hh | hh
          · exact absurd hh hss
          · exact ⟨hfirst.1, hh⟩
        rw [if_neg hc, if_pos hc2]
        exact ⟨rfl, rfl⟩
    rw [hst.1, hst.2]
    exact hxt
  · have he := analyze_gif_frame_eq_decide K stat settings hmode (by omega) hfirst
    rw [he] at h ⊢
    exact agf_decide_newtrans (agf_prepare K stat settings) settings rfl

theorem analyze_gif_frame_newtrans_witness :
    (analyze_gif_frame consts_default trans_stat
        { trans_settings with xpm_trans := 1 }).2.newtrans = -1 ∨
      (analyze_gif_frame consts_default trans_stat
        { trans_settings with xpm_trans := 1 }).2.newtrans <
        (analyze_gif_frame consts_default trans_stat
          { trans_settings with xpm_trans := 1 }).2.newcols :=
  analyze_gif_frame_newtrans consts_default trans_stat { trans_settings with xpm_trans := 1 }
    (by decide) (by decide) (by decide)

/-! ## The analysis of indexed frames: a full palette -/

/-- With background visible, every slot of the palette in use and 256 slots or
more, the block "Place transparency" ends with the `break`. -/
theorem agf_place_trans_full (stat : ani_status) (cmap : Nat → Nat) (prevtr tp : Int)
    (hbg : cmap 512 ≠ 0)
    (hfull : ∀ i : Nat, (i : Int) < stat.newcols → cmap i ||| cmap (i + 256) ≠ 0)
    (hnc : stat.newcols ≥ 256) : agf_place_trans stat cmap prevtr tp = none := by
  have htaken : ∀ l : Int, agf_slot_taken cmap stat.newcols l = true := by
    intro l
    unfold agf_slot_taken
    simp only [Bool.or_eq_true, decide_eq_true_eq]
    by_cases h1 : l < 0
    · exact Or.inl (Or.inl h1)
    by_cases h2 : l ≥ stat.newcols
    · exact Or.inl (Or.inr h2)
    · exact Or.inr (hfull l.toNat (by omega))
  have hslot : agf_find_slot cmap stat.newcols.toNat 0 < 0 := by
    obtain ⟨_, f2⟩ := agf_find_slot_spec cmap stat.newcols.toNat 0
    by_contra hn
    obtain ⟨g1, g2⟩ := f2 (by omega)
    exact hfull _ (by omega) g2
  unfold agf_place_trans
  rw [if_pos hbg]
  dsimp only
  rw [htaken prevtr, if_pos rfl, htaken tp, if_pos rfl, if_pos hslot, if_pos hnc]

/-- The second half of the analysis with a full palette: the combined palette
decides. -/
theorem agf_decide_full (stat : ani_status) (settings : ls_settings)
    (hrgb : ¬ (agf_show_under stat settings = true ∧ stat.prev.bpp = 3))
    (hbg : agf_cmap stat settings 512 ≠ 0)
    (hfull : ∀ i : Nat, (i : Int) < (agf_stat1 stat settings).newcols →
      agf_cmap stat settings i ||| agf_cmap stat settings (i + 256) ≠ 0)
    (hnc : (agf_stat1 stat settings).newcols ≥ 256) :
    (((agf_decide stat settings).1 = 3 ∨ (agf_decide stat settings).1 = 4) ↔
      256 ≤ (seen_colors (agf_cmap stat settings) (agf_prev_pal stat)
        (agf_pal stat settings).1 512).length) ∧
    (((agf_decide stat settings).1 = 0 ∨ (agf_decide stat settings).1 = 1) ↔
      (seen_colors (agf_cmap stat settings) (agf_prev_pal stat)
        (agf_pal stat settings).1 512).length < 256) := by
  have hs : agf_single stat settings = none := by
    unfold agf_single
    split
    · exact agf_place_trans_full _ _ _ _ hbg hfull hnc
    · rfl
  have hm := agf_merge_success_iff (agf_stat1 stat settings) (agf_cmap stat settings)
    (agf_prev_pal stat) (agf_pal stat settings).1 (agf_prevtr stat)
  rw [if_pos hbg] at hm
  have hcode : ∀ b : Bool, ((if b = true then (0 : Int) else 1) = 0 ∨
      (if b = true then (0 : Int) else 1) = 1) ∧
      ¬ ((if b = true then (0 : Int) else 1) = 3 ∨ (if b = true then (0 : Int) else 1) = 4) := by
    intro b
    cases b <;> simp
  rw [agf_decide_merge stat settings hrgb hs]
  by_cases hok : (agf_merge (agf_stat1 stat settings) (agf_cmap stat settings)
      (agf_prev_pal stat) (agf_pal stat settings).1 (agf_prevtr stat)).1 = true
  · rw [if_pos hok]
    have := hm.mp hok
    exact ⟨⟨fun h => absurd h (hcode _).2, fun h => by omega⟩,
      ⟨fun _ => by omega, fun _ => (hcode _).1⟩⟩
  · rw [if_neg hok]
    have hlen : ¬ (seen_colors (agf_cmap stat settings) (agf_prev_pal stat)
        (agf_pal stat settings).1 512).length + 1 ≤ 256 := fun h => hok (hm.mpr h)
    have h34 := agf_rgb_code (agf_merge (agf_stat1 stat settings) (agf_cmap stat settings)
      (agf_prev_pal stat) (agf_pal stat settings).1 (agf_prevtr stat)).2
      (agf_cmap stat settings) (agf_show_under stat settings)
    refine ⟨⟨fun _ => by omega, fun _ => h34⟩, ⟨fun h => ?_, fun h => by omega⟩⟩
    rcases h34 with h3 | h3 <;> rw [h3] at h <;> omega

/-- The analysis with a full palette: the combined palette decides. -/
theorem analyze_gif_frame_full_aux (K : consts) (stat : ani_status) (settings : ls_settings)
    (hmode : K.ANM_RAW < stat.mode)
    (hlim : stat.defw ≤ K.MAX_WIDTH ∧ stat.defh ≤ K.MAX_HEIGHT)
    (hfirst : ¬ (stat.prev_idx = 0 ∧
      (same_size (agf_prepare K stat settings) settings = true ∨ settings.xpm_trans ≥ 0)))
    (hrgb : ¬ (agf_show_under (agf_prepare K stat settings) settings = true ∧ stat.prev.bpp = 3))
    (hptr : stat.prev.trans < 512)
    (hbg : background_visible (agf_prepare K stat settings) settings)
    (hfull : ∀ i : Nat, (i : Int) < (agf_stat1 (agf_prepare K stat settings) settings).newcols →
      agf_cmap (agf_prepare K stat settings) settings i ≠ 0 ∨
        agf_cmap (agf_prepare K stat settings) settings (i + 256) ≠ 0)
    (hnc : (agf_stat1 (agf_prepare K stat settings) settings).newcols ≥ 256) :
    (((analyze_gif_frame K stat settings).1 = 3 ∨ (analyze_gif_frame K stat settings).1 = 4) ↔
      256 ≤ (visible_colors (agf_prepare K stat settings) settings).card) ∧
    (((analyze_gif_frame K stat settings).1 = 0 ∨ (analyze_gif_frame K stat settings).1 = 1) ↔
      (visible_colors (agf_prepare K stat settings) settings).card < 256) := by
  have hp : (agf_prepare K stat settings).prev = stat.prev := rfl
  have hptr2 : (agf_prepare K stat settings).prev.trans < 512 := by rw [hp]; exact hptr
  have hb := (agf_cmap_512 (agf_prepare K stat settings) settings hptr2).mpr hbg
  have hcard := seen_colors_card (agf_prepare K stat settings) settings
  rw [analyze_gif_frame_eq_decide K stat settings hmode hlim hfirst]
  have := agf_decide_full (agf_prepare K stat settings) settings (by rw [hp]; exact hrgb) hb
    (by
      intro i hi
      intro h0
      rcases hfull i hi with h | h
      · exact h (lor_eq_zero _ _ h0).1
      · exact h (lor_eq_zero _ _ h0).2) hnc
  rw [hcard] at this
  exact this

/-! ### A palette of 256 entries that repeat -/

theorem dup_canvas_index (x : Nat) (hx : x < 257) :
    canvas_index (agf_prepare consts_default over_stat dup_settings) dup_settings x 0 =
      if x < 256 then 256 + x else 512 :=
  over_canvas_index x hx

theorem dup_visible (e : Nat) :
    e ∈ visible_indices (agf_prepare consts_default over_stat dup_settings) dup_settings ↔
      ((256 ≤ e ∧ e < 512) ∨ e = 512) := by
  have hw : (agf_prepare consts_default over_stat dup_settings).defw = 257 := rfl
  have hh : (agf_prepare consts_default over_stat dup_settings).defh = 1 := rfl
  rw [mem_visible_indices, hw, hh]
  constructor
  · rintro ⟨x, y, hx, hy, h⟩
    have hy0 : y = 0 := by omega
    subst hy0
    rw [dup_canvas_index x hx] at h
    split at h <;> omega
  · rintro (⟨h1, h2⟩ | h)
    · refine ⟨e - 256, 0, by omega, by omega, ?_⟩
      rw [dup_canvas_index _ (by omega), if_pos (by omega)]
      omega
    · refine ⟨256, 0, by omega, by omega, ?_⟩
      rw [dup_canvas_index _ (by omega), if_neg (by omega), h]

theorem dup_prevtr : agf_prevtr (agf_prepare consts_default over_stat dup_settings) = -1 := by
  unfold agf_prevtr
  rw [if_pos (by decide)]
  rfl

theorem dup_bgv : background_visible (agf_prepare consts_default over_stat dup_settings)
    dup_settings := Or.inl ((dup_visible 512).mpr (Or.inr rfl))

theorem dup_show_under :
    agf_show_under (agf_prepare consts_default over_stat dup_settings) dup_settings = false := by
  have hnone : ∀ i, i < 256 →
      agf_cmap (agf_prepare consts_default over_stat dup_settings) dup_settings i = 0 := by
    intro i hi
    by_contra hne
    have := ((agf_cmap_ne_zero _ _ i (by omega)).mp hne).1
    rcases (dup_visible i).mp this with h | h <;> omega
  unfold agf_show_under
  have : memchr_256 (agf_cmap (agf_prepare consts_default over_stat dup_settings)
      dup_settings) = false := by
    rw [← Bool.not_eq_true, memchr_256_iff]
    rintro ⟨i, hi, h1⟩
    rw [hnone i hi] at h1
    omega
  rw [this, Bool.and_false]

theorem dup_newcols :
    (agf_stat1 (agf_prepare consts_default over_stat dup_settings) dup_settings).newcols = 256 := by
  unfold agf_stat1
  rw [if_neg (by rw [dup_show_under]; simp)]
  rfl

theorem dup_full (i : Nat)
    (hi : (i : Int) <
      (agf_stat1 (agf_prepare consts_default over_stat dup_settings) dup_settings).newcols) :
    agf_cmap (agf_prepare consts_default over_stat dup_settings) dup_settings i ≠ 0 ∨
      agf_cmap (agf_prepare consts_default over_stat dup_settings) dup_settings (i + 256) ≠ 0 := by
  rw [dup_newcols] at hi
  right
  rw [agf_cmap_ne_zero _ _ _ (by omega), dup_prevtr]
  exact ⟨(dup_visible _).mpr (Or.inl ⟨by omega, by omega⟩), by omega⟩

theorem dup_colors :
    (visible_colors (agf_prepare consts_default over_stat dup_settings) dup_settings).card < 256 := by
  have hsub : visible_colors (agf_prepare consts_default over_stat dup_settings) dup_settings ⊆
      {0} := by
    intro c hc
    unfold visible_colors at hc
    simp only [Finset.mem_image, Finset.mem_filter] at hc
    obtain ⟨e, ⟨he, he512, _⟩, hcol⟩ := hc
    rcases (dup_visible e).mp he with ⟨h1, h2⟩ | h
    · rw [Finset.mem_singleton, ← hcol]
      have hp : (agf_pal (agf_prepare consts_default over_stat dup_settings) dup_settings).1 =
          fun _ => ⟨0, 0, 0⟩ := by
        unfold agf_pal
        rw [if_pos (by decide)]
        rfl
      rw [hp]
      unfold ext_color
      rw [if_neg (by omega)]
      rfl
    · omega
  have := Finset.card_le_card hsub
  rw [Finset.card_singleton] at this
  omega

/-- C26 fails as stated: the new frame `dup_settings` has a palette of 256
entries, all of them in use by its 256 pixels, and the canvas of 257 × 1 pixels
shows background beside it; the new palette suffices for the visible colours
and has no room for a transparent colour, yet `analyze_gif_frame` keeps the
output indexed, because the 256 entries are all the same colour and the combined
palette needs two entries only. -/
theorem analyze_gif_frame_full_palette_counterexample :
    consts_default.ANM_RAW < over_stat.mode ∧
    agf_ul (agf_prepare consts_default over_stat dup_settings) dup_settings = 2 ∧
    background_visible (agf_prepare consts_default over_stat dup_settings) dup_settings ∧
    (∀ i : Nat, i < 256 →
      agf_cmap (agf_prepare consts_default over_stat dup_settings) dup_settings (i + 256) ≠ 0) ∧
    (agf_stat1 (agf_prepare consts_default over_stat dup_settings) dup_settings).newcols = 256 ∧
    ((analyze_gif_frame consts_default over_stat dup_settings).1 = 0 ∨
      (analyze_gif_frame consts_default over_stat dup_settings).1 = 1) := by
  refine ⟨by decide, ?_, dup_bgv, ?_, dup_newcols, ?_⟩
  · unfold agf_ul
    simp only [dup_show_under, if_false, Bool.false_eq_true]
  · intro i hi
    rw [agf_cmap_ne_zero _ _ _ (by omega), dup_prevtr]
    exact ⟨(dup_visible _).mpr (Or.inl ⟨by omega, by omega⟩), by omega⟩
  · exact ((analyze_gif_frame_full_aux consts_default over_stat dup_settings (by decide)
      (by decide) (by decide) (fun h => absurd h.2 (by decide)) (by decide) dup_bgv dup_full
      (ge_of_eq dup_newcols)).2).mpr dup_colors

/-- C26 (amended): in compositing mode, when background or transparency is
visible, no slot of the palette taken after the palette check is unused and that
palette has 256 entries or more, so that no transparent colour can be placed in
it (whether one frame's palette suffices for all visible colours or not),
`analyze_gif_frame` goes on to the combined palette: it abandons indexed mode and
returns 3 or 4 exactly when the visible pixels show 256 distinct colours or more,
and returns an indexed result (0 or 1) when they show fewer, as they do when
palette entries repeat. -/
theorem analyze_gif_frame_full_palette (K : consts) (stat : ani_status) (settings : ls_settings)
    (hmode : K.ANM_RAW < stat.mode)
    (hlim : stat.defw ≤ K.MAX_WIDTH ∧ stat.defh ≤ K.MAX_HEIGHT)
    (hfirst : ¬ (stat.prev_idx = 0 ∧
      (same_size (agf_prepare K stat settings) settings = true ∨ settings.xpm_trans ≥ 0)))
    (hrgb : ¬ (agf_show_under (agf_prepare K stat settings) settings = true ∧ stat.prev.bpp = 3))
    (hptr : stat.prev.trans < 512)
    (hbg : background_visible (agf_prepare K stat settings) settings)
    (hfull : ∀ i : Nat, (i : Int) < (agf_stat1 (agf_prepare K stat settings) settings).newcols →
      agf_cmap (agf_prepare K stat settings) settings i ≠ 0 ∨
        agf_cmap (agf_prepare K stat settings) settings (i + 256) ≠ 0)
    (hnc : (agf_stat1 (agf_prepare K stat settings) settings).newcols ≥ 256) :
    (((analyze_gif_frame K stat settings).1 = 3 ∨ (analyze_gif_frame K stat settings).1 = 4) ↔
      256 ≤ (visible_colors (agf_prepare K stat settings) settings).card) ∧
    (((analyze_gif_frame K stat settings).1 = 0 ∨ (analyze_gif_frame K stat settings).1 = 1) ↔
      (visible_colors (agf_prepare K stat settings) settings).card < 256) :=
  analyze_gif_frame_full_aux K stat settings hmode hlim hfirst hrgb hptr hbg hfull hnc

theorem analyze_gif_frame_full_palette_witness :
    (((analyze_gif_frame consts_default over_stat dup_settings).1 = 3 ∨
        (analyze_gif_frame consts_default over_stat dup_settings).1 = 4) ↔
      256 ≤ (visible_colors (agf_prepare consts_default over_stat dup_settings)
        dup_settings).card) ∧
    (((analyze_gif_frame consts_default over_stat dup_settings).1 = 0 ∨
        (analyze_gif_frame consts_default over_stat dup_settings).1 = 1) ↔
      (visible_colors (agf_prepare consts_default over_stat dup_settings)
        dup_settings).card < 256) :=
  analyze_gif_frame_full_palette consts_default over_stat dup_settings (by decide)
    (by decide) (by decide) (fun h => absurd h.2 (by decide)) (by decide) dup_bgv dup_full
    (ge_of_eq dup_newcols)

/-! ## LZW: the data that the decoder reads -/

theorem file_data_fuel (k : Nat) :
    ∀ (k1 : Nat) (f : List Nat), f.length ≤ k → f.length ≤ k1 → file_data k f = file_data k1 f := by
  induction k with
  | zero =>
    intro k1 f h _
    have : f = [] := List.length_eq_zero.mp (by omega)
    subst this
    cases k1 <;> rfl
  | succ k ih =>
    intro k1 f h h1
    cases f with
    | nil => cases k1 <;> rfl
    | cons l rest =>
      cases k1 with
      | zero => simp at h1
      | succ k1 =>
        simp only [List.length_cons] at h h1
        rw [file_data, file_data]
        split
        · rfl
        · split
          · rfl
          · rw [ih k1 (rest.drop l) (by rw [List.length_drop]; omega)
              (by rw [List.length_drop]; omega)]

theorem file_data_cons (l : Nat) (rest : List Nat) (h0 : l ≠ 0) (h1 : l ≤ rest.length) :
    file_data (l :: rest).length (l :: rest) =
      rest.take l ++ file_data (rest.drop l).length (rest.drop l) := by
  rw [List.length_cons, file_data, if_neg h0, if_neg (by omega)]
  congr 1
  exact file_data_fuel _ _ _ (by rw [List.length_drop]; omega) (le_refl _)

theorem file_data_nil (f : List Nat) :
    file_data f.length f = [] ↔ (getblock (fun _ => 0) f).1 ≤ 0 := by
  cases f with
  | nil => simp [file_data, getblock]
  | cons l rest =>
    unfold getblock
    dsimp only
    by_cases h0 : l = 0
    · subst h0
      simp [file_data]
    · rw [if_pos (by omega)]
      by_cases h1 : rest.length < l
      · rw [if_pos h1]
        simp [file_data, h0, h1]
      · rw [if_neg h1, file_data_cons l rest h0 (by omega)]
        constructor
        · intro h
          exfalso
          have h2 := congrArg List.length h
          rw [List.length_append, List.length_take, List.length_nil] at h2
          have h3 : min l rest.length = l := Nat.min_eq_left (by omega)
          omega
        · intro h
          exfalso
          have h2 : ((l : Nat) : Int) ≤ 0 := h
          omega

theorem getblock_fst (buf buf1 : Nat → Nat) (f : List Nat) :
    (getblock buf f).1 = (getblock buf1 f).1 ∧ (getblock buf f).2.2 = (getblock buf1 f).2.2 := by
  unfold getblock
  cases f with
  | nil => exact ⟨rfl, rfl⟩
  | cons l rest =>
    dsimp only
    split
    · split <;> exact ⟨rfl, rfl⟩
    · exact ⟨rfl, rfl⟩

theorem range_map_getD (L : List Nat) (o : Nat) :
    (List.range (L.length - o)).map (fun i => L.getD (o + i) 0) = L.drop o := by
  apply List.ext_getElem
  · simp
  · intro i h1 h2
    simp only [List.length_map, List.length_range] at h1
    simp only [List.getElem_map, List.getElem_range, List.getElem_drop]
    rw [List.getD_eq_getElem _ _ (by omega)]

theorem dec_stream_buf (g : gifbuf) (h : ¬ ((g.ptr : Int) ≥ g.end_)) :
    dec_stream g = g.buf g.ptr :: dec_stream (fill_byte g) := by
  unfold dec_stream dec_buf fill_byte
  dsimp only
  have e : (g.end_ - (g.ptr : Int)).toNat = (g.end_ - ((g.ptr + 1 : Nat) : Int)).toNat + 1 := by
    omega
  rw [e, List.range_succ_eq_map, List.map_cons, List.map_map, List.cons_append]
  congr 2
  apply List.map_congr_left
  intro i _
  simp only [Function.comp, Nat.add_zero]
  congr 1
  omega

theorem dec_stream_nil (g : gifbuf) (h : (g.ptr : Int) ≥ g.end_) :
    dec_stream g = [] ↔ (getblock g.buf g.f).1 ≤ 0 := by
  unfold dec_stream dec_buf
  have e : (g.end_ - (g.ptr : Int)).toNat = 0 := by omega
  rw [e, List.range_zero, List.map_nil, List.nil_append, file_data_nil,
    (getblock_fst g.buf (fun _ => 0) g.f).1]

theorem dec_stream_block (g : gifbuf) (h : (g.ptr : Int) ≥ g.end_)
    (hb : ¬ (getblock g.buf g.f).1 ≤ 0) :
    dec_stream g = (getblock g.buf g.f).2.1 0 :: dec_stream (fill_block g) := by
  unfold dec_stream dec_buf fill_block
  have e : (g.end_ - (g.ptr : Int)).toNat = 0 := by omega
  rw [e, List.range_zero, List.map_nil, List.nil_append]
  dsimp only
  revert hb
  cases hf : g.f with
  | nil => intro hb; exact absurd (by simp [getblock]) hb
  | cons l rest =>
    unfold getblock
    dsimp only
    by_cases h0 : l > 0
    · rw [if_pos h0]
      by_cases h1 : rest.length < l
      · rw [if_pos h1]
        intro hb
        exact absurd (by simp) hb
      · rw [if_neg h1]
        intro _
        dsimp only
        rw [file_data_cons l rest (by omega) (by omega)]
        have hl : (rest.take l).length = l := by
          rw [List.length_take]; exact Nat.min_eq_left (by omega)
        have e2 : (((l : Nat) : Int) - ((1 : Nat) : Int)).toNat = (rest.take l).length - 1 := by
          rw [hl]; omega
        rw [e2]
        have e3 : (List.range ((rest.take l).length - 1)).map
            (fun i => store_bytes g.buf 0 (rest.take l) (1 + i)) =
            (List.range ((rest.take l).length - 1)).map (fun i => (rest.take l).getD (1 + i) 0) := by
          apply List.map_congr_left
          intro i hi
          rw [List.mem_range] at hi
          unfold store_bytes
          rw [if_pos ⟨by omega, by omega⟩]
          rfl
        rw [e3, range_map_getD]
        have e4 : store_bytes g.buf 0 (rest.take l) 0 = (rest.take l).getD 0 0 := by
          unfold store_bytes
          rw [if_pos ⟨le_refl _, by omega⟩]
        rw [e4, ← List.cons_append]
        congr 1
        cases ht : rest.take l with
        | nil => rw [ht] at hl; simp at hl; omega
        | cons a r => rfl
    · rw [if_neg h0]
      intro hb
      exact absurd (le_refl _) hb

/-- The loop `while (bits < lc)` of `getlzw` on the data that is left: when the
data has the `(lc - bits + 7) / 8` bytes that the loop wants, it puts them in the
shifter and leaves the rest; when the data ends before, the result is `FALSE`. -/
theorem getlzw_fill_spec (lc n : Nat) :
    ∀ (g : gifbuf) (w bits : Nat),
      ((lc - bits + 7) / 8 ≤ (dec_stream g).length → (lc - bits + 7) / 8 ≤ n →
        (getlzw_fill lc n (g, w, bits)).1 = true ∧
        (getlzw_fill lc n (g, w, bits)).2.2.1 =
          fill_bytes ((dec_stream g).take ((lc - bits + 7) / 8)) w bits ∧
        (getlzw_fill lc n (g, w, bits)).2.2.2 = bits + 8 * ((lc - bits + 7) / 8) ∧
        dec_stream (getlzw_fill lc n (g, w, bits)).2.1 =
          (dec_stream g).drop ((lc - bits + 7) / 8)) ∧
      ((dec_stream g).length < (lc - bits + 7) / 8 → (dec_stream g).length < n →
        (getlzw_fill lc n (g, w, bits)).1 = false) := by
  induction n with
  | zero =>
    intro g w bits
    refine ⟨fun _ h2 => ?_, fun _ h2 => absurd h2 (Nat.not_lt_zero _)⟩
    have h0 : (lc - bits + 7) / 8 = 0 := by omega
    rw [h0]
    exact ⟨rfl, rfl, rfl, rfl⟩
  | succ n ih =>
    intro g w bits
    rw [getlzw_fill]
    by_cases hb : bits < lc
    · rw [if_pos hb]
      have hk : (lc - bits + 7) / 8 = (lc - (bits + 8) + 7) / 8 + 1 := by omega
      by_cases hp : (g.ptr : Int) ≥ g.end_
      · rw [if_pos hp]
        dsimp only
        by_cases hg : (getblock g.buf g.f).1 ≤ 0
        · rw [if_pos hg]
          have hs := (dec_stream_nil g hp).mpr hg
          refine ⟨fun h1 _ => ?_, fun _ _ => rfl⟩
          rw [hs, hk] at h1
          simp at h1
        · rw [if_neg hg]
          have hs := dec_stream_block g hp hg
          obtain ⟨i1, i2⟩ := ih (fill_block g)
            (w ||| ((getblock g.buf g.f).2.1 0 <<< bits)) (bits + 8)
          rw [hs, hk]
          refine ⟨fun h1 h2 => ?_, fun h1 h2 => ?_⟩
          · obtain ⟨j1, j2, j3, j4⟩ := i1 (by simpa using h1) (by omega)
            exact ⟨j1, j2.trans rfl, j3.trans (by omega), j4.trans rfl⟩
          · rw [List.length_cons] at h1 h2
            exact i2 (by omega) (by omega)
      · rw [if_neg hp]
        have hs := dec_stream_buf g hp
        obtain ⟨i1, i2⟩ := ih (fill_byte g) (w ||| (g.buf g.ptr <<< bits)) (bits + 8)
        rw [hs, hk]
        refine ⟨fun h1 h2 => ?_, fun h1 h2 => ?_⟩
        · obtain ⟨j1, j2, j3, j4⟩ := i1 (by simpa using h1) (by omega)
          exact ⟨j1, j2.trans rfl, j3.trans (by omega), j4.trans rfl⟩
        · rw [List.length_cons] at h1 h2
          exact i2 (by omega) (by omega)
    · rw [if_neg hb]
      have h0 : (lc - bits + 7) / 8 = 0 := by omega
      rw [h0]
      exact ⟨fun _ _ => ⟨rfl, rfl, rfl, rfl⟩, fun h _ => absurd h (Nat.not_lt_zero _)⟩

/-- C22: `getlzw` fails whenever the sub-block data ends before enough bits are
available. When a turn of the loop needs a code (`tail < cnt`) and the bits in
the shifter together with the data bytes left (`dec_stream`: the rest of the
buffer and the sub-blocks of the file up to a zero-length block, the end of the
file or a block cut short) are fewer than the code size, the turn ends the loop
with `return (FALSE)`. -/
theorem getlzw_data_ends (g : gifbuf) (tail cnt n : Nat) (dest : List Nat)
    (h : tail < cnt) (hd : g.bits + 8 * (dec_stream g).length < g.lc) :
    getlzw_step g tail cnt =
      .fail (getlzw_fill g.lc g.lc (g, g.w, g.bits)).2.1 (getlzw_out g.buf tail tail) ∧
    getlzw_loop (n + 1) g tail cnt dest =
      some (false, dest ++ getlzw_out g.buf tail tail,
        (getlzw_fill g.lc g.lc (g, g.w, g.bits)).2.1) := by
  have hf : (getlzw_fill g.lc g.lc (g, g.w, g.bits)).1 = false :=
    (getlzw_fill_spec g.lc g.lc g g.w g.bits).2 (by omega) (by omega)
  have hs := getlzw_step_of_nodata g tail cnt h hf
  refine ⟨hs, ?_⟩
  rw [getlzw_loop, hs]

theorem getlzw_data_ends_witness :
    (0 < 1 ∧ (initlzw gifbuf_zero [2, 3, 7]).2.bits +
        8 * (dec_stream (initlzw gifbuf_zero [2, 3, 7]).2).length <
      (initlzw gifbuf_zero [2, 3, 7]).2.lc) ∧
    getlzw_step (initlzw gifbuf_zero [2, 3, 7]).2 0 1 =
      .fail (getlzw_fill (initlzw gifbuf_zero [2, 3, 7]).2.lc (initlzw gifbuf_zero [2, 3, 7]).2.lc
        ((initlzw gifbuf_zero [2, 3, 7]).2, (initlzw gifbuf_zero [2, 3, 7]).2.w,
          (initlzw gifbuf_zero [2, 3, 7]).2.bits)).2.1
        (getlzw_out (initlzw gifbuf_zero [2, 3, 7]).2.buf 0 0) ∧
    getlzw_loop (0 + 1) (initlzw gifbuf_zero [2, 3, 7]).2 0 1 [] =
      some (false, [] ++ getlzw_out (initlzw gifbuf_zero [2, 3, 7]).2.buf 0 0,
        (getlzw_fill (initlzw gifbuf_zero [2, 3, 7]).2.lc (initlzw gifbuf_zero [2, 3, 7]).2.lc
          ((initlzw gifbuf_zero [2, 3, 7]).2, (initlzw gifbuf_zero [2, 3, 7]).2.w,
            (initlzw gifbuf_zero [2, 3, 7]).2.bits)).2.1) :=
  ⟨⟨by decide, by decide⟩,
    getlzw_data_ends (initlzw gifbuf_zero [2, 3, 7]).2 0 1 0 [] (by decide) (by decide)⟩

/-! ## LZW: the encoder's trie -/

theorem putlzw_loop_cons (c : Nat) (src : List Nat) (g : gifcbuf) (prev : Int) :
    putlzw_loop (c :: src) (g, prev) =
      if prev < 0 then putlzw_loop src (g, c)
      else if trie_get g.codes prev.toNat c ≠ 0 then
        putlzw_loop src (g, (trie_get g.codes prev.toNat c : Int) - 4096)
      else if (emitlzw g prev).nxc ≥ 4096 - 1 then
        putlzw_loop src (resetclzw (emitlzw g prev), c)
      else putlzw_loop src (putlzw_add (emitlzw g prev) (trie_slot prev.toNat c) c, c) := by
  rw [putlzw_loop]
  rfl

theorem enc_tab_resetclzw (g : gifcbuf) (h : enc_tab g) : enc_tab (resetclzw g) := by
  obtain ⟨a0, a1, a2, a3, a4, a5, a6, a7, a8, a9⟩ := h
  have hi := enc_inv_resetclzw g a0
  have hc : g.clear = 2 ^ g.lc0 := a0.2.2.2.2.2.2.1
  have h4 : 2 ^ 2 ≤ 2 ^ g.lc0 := Nat.pow_le_pow_right (by decide) a1
  refine ⟨hi, a1, le_refl _, ?_, le_refl _, ?_, ?_, ?_, ?_, ?_⟩
  · show g.clear + 2 ≤ 1 <<< (g.lc0 + 1)
    rw [one_shiftLeft, hc, Nat.pow_succ]
    omega
  · show 1 + g.clear + 1 ≤ g.clear + 2
    omega
  · intro i _
    exact Nat.zero_lt_one
  · intro i i1 _ _ _ hne
    exact absurd rfl hne
  · intro j _
    exact Or.inl rfl
  · intro j _
    rfl

theorem enc_tab_initclzw (mem : gifcbuf) (m : Nat) (fp : List Nat) (hm : m ≤ 11) :
    enc_tab (initclzw mem m fp) := by
  have hi := enc_inv_initclzw mem m fp hm
  have h2 : 2 ≤ (if m < 2 then 2 else m) := by split <;> omega
  have h4 : 2 ^ 2 ≤ 2 ^ (if m < 2 then 2 else m) := Nat.pow_le_pow_right (by decide) h2
  have hl : (initclzw mem m fp).lc0 = (if m < 2 then 2 else m) := rfl
  refine ⟨by rw [hl]; exact hi, h2, le_refl _, ?_, le_refl _, ?_, ?_, ?_, ?_, ?_⟩
  · show 1 <<< (if m < 2 then 2 else m) + 2 ≤ 1 <<< ((if m < 2 then 2 else m) + 1)
    rw [one_shiftLeft, one_shiftLeft, Nat.pow_succ]
    omega
  · show 1 + 1 <<< (if m < 2 then 2 else m) + 1 ≤ 1 <<< (if m < 2 then 2 else m) + 2
    omega
  · intro i _
    exact Nat.zero_lt_one
  · intro i i1 _ _ _ hne
    exact absurd rfl hne
  · intro j _
    exact Or.inl rfl
  · intro j _
    rfl

theorem enc_tab_emitlzw (g : gifcbuf) (c : Int) (h : enc_tab g) :
    enc_tab (emitlzw g c) ∧ (emitlzw g c).nxc < (emitlzw g c).nxc2 := by
  obtain ⟨a0, a1, a2, a3, a4, a5, a6, a7, a8, a9⟩ := h
  have hi := enc_inv_emitlzw g c a0
  obtain ⟨e1, e2, e3, e4, e5, e6, e7, e8, e9⟩ := emitlzw_fields g c
  have hn2 : g.nxc2 = 2 ^ g.lc := a0.2.2.2.2.1
  have hlt : (emitlzw g c).nxc < (emitlzw g c).nxc2 := by
    rw [e2, e9]
    by_cases hc : g.nxc ≥ g.nxc2
    · rw [if_pos hc, one_shiftLeft, Nat.pow_succ]
      have : 0 < 2 ^ g.lc := Nat.pos_pow_of_pos _ (by decide)
      omega
    · rw [if_neg hc]
      omega
  refine ⟨⟨by rw [e1]; exact hi, by rw [e1]; exact a1, by rw [e2, e3]; exact a2, le_of_lt hlt,
    by rw [e6]; exact a4, by rw [e6, e3, e2]; exact a5, ?_, ?_, ?_, ?_⟩, hlt⟩
  · rw [e5, e6]; exact a6
  · rw [e5]; exact a7
  · rw [e5, e3, e2]; exact a8
  · rw [e5]; exact a9

theorem putlzw_map_spec (g : gifcbuf) (i : Nat) (h : enc_tab g) (hi : 65536 ≤ i) :
    (putlzw_map g i).nxc = g.nxc ∧ (putlzw_map g i).clear = g.clear ∧
    (putlzw_map g i).lc0 = g.lc0 ∧ (putlzw_map g i).lc = g.lc ∧
    (putlzw_map g i).nxc2 = g.nxc2 ∧ (putlzw_map g i).log = g.log ∧
    1 ≤ (putlzw_map g i).codes i ∧ (putlzw_map g i).codes i < (putlzw_map g i).nxmap ∧
    (putlzw_map g i).nxmap + g.clear ≤ g.nxc ∧
    (∀ k, 65536 ≤ k → (putlzw_map g i).codes k < (putlzw_map g i).nxmap) ∧
    (∀ k k1, 65536 ≤ k → 65536 ≤ k1 → (putlzw_map g i).codes k = (putlzw_map g i).codes k1 →
      (putlzw_map g i).codes k ≠ 0 → k = k1) ∧
    (∀ k, k ≠ i → (putlzw_map g i).codes k = g.codes k) ∧
    (g.codes i ≠ 0 → (putlzw_map g i).codes i = g.codes i) := by
  obtain ⟨a0, a1, a2, a3, a4, a5, a6, a7, a8, a9⟩ := h
  unfold putlzw_map
  by_cases h0 : g.codes i = 0
  · rw [if_pos h0]
    dsimp only
    refine ⟨rfl, rfl, rfl, rfl, rfl, rfl, ?_, ?_, by omega, ?_, ?_, ?_, fun hn => absurd h0 hn⟩
    · rw [Function.update_same]; exact a4
    · rw [Function.update_same]; omega
    · intro k hk
      by_cases hki : k = i
      · rw [hki, Function.update_same]; omega
      · rw [Function.update_noteq hki]
        have := a6 k hk
        omega
    · intro k k1 hk hk1 he hne
      by_cases hki : k = i
      · by_cases hk1i : k1 = i
        · rw [hki, hk1i]
        · rw [hki, Function.update_same, Function.update_noteq hk1i] at he
          have := a6 k1 hk1
          omega
      · by_cases hk1i : k1 = i
        · rw [hk1i, Function.update_same, Function.update_noteq hki] at he
          have := a6 k hk
          omega
        · rw [Function.update_noteq hki, Function.update_noteq hk1i] at he
          rw [Function.update_noteq hki] at hne
          exact a7 k k1 hk hk1 he hne
    · intro k hk
      rw [Function.update_noteq hk]
  · rw [if_neg h0]
    have := a6 i hi
    exact ⟨rfl, rfl, rfl, rfl, rfl, rfl, by omega, this, by omega, a6, a7, fun _ _ => rfl,
      fun _ => rfl⟩

theorem and_15_lt (c : Nat) : c &&& 0xF < 16 :=
  Nat.lt_succ_of_le Nat.and_le_right

theorem enc_tab_putlzw_add (g : gifcbuf) (i c : Nat) (h : enc_tab g) (hn : g.nxc < 4095)
    (hn2 : g.nxc < g.nxc2) (hi : 65536 ≤ i) :
    enc_tab (putlzw_add g i c) ∧ (putlzw_add g i c).nxc = g.nxc + 1 ∧
    (putlzw_add g i c).clear = g.clear ∧ (putlzw_add g i c).log = g.log ∧
    (putlzw_add g i c).lc = g.lc ∧ (putlzw_add g i c).lc0 = g.lc0 := by
  obtain ⟨m1, m2, m3, m4, m5, m6, m7, m8, m9, m10, m11, m12, _⟩ := putlzw_map_spec g i h hi
  obtain ⟨a0, a1, a2, a3, a4, a5, a6, a7, a8, a9⟩ := h
  obtain ⟨b0, b1, b2, b3, b4, b5, b6, b7⟩ := a0
  have hc := and_15_lt c
  have hj1 : 16 ≤ (putlzw_map g i).codes i * 16 + (c &&& 0xF) := by omega
  have hj2 : (putlzw_map g i).codes i * 16 + (c &&& 0xF) < 65536 := by omega
  unfold putlzw_add
  refine ⟨⟨⟨rfl, ?_, ?_, ?_, ?_, ?_, ?_, ?_⟩, ?_, ?_, ?_, ?_, ?_, ?_, ?_, ?_, ?_⟩, ?_, m2, m6, m4, m3⟩
  all_goals dsimp only
  · rw [m3]; exact b1
  · rw [m3, m4]; exact b2
  · rw [m4]; exact b3
  · rw [m5, m4]; exact b4
  · rw [m1]; omega
  · rw [m2, m3]; exact b6
  · rw [m6, m3]; exact b7
  · rw [m3]; exact a1
  · rw [m2, m1]; omega
  · rw [m1, m5]; omega
  · omega
  · rw [m2, m1]; omega
  · intro k hk
    rw [Function.update_noteq (by omega)]
    exact m10 k hk
  · intro k k1 hk hk1
    rw [Function.update_noteq (by omega), Function.update_noteq (by omega)]
    exact m11 k k1 hk hk1
  · intro j hj
    by_cases hjj : j = (putlzw_map g i).codes i * 16 + (c &&& 0xF)
    · rw [hjj, Function.update_same, m1, m2]
      right
      omega
    · rw [Function.update_noteq hjj, m12 j (by omega), m2, m1]
      rcases a8 j hj with h1 | h1
      · exact Or.inl h1
      · right; omega
  · intro j hj
    rw [Function.update_noteq (by omega), m12 j (by omega)]
    exact a9 j hj
  · rw [m1]

theorem trie_slot_ge (p b : Nat) : 65536 ≤ trie_slot p b := by
  unfold trie_slot
  omega

theorem trie_get_range (g : gifcbuf) (p b : Nat) (h : enc_tab g)
    (hne : trie_get g.codes p b ≠ 0) :
    4096 + g.clear + 2 ≤ trie_get g.codes p b ∧ trie_get g.codes p b < 4096 + g.nxc := by
  obtain ⟨a0, a1, a2, a3, a4, a5, a6, a7, a8, a9⟩ := h
  have h1 := a6 (trie_slot p b) (trie_slot_ge p b)
  have h2 := and_15_lt b
  have h3 : g.nxc ≤ 4095 := a0.2.2.2.2.2.1
  rcases a8 (g.codes (trie_slot p b) * 16 + (b &&& 0xF)) (by omega) with h4 | h4
  · exact absurd h4 hne
  · exact h4

theorem enc_log_emitlzw (B : Nat) (g : gifcbuf) (c : Int) (h : enc_log B g) (h0 : 0 ≤ c)
    (hc : c < B ∨ c < 2 ^ g.lc) : enc_log B (emitlzw g c) := by
  obtain ⟨_, _, _, e4, _⟩ := emitlzw_fields g c
  unfold enc_log
  rw [e4]
  intro e he
  rcases List.mem_append.mp he with h1 | h1
  · exact h e h1
  · rw [List.mem_singleton] at h1
    rw [h1]
    exact ⟨h0, hc⟩

theorem clear_lt (g : gifcbuf) (h : enc_tab g) :
    ((g.clear : Int) + 1 < 2 ^ g.lc) ∧ g.nxc2 = 2 ^ g.lc ∧ g.clear = 2 ^ g.lc0 := by
  obtain ⟨⟨_, _, b2, _, b4, _, b6, _⟩, a1, _⟩ := h
  have h1 : 2 ^ (g.lc0 + 1) ≤ 2 ^ g.lc := Nat.pow_le_pow_right (by decide) b2
  have h2 : 2 ^ 2 ≤ 2 ^ g.lc0 := Nat.pow_le_pow_right (by decide) a1
  rw [Nat.pow_succ] at h1
  refine ⟨?_, b4, b6⟩
  have h3 : g.clear + 1 < 2 ^ g.lc := by omega
  exact_mod_cast h3

theorem enc_log_resetclzw (B : Nat) (g : gifcbuf) (h : enc_log B g) (ht : enc_tab g) :
    enc_log B (resetclzw g) := by
  intro e he
  have he1 : e ∈ g.log ++ [((g.clear : Int), g.lc)] := he
  rcases List.mem_append.mp he1 with h1 | h1
  · exact h e h1
  · rw [List.mem_singleton] at h1
    rw [h1]
    have h2 := (clear_lt g ht).1
    have h3 : (g.clear : Int) < 2 ^ g.lc := by omega
    exact ⟨Int.natCast_nonneg _, Or.inr h3⟩

theorem enc_prev_emit (B : Nat) (g : gifcbuf) (prev : Int) (ht : enc_tab g)
    (hp : enc_prev B g prev) (h0 : ¬ prev < 0) : prev < B ∨ prev < 2 ^ g.lc := by
  obtain ⟨_, h2, _⟩ := clear_lt g ht
  have h3 : g.nxc ≤ g.nxc2 := ht.2.2.2.1
  rcases hp with h | ⟨_, h | h⟩
  · omega
  · exact Or.inl h
  · right
    have h4 : (g.nxc : Int) ≤ ((2 ^ g.lc : Nat) : Int) := by rw [← h2]; exact_mod_cast h3
    have h5 : ((2 ^ g.lc : Nat) : Int) = 2 ^ g.lc := by push_cast; rfl
    omega

theorem enc_tab_putlzw_loop (B : Nat) (src : List Nat) :
    ∀ (g : gifcbuf) (prev : Int), enc_tab g → enc_prev B g prev → enc_log B g →
      (∀ b ∈ src, b < B) →
      enc_tab (putlzw_loop src (g, prev)).1 ∧
      enc_prev B (putlzw_loop src (g, prev)).1 (putlzw_loop src (g, prev)).2 ∧
      enc_log B (putlzw_loop src (g, prev)).1 := by
  induction src with
  | nil => intro g prev h1 h2 h3 _; exact ⟨h1, h2, h3⟩
  | cons c src ih =>
    intro g prev ht hp hl hb
    have hc : c < B := hb c (List.mem_cons_self _ _)
    have hb1 : ∀ b ∈ src, b < B := fun b h => hb b (List.mem_cons_of_mem _ h)
    have hpc : ∀ g1 : gifcbuf, enc_prev B g1 (c : Int) := fun g1 =>
      Or.inr ⟨Int.natCast_nonneg _, Or.inl (by exact_mod_cast hc)⟩
    rw [putlzw_loop_cons]
    by_cases h0 : prev < 0
    · rw [if_pos h0]
      exact ih g c ht (hpc g) hl hb1
    · rw [if_neg h0]
      by_cases hm : trie_get g.codes prev.toNat c ≠ 0
      · rw [if_pos hm]
        have hr := trie_get_range g prev.toNat c ht hm
        exact ih g _ ht (Or.inr ⟨by omega, Or.inr ⟨by omega, by omega⟩⟩) hl hb1
      · rw [if_neg hm]
        obtain ⟨he, hlt⟩ := enc_tab_emitlzw g prev ht
        have hle := enc_log_emitlzw B g prev hl (by omega) (enc_prev_emit B g prev ht hp h0)
        by_cases hn : (emitlzw g prev).nxc ≥ 4096 - 1
        · rw [if_pos hn]
          exact ih _ c (enc_tab_resetclzw _ he) (hpc _) (enc_log_resetclzw B _ hle he) hb1
        · rw [if_neg hn]
          obtain ⟨k1, _, _, k4, _⟩ := enc_tab_putlzw_add (emitlzw g prev)
            (trie_slot prev.toNat c) c he (by omega) hlt (trie_slot_ge _ _)
          refine ih _ c k1 (hpc _) ?_ hb1
          unfold enc_log
          rw [k4]
          exact hle

theorem enc_tab_putlzw (B : Nat) (g : gifcbuf) (src : List Nat) (ht : enc_tab g)
    (hp : enc_prev B g g.prev) (hl : enc_log B g) (hb : ∀ b ∈ src, b < B) :
    enc_tab (putlzw g src) ∧ enc_prev B (putlzw g src) (putlzw g src).prev ∧
    enc_log B (putlzw g src) :=
  enc_tab_putlzw_loop B src g g.prev ht hp hl hb

theorem donelzw_log (g : gifcbuf) :
    (donelzw g).log = g.log ++ [(g.prev, g.lc),
      ((g.clear : Int) + 1, (emitlzw g g.prev).lc)] := by
  obtain ⟨_, _, e3, e4, _⟩ := emitlzw_fields g g.prev
  obtain ⟨_, _, _, f4, _⟩ := emitlzw_fields (emitlzw g g.prev) (((emitlzw g g.prev).clear : Int) + 1)
  have h : (donelzw g).log =
      (emitlzw (emitlzw g g.prev) (((emitlzw g g.prev).clear : Int) + 1)).log := by
    unfold donelzw
    dsimp only
    split <;> rfl
  rw [h, f4, e4, e3, List.append_assoc]
  rfl

theorem enc_log_donelzw (B : Nat) (g : gifcbuf) (ht : enc_tab g) (hp : enc_prev B g g.prev)
    (hl : enc_log B g) (h0 : 0 ≤ g.prev) : enc_log B (donelzw g) := by
  obtain ⟨he, _⟩ := enc_tab_emitlzw g g.prev ht
  have h1 := (clear_lt _ he).1
  have e3 : (emitlzw g g.prev).clear = g.clear := (emitlzw_fields g g.prev).2.2.1
  rw [e3] at h1
  unfold enc_log
  rw [donelzw_log]
  intro e h
  rcases List.mem_append.mp h with h2 | h2
  · exact hl e h2
  · simp only [List.mem_cons, List.mem_singleton, List.not_mem_nil, or_false] at h2
    rcases h2 with h2 | h2
    · rw [h2]
      exact ⟨h0, enc_prev_emit B g g.prev ht hp (by omega)⟩
    · rw [h2]
      exact ⟨by omega, Or.inr h1⟩

theorem enc_log_initclzw (B : Nat) (mem : gifcbuf) (m : Nat) (fp : List Nat) :
    enc_log B (initclzw mem m fp) ∧ enc_prev B (initclzw mem m fp) (initclzw mem m fp).prev := by
  refine ⟨?_, Or.inl rfl⟩
  intro e he
  have he1 : e ∈ [(((1 <<< (if m < 2 then 2 else m) : Nat) : Int), (if m < 2 then 2 else m) + 1)] :=
    he
  rw [List.mem_singleton] at he1
  rw [he1, one_shiftLeft]
  refine ⟨Int.natCast_nonneg _, Or.inr ?_⟩
  have h1 : 2 ^ (if m < 2 then 2 else m) < 2 ^ ((if m < 2 then 2 else m) + 1) :=
    Nat.pow_lt_pow_right (by decide) (Nat.lt_succ_self _)
  dsimp only
  exact_mod_cast h1

theorem enc_tab_run (mem : gifcbuf) (m : Nat) (fp : List Nat) (g : gifcbuf) (hm : m ≤ 11)
    (hr : putlzw_run (initclzw mem m fp) g) :
    enc_tab g ∧ enc_prev 256 g g.prev ∧ enc_log 256 g := by
  induction hr with
  | start =>
    exact ⟨enc_tab_initclzw mem m fp hm, (enc_log_initclzw 256 mem m fp).2,
      (enc_log_initclzw 256 mem m fp).1⟩
  | put g1 src _ hb ih => exact enc_tab_putlzw 256 g1 src ih.1 ih.2.1 ih.2.2 hb

theorem putlzw_loop_prev (src : List Nat) :
    ∀ (g : gifcbuf) (prev : Int), enc_tab g → 0 ≤ prev → 0 ≤ (putlzw_loop src (g, prev)).2 := by
  induction src with
  | nil => intro g prev _ h; exact h
  | cons c src ih =>
    intro g prev ht h0
    rw [putlzw_loop_cons, if_neg (by omega)]
    by_cases hm : trie_get g.codes prev.toNat c ≠ 0
    · rw [if_pos hm]
      have hr := trie_get_range g prev.toNat c ht hm
      exact ih g _ ht (by omega)
    · rw [if_neg hm]
      obtain ⟨he, hlt⟩ := enc_tab_emitlzw g prev ht
      by_cases hn : (emitlzw g prev).nxc ≥ 4096 - 1
      · rw [if_pos hn]
        exact ih _ c (enc_tab_resetclzw _ he) (Int.natCast_nonneg _)
      · rw [if_neg hn]
        exact ih _ c (enc_tab_putlzw_add (emitlzw g prev) (trie_slot prev.toNat c) c he
          (by omega) hlt (trie_slot_ge _ _)).1 (Int.natCast_nonneg _)

theorem putlzw_prev (g : gifcbuf) (c : Nat) (src : List Nat) (ht : enc_tab g) :
    0 ≤ (putlzw g (c :: src)).prev := by
  show 0 ≤ (putlzw_loop (c :: src) (g, g.prev)).2
  by_cases h0 : g.prev < 0
  · rw [putlzw_loop_cons, if_pos h0]
    exact putlzw_loop_prev src g c ht (Int.natCast_nonneg _)
  · exact putlzw_loop_prev (c :: src) g g.prev ht (by omega)

/-- C24 (amended): in every state `g` that the encoder reaches by calls of
`putlzw` after `initclzw` with a minimum code size up to 11, the next free code is
at most 4095 and the trie holds no dictionary code above 4094. When a byte finds
no match, `putlzw` emits the previous code; if the next free code has reached
4095, it then emits a clear code at the current code size and resets the trie, the
next free code to `clear + 2` and the code size to `lc0 + 1`; else it assigns the
next free code, at most 4094, to the pair. So every code that `putlzw` has written
is in `0 .. 4095`, written at a code size up to 12; and so are the codes that
`donelzw` writes when there is a previous code (`prev >= 0`), which is so once a
byte was put in. -/
theorem putlzw_code_limit (mem : gifcbuf) (m : Nat) (fp : List Nat) (g : gifcbuf)
    (hm : m ≤ 11) (hr : putlzw_run (initclzw mem m fp) g) :
    (g.nxc ≤ 4095 ∧
      ∀ j, j < 4096 * 16 → g.codes j = 0 ∨
        (4096 + (g.clear + 2) ≤ g.codes j ∧ g.codes j ≤ 4096 + 4094)) ∧
    (∀ (c : Nat) (src : List Nat), 0 ≤ g.prev → trie_get g.codes g.prev.toNat c = 0 →
      (4095 ≤ g.nxc →
        putlzw_loop (c :: src) (g, g.prev) =
          putlzw_loop src (resetclzw (emitlzw g g.prev), c) ∧
        (resetclzw (emitlzw g g.prev)).log =
          g.log ++ [(g.prev, g.lc), ((g.clear : Int), (emitlzw g g.prev).lc)] ∧
        (resetclzw (emitlzw g g.prev)).codes = (fun _ => 0) ∧
        (resetclzw (emitlzw g g.prev)).nxc = g.clear + 2 ∧
        (resetclzw (emitlzw g g.prev)).lc = g.lc0 + 1) ∧
      (g.nxc < 4095 →
        putlzw_loop (c :: src) (g, g.prev) =
          putlzw_loop src
            (putlzw_add (emitlzw g g.prev) (trie_slot g.prev.toNat c) c, c) ∧
        trie_get (putlzw_add (emitlzw g g.prev) (trie_slot g.prev.toNat c) c).codes
          g.prev.toNat c = 4096 + g.nxc ∧
        (putlzw_add (emitlzw g g.prev) (trie_slot g.prev.toNat c) c).nxc = g.nxc + 1)) ∧
    (∀ e ∈ g.log, 0 ≤ e.1 ∧ e.1 < 2 ^ 12 ∧ e.2 ≤ 12) ∧
    (0 ≤ g.prev → ∀ e ∈ (donelzw g).log, 0 ≤ e.1 ∧ e.1 < 2 ^ 12 ∧ e.2 ≤ 12) ∧
    (∀ (c : Nat) (src : List Nat), 0 ≤ (putlzw g (c :: src)).prev) := by
  obtain ⟨ht, hp, hl⟩ := enc_tab_run mem m fp g hm hr
  have hfit : ∀ (g1 : gifcbuf), enc_inv g1.lc0 g1 → enc_log 256 g1 →
      ∀ e ∈ g1.log, 0 ≤ e.1 ∧ e.1 < 2 ^ 12 ∧ e.2 ≤ 12 := by
    intro g1 hi hl1 e he
    obtain ⟨h1, h2⟩ := hl1 e he
    have h3 := (hi.2.2.2.2.2.2.2 e he).2
    refine ⟨h1, ?_, h3⟩
    rcases h2 with h2 | h2
    · omega
    · have h4 : 2 ^ e.2 ≤ 2 ^ 12 := Nat.pow_le_pow_right (by decide) h3
      have h5 : ((2 ^ e.2 : Nat) : Int) = 2 ^ e.2 := by push_cast; rfl
      have h6 : ((2 ^ e.2 : Nat) : Int) ≤ ((2 ^ 12 : Nat) : Int) := by exact_mod_cast h4
      have h7 : ((2 ^ 12 : Nat) : Int) = 2 ^ 12 := by norm_num
      omega
  obtain ⟨e1, e2, e3, e4, e5, e6, e7, e8, e9⟩ := emitlzw_fields g g.prev
  obtain ⟨he, hlt⟩ := enc_tab_emitlzw g g.prev ht
  refine ⟨⟨ht.1.2.2.2.2.2.1, ?_⟩, ?_, hfit g ht.1 hl, ?_, fun c src => putlzw_prev g c src ht⟩
  · intro j hj
    have h1 : g.nxc ≤ 4095 := ht.1.2.2.2.2.2.1
    rcases ht.2.2.2.2.2.2.2.2.1 j hj with h | h
    · exact Or.inl h
    · right; omega
  · intro c src h0 hm0
    have hm1 : ¬ (trie_get g.codes g.prev.toNat c ≠ 0) := fun h => h hm0
    refine ⟨fun hn => ?_, fun hn => ?_⟩
    · refine ⟨?_, ?_, rfl, ?_, ?_⟩
      · rw [putlzw_loop_cons, if_neg (by omega), if_neg hm1, if_pos (by rw [e2]; omega)]
      · show (emitlzw g g.prev).log ++ [(((emitlzw g g.prev).clear : Int), (emitlzw g g.prev).lc)] = _
        rw [e4, e3, List.append_assoc]
        rfl
      · show (emitlzw g g.prev).clear + 2 = _
        rw [e3]
      · show (emitlzw g g.prev).lc0 + 1 = _
        rw [e1]
    · obtain ⟨_, k2, _⟩ := enc_tab_putlzw_add (emitlzw g g.prev) (trie_slot g.prev.toNat c) c he
        (by rw [e2]; omega) hlt (trie_slot_ge _ _)
      refine ⟨?_, ?_, by rw [k2, e2]⟩
      · rw [putlzw_loop_cons, if_neg (by omega), if_neg hm1, if_neg (by rw [e2]; omega)]
      · obtain ⟨m1, _⟩ := putlzw_map_spec (emitlzw g g.prev) (trie_slot g.prev.toNat c) he
          (trie_slot_ge _ _)
        have hj2 : (putlzw_map (emitlzw g g.prev) (trie_slot g.prev.toNat c)).codes
            (trie_slot g.prev.toNat c) * 16 + (c &&& 0xF) ≠ trie_slot g.prev.toNat c := by
          have := (putlzw_map_spec (emitlzw g g.prev) (trie_slot g.prev.toNat c) he
            (trie_slot_ge _ _)).2.2.2.2.2.2.2
          have h15 := and_15_lt c
          have h16 := trie_slot_ge g.prev.toNat c
          have h17 : (emitlzw g g.prev).nxc ≤ 4095 := he.1.2.2.2.2.2.1
          omega
        unfold trie_get putlzw_add
        dsimp only
        rw [Function.update_noteq hj2.symm, Function.update_same, m1, e2, Nat.add_comm]
  · intro h0
    exact hfit (donelzw g) (by
      have := enc_inv_donelzw g ht.1
      have hl0 : (donelzw g).lc0 = g.lc0 := this.1
      rw [hl0]
      exact this) (enc_log_donelzw 256 g ht hp hl h0)

theorem putlzw_code_limit_witness :
    (2 ≤ 11 ∧ 0 ≤ (putlzw (initclzw gifcbuf_zero 2 []) [0, 1, 1]).prev) ∧
    (putlzw (initclzw gifcbuf_zero 2 []) [0, 1, 1]).nxc ≤ 4095 ∧
    (∀ e ∈ (putlzw (initclzw gifcbuf_zero 2 []) [0, 1, 1]).log,
      0 ≤ e.1 ∧ e.1 < 2 ^ 12 ∧ e.2 ≤ 12) ∧
    (∀ e ∈ (donelzw (putlzw (initclzw gifcbuf_zero 2 []) [0, 1, 1])).log,
      0 ≤ e.1 ∧ e.1 < 2 ^ 12 ∧ e.2 ≤ 12) :=
  ⟨⟨by decide, by decide⟩,
    (putlzw_code_limit gifcbuf_zero 2 [] _ (by decide)
      (putlzw_run.put _ [0, 1, 1] putlzw_run.start (by decide))).1.1,
    (putlzw_code_limit gifcbuf_zero 2 [] _ (by decide)
      (putlzw_run.put _ [0, 1, 1] putlzw_run.start (by decide))).2.2.1,
    (putlzw_code_limit gifcbuf_zero 2 [] _ (by decide)
      (putlzw_run.put _ [0, 1, 1] putlzw_run.start (by decide))).2.2.2.1 (by decide)⟩

/-- C24 as stated fails when no byte is encoded: `donelzw` then emits the previous
code -1, which is no code of 12 bits. For the minimum code size 2 the codes written
are the clear code 4, then -1, then the end code 5, each at 3 bits. -/
theorem putlzw_code_limit_counterexample :
    putlzw_run (initclzw gifcbuf_zero 2 []) (putlzw (initclzw gifcbuf_zero 2 []) []) ∧
    (donelzw (putlzw (initclzw gifcbuf_zero 2 []) [])).log = [(4, 3), (-1, 3), (5, 3)] ∧
    ¬ (∀ e ∈ (donelzw (putlzw (initclzw gifcbuf_zero 2 []) [])).log, 0 ≤ e.1 ∧ e.1 < 2 ^ 12) :=
  ⟨putlzw_run.put _ [] putlzw_run.start (by decide), by decide, by decide⟩

/-! ## LZW: the codes in the bytes of the encoder -/

theorem bytes_val_append (a b : List Nat) :
    bytes_val (a ++ b) = bytes_val a + 256 ^ a.length * bytes_val b := by
  induction a with
  | nil => simp [bytes_val]
  | cons x a ih =>
    rw [List.cons_append, bytes_val, bytes_val, ih, List.length_cons, Nat.pow_succ]
    ring

theorem codes_val_append (l : List (Int × Nat)) (e : Int × Nat) :
    codes_val (l ++ [e]) = codes_val l + 2 ^ codes_bits l * e.1.toNat := by
  induction l with
  | nil => simp [codes_val, codes_bits]
  | cons x l ih =>
    rw [List.cons_append, codes_val, codes_val, ih, codes_bits, Nat.pow_add]
    ring

theorem codes_bits_append (l : List (Int × Nat)) (e : Int × Nat) :
    codes_bits (l ++ [e]) = codes_bits l + e.2 := by
  induction l with
  | nil => simp [codes_bits]
  | cons x l ih =>
    rw [List.cons_append, codes_bits, codes_bits, ih]
    omega

theorem lor_shift (wn cn bits : Nat) (h : wn < 2 ^ bits) :
    Int.lor (wn : Int) ((cn : Int) <<< (bits : Int)) = ((wn + cn * 2 ^ bits : Nat) : Int) := by
  rw [Int.shiftLeft_eq_mul_pow]
  have h1 : (cn : Int) * ((2 ^ bits : Nat) : Int) = ((cn * 2 ^ bits : Nat) : Int) := by
    push_cast; rfl
  rw [h1]
  show ((wn ||| cn * 2 ^ bits : Nat) : Int) = _
  congr 1
  rw [Nat.lor_comm, Nat.mul_comm, ← Nat.mul_add_lt_is_or h]
  omega

theorem emit_bytes_nat (k : Nat) : ∀ (W : Nat),
    (emit_bytes k (W : Int)).length = k ∧ bytes_val (emit_bytes k (W : Int)) = W % 256 ^ k ∧
    ∀ b ∈ emit_bytes k (W : Int), b < 256 := by
  induction k with
  | zero =>
    intro W
    exact ⟨rfl, by simp [emit_bytes, bytes_val, Nat.mod_one], by simp [emit_bytes]⟩
  | succ k ih =>
    intro W
    have h1 : ((W : Int) >>> (8 : Int)) = ((W / 256 : Nat) : Int) := by
      have := int_shr (W : Int) 8
      rw [show ((8 : Nat) : Int) = (8 : Int) from rfl] at this
      rw [this, Int.shiftRight_eq_div_pow]
      norm_cast
    have h2 : to_uchar (W : Int) = W % 256 := by
      unfold to_uchar
      omega
    obtain ⟨i1, i2, i3⟩ := ih (W / 256)
    have e : emit_bytes (k + 1) (W : Int) = to_uchar (W : Int) :: emit_bytes k ((W : Int) >>> (8 : Int)) :=
      rfl
    rw [e, h1, h2]
    refine ⟨by rw [List.length_cons, i1], ?_, ?_⟩
    · rw [bytes_val, i2, Nat.pow_succ, Nat.mul_comm (256 ^ k) 256, Nat.mod_mul]
    · intro b hb
      rcases List.mem_cons.mp hb with h | h
      · rw [h]; exact Nat.mod_lt _ (by decide)
      · exact i3 b h

theorem two_pow_8 (k : Nat) : 2 ^ (8 * k) = 256 ^ k := by
  rw [Nat.pow_mul]

theorem enc_val_emitlzw (pre : List Nat) (g : gifcbuf) (c : Int) (h : enc_val g pre)
    (h0 : 0 ≤ c) (hc : c < 2 ^ g.lc) : enc_val (emitlzw g c) pre := by
  obtain ⟨Bs, wn, hout, hw, hlt, hv, hb, h256⟩ := h
  obtain ⟨cn, rfl⟩ := Int.eq_ofNat_of_zero_le h0
  have hcn : cn < 2 ^ g.lc := by exact_mod_cast hc
  obtain ⟨Bs1, o1, o2, o3, o4⟩ := emitlzw_out pre g cn Bs hout
  obtain ⟨_, _, _, e4, _⟩ := emitlzw_fields g (cn : Int)
  rw [hw, lor_shift wn cn g.bits hlt] at o2 o3
  obtain ⟨b1, b2, b3⟩ := emit_bytes_nat ((g.bits + g.lc) / 8) (wn + cn * 2 ^ g.bits)
  have hW : wn + cn * 2 ^ g.bits < 2 ^ (g.bits + g.lc) := by
    rw [Nat.pow_add]
    have h1 : cn * 2 ^ g.bits + 2 ^ g.bits ≤ 2 ^ g.lc * 2 ^ g.bits := by
      have : (cn + 1) * 2 ^ g.bits ≤ 2 ^ g.lc * 2 ^ g.bits := Nat.mul_le_mul_right _ hcn
      rw [Nat.add_mul, Nat.one_mul] at this
      exact this
    rw [Nat.mul_comm (2 ^ g.bits)]
    omega
  have hsplit : g.bits + g.lc = (g.bits + g.lc) % 8 + 8 * ((g.bits + g.lc) / 8) := by omega
  have o3n : (emitlzw g (cn : Int)).w =
      (((wn + cn * 2 ^ g.bits) / 256 ^ ((g.bits + g.lc) / 8) : Nat) : Int) := by
    rw [o3, Int.shiftRight_eq_div_pow, ← two_pow_8]
    norm_cast
  generalize hD : Bs.flatten ++ cbuf_data g = D at o2 hv hb h256
  generalize hE : emit_bytes ((g.bits + g.lc) / 8) ((wn + cn * 2 ^ g.bits : Nat) : Int) = E
    at o2 b1 b2 b3
  refine ⟨Bs1, (wn + cn * 2 ^ g.bits) / 256 ^ ((g.bits + g.lc) / 8), o1, o3n, ?_, ?_, ?_, ?_⟩
  · rw [o4, Nat.div_lt_iff_lt_mul (Nat.pos_pow_of_pos _ (by decide)), ← two_pow_8, ← Nat.pow_add,
      ← hsplit]
    exact hW
  · rw [o2, e4, bytes_val_append, List.length_append, b1, b2, codes_val_append, ← hv, ← hb,
      Nat.pow_add 256, Nat.pow_add 2, two_pow_8]
    have hd := Nat.mod_add_div (wn + cn * 2 ^ g.bits) (256 ^ ((g.bits + g.lc) / 8))
    generalize (wn + cn * 2 ^ g.bits) % 256 ^ ((g.bits + g.lc) / 8) = r at hd ⊢
    generalize (wn + cn * 2 ^ g.bits) / 256 ^ ((g.bits + g.lc) / 8) = q at hd ⊢
    have hd2 : 256 ^ D.length * (r + 256 ^ ((g.bits + g.lc) / 8) * q) =
        256 ^ D.length * (wn + cn * 2 ^ g.bits) := by rw [hd]
    simp only [Int.toNat_ofNat]
    linarith [hd2]
  · rw [o2, e4, List.length_append, b1, o4, codes_bits_append, ← hb]
    dsimp only
    omega
  · rw [o2]
    intro b hb1
    rcases List.mem_append.mp hb1 with h | h
    · exact h256 b h
    · exact b3 b h

theorem enc_val_resetclzw (pre : List Nat) (g : gifcbuf) (h : enc_val g pre)
    (hc : g.clear < 2 ^ g.lc) : enc_val (resetclzw g) pre := by
  obtain ⟨Bs, wn, hout, hw, hlt, hv, hb, h256⟩ := h
  have e1 : (resetclzw g).w = ((wn + g.clear * 2 ^ g.bits : Nat) : Int) := by
    show Int.lor g.w ((g.clear : Int) <<< (g.bits : Int)) = _
    rw [hw, lor_shift wn g.clear g.bits hlt]
  have e2 : (resetclzw g).log = g.log ++ [((g.clear : Int), g.lc)] := rfl
  have e3 : cbuf_data (resetclzw g) = cbuf_data g := rfl
  have e4 : (resetclzw g).bits = g.bits + g.lc := rfl
  refine ⟨Bs, wn + g.clear * 2 ^ g.bits, enc_out_resetclzw pre g Bs hout, e1, ?_, ?_, ?_, h256⟩
  · rw [e4, Nat.pow_add]
    have h1 : g.clear * 2 ^ g.bits + 2 ^ g.bits ≤ 2 ^ g.lc * 2 ^ g.bits := by
      have : (g.clear + 1) * 2 ^ g.bits ≤ 2 ^ g.lc * 2 ^ g.bits := Nat.mul_le_mul_right _ hc
      rw [Nat.add_mul, Nat.one_mul] at this
      exact this
    rw [Nat.mul_comm (2 ^ g.bits)]
    omega
  · rw [e2, e3, codes_val_append, ← hv, ← hb, Nat.pow_add 2, two_pow_8]
    simp only [Int.toNat_ofNat]
    ring
  · rw [e2, e3, e4, codes_bits_append, ← hb]
    dsimp only
    omega

/-- An invariant `Q` of `emitlzw` (for a code that fits), `resetclzw` and the part
`Add new code` is an invariant of the loop of `putlzw`. -/
theorem putlzw_loop_inv (B : Nat) (Q : gifcbuf → Prop)
    (hQe : ∀ (g : gifcbuf) (c : Int), enc_tab g → Q g → 0 ≤ c → (c < B ∨ c < 2 ^ g.lc) →
      Q (emitlzw g c))
    (hQr : ∀ g : gifcbuf, enc_tab g → Q g → Q (resetclzw g))
    (hQa : ∀ (g : gifcbuf) (i c : Nat), enc_tab g → Q g → Q (putlzw_add g i c))
    (src : List Nat) :
    ∀ (g : gifcbuf) (prev : Int), enc_tab g → enc_prev B g prev → Q g →
      (∀ b ∈ src, b < B) → Q (putlzw_loop src (g, prev)).1 := by
  induction src with
  | nil => intro g prev _ _ h3 _; exact h3
  | cons c src ih =>
    intro g prev ht hp hq hb
    have hc : c < B := hb c (List.mem_cons_self _ _)
    have hb1 : ∀ b ∈ src, b < B := fun b h => hb b (List.mem_cons_of_mem _ h)
    have hpc : ∀ g1 : gifcbuf, enc_prev B g1 (c : Int) := fun g1 =>
      Or.inr ⟨Int.natCast_nonneg _, Or.inl (by exact_mod_cast hc)⟩
    rw [putlzw_loop_cons]
    by_cases h0 : prev < 0
    · rw [if_pos h0]
      exact ih g c ht (hpc g) hq hb1
    · rw [if_neg h0]
      by_cases hm : trie_get g.codes prev.toNat c ≠ 0
      · rw [if_pos hm]
        have hr := trie_get_range g prev.toNat c ht hm
        exact ih g _ ht (Or.inr ⟨by omega, Or.inr ⟨by omega, by omega⟩⟩) hq hb1
      · rw [if_neg hm]
        obtain ⟨he, hlt⟩ := enc_tab_emitlzw g prev ht
        have hqe := hQe g prev ht hq (by omega) (enc_prev_emit B g prev ht hp h0)
        by_cases hn : (emitlzw g prev).nxc ≥ 4096 - 1
        · rw [if_pos hn]
          exact ih _ c (enc_tab_resetclzw _ he) (hpc _) (hQr _ he hqe) hb1
        · rw [if_neg hn]
          obtain ⟨k1, _⟩ := enc_tab_putlzw_add (emitlzw g prev)
            (trie_slot prev.toNat c) c he (by omega) hlt (trie_slot_ge _ _)
          exact ih _ c k1 (hpc _) (hQa _ _ _ he hqe) hb1

theorem enc_val_putlzw_add (pre : List Nat) (g : gifcbuf) (i c : Nat) (h : enc_val g pre) :
    enc_val (putlzw_add g i c) pre := by
  unfold putlzw_add putlzw_map
  split
  · exact h
  · exact h

theorem pow_le_lc (B : Nat) (g : gifcbuf) (ht : enc_tab g) (hB : B ≤ 2 ^ (g.lc0 + 1)) (c : Int)
    (hc : c < B ∨ c < 2 ^ g.lc) : c < 2 ^ g.lc := by
  rcases hc with h | h
  · have h1 : 2 ^ (g.lc0 + 1) ≤ 2 ^ g.lc := Nat.pow_le_pow_right (by decide) ht.1.2.2.1
    have h2 : ((B : Nat) : Int) ≤ ((2 ^ g.lc : Nat) : Int) := by exact_mod_cast le_trans hB h1
    have h3 : ((2 ^ g.lc : Nat) : Int) = 2 ^ g.lc := by push_cast; rfl
    omega
  · exact h

theorem enc_val_putlzw (B : Nat) (pre : List Nat) (g : gifcbuf) (src : List Nat)
    (ht : enc_tab g) (hB : B ≤ 2 ^ (g.lc0 + 1)) (hp : enc_prev B g g.prev)
    (hv : enc_val g pre) (hb : ∀ b ∈ src, b < B) : enc_val (putlzw g src) pre := by
  have key := putlzw_loop_inv B (fun g1 => enc_val g1 pre ∧ g1.lc0 = g.lc0)
    (fun g1 c ht1 hq h0 hc => ⟨enc_val_emitlzw pre g1 c hq.1 h0
      (pow_le_lc B g1 ht1 (by rw [hq.2]; exact hB) c hc),
      (emitlzw_fields g1 c).1.trans hq.2⟩)
    (fun g1 ht1 hq => ⟨enc_val_resetclzw pre g1 hq.1 (by
      have := (clear_lt g1 ht1).1
      have h2 : ((g1.clear : Nat) : Int) < ((2 ^ g1.lc : Nat) : Int) := by
        have h3 : ((2 ^ g1.lc : Nat) : Int) = 2 ^ g1.lc := by push_cast; rfl
        omega
      exact_mod_cast h2), hq.2⟩)
    (fun g1 i c ht1 hq => ⟨enc_val_putlzw_add pre g1 i c hq.1, by
      unfold putlzw_add putlzw_map
      split
      · exact hq.2
      · exact hq.2⟩)
    src g g.prev ht hp ⟨hv, rfl⟩ hb
  exact key.1

theorem enc_val_initclzw (mem : gifcbuf) (m : Nat) (fp : List Nat) :
    enc_val (initclzw mem m fp) (fp ++ [(if m < 2 then 2 else m) % 256]) := by
  obtain ⟨h1, h2⟩ := enc_out_initclzw mem m fp
  refine ⟨[], 1 <<< (if m < 2 then 2 else m), h1, ?_, ?_, ?_, ?_, ?_⟩
  · show Int.lor 0 (((1 <<< (if m < 2 then 2 else m) : Nat) : Int) <<< ((0 : Nat) : Int)) = _
    have := lor_shift 0 (1 <<< (if m < 2 then 2 else m)) 0 (by decide)
    rw [show ((0 : Nat) : Int) = 0 from rfl] at this
    rw [show ((0 : Nat) : Int) = 0 from rfl, this]
    simp
  · show 1 <<< (if m < 2 then 2 else m) < 2 ^ (0 + ((if m < 2 then 2 else m) + 1))
    rw [one_shiftLeft]
    exact Nat.pow_lt_pow_right (by decide) (by omega)
  · rw [h2]
    show 0 + 1 * 1 <<< (if m < 2 then 2 else m) =
      codes_val ([] ++ [(((1 <<< (if m < 2 then 2 else m) : Nat) : Int), (if m < 2 then 2 else m) + 1)])
    simp [codes_val]
  · rw [h2]
    show 8 * 0 + (0 + ((if m < 2 then 2 else m) + 1)) =
      codes_bits ([] ++ [(((1 <<< (if m < 2 then 2 else m) : Nat) : Int), (if m < 2 then 2 else m) + 1)])
    simp [codes_bits]
  · rw [h2]
    intro b hb
    cases hb

theorem put_blocks_inj (A : List (List Nat)) :
    ∀ (B : List (List Nat)), (∀ b ∈ A, b.length = 255) → (∀ b ∈ B, b.length = 255) →
      put_blocks A = put_blocks B → A = B := by
  induction A with
  | nil =>
    intro B _ _ h
    cases B with
    | nil => rfl
    | cons b B => simp [put_blocks] at h
  | cons a A ih =>
    intro B ha hb h
    cases B with
    | nil => simp [put_blocks] at h
    | cons b B =>
      simp only [put_blocks, List.cons.injEq, true_and] at h
      have hl : a.length = b.length := by
        rw [ha a (List.mem_cons_self _ _), hb b (List.mem_cons_self _ _)]
      obtain ⟨h1, h2⟩ := List.append_inj h hl
      rw [h1, ih B (fun c hc => ha c (List.mem_cons_of_mem _ hc))
        (fun c hc => hb c (List.mem_cons_of_mem _ hc)) h2]

/-- What `donelzw` writes after at least one byte was put in: sub-blocks whose
data bytes, read as one number, are the codes written, each at its code size; the
data has all their bits. -/
theorem donelzw_val (pre : List Nat) (g : gifcbuf) (ht : enc_tab g) (hv : enc_val g pre)
    (h0 : 0 ≤ g.prev) (hp : g.prev < 2 ^ g.lc) :
    ∃ Bs T, (donelzw g).f = pre ++ put_blocks Bs ++ T.length :: T ++ [0] ∧
      (∀ b ∈ Bs, b.length = 255) ∧ T.length ≤ 255 ∧
      bytes_val (Bs.flatten ++ T) = codes_val (donelzw g).log ∧
      codes_bits (donelzw g).log ≤ 8 * (Bs.flatten ++ T).length ∧
      ∀ b ∈ Bs.flatten ++ T, b < 256 := by
  obtain ⟨he, _⟩ := enc_tab_emitlzw g g.prev ht
  have hv1 := enc_val_emitlzw pre g g.prev hv h0 hp
  have hc1 := (clear_lt _ he).1
  have hv2 := enc_val_emitlzw pre _ (((emitlzw g g.prev).clear : Int) + 1) hv1 (by omega) hc1
  obtain ⟨Bs0, _, hout0, _⟩ := hv
  obtain ⟨Bs1, _, hout1, _⟩ := hv1
  obtain ⟨_, _, _, _, o4⟩ := emitlzw_out pre (emitlzw g g.prev)
    (((emitlzw g g.prev).clear : Int) + 1) Bs1 hout1
  obtain ⟨Bs2, d1, d2, d3⟩ := donelzw_out pre g Bs0 hout0
  obtain ⟨Bs, wn, hout, hw, hlt, hval, hb, h256⟩ := hv2
  have hBs : Bs = Bs2 := put_blocks_inj Bs Bs2 hout.2.1 d1.2.1
    (List.append_cancel_left (hout.1.symm.trans d1.1))
  subst hBs
  have hlog : (donelzw g).log =
      (emitlzw (emitlzw g g.prev) (((emitlzw g g.prev).clear : Int) + 1)).log := by
    unfold donelzw
    dsimp only
    split <;> rfl
  rw [hlog]
  generalize emitlzw (emitlzw g g.prev) (((emitlzw g g.prev).clear : Int) + 1) = g2
    at d1 d2 d3 hout hw hlt hval hb h256 o4
  refine ⟨Bs, _, d2, d1.2.1, d3, ?_, ?_, ?_⟩
  · rw [← List.append_assoc, bytes_val_append, ← hval]
    congr 2
    by_cases hz : g2.bits ≠ 0
    · rw [if_pos hz, hw]
      have h8 : g2.bits < 8 := by rw [o4]; exact Nat.mod_lt _ (by decide)
      have h9 : 2 ^ g2.bits ≤ 2 ^ 8 := Nat.pow_le_pow_right (by decide) (le_of_lt h8)
      have h10 : wn < 256 := lt_of_lt_of_le hlt h9
      unfold to_uchar
      rw [bytes_val, bytes_val]
      omega
    · have hz0 : g2.bits = 0 := by omega
      rw [if_neg hz]
      rw [hz0] at hlt
      rw [bytes_val]
      omega
  · rw [← hb, ← List.append_assoc]
    by_cases hz : g2.bits ≠ 0
    · rw [if_pos hz]
      have h8 : g2.bits < 8 := by rw [o4]; exact Nat.mod_lt _ (by decide)
      simp only [List.length_append, List.length_singleton]
      omega
    · rw [if_neg hz]
      simp only [List.length_append, List.length_nil]
      omega
  · rw [← List.append_assoc]
    intro b hb1
    rcases List.mem_append.mp hb1 with h | h
    · exact h256 b h
    · by_cases hz : g2.bits ≠ 0
      · rw [if_pos hz, List.mem_singleton] at h
        rw [h]
        unfold to_uchar
        omega
      · rw [if_neg hz] at h
        cases h

theorem bits_val_append (a b : List Bool) :
    bits_val (a ++ b) = bits_val a + 2 ^ a.length * bits_val b := by
  induction a with
  | nil => simp [bits_val]
  | cons x a ih =>
    rw [List.cons_append, bits_val, bits_val, ih, List.length_cons, Nat.pow_succ]
    ring

theorem byte_bits_val (b : Nat) (h : b < 256) :
    bits_val (byte_bits b) = b ∧ (byte_bits b).length = 8 := by
  refine ⟨?_, by simp [byte_bits]⟩
  have key : ∀ n, bits_val ((List.range n).map (fun i => b.testBit i)) = b % 2 ^ n := by
    intro n
    induction n with
    | zero => simp [bits_val, Nat.mod_one]
    | succ n ih =>
      rw [List.range_succ, List.map_append, bits_val_append, ih, List.length_map,
        List.length_range, List.map_singleton, bits_val, bits_val, Nat.mod_pow_succ,
        Nat.testBit_to_div_mod]
      by_cases h1 : b / 2 ^ n % 2 = 1
      · simp [h1]
      · have h2 : b / 2 ^ n % 2 = 0 := by omega
        simp [h2]
  unfold byte_bits
  rw [key 8]
  exact Nat.mod_eq_of_lt h

theorem bits_of_val (l : List Nat) (h : ∀ b ∈ l, b < 256) :
    bits_val (bits_of l) = bytes_val l ∧ (bits_of l).length = 8 * l.length := by
  induction l with
  | nil => exact ⟨rfl, rfl⟩
  | cons b r ih =>
    obtain ⟨i1, i2⟩ := ih (fun c hc => h c (List.mem_cons_of_mem _ hc))
    obtain ⟨b1, b2⟩ := byte_bits_val b (h b (List.mem_cons_self _ _))
    rw [bits_of, bits_val_append, b1, b2, i1, List.length_append, b2, i2, bytes_val,
      List.length_cons]
    exact ⟨rfl, by omega⟩

theorem bits_val_take (n : Nat) : ∀ l : List Bool,
    bits_val (l.take n) = bits_val l % 2 ^ n ∧ bits_val (l.drop n) = bits_val l / 2 ^ n := by
  induction n with
  | zero => intro l; simp [bits_val, Nat.mod_one]
  | succ n ih =>
    intro l
    cases l with
    | nil => simp [bits_val]
    | cons b r =>
      obtain ⟨i1, i2⟩ := ih r
      rw [List.take_succ_cons, List.drop_succ_cons, bits_val, bits_val, i1, i2, Nat.pow_succ,
        Nat.mul_comm (2 ^ n) 2, Nat.mod_mul, ← Nat.div_div_eq_div_mul]
      have hb : b.toNat ≤ 1 := Bool.toNat_le b
      have h1 : (b.toNat + 2 * bits_val r) % 2 = b.toNat := by omega
      have h2 : (b.toNat + 2 * bits_val r) / 2 = bits_val r := by omega
      rw [h1, h2]
      exact ⟨rfl, rfl⟩

/-- Reading a bit stream that is the codes of `log`, each at its code size, gives
the codes of `log`. -/
theorem read_codes_spec (log : List (Int × Nat)) :
    ∀ bits : List Bool, (∀ e ∈ log, 0 ≤ e.1 ∧ e.1 < 2 ^ e.2) → bits_val bits = codes_val log →
      codes_bits log ≤ bits.length →
      (read_codes (log.map Prod.snd) bits).map Int.ofNat = log.map Prod.fst := by
  induction log with
  | nil => intro bits _ _ _; rfl
  | cons e r ih =>
    intro bits hf hv hl
    obtain ⟨f1, f2⟩ := hf e (List.mem_cons_self _ _)
    obtain ⟨t1, t2⟩ := bits_val_take e.2 bits
    rw [codes_bits] at hl
    rw [codes_val] at hv
    have f3 : e.1.toNat < 2 ^ e.2 := by
      have h1 : ((e.1.toNat : Nat) : Int) = e.1 := Int.toNat_of_nonneg f1
      have h2 : ((e.1.toNat : Nat) : Int) < ((2 ^ e.2 : Nat) : Int) := by
        rw [h1]; push_cast; exact f2
      exact_mod_cast h2
    rw [List.map_cons, List.map_cons, read_codes, if_neg (by omega), List.map_cons, t1, hv,
      Nat.add_mul_mod_self_left, Nat.mod_eq_of_lt f3]
    have f4 : Int.ofNat e.1.toNat = e.1 := Int.toNat_of_nonneg f1
    rw [f4]
    congr 1
    apply ih
    · exact fun x hx => hf x (List.mem_cons_of_mem _ hx)
    · rw [t2, hv, Nat.add_mul_div_left _ _ (Nat.pos_pow_of_pos _ (by decide)),
        Nat.div_eq_of_lt f3, Nat.zero_add]
    · rw [List.length_drop]
      omega

theorem file_data_blocks (Bs : List (List Nat)) (T : List Nat) (hT : T.length ≤ 255) :
    (∀ b ∈ Bs, b.length = 255) →
      file_data (put_blocks Bs ++ T.length :: T ++ [0]).length
        (put_blocks Bs ++ T.length :: T ++ [0]) = Bs.flatten ++ T := by
  induction Bs with
  | nil =>
    intro _
    rw [put_blocks, List.nil_append, List.flatten_nil, List.nil_append]
    by_cases h0 : T.length = 0
    · have : T = [] := List.length_eq_zero.mp h0
      subst this
      rfl
    · have e : T.length :: T ++ [0] = T.length :: (T ++ [0]) := rfl
      rw [e, file_data_cons _ _ h0 (by simp), List.take_left, List.drop_left]
      simp [file_data]
  | cons b r ih =>
    intro hb
    have hbl : b.length = 255 := hb b (List.mem_cons_self _ _)
    have e : put_blocks (b :: r) ++ T.length :: T ++ [0] =
        255 :: (b ++ (put_blocks r ++ T.length :: T ++ [0])) := by
      simp [put_blocks]
    have e2 : List.take 255 (b ++ (put_blocks r ++ T.length :: T ++ [0])) = b := by
      rw [← hbl, List.take_left]
    have e3 : List.drop 255 (b ++ (put_blocks r ++ T.length :: T ++ [0])) =
        put_blocks r ++ T.length :: T ++ [0] := by
      rw [← hbl, List.drop_left]
    rw [e, file_data_cons _ _ (by decide) (by rw [List.length_append]; omega), e2, e3,
      ih (fun c hc => hb c (List.mem_cons_of_mem _ hc)), List.flatten_cons, List.append_assoc]

theorem putlzw_log_prefix (B : Nat) (g : gifcbuf) (src : List Nat) (ht : enc_tab g)
    (hp : enc_prev B g g.prev) (hb : ∀ b ∈ src, b < B) :
    (∃ mid, (putlzw g src).log = g.log ++ mid) ∧ (putlzw g src).clear = g.clear ∧
    (putlzw g src).lc0 = g.lc0 := by
  have key := putlzw_loop_inv B
    (fun g1 => (∃ mid, g1.log = g.log ++ mid) ∧ g1.clear = g.clear ∧ g1.lc0 = g.lc0)
    (fun g1 c _ hq _ _ => by
      obtain ⟨⟨mid, h1⟩, h2, h3⟩ := hq
      obtain ⟨e1, _, e3, e4, _⟩ := emitlzw_fields g1 c
      exact ⟨⟨mid ++ [(c, g1.lc)], by rw [e4, h1, List.append_assoc]⟩, e3.trans h2, e1.trans h3⟩)
    (fun g1 _ hq => by
      obtain ⟨⟨mid, h1⟩, h2, h3⟩ := hq
      refine ⟨⟨mid ++ [((g1.clear : Int), g1.lc)], ?_⟩, h2, h3⟩
      show g1.log ++ [((g1.clear : Int), g1.lc)] = _
      rw [h1, List.append_assoc])
    (fun g1 i c _ hq => by
      unfold putlzw_add putlzw_map
      split
      · exact hq
      · exact hq)
    src g g.prev ht hp ⟨⟨[], by simp⟩, rfl, rfl⟩ hb
  exact key

/-- The encoder's run on a non-empty input whose bytes are below
`1 << (lc0 + 1)`: the state before `donelzw` and what `donelzw` writes. -/
theorem lzw_encode_val (m : Nat) (x : List Nat) (hm : m ≤ 11) (hx : x ≠ [])
    (hb : ∀ b ∈ x, b < 2 ^ ((if m < 2 then 2 else m) + 1)) :
    (∃ mid lce, (donelzw (putlzw (initclzw gifcbuf_zero m []) x)).log =
      (((2 ^ (if m < 2 then 2 else m) : Nat) : Int), (if m < 2 then 2 else m) + 1) :: mid ++
        [(((2 ^ (if m < 2 then 2 else m) : Nat) : Int) + 1, lce)]) ∧
    (∀ e ∈ (donelzw (putlzw (initclzw gifcbuf_zero m []) x)).log, 0 ≤ e.1 ∧ e.1 < 2 ^ e.2) ∧
    ∃ D, file_data (lzw_encode m x).tail.length (lzw_encode m x).tail = D ∧
      bytes_val D = codes_val (donelzw (putlzw (initclzw gifcbuf_zero m []) x)).log ∧
      codes_bits (donelzw (putlzw (initclzw gifcbuf_zero m []) x)).log ≤ 8 * D.length ∧
      ∀ b ∈ D, b < 256 := by
  have ht0 := enc_tab_initclzw gifcbuf_zero m [] hm
  have hv0 := enc_val_initclzw gifcbuf_zero m []
  obtain ⟨hl0, hp0⟩ := enc_log_initclzw (2 ^ ((if m < 2 then 2 else m) + 1)) gifcbuf_zero m []
  have hlc0 : (initclzw gifcbuf_zero m []).lc0 = (if m < 2 then 2 else m) := rfl
  have hB0 : 2 ^ ((if m < 2 then 2 else m) + 1) ≤ 2 ^ ((initclzw gifcbuf_zero m []).lc0 + 1) := by
    rw [hlc0]
  obtain ⟨ht1, hp1, hl1⟩ := enc_tab_putlzw _ _ x ht0 hp0 hl0 hb
  have hv1 := enc_val_putlzw _ _ _ x ht0 hB0 hp0 hv0 hb
  obtain ⟨⟨mid, hmid⟩, hcl, hlc1⟩ := putlzw_log_prefix _ _ x ht0 hp0 hb
  rw [hlc0] at hlc1
  have hB1 : 2 ^ ((if m < 2 then 2 else m) + 1) ≤
      2 ^ ((putlzw (initclzw gifcbuf_zero m []) x).lc0 + 1) := by rw [hlc1]
  have h0 : 0 ≤ (putlzw (initclzw gifcbuf_zero m []) x).prev := by
    cases x with
    | nil => exact absurd rfl hx
    | cons c src => exact putlzw_prev _ c src ht0
  have hfit := pow_le_lc _ _ ht1 hB1 _ (enc_prev_emit _ _ _ ht1 hp1 (by omega))
  have hld := enc_log_donelzw _ _ ht1 hp1 hl1 h0
  have hid := enc_inv_donelzw _ ht1.1
  have hdl := donelzw_log (putlzw (initclzw gifcbuf_zero m []) x)
  obtain ⟨Bs, T, d1, d2, d3, d4, d5, d6⟩ := donelzw_val _ _ ht1 hv1 h0 hfit
  have e2 : lzw_encode m x = (donelzw (putlzw (initclzw gifcbuf_zero m []) x)).f := rfl
  generalize putlzw (initclzw gifcbuf_zero m []) x = g1 at *
  refine ⟨⟨mid ++ [(g1.prev, g1.lc)], (emitlzw g1 g1.prev).lc, ?_⟩, ?_, Bs.flatten ++ T, ?_, d4,
    d5, d6⟩
  · rw [hdl, hmid, hcl]
    have e0 : (initclzw gifcbuf_zero m []).log =
        [(((1 <<< (if m < 2 then 2 else m) : Nat) : Int), (if m < 2 then 2 else m) + 1)] := rfl
    have e1 : (initclzw gifcbuf_zero m []).clear = 1 <<< (if m < 2 then 2 else m) := rfl
    rw [e0, e1, one_shiftLeft]
    simp
  · intro e he
    obtain ⟨f1, f2⟩ := hld e he
    refine ⟨f1, ?_⟩
    have hw := (hid.2.2.2.2.2.2.2 e he).1
    rw [hid.1, hlc1] at hw
    rcases f2 with f2 | f2
    · have h1 : 2 ^ ((if m < 2 then 2 else m) + 1) ≤ 2 ^ e.2 :=
        Nat.pow_le_pow_right (by decide) hw
      have h2 : ((2 ^ ((if m < 2 then 2 else m) + 1) : Nat) : Int) ≤ ((2 ^ e.2 : Nat) : Int) := by
        exact_mod_cast h1
      have h3 : ((2 ^ e.2 : Nat) : Int) = 2 ^ e.2 := by push_cast; rfl
      omega
    · exact f2
  · have e3 : ([] ++ [(if m < 2 then 2 else m) % 256] ++ put_blocks Bs ++ T.length :: T ++
        [0]).tail = put_blocks Bs ++ T.length :: T ++ [0] := by simp
    rw [e2, d1, e3]
    exact file_data_blocks Bs T d3 d2

/-- C19 (amended): for a minimum code size up to 11 and a non-empty input whose
bytes are below `1 << (lc0 + 1)` (as the bytes below `1 << lc0` are), the codes
that the encoder writes are the clear code `1 << lc0` at `lc0 + 1` bits first and
the end code `(1 << lc0) + 1` last, all of them fit their code size, and reading
the data bytes of the sub-blocks written (`file_data` of the output after its
first byte) as a bit stream, the least significant bit of each byte first, at the
code size of each code gives these codes in order. The bit stream runs over the
sub-block boundaries. -/
theorem lzw_encode_bits (m : Nat) (x : List Nat) (hm : m ≤ 11) (hx : x ≠ [])
    (hb : ∀ b ∈ x, b < 2 ^ ((if m < 2 then 2 else m) + 1)) :
    (∃ mid lce, (donelzw (putlzw (initclzw gifcbuf_zero m []) x)).log =
      (((2 ^ (if m < 2 then 2 else m) : Nat) : Int), (if m < 2 then 2 else m) + 1) :: mid ++
        [(((2 ^ (if m < 2 then 2 else m) : Nat) : Int) + 1, lce)]) ∧
    (∀ e ∈ (donelzw (putlzw (initclzw gifcbuf_zero m []) x)).log, 0 ≤ e.1 ∧ e.1 < 2 ^ e.2) ∧
    (read_codes ((donelzw (putlzw (initclzw gifcbuf_zero m []) x)).log.map Prod.snd)
      (bits_of (file_data (lzw_encode m x).tail.length (lzw_encode m x).tail))).map Int.ofNat =
      (donelzw (putlzw (initclzw gifcbuf_zero m []) x)).log.map Prod.fst := by
  obtain ⟨h1, h2, D, h3, h4, h5, h6⟩ := lzw_encode_val m x hm hx hb
  obtain ⟨b1, b2⟩ := bits_of_val D h6
  refine ⟨h1, h2, ?_⟩
  rw [h3]
  exact read_codes_spec _ _ h2 (b1.trans h4) (by rw [b2]; exact h5)

theorem lzw_encode_bits_witness :
    (2 ≤ 11 ∧ [0, 1, 1] ≠ [] ∧ ∀ b ∈ [0, 1, 1], b < 2 ^ ((if 2 < 2 then 2 else 2) + 1)) ∧
    (read_codes ((donelzw (putlzw (initclzw gifcbuf_zero 2 []) [0, 1, 1])).log.map Prod.snd)
      (bits_of (file_data (lzw_encode 2 [0, 1, 1]).tail.length
        (lzw_encode 2 [0, 1, 1]).tail))).map Int.ofNat =
      (donelzw (putlzw (initclzw gifcbuf_zero 2 []) [0, 1, 1])).log.map Prod.fst :=
  ⟨⟨by decide, by decide, by decide⟩,
    (lzw_encode_bits 2 [0, 1, 1] (by decide) (by decide) (by decide)).2.2⟩

/-- C19 as stated fails for the empty input and for a byte that does not fit the
code size. With the minimum code size 2 and no byte, the encoder writes the codes
4, -1, 5 at 3 bits, and the bits of the data read 4, 7, 7: there is no end code.
With the bytes 8, 0 it writes the codes 4, 8, 0, 5 at 3 bits, and the bits read
4, 0, 1, 5. -/
theorem lzw_encode_bits_counterexample :
    ((donelzw (putlzw (initclzw gifcbuf_zero 2 []) [])).log.map Prod.fst = [4, -1, 5] ∧
      read_codes ((donelzw (putlzw (initclzw gifcbuf_zero 2 []) [])).log.map Prod.snd)
        (bits_of (file_data (lzw_encode 2 []).tail.length (lzw_encode 2 []).tail)) =
        [4, 7, 7]) ∧
    ((donelzw (putlzw (initclzw gifcbuf_zero 2 []) [8, 0])).log.map Prod.fst = [4, 8, 0, 5] ∧
      read_codes ((donelzw (putlzw (initclzw gifcbuf_zero 2 []) [8, 0])).log.map Prod.snd)
        (bits_of (file_data (lzw_encode 2 [8, 0]).tail.length (lzw_encode 2 [8, 0]).tail)) =
        [4, 0, 1, 5]) := by
  decide!

/-! ## LZW: the codes that the decoder reads -/

theorem bytes_val_lt (l : List Nat) (h : ∀ b ∈ l, b < 256) : bytes_val l < 256 ^ l.length := by
  induction l with
  | nil => simp [bytes_val]
  | cons b r ih =>
    have h1 := ih (fun c hc => h c (List.mem_cons_of_mem _ hc))
    have h2 := h b (List.mem_cons_self _ _)
    rw [bytes_val, List.length_cons, Nat.pow_succ]
    omega

theorem fill_bytes_val (l : List Nat) :
    ∀ (w bits : Nat), w < 2 ^ bits → (∀ b ∈ l, b < 256) →
      fill_bytes l w bits = w + 2 ^ bits * bytes_val l := by
  induction l with
  | nil => intro w bits _ _; simp [fill_bytes, bytes_val]
  | cons b r ih =>
    intro w bits hw hb
    have h2 := hb b (List.mem_cons_self _ _)
    have e : w ||| b <<< bits = w + 2 ^ bits * b := by
      rw [Nat.shiftLeft_eq, Nat.lor_comm, Nat.mul_comm, ← Nat.mul_add_lt_is_or hw]
      omega
    have hlt : w + 2 ^ bits * b < 2 ^ (bits + 8) := by
      rw [Nat.pow_add]
      have : 2 ^ bits * b + 2 ^ bits ≤ 2 ^ bits * 2 ^ 8 := by
        have h3 : 2 ^ bits * (b + 1) ≤ 2 ^ bits * 2 ^ 8 := Nat.mul_le_mul_left _ (by omega)
        rw [Nat.mul_add, Nat.mul_one] at h3
        exact h3
      omega
    rw [fill_bytes, e, ih _ _ hlt (fun c hc => hb c (List.mem_cons_of_mem _ hc)), bytes_val,
      Nat.pow_add]
    ring

theorem getblock_file (buf : Nat → Nat) (f : List Nat) (h : ∀ b ∈ f, b < 256) :
    (getblock buf f).1 ≤ 255 ∧ ∀ b ∈ (getblock buf f).2.2, b < 256 := by
  unfold getblock
  cases f with
  | nil => exact ⟨by show (-1 : Int) ≤ 255; omega, fun b hb => by cases hb⟩
  | cons l rest =>
    have hl := h l (List.mem_cons_self _ _)
    have hr : ∀ b ∈ rest, b < 256 := fun c hc => h c (List.mem_cons_of_mem _ hc)
    dsimp only
    split
    · split
      · exact ⟨by show (-1 : Int) ≤ 255; omega, fun b hb => by cases hb⟩
      · exact ⟨by show ((l : Nat) : Int) ≤ 255; omega, fun b hb => hr b (List.mem_of_mem_drop hb)⟩
    · exact ⟨by show (0 : Int) ≤ 255; omega, hr⟩

theorem getlzw_fill_file (lc n : Nat) :
    ∀ (g : gifbuf) (w bits : Nat), g.end_ ≤ 255 → (∀ b ∈ g.f, b < 256) →
      (getlzw_fill lc n (g, w, bits)).2.1.end_ ≤ 255 ∧
      ∀ b ∈ (getlzw_fill lc n (g, w, bits)).2.1.f, b < 256 := by
  induction n with
  | zero => intro g w bits h1 h2; exact ⟨h1, h2⟩
  | succ n ih =>
    intro g w bits h1 h2
    rw [getlzw_fill]
    obtain ⟨g1, g2⟩ := getblock_file g.buf g.f h2
    split
    · split
      · dsimp only
        split
        · exact ⟨g1, g2⟩
        · exact ih _ _ _ g1 g2
      · exact ih _ _ _ h1 h2
    · exact ⟨h1, h2⟩

theorem read_arith (w1 cn R Dv lc e : Nat) (hcn : cn < 2 ^ lc)
    (h : w1 + 2 ^ (lc + e) * Dv = cn + 2 ^ lc * R) :
    w1 % 2 ^ lc = cn ∧ w1 / 2 ^ lc + 2 ^ e * Dv = R := by
  have hp : 0 < 2 ^ lc := Nat.pos_pow_of_pos _ (by decide)
  have h1 : w1 + 2 ^ lc * (2 ^ e * Dv) = cn + 2 ^ lc * R := by
    rw [← h, Nat.pow_add]; ring
  have h2 : (w1 + 2 ^ lc * (2 ^ e * Dv)) % 2 ^ lc = w1 % 2 ^ lc := Nat.add_mul_mod_self_left _ _ _
  have h3 : (cn + 2 ^ lc * R) % 2 ^ lc = cn := by
    rw [Nat.add_mul_mod_self_left, Nat.mod_eq_of_lt hcn]
  have h4 : (w1 + 2 ^ lc * (2 ^ e * Dv)) / 2 ^ lc = w1 / 2 ^ lc + 2 ^ e * Dv :=
    Nat.add_mul_div_left _ _ hp
  have h5 : (cn + 2 ^ lc * R) / 2 ^ lc = R := by
    rw [Nat.add_mul_div_left _ _ hp, Nat.div_eq_of_lt hcn, Nat.zero_add]
  rw [h1] at h2 h4
  exact ⟨h2.symm.trans h3, h4.symm.trans h5⟩

/-- A turn of the loop of `getlzw` that needs a code reads the first of the codes
`rest` that the decoder has to read, when the code size is that of the code. -/
theorem getlzw_read (g : gifbuf) (c : Int) (rest : List (Int × Nat)) (tail cnt : Nat)
    (h : dec_reads g ((c, g.lc) :: rest)) (h0 : 0 ≤ c) (hc : c < 2 ^ g.lc)
    (hcm : g.cmask = 2 ^ g.lc - 1) (ht : tail < cnt) :
    getlzw_code g tail cnt = some c.toNat ∧ dec_reads (getlzw_taken g) rest ∧
    (getlzw_taken g).log = g.log ++ [(c.toNat, g.lc)] := by
  obtain ⟨hw, hend, hf, h256, hval, hbits⟩ := h
  rw [codes_bits] at hbits
  rw [codes_val] at hval
  dsimp only at hbits hval
  have hcn : c.toNat < 2 ^ g.lc := by
    have h1 : ((c.toNat : Nat) : Int) = c := Int.toNat_of_nonneg h0
    have h2 : ((c.toNat : Nat) : Int) < ((2 ^ g.lc : Nat) : Int) := by
      rw [h1]; push_cast; exact hc
    exact_mod_cast h2
  have hk1 : (g.lc - g.bits + 7) / 8 ≤ (dec_stream g).length := by omega
  have hk2 : (g.lc - g.bits + 7) / 8 ≤ g.lc := by omega
  obtain ⟨r1, r2, r3, r4⟩ := (getlzw_fill_spec g.lc g.lc g g.w g.bits).1 hk1 hk2
  obtain ⟨_, f2, f3, f4, _⟩ := getlzw_fill_keeps g.lc g.lc g g.w g.bits
  obtain ⟨g1, g2⟩ := getlzw_fill_file g.lc g.lc g g.w g.bits hend hf
  have htk : ∀ b ∈ (dec_stream g).take ((g.lc - g.bits + 7) / 8), b < 256 :=
    fun b hb => h256 b (List.mem_of_mem_take hb)
  have hdr : ∀ b ∈ (dec_stream g).drop ((g.lc - g.bits + 7) / 8), b < 256 :=
    fun b hb => h256 b (List.mem_of_mem_drop hb)
  have hfv := fill_bytes_val _ g.w g.bits hw htk
  have hlt := bytes_val_lt _ htk
  have hsp : bytes_val (dec_stream g) =
      bytes_val ((dec_stream g).take ((g.lc - g.bits + 7) / 8)) +
        256 ^ ((g.lc - g.bits + 7) / 8) *
          bytes_val ((dec_stream g).drop ((g.lc - g.bits + 7) / 8)) := by
    have := bytes_val_append ((dec_stream g).take ((g.lc - g.bits + 7) / 8))
      ((dec_stream g).drop ((g.lc - g.bits + 7) / 8))
    rw [List.take_append_drop, List.length_take, Nat.min_eq_left hk1] at this
    exact this
  have hlen : ((dec_stream g).drop ((g.lc - g.bits + 7) / 8)).length =
      (dec_stream g).length - (g.lc - g.bits + 7) / 8 := List.length_drop _ _
  rw [List.length_take, Nat.min_eq_left hk1] at hlt
  unfold dec_val at hval
  rw [hsp] at hval
  rw [← r4] at hdr hlen hval
  rw [← r2] at hfv
  have hge : g.lc ≤ g.bits + 8 * ((g.lc - g.bits + 7) / 8) := by omega
  have t1 : (getlzw_taken g).w = (getlzw_fill g.lc g.lc (g, g.w, g.bits)).2.2.1 >>>
      (getlzw_fill g.lc g.lc (g, g.w, g.bits)).2.1.lc := rfl
  have t2 : (getlzw_taken g).bits = (getlzw_fill g.lc g.lc (g, g.w, g.bits)).2.2.2 -
      (getlzw_fill g.lc g.lc (g, g.w, g.bits)).2.1.lc := rfl
  have t3 : (getlzw_taken g).log = (getlzw_fill g.lc g.lc (g, g.w, g.bits)).2.1.log ++
      [((getlzw_fill g.lc g.lc (g, g.w, g.bits)).2.2.1 &&&
        (getlzw_fill g.lc g.lc (g, g.w, g.bits)).2.1.cmask,
        (getlzw_fill g.lc g.lc (g, g.w, g.bits)).2.1.lc)] := rfl
  have t4 : dec_stream (getlzw_taken g) =
      dec_stream (getlzw_fill g.lc g.lc (g, g.w, g.bits)).2.1 := rfl
  have t5 : (getlzw_taken g).end_ = (getlzw_fill g.lc g.lc (g, g.w, g.bits)).2.1.end_ := rfl
  have t6 : (getlzw_taken g).f = (getlzw_fill g.lc g.lc (g, g.w, g.bits)).2.1.f := rfl
  have hcode0 : getlzw_code g tail cnt =
      some ((getlzw_fill g.lc g.lc (g, g.w, g.bits)).2.2.1 &&&
        (getlzw_fill g.lc g.lc (g, g.w, g.bits)).2.1.cmask) := by
    unfold getlzw_code
    rw [if_neg (by omega)]
    dsimp only
    rw [if_pos r1]
  generalize getlzw_taken g = t at *
  generalize (getlzw_fill g.lc g.lc (g, g.w, g.bits)) = r at *
  generalize bytes_val ((dec_stream g).take ((g.lc - g.bits + 7) / 8)) = Tv at *
  generalize (g.lc - g.bits + 7) / 8 = k at *
  have hb2 : g.bits + 8 * k = g.lc + (g.bits + 8 * k - g.lc) := by omega
  have hw1 : r.2.2.1 < 2 ^ (g.bits + 8 * k) := by
    rw [hfv, Nat.pow_add, two_pow_8]
    have : 2 ^ g.bits * Tv + 2 ^ g.bits ≤ 2 ^ g.bits * 256 ^ k := by
      have h3 : 2 ^ g.bits * (Tv + 1) ≤ 2 ^ g.bits * 256 ^ k := Nat.mul_le_mul_left _ hlt
      rw [Nat.mul_add, Nat.mul_one] at h3
      exact h3
    omega
  have hY : r.2.2.1 + 2 ^ (g.lc + (g.bits + 8 * k - g.lc)) * bytes_val (dec_stream r.2.1) =
      c.toNat + 2 ^ g.lc * codes_val rest := by
    rw [← hb2, ← hval, hfv, Nat.pow_add, two_pow_8]
    ring
  obtain ⟨a1, a2⟩ := read_arith _ _ _ _ _ _ hcn hY
  have hcode : r.2.2.1 &&& r.2.1.cmask = c.toNat := by
    rw [f3, hcm, Nat.and_pow_two_sub_one_eq_mod, a1]
  refine ⟨by rw [hcode0, hcode], ⟨?_, by rw [t5]; exact g1, by rw [t6]; exact g2,
    by rw [t4]; exact hdr, ?_, ?_⟩, by rw [t3, f4, f2, hcode]⟩
  · rw [t1, t2, f2, r3, Nat.shiftRight_eq_div_pow,
      Nat.div_lt_iff_lt_mul (Nat.pos_pow_of_pos _ (by decide)), ← Nat.pow_add,
      Nat.sub_add_cancel hge]
    exact hw1
  · unfold dec_val
    rw [t1, t2, t4, f2, r3, Nat.shiftRight_eq_div_pow]
    exact a2
  · rw [t2, t4, f2, r3, hlen]
    omega

theorem getlzw_chain_low (nxcode : Nat → Int) (cchar : Nat → Nat) (n : Nat) :
    ∀ (cx : Int) (buf : Nat → Nat) (tail : Nat) (r : (Nat → Nat) × Nat),
      getlzw_chain nxcode cchar n cx (buf, tail) = some r →
      ∀ x, x + (tail + n) < GIF_BUFSIZE → r.1 x = buf x := by
  induction n with
  | zero =>
    intro cx buf tail r h x _
    rw [getlzw_chain] at h
    split at h
    · cases h
    · cases h
      rfl
  | succ n ih =>
    intro cx buf tail r h x hx
    rw [getlzw_chain] at h
    split at h
    · rw [ih _ _ _ r h x (by omega), Function.update_noteq]
      unfold GIF_BUFSIZE at hx ⊢
      omega
    · cases h
      rfl

theorem getlzw_update_keeps (g : gifbuf) (cmask c : Nat) :
    (getlzw_update g cmask c).f = g.f ∧ (getlzw_update g cmask c).ptr = g.ptr ∧
    (getlzw_update g cmask c).end_ = g.end_ ∧ (getlzw_update g cmask c).w = g.w ∧
    (getlzw_update g cmask c).bits = g.bits ∧ (getlzw_update g cmask c).buf = g.buf := by
  unfold getlzw_update
  dsimp only
  split
  · split
    · exact ⟨rfl, rfl, rfl, rfl, rfl, rfl⟩
    · exact ⟨rfl, rfl, rfl, rfl, rfl, rfl⟩
  · exact ⟨rfl, rfl, rfl, rfl, rfl, rfl⟩

theorem getlzw_decode_keeps (g : gifbuf) (cmask c cnt : Nat) (out : List Nat) (g1 : gifbuf)
    (tl cn : Nat) (o : List Nat)
    (h : getlzw_decode g cmask c 0 cnt out = .next g1 tl cn o) (hcl : c ≠ g.clear) :
    g1.f = g.f ∧ g1.ptr = g.ptr ∧ g1.end_ = g.end_ ∧ g1.w = g.w ∧ g1.bits = g.bits ∧
    ∀ x, x < 255 → g1.buf x = g.buf x := by
  obtain ⟨u1, u2, u3, u4, u5, u6⟩ := getlzw_update_keeps g cmask c
  unfold getlzw_decode at h
  rw [if_neg hcl] at h
  split at h
  · cases h
  · dsimp only at h
    split at h
    · cases h
    · split at h
      · cases h
      · unfold getlzw_string at h
        cases hch : getlzw_chain (getlzw_update g cmask c).nxcode (getlzw_update g cmask c).cchar
            4097 c ((getlzw_update g cmask c).buf, 0) with
        | none =>
          rw [hch] at h
          cases h
        | some p =>
          rw [hch] at h
          have hlow := getlzw_chain_low _ _ _ _ _ _ p hch
          cases h
          refine ⟨u1, u2, u3, u4, u5, ?_⟩
          intro x hx
          dsimp only
          rw [Function.update_noteq (by unfold GIF_BUFSIZE; omega),
            hlow x (by unfold GIF_BUFSIZE; omega), u6]

theorem dec_stream_congr (g g1 : gifbuf) (h1 : g1.f = g.f) (h2 : g1.ptr = g.ptr)
    (h3 : g1.end_ = g.end_) (hb : ∀ x, x < 255 → g1.buf x = g.buf x) (he : g.end_ ≤ 255) :
    dec_stream g1 = dec_stream g := by
  unfold dec_stream dec_buf
  rw [h1, h2, h3]
  congr 1
  apply List.map_congr_left
  intro i hi
  rw [List.mem_range] at hi
  exact hb _ (by omega)

theorem dec_reads_decode (g : gifbuf) (cmask c cnt : Nat) (out : List Nat) (g1 : gifbuf)
    (tl cn : Nat) (o : List Nat) (rest : List (Int × Nat))
    (h : getlzw_decode g cmask c 0 cnt out = .next g1 tl cn o) (hcl : c ≠ g.clear)
    (hr : dec_reads g rest) : dec_reads g1 rest := by
  obtain ⟨k1, k2, k3, k4, k5, k6⟩ := getlzw_decode_keeps g cmask c cnt out g1 tl cn o h hcl
  obtain ⟨a1, a2, a3, a4, a5, a6⟩ := hr
  have hs := dec_stream_congr g g1 k1 k2 k3 k6 a2
  unfold dec_reads dec_val
  rw [hs, k1, k3, k4, k5]
  exact ⟨a1, a2, a3, a4, a5, a6⟩

theorem dec_reads_resetlzw (g : gifbuf) (rest : List (Int × Nat)) (hr : dec_reads g rest) :
    dec_reads (resetlzw g) rest := hr

/-! ## LZW: the encoder and the decoder in step -/

theorem byte_split (q : Nat) : q >>> 4 = q / 16 ∧ q &&& 0xF = q % 16 := by
  refine ⟨by rw [Nat.shiftRight_eq_div_pow], ?_⟩
  exact Nat.and_pow_two_sub_one_eq_mod q 4

theorem trie_get_add (g : gifcbuf) (p0 b0 p q : Nat) (h : enc_tab g)
    (hz : ∀ j, g.nxmap * 16 ≤ j → j < 65536 → g.codes j = 0)
    (hb0 : b0 < 256) (hq : q < 256) :
    trie_get (putlzw_add g (trie_slot p0 b0) b0).codes p q =
      if p = p0 ∧ q = b0 then g.nxc + 4096 else trie_get g.codes p q := by
  obtain ⟨m1, m2, m3, m4, m5, m6, m7, m8, m9, m10, m11, m12, m13⟩ :=
    putlzw_map_spec g (trie_slot p0 b0) h (trie_slot_ge _ _)
  obtain ⟨a0, a1, a2, a3, a4, a5, a6, a7, a8, a9⟩ := h
  have hn : g.nxc ≤ 4095 := a0.2.2.2.2.2.1
  obtain ⟨q1, q2⟩ := byte_split q
  obtain ⟨r1, r2⟩ := byte_split b0
  have hs : trie_slot p q = trie_slot p0 b0 → p = p0 ∧ q = b0 ∨ q % 16 ≠ b0 % 16 := by
    unfold trie_slot
    rw [q1, r1]
    omega
  have hs2 : p = p0 ∧ q = b0 → trie_slot p q = trie_slot p0 b0 := by
    intro hh
    rw [hh.1, hh.2]
  have hsl := trie_slot_ge p q
  have hsl0 := trie_slot_ge p0 b0
  have hmp := m10 (trie_slot p q) hsl
  unfold trie_get putlzw_add
  dsimp only
  rw [m1]
  have e1 : Function.update (putlzw_map g (trie_slot p0 b0)).codes
      ((putlzw_map g (trie_slot p0 b0)).codes (trie_slot p0 b0) * 16 + (b0 &&& 0xF))
      (g.nxc + 4096) (trie_slot p q) = (putlzw_map g (trie_slot p0 b0)).codes (trie_slot p q) := by
    rw [Function.update_noteq]
    omega
  rw [e1]
  by_cases hidx : (putlzw_map g (trie_slot p0 b0)).codes (trie_slot p q) * 16 + (q &&& 0xF) =
      (putlzw_map g (trie_slot p0 b0)).codes (trie_slot p0 b0) * 16 + (b0 &&& 0xF)
  · rw [hidx, Function.update_same]
    have hmm : (putlzw_map g (trie_slot p0 b0)).codes (trie_slot p q) =
        (putlzw_map g (trie_slot p0 b0)).codes (trie_slot p0 b0) := by omega
    have hsame := m11 _ _ hsl hsl0 hmm (by omega)
    have hpq : p = p0 ∧ q = b0 := by
      rcases hs hsame with h1 | h1
      · exact h1
      · omega
    rw [if_pos hpq]
  · rw [Function.update_noteq hidx]
    have hpq : ¬ (p = p0 ∧ q = b0) := by
      intro hh
      apply hidx
      rw [hh.1, hh.2]
    rw [if_neg hpq, m12 _ (by omega)]
    by_cases hsl1 : trie_slot p q = trie_slot p0 b0
    · by_cases h0 : g.codes (trie_slot p0 b0) = 0
      · have hm0 : (putlzw_map g (trie_slot p0 b0)).codes (trie_slot p0 b0) = g.nxmap := by
          unfold putlzw_map
          rw [if_pos h0]
          dsimp only
          rw [Function.update_same]
        rw [hsl1, hm0, h0, hz _ (by omega) (by omega), a9 _ (by omega)]
      · rw [hsl1, m13 h0]
    · rw [m12 _ hsl1]

theorem enc_str_ne_nil (gd : gifbuf) (b0 : Nat) (k : Int) (hk : 0 ≤ k) : enc_str gd b0 k ≠ [] := by
  unfold enc_str
  split
  · simp
  · obtain ⟨n, rfl⟩ := Int.eq_ofNat_of_zero_le hk
    exact dec_string_ne_nil gd n

theorem dec_string_root (gd : gifbuf) (hd : dec_tab gd)
    (hR : ∀ c, c < gd.clear → c < 256 → gd.cchar c = c) (c : Nat) (hc : c < gd.clear)
    (h256 : c < 256) : dec_string gd c = [c] := by
  have hV := dec_code_hV gd hd
  have h1 := dec_string_succ gd c (dec_code gd) hV (Or.inl hc) (by omega)
  obtain ⟨_, _, _, _, a4, _⟩ := hd
  rw [h1, a4 c hc, dec_string_neg gd (-1) (by omega), hR c hc h256]
  rfl

theorem enc_str_root (gd : gifbuf) (hd : dec_tab gd)
    (hR : ∀ c, c < gd.clear → c < 256 → gd.cchar c = c) (c b0 : Nat) (hc : c < gd.clear)
    (h256 : c < 256) : enc_str gd b0 c = [c] := by
  have h2 : gd.clear + 2 ≤ gd.nxc := hd.2.2.1
  unfold enc_str
  rw [if_neg (by omega)]
  exact dec_string_root gd hd hR c hc h256

theorem enc_code_lt (ge : gifcbuf) (p : Int) (ht : enc_tab ge) (hp : enc_code ge p) :
    p < 2 ^ ge.lc ∧ p.toNat ≤ 4095 ∧ p.toNat < ge.nxc ∧ (p.toNat : Int) = p := by
  obtain ⟨h1, h2, h3⟩ := clear_lt ge ht
  have h4 : ge.nxc ≤ ge.nxc2 := ht.2.2.2.1
  have h5 : ge.nxc ≤ 4095 := ht.1.2.2.2.2.2.1
  have h6 : ge.clear + 2 ≤ ge.nxc := ht.2.2.1
  have h7 : (ge.nxc : Int) ≤ ((2 ^ ge.lc : Nat) : Int) := by rw [← h2]; exact_mod_cast h4
  have h8 : ((2 ^ ge.lc : Nat) : Int) = 2 ^ ge.lc := by push_cast; rfl
  obtain ⟨p0, hp⟩ := hp
  have h9 : (p.toNat : Int) = p := Int.toNat_of_nonneg p0
  refine ⟨?_, ?_, ?_, h9⟩
  · rcases hp with h | h
    · omega
    · omega
  · omega
  · omega

/-- The turn of the loop of `getlzw` that reads the code that the encoder emits:
the decoder stores the string of the code, takes over the entry that the encoder
was ahead with, and has the code size that the encoder has after `emitlzw`. -/
theorem lzw_sim_decode (ge : gifcbuf) (prev : Int) (gd : gifbuf) (b0 : Nat)
    (rest : List (Int × Nat)) (tail cnt : Nat) (hs : lzw_sim ge prev gd b0)
    (hr : dec_reads gd ((prev, ge.lc) :: rest)) (ht : tail < cnt) :
    ∃ gd1, getlzw_step gd tail cnt =
        .next gd1 (enc_str gd b0 prev).length (cnt - tail) (getlzw_out gd.buf tail tail) ∧
      getlzw_out gd1.buf (enc_str gd b0 prev).length (enc_str gd b0 prev).length =
        enc_str gd b0 prev ∧
      dec_reads gd1 rest ∧ dec_tab gd1 ∧ gd1.prev = prev ∧ gd1.nxc = ge.nxc ∧
      gd1.lc = (emitlzw ge prev).lc ∧ gd1.lc0 = ge.lc0 ∧ gd1.clear = ge.clear ∧
      (∀ c, c < gd1.clear → c < 256 → gd1.cchar c = c) ∧
      gd1.log = gd.log ++ [(prev.toNat, ge.lc)] ∧
      (∀ k : Int, enc_code ge k → dec_string gd1 k = enc_str gd b0 k) := by
  obtain ⟨s_et, s_dt, s_lc0, s_cl, s_lc, s_root, s_fresh, s_pend, s_prev, s_trie, s_map, s_log⟩ :=
    hs
  obtain ⟨p1, p2, p3, p4⟩ := enc_code_lt ge prev s_et s_prev
  obtain ⟨p0, p5⟩ := s_prev
  have hcm : gd.cmask = 2 ^ gd.lc - 1 := s_dt.1.2.2.2.2.1
  have hlc12 : gd.lc ≤ 12 := s_dt.1.2.2.2.1
  have hd2 : gd.clear + 2 ≤ gd.nxc := s_dt.2.2.1
  have hd3 : gd.nxc ≤ 4096 := s_dt.2.2.2.1
  have hdp := s_dt.2.2.2.2.2.2
  have hnxc2 : ge.nxc2 = 2 ^ ge.lc := s_et.1.2.2.2.2.1
  have hen : ge.nxc ≤ 4095 := s_et.1.2.2.2.2.2.1
  have hec : ge.clear = 2 ^ ge.lc0 := s_et.1.2.2.2.2.2.2.1
  have hlc0 : 2 ≤ ge.lc0 := s_et.2.1
  rw [← s_lc] at hr p1
  obtain ⟨hcode, hrt, hlog⟩ := getlzw_read gd prev rest tail cnt hr p0 p1 hcm ht
  obtain ⟨_, _, _, hstep⟩ := getlzw_step_of_code gd tail cnt prev.toNat hcode
  obtain ⟨k1, k2, k3, k4, k5, k6, k7, k8⟩ := getlzw_taken_keeps gd
  have htt := dec_tab_taken gd s_dt
  have hok : code_ok (getlzw_taken gd) prev.toNat := by
    unfold code_ok
    rw [k4, k5, k6]
    by_cases hpd : gd.prev < 0
    · obtain ⟨f1, f2, _⟩ := s_fresh hpd
      refine ⟨?_, ?_, ?_, ?_⟩ <;> omega
    · obtain ⟨f1, _⟩ := s_pend (by omega)
      refine ⟨?_, ?_, ?_, ?_⟩ <;> omega
  obtain ⟨buf1, cchar1, str, e1, e2, e3, e4, e5, e6, e7⟩ :=
    getlzw_decode_spec (getlzw_taken gd) prev.toNat (cnt - tail) (getlzw_out gd.buf tail tail)
      htt hok p2
  obtain ⟨u1, u2, u3, u4, u5, u6, u7, u8, u9⟩ := getlzw_update_fields (getlzw_taken gd) prev.toNat
  rw [← k3] at hstep
  have hstr : str = enc_str gd b0 prev := by
    rw [e3, k5, k6, dec_string_taken, dec_string_taken]
    unfold enc_str
    by_cases hcn : prev.toNat = gd.nxc
    · have hpd : 0 ≤ gd.prev := by
        have := hok.2.2.2
        rw [k5, k6] at this
        by_cases h : gd.prev < 0
        · exact absurd ⟨hcn, h⟩ this
        · omega
      obtain ⟨_, f2⟩ := s_pend hpd
      have hc2 : prev = (gd.nxc : Int) ∧ 0 ≤ gd.prev := ⟨by omega, hpd⟩
      unfold enc_str at f2
      rw [if_pos hc2] at f2
      obtain ⟨n, hn⟩ := Int.eq_ofNat_of_zero_le hpd
      have hne : dec_string gd gd.prev ≠ [] := by rw [hn]; exact dec_string_ne_nil gd n
      rw [getD_zero_append _ _ hne] at f2
      rw [if_pos hcn, if_pos hc2, f2]
    · have hc2 : ¬ (prev = (gd.nxc : Int) ∧ 0 ≤ gd.prev) := by omega
      rw [if_neg hcn, if_neg hc2, p4]
  rw [hstr] at e1 e2 e7
  have hcl : prev.toNat ≠ (getlzw_taken gd).clear := hok.1
  have hrd := dec_reads_decode _ _ _ _ _ _ _ _ _ rest e1 hcl hrt
  generalize hg1 : ({ getlzw_update (getlzw_taken gd) (getlzw_taken gd).cmask prev.toNat with
    buf := buf1, cchar := cchar1 } : gifbuf) = gd1 at e1 e4 e6 e7 hrd
  have v1 : gd1.prev = prev.toNat := by rw [← hg1]; exact u1
  have v4 : gd1.clear = gd.clear := by rw [← hg1]; exact u4.trans k4
  have v5 : gd1.lc0 = gd.lc0 := by rw [← hg1]; exact u5.trans k1
  have v7 : gd1.nxc = (if (getlzw_taken gd).prev ≥ 0 ∧ (getlzw_taken gd).nxc < 4096 then
      (getlzw_taken gd).nxc + 1 else (getlzw_taken gd).nxc) := by rw [← hg1]; exact u7
  have v8 : gd1.lc = (if (getlzw_taken gd).prev ≥ 0 ∧ (getlzw_taken gd).nxc < 4096 ∧
      (getlzw_taken gd).nxc + 1 > (getlzw_taken gd).cmask ∧ (getlzw_taken gd).cmask < 4096 - 1
      then (getlzw_taken gd).lc + 1 else (getlzw_taken gd).lc) := by rw [← hg1]; exact u8
  have v9 : gd1.log = (getlzw_taken gd).log := by rw [← hg1]; exact u9
  have vb : gd1.buf = buf1 := by rw [← hg1]
  have vc : gd1.cchar = cchar1 := by rw [← hg1]
  rw [k6, k5] at v7
  rw [k6, k5, k3, k2] at v8
  have hpow : 0 < 2 ^ gd.lc := Nat.pos_pow_of_pos _ (by decide)
  have hpow12 : 2 ^ gd.lc ≤ 2 ^ 12 := Nat.pow_le_pow_right (by decide) hlc12
  obtain ⟨_, _, _, _, _, _, _, ee8, _⟩ := emitlzw_fields ge prev
  refine ⟨gd1, by rw [hstep, e1], by rw [vb]; exact e2, hrd, e4, by rw [v1, p4], ?_, ?_,
    by rw [v5, s_lc0], by rw [v4, s_cl], ?_, by rw [v9, hlog, s_lc], ?_⟩
  · rw [v7]
    by_cases hpd : gd.prev < 0
    · obtain ⟨f1, _⟩ := s_fresh hpd
      rw [if_neg (by omega), f1]
    · obtain ⟨f1, _⟩ := s_pend (by omega)
      rw [if_pos ⟨by omega, by omega⟩, f1]
  · rw [v8, ee8, hnxc2, hcm, ← s_lc]
    by_cases hpd : gd.prev < 0
    · obtain ⟨f1, f2, f3, _⟩ := s_fresh hpd
      have hcl2 : 2 ^ 2 ≤ 2 ^ ge.lc0 := Nat.pow_le_pow_right (by decide) hlc0
      have hge : ¬ (ge.nxc ≥ 2 ^ gd.lc) := by
        rw [f1, f2, f3, s_lc0, s_cl, hec, Nat.pow_succ]
        omega
      rw [if_neg (by omega), if_neg hge]
    · obtain ⟨f1, _⟩ := s_pend (by omega)
      by_cases hge : ge.nxc ≥ 2 ^ gd.lc
      · rw [if_pos hge, if_pos ⟨by omega, by omega, by omega, by omega⟩]
      · rw [if_neg hge, if_neg (by omega)]
  · intro c hc1 hc2
    rw [vc, e5 c (by rw [k5]; omega), k8]
    exact s_root c (by omega) hc2
  · intro k hk
    obtain ⟨q1, q2, q3, q4⟩ := enc_code_lt ge k s_et hk
    obtain ⟨k0, hk5⟩ := hk
    unfold enc_str
    by_cases hc2 : k = (gd.nxc : Int) ∧ 0 ≤ gd.prev
    · obtain ⟨_, f2⟩ := s_pend hc2.2
      have := e7 (by rw [k6]; exact hc2.2) (by rw [k5]; omega)
      rw [k5, k6, dec_string_taken, f2] at this
      rw [if_pos hc2, hc2.1, this]
    · rw [if_neg hc2, ← q4, e6 k.toNat ?_, dec_string_taken]
      unfold dec_code
      rw [k4, k5]
      by_cases hpd : gd.prev < 0
      · obtain ⟨f1, _⟩ := s_fresh hpd
        omega
      · obtain ⟨f1, _⟩ := s_pend (by omega)
        omega

theorem lzw_sim_match (ge : gifcbuf) (prev : Int) (gd : gifbuf) (b0 c : Nat)
    (hs : lzw_sim ge prev gd b0) (hc : c < 256) (hm : trie_get ge.codes prev.toNat c ≠ 0) :
    lzw_sim ge ((trie_get ge.codes prev.toNat c : Int) - 4096) gd b0 ∧
    enc_str gd b0 ((trie_get ge.codes prev.toNat c : Int) - 4096) = enc_str gd b0 prev ++ [c] := by
  obtain ⟨s_et, s_dt, s_lc0, s_cl, s_lc, s_root, s_fresh, s_pend, s_prev, s_trie, s_map, s_log⟩ :=
    hs
  obtain ⟨p1, p2, p3, p4⟩ := enc_code_lt ge prev s_et s_prev
  obtain ⟨_, hstr⟩ := s_trie prev.toNat c (by omega) hc hm
  rw [p4] at hstr
  have hr := trie_get_range ge prev.toNat c s_et hm
  refine ⟨⟨s_et, s_dt, s_lc0, s_cl, s_lc, s_root, s_fresh, ?_, ?_, s_trie, s_map, s_log⟩, hstr⟩
  · intro hp
    obtain ⟨f1, f2⟩ := s_pend hp
    refine ⟨f1, ?_⟩
    rw [hstr, getD_zero_append _ _ (enc_str_ne_nil gd b0 prev s_prev.1), f2]
  · exact ⟨by omega, Or.inr ⟨by omega, by omega⟩⟩

theorem putlzw_map_nxmap (g : gifcbuf) (i : Nat) :
    g.nxmap ≤ (putlzw_map g i).nxmap ∧ (putlzw_add g i 0).nxmap = (putlzw_map g i).nxmap := by
  refine ⟨?_, rfl⟩
  unfold putlzw_map
  split
  · exact Nat.le_succ _
  · exact le_refl _

theorem lzw_sim_add (ge : gifcbuf) (prev : Int) (gd gd1 : gifbuf) (b0 c : Nat)
    (hs : lzw_sim ge prev gd b0) (hc : c < ge.clear) (hc2 : c < 256)
    (hn : ge.nxc < 4095)
    (d1 : dec_tab gd1) (d2 : gd1.prev = prev) (d3 : gd1.nxc = ge.nxc)
    (d4 : gd1.lc = (emitlzw ge prev).lc) (d5 : gd1.lc0 = ge.lc0) (d6 : gd1.clear = ge.clear)
    (d7 : ∀ c, c < gd1.clear → c < 256 → gd1.cchar c = c)
    (d8 : gd1.log = gd.log ++ [(prev.toNat, ge.lc)])
    (d9 : ∀ k : Int, enc_code ge k → dec_string gd1 k = enc_str gd b0 k) :
    lzw_sim (putlzw_add (emitlzw ge prev) (trie_slot prev.toNat c) c) c gd1 c := by
  obtain ⟨s_et, s_dt, s_lc0, s_cl, s_lc, s_root, s_fresh, s_pend, s_prev, s_trie, s_map, s_log⟩ :=
    hs
  obtain ⟨p1, p2, p3, p4⟩ := enc_code_lt ge prev s_et s_prev
  obtain ⟨e1, e2, e3, e4, e5, e6, _, e8, _⟩ := emitlzw_fields ge prev
  obtain ⟨he, hlt⟩ := enc_tab_emitlzw ge prev s_et
  obtain ⟨a_tab, a_nxc, a_clear, a_log, a_lc, a_lc0⟩ := enc_tab_putlzw_add (emitlzw ge prev)
    (trie_slot prev.toNat c) c he (by rw [e2]; exact hn) hlt (trie_slot_ge _ _)
  have hz1 : ∀ j, (emitlzw ge prev).nxmap * 16 ≤ j → j < 65536 → (emitlzw ge prev).codes j = 0 := by
    rw [e5, e6]; exact s_map
  have hget := fun p q hq => trie_get_add (emitlzw ge prev) prev.toNat c p q he hz1 hc2 hq
  have hroot : enc_str gd1 c (c : Int) = [c] := enc_str_root gd1 d1 d7 c c (by omega) hc2
  have hold : ∀ k : Int, enc_code ge k → enc_str gd1 c k = enc_str gd b0 k := by
    intro k hk
    obtain ⟨_, _, q3, q4⟩ := enc_code_lt ge k s_et hk
    unfold enc_str
    rw [if_neg (by omega), d9 k hk]
    rfl
  have hnew : enc_str gd1 c ((ge.nxc : Nat) : Int) = enc_str gd b0 prev ++ [c] := by
    unfold enc_str
    rw [if_pos ⟨by omega, by omega⟩, d2, d9 prev s_prev]
    rfl
  refine ⟨a_tab, d1, by rw [d5, a_lc0, e1], by rw [d6, a_clear, e3], by rw [d4, a_lc], d7, ?_, ?_,
    ?_, ?_, ?_, ?_⟩
  · intro hp
    have := s_prev.1
    omega
  · intro _
    exact ⟨by rw [a_nxc, e2, d3], by rw [hroot]; rfl⟩
  · exact ⟨Int.natCast_nonneg _, Or.inl ⟨by rw [a_clear, e3]; exact_mod_cast hc, by omega⟩⟩
  · intro p q hp hq hne
    rw [hget p q hq] at hne ⊢
    by_cases hpq : p = prev.toNat ∧ q = c
    · rw [if_pos hpq, e2, hpq.1, hpq.2, p4]
      refine ⟨⟨s_prev.1, ?_⟩, ?_⟩
      · rw [a_clear, e3, a_nxc, e2]
        rcases s_prev.2 with h | h
        · exact Or.inl h
        · right; omega
      · have e : (((ge.nxc + 4096 : Nat) : Int) - 4096) = ((ge.nxc : Nat) : Int) := by omega
        rw [e, hnew, hold prev s_prev]
    · rw [if_neg hpq, e5] at hne ⊢
      obtain ⟨t1, t2⟩ := s_trie p q hp hq hne
      have hr := trie_get_range ge p q s_et hne
      have hk : enc_code ge ((trie_get ge.codes p q : Int) - 4096) :=
        ⟨by omega, Or.inr ⟨by omega, by omega⟩⟩
      refine ⟨⟨t1.1, ?_⟩, ?_⟩
      · rw [a_clear, e3, a_nxc, e2]
        rcases t1.2 with h | h
        · exact Or.inl h
        · right; omega
      · rw [hold _ hk, hold _ t1, t2]
  · intro j hj1 hj2
    obtain ⟨m1, m2, m3, m4, m5, m6, m7, m8, m9, m10, m11, m12, m13⟩ :=
      putlzw_map_spec (emitlzw ge prev) (trie_slot prev.toNat c) he (trie_slot_ge _ _)
    obtain ⟨n1, _⟩ := putlzw_map_nxmap (emitlzw ge prev) (trie_slot prev.toNat c)
    have hsl := trie_slot_ge prev.toNat c
    have h15 := and_15_lt c
    have hj3 : (putlzw_map (emitlzw ge prev) (trie_slot prev.toNat c)).nxmap * 16 ≤ j := hj1
    show Function.update (putlzw_map (emitlzw ge prev) (trie_slot prev.toNat c)).codes
      ((putlzw_map (emitlzw ge prev) (trie_slot prev.toNat c)).codes (trie_slot prev.toNat c) * 16 +
        (c &&& 0xF)) _ j = 0
    rw [Function.update_noteq (by omega), m12 j (by omega)]
    exact hz1 j (by omega) hj2
  · rw [a_log, e4, d8, s_log, List.map_append, List.map_singleton, p4]

theorem lzw_sim_fresh (ge : gifcbuf) (gd : gifbuf) (c b0 : Nat) (he : enc_tab ge)
    (hd : dec_tab gd) (h1 : gd.lc0 = ge.lc0) (h2 : gd.clear = ge.clear)
    (h3 : ge.lc = ge.lc0 + 1) (h4 : gd.lc = gd.lc0 + 1) (h5 : ge.nxc = ge.clear + 2)
    (h6 : gd.nxc = gd.clear + 2) (h7 : gd.prev = -1) (h8 : ge.codes = fun _ => 0)
    (h9 : ∀ c, c < gd.clear → c < 256 → gd.cchar c = c)
    (h10 : ge.log = gd.log.map (fun e => ((e.1 : Int), e.2)))
    (hc : c < ge.clear) (hc2 : c < 256) : lzw_sim ge c gd b0 := by
  refine ⟨he, hd, h1, h2, by rw [h4, h3, h1], h9, ?_, ?_, ?_, ?_, ?_, h10⟩
  · intro _
    refine ⟨by rw [h5, h6, h2], h6, h4, ?_⟩
    intro p b
    unfold trie_get
    rw [h8]
  · intro hp
    rw [h7] at hp
    omega
  · exact ⟨Int.natCast_nonneg _, Or.inl ⟨by exact_mod_cast hc, by omega⟩⟩
  · intro p b _ _ hne
    exfalso
    apply hne
    unfold trie_get
    rw [h8]
  · intro j _ _
    rw [h8]

theorem dec_clear_lt (gd : gifbuf) (hd : dec_tab gd) : ((gd.clear : Nat) : Int) < 2 ^ gd.lc := by
  obtain ⟨⟨_, _, b2, _⟩, a1, _⟩ := hd
  have h1 : 2 ^ gd.lc0 < 2 ^ gd.lc := Nat.pow_lt_pow_right (by decide) (by omega)
  rw [a1]
  exact_mod_cast h1

/-- The turn of the loop of `getlzw` that reads a clear code. -/
theorem getlzw_read_clear (gd : gifbuf) (rest : List (Int × Nat)) (tail cnt : Nat)
    (hd : dec_tab gd) (hr : dec_reads gd (((gd.clear : Int), gd.lc) :: rest)) (ht : tail < cnt) :
    getlzw_step gd tail cnt =
      .next (resetlzw (getlzw_taken gd)) 0 (cnt - tail) (getlzw_out gd.buf tail tail) ∧
    dec_reads (resetlzw (getlzw_taken gd)) rest ∧
    (getlzw_taken gd).log = gd.log ++ [(gd.clear, gd.lc)] := by
  have hcm : gd.cmask = 2 ^ gd.lc - 1 := hd.1.2.2.2.2.1
  obtain ⟨hcode, hrt, hlog⟩ := getlzw_read gd gd.clear rest tail cnt hr (Int.natCast_nonneg _)
    (dec_clear_lt gd hd) hcm ht
  rw [Int.toNat_ofNat] at hcode hlog
  obtain ⟨_, _, _, hstep⟩ := getlzw_step_of_code gd tail cnt gd.clear hcode
  obtain ⟨_, _, _, k4, _⟩ := getlzw_taken_keeps gd
  refine ⟨?_, dec_reads_resetlzw _ rest hrt, hlog⟩
  rw [hstep]
  unfold getlzw_decode
  rw [if_pos k4.symm]

theorem lzw_sim_reset (ge1 : gifcbuf) (gd1 : gifbuf) (c b0 : Nat) (he : enc_tab ge1)
    (d1 : dec_tab gd1) (d4 : gd1.lc = ge1.lc) (d5 : gd1.lc0 = ge1.lc0)
    (d6 : gd1.clear = ge1.clear) (d7 : ∀ c, c < gd1.clear → c < 256 → gd1.cchar c = c)
    (d8 : ge1.log = gd1.log.map (fun e => ((e.1 : Int), e.2)))
    (hlog : (getlzw_taken gd1).log = gd1.log ++ [(gd1.clear, gd1.lc)])
    (hc : c < ge1.clear) (hc2 : c < 256) :
    lzw_sim (resetclzw ge1) c (resetlzw (getlzw_taken gd1)) b0 := by
  obtain ⟨k1, k2, k3, k4, k5, k6, k7, k8⟩ := getlzw_taken_keeps gd1
  have r1 : (resetlzw (getlzw_taken gd1)).lc0 = (getlzw_taken gd1).lc0 := rfl
  have r2 : (resetlzw (getlzw_taken gd1)).clear = (getlzw_taken gd1).clear := rfl
  have r3 : (resetlzw (getlzw_taken gd1)).cchar = (getlzw_taken gd1).cchar := rfl
  have r4 : (resetlzw (getlzw_taken gd1)).log = (getlzw_taken gd1).log := rfl
  refine lzw_sim_fresh _ _ c b0 (enc_tab_resetclzw ge1 he)
    (dec_tab_resetlzw _ (dec_tab_taken gd1 d1)) ?_ ?_ rfl rfl rfl rfl rfl rfl ?_ ?_ hc hc2
  · rw [r1, k1, d5]; rfl
  · rw [r2, k4, d6]; rfl
  · intro x hx1 hx2
    rw [r3, k8]
    rw [r2, k4] at hx1
    exact d7 x hx1 hx2
  · rw [r4, hlog, List.map_append, List.map_singleton, ← d8, d6, d4]
    rfl

theorem putlzw_end_cons (c : Nat) (src : List Nat) (ge : gifcbuf) (prev : Int) :
    putlzw_end (c :: src) ge prev =
      if prev < 0 then putlzw_end src ge c
      else if trie_get ge.codes prev.toNat c ≠ 0 then
        putlzw_end src ge ((trie_get ge.codes prev.toNat c : Int) - 4096)
      else if (emitlzw ge prev).nxc ≥ 4096 - 1 then
        putlzw_end src (resetclzw (emitlzw ge prev)) c
      else putlzw_end src (putlzw_add (emitlzw ge prev) (trie_slot prev.toNat c) c) c := by
  unfold putlzw_end
  rw [putlzw_loop_cons]
  split
  · rfl
  · split
    · rfl
    · split
      · rfl
      · rfl

theorem putlzw_add_log (g : gifcbuf) (i c : Nat) : (putlzw_add g i c).log = g.log := by
  unfold putlzw_add putlzw_map
  split <;> rfl

theorem putlzw_loop_log (src : List Nat) :
    ∀ (ge : gifcbuf) (prev : Int), ∃ mid, (putlzw_loop src (ge, prev)).1.log = ge.log ++ mid := by
  induction src with
  | nil => intro ge prev; exact ⟨[], by simp [putlzw_loop]⟩
  | cons c src ih =>
    intro ge prev
    rw [putlzw_loop_cons]
    obtain ⟨_, _, _, e4, _⟩ := emitlzw_fields ge prev
    split
    · exact ih ge c
    · split
      · exact ih ge _
      · split
        · obtain ⟨mid, h⟩ := ih (resetclzw (emitlzw ge prev)) c
          refine ⟨[(prev, ge.lc), (((emitlzw ge prev).clear : Int), (emitlzw ge prev).lc)] ++ mid, ?_⟩
          rw [h]
          show ((emitlzw ge prev).log ++ _) ++ mid = _
          rw [e4]
          simp
        · obtain ⟨mid, h⟩ := ih (putlzw_add (emitlzw ge prev) (trie_slot prev.toNat c) c) c
          refine ⟨[(prev, ge.lc)] ++ mid, ?_⟩
          rw [h, putlzw_add_log, e4]
          simp

theorem donelzw_log_of (g g1 : gifcbuf) (prev : Int) (h1 : g1.log = g.log)
    (h2 : g1.prev = prev) (h3 : g1.lc = g.lc) (h4 : g1.clear = g.clear) (h5 : g1.nxc = g.nxc)
    (h6 : g1.nxc2 = g.nxc2) :
    (donelzw g1).log =
      g.log ++ [(prev, g.lc), ((g.clear : Int) + 1, (emitlzw g prev).lc)] := by
  have e8 := (emitlzw_fields g prev).2.2.2.2.2.2.2.1
  have e8b := (emitlzw_fields g1 prev).2.2.2.2.2.2.2.1
  rw [h3, h5, h6, ← e8] at e8b
  rw [donelzw_log, h1, h2, h3, h4, e8b]

theorem putlzw_end_nil (ge : gifcbuf) (prev : Int) :
    (putlzw_end [] ge prev).log =
      ge.log ++ [(prev, ge.lc), ((ge.clear : Int) + 1, (emitlzw ge prev).lc)] :=
  donelzw_log_of ge _ prev rfl rfl rfl rfl rfl rfl

theorem putlzw_end_log (src : List Nat) (ge : gifcbuf) (prev : Int) :
    ∃ rest, (putlzw_end src ge prev).log = ge.log ++ rest := by
  obtain ⟨mid, h⟩ := putlzw_loop_log src ge prev
  have h2 := donelzw_log_of (putlzw_loop src (ge, prev)).1
    { (putlzw_loop src (ge, prev)).1 with prev := (putlzw_loop src (ge, prev)).2 }
    (putlzw_loop src (ge, prev)).2 rfl rfl rfl rfl rfl rfl
  rw [h, List.append_assoc] at h2
  exact ⟨_, h2⟩

theorem lzw_sim_run_nil (ge : gifcbuf) (prev : Int) (gd : gifbuf) (b0 tail cnt : Nat)
    (dest : List Nat) (rest : List (Int × Nat)) (n extra : Nat)
    (hs : lzw_sim ge prev gd b0) (hL : (putlzw_end [] ge prev).log = ge.log ++ rest)
    (hr : dec_reads gd rest)
    (hcnt : cnt = tail + (enc_str gd b0 prev).length + extra) (hex : extra ≤ 1)
    (hn : rest.length ≤ n) :
    ∃ gf, getlzw_loop n gd tail cnt dest =
        some (decide (extra = 0), dest ++ getlzw_out gd.buf tail tail ++ enc_str gd b0 prev, gf) ∧
      (extra = 1 →
        (putlzw_end [] ge prev).log = gf.log.map (fun e => ((e.1 : Int), e.2))) := by
  rw [putlzw_end_nil] at hL ⊢
  have hrest := List.append_cancel_left hL
  subst hrest
  have hne := enc_str_ne_nil gd b0 prev hs.2.2.2.2.2.2.2.2.1.1
  have hlen : 1 ≤ (enc_str gd b0 prev).length := List.length_pos.mpr hne
  have s_et := hs.1
  have s_log := hs.2.2.2.2.2.2.2.2.2.2.2
  obtain ⟨_, _, _, p4⟩ := enc_code_lt ge prev s_et hs.2.2.2.2.2.2.2.2.1
  obtain ⟨gd1, st, o1, r1, d1, d2, d3, d4, d5, d6, d7, d8, d9⟩ :=
    lzw_sim_decode ge prev gd b0 _ tail cnt hs hr (by omega)
  obtain ⟨n2, rfl⟩ : ∃ n2, n = n2 + 2 := ⟨n - 2, by
    simp only [List.length_cons, List.length_nil] at hn
    omega⟩
  have hct : cnt - tail = (enc_str gd b0 prev).length + extra := by omega
  rw [getlzw_loop, st, hct]
  dsimp only
  rcases Nat.le_one_iff_eq_zero_or_eq_one.mp hex with h0 | h1
  · subst h0
    rw [getlzw_loop, Nat.add_zero, getlzw_step_of_tail gd1 _ _ (le_refl _)]
    dsimp only
    rw [o1]
    exact ⟨_, rfl, fun h => absurd h (by decide)⟩
  · subst h1
    obtain ⟨he, _⟩ := enc_tab_emitlzw ge prev s_et
    have hc1 := (clear_lt _ he).1
    have e3 : (emitlzw ge prev).clear = ge.clear := (emitlzw_fields ge prev).2.2.1
    rw [e3, ← d4] at hc1
    rw [← d4] at r1
    have hcm : gd1.cmask = 2 ^ gd1.lc - 1 := d1.1.2.2.2.2.1
    obtain ⟨hcode, hrt, hlog⟩ := getlzw_read gd1 ((ge.clear : Int) + 1) []
      (enc_str gd b0 prev).length ((enc_str gd b0 prev).length + 1) r1 (by omega) hc1 hcm
      (by omega)
    have htn : ((ge.clear : Int) + 1).toNat = ge.clear + 1 := by omega
    rw [htn] at hcode hlog
    obtain ⟨_, _, _, hstep⟩ := getlzw_step_of_code gd1 _ _ _ hcode
    obtain ⟨_, _, _, k4, _⟩ := getlzw_taken_keeps gd1
    have hdec : getlzw_decode (getlzw_taken gd1) gd1.cmask (ge.clear + 1) 0
        ((enc_str gd b0 prev).length + 1 - (enc_str gd b0 prev).length)
        (getlzw_out gd1.buf (enc_str gd b0 prev).length (enc_str gd b0 prev).length) =
        .fail (getlzw_taken gd1)
          (getlzw_out gd1.buf (enc_str gd b0 prev).length (enc_str gd b0 prev).length) := by
      unfold getlzw_decode
      rw [k4, d6, if_neg (by omega), if_pos rfl]
    rw [getlzw_loop, hstep, hdec]
    dsimp only
    rw [o1]
    refine ⟨_, rfl, fun _ => ?_⟩
    rw [hlog, d8, s_log, d4]
    simp only [List.map_append, List.map_cons, List.map_nil, List.append_assoc,
      List.singleton_append, p4]
    push_cast
    rfl

/-- The decoder follows the encoder: when the two are in step, the decoder has the
codes to read that the encoder will have written after the bytes `src` and
`donelzw`, and as many bytes are asked for as the encoder still has to code, then
`getlzw` stores these bytes and returns `TRUE`. When one byte more is asked for, it
reads the end code too and returns `FALSE`, and has then read the codes that the
encoder has written, each at the code size it was written at. -/
theorem lzw_sim_run (src : List Nat) :
    ∀ (ge : gifcbuf) (prev : Int) (gd : gifbuf) (b0 tail cnt : Nat) (dest : List Nat)
      (rest : List (Int × Nat)) (n extra : Nat),
      lzw_sim ge prev gd b0 → (∀ b ∈ src, b < ge.clear ∧ b < 256) →
      (putlzw_end src ge prev).log = ge.log ++ rest → dec_reads gd rest →
      cnt = tail + (enc_str gd b0 prev).length + src.length + extra → extra ≤ 1 →
      rest.length ≤ n →
      ∃ gf, getlzw_loop n gd tail cnt dest =
          some (decide (extra = 0),
            dest ++ getlzw_out gd.buf tail tail ++ enc_str gd b0 prev ++ src, gf) ∧
        (extra = 1 →
          (putlzw_end src ge prev).log = gf.log.map (fun e => ((e.1 : Int), e.2))) := by
  induction src with
  | nil =>
    intro ge prev gd b0 tail cnt dest rest n extra hs _ hL hr hcnt hex hn
    rw [List.append_nil]
    exact lzw_sim_run_nil ge prev gd b0 tail cnt dest rest n extra hs hL hr
      (by rw [hcnt]; simp) hex hn
  | cons c src ih =>
    intro ge prev gd b0 tail cnt dest rest n extra hs hb hL hr hcnt hex hn
    obtain ⟨hc1, hc2⟩ := hb c (List.mem_cons_self _ _)
    have hb1 : ∀ b ∈ src, b < ge.clear ∧ b < 256 := fun b h => hb b (List.mem_cons_of_mem _ h)
    have s_et := hs.1
    have s_prev := hs.2.2.2.2.2.2.2.2.1
    have s_log := hs.2.2.2.2.2.2.2.2.2.2.2
    have hp0 : ¬ prev < 0 := by have := s_prev.1; omega
    obtain ⟨e1, e2, e3, e4, _⟩ := emitlzw_fields ge prev
    rw [putlzw_end_cons, if_neg hp0] at hL ⊢
    rw [List.length_cons] at hcnt
    by_cases hm : trie_get ge.codes prev.toNat c ≠ 0
    · rw [if_pos hm] at hL ⊢
      obtain ⟨hs1, hstr⟩ := lzw_sim_match ge prev gd b0 c hs hc2 hm
      obtain ⟨gf, g1, g2⟩ := ih ge _ gd b0 tail cnt dest rest n extra hs1 hb1 hL hr
        (by rw [hstr, List.length_append, List.length_singleton, hcnt]; omega) hex hn
      refine ⟨gf, ?_, g2⟩
      rw [g1, hstr]
      simp
    · rw [if_neg hm] at hL ⊢
      have hne := enc_str_ne_nil gd b0 prev s_prev.1
      have hlen : 1 ≤ (enc_str gd b0 prev).length := List.length_pos.mpr hne
      obtain ⟨he, hlt⟩ := enc_tab_emitlzw ge prev s_et
      by_cases hnx : (emitlzw ge prev).nxc ≥ 4096 - 1
      · rw [if_pos hnx] at hL ⊢
        obtain ⟨rest2, hL2⟩ := putlzw_end_log src (resetclzw (emitlzw ge prev)) c
        have hrl : (resetclzw (emitlzw ge prev)).log =
            ge.log ++ [(prev, ge.lc), ((ge.clear : Int), (emitlzw ge prev).lc)] := by
          show (emitlzw ge prev).log ++ [(((emitlzw ge prev).clear : Int), (emitlzw ge prev).lc)] = _
          rw [e4, e3, List.append_assoc]
          rfl
        have hrest : rest = (prev, ge.lc) :: ((ge.clear : Int), (emitlzw ge prev).lc) :: rest2 := by
          rw [hL2, hrl, List.append_assoc] at hL
          exact (List.append_cancel_left hL).symm
        subst hrest
        obtain ⟨gd1, st, o1, r1, d1, d2, d3, d4, d5, d6, d7, d8, d9⟩ :=
          lzw_sim_decode ge prev gd b0 _ tail cnt hs hr (by omega)
        rw [← d6, ← d4] at r1
        obtain ⟨st2, r2, hlog2⟩ := getlzw_read_clear gd1 rest2 (enc_str gd b0 prev).length
          (cnt - tail) d1 r1 (by omega)
        have d8b : (emitlzw ge prev).log = gd1.log.map (fun e => ((e.1 : Int), e.2)) := by
          obtain ⟨_, _, _, p4⟩ := enc_code_lt ge prev s_et s_prev
          rw [e4, d8, s_log, List.map_append, List.map_singleton, p4]
        have hs2 := lzw_sim_reset (emitlzw ge prev) gd1 c c he d1 d4 (by rw [d5, e1])
          (by rw [d6, e3]) d7 d8b hlog2 (by rw [e3]; exact hc1) hc2
        have hroot : enc_str (resetlzw (getlzw_taken gd1)) c (c : Int) = [c] :=
          enc_str_root _ hs2.2.1 hs2.2.2.2.2.2.1 c c (by
            rw [hs2.2.2.2.1]
            show c < (emitlzw ge prev).clear
            rw [e3]
            exact hc1) hc2
        obtain ⟨n2, rfl⟩ : ∃ n2, n = n2 + 2 := ⟨n - 2, by
          simp only [List.length_cons] at hn
          omega⟩
        obtain ⟨gf, g1, g2⟩ := ih (resetclzw (emitlzw ge prev)) c (resetlzw (getlzw_taken gd1)) c 0
          (cnt - tail - (enc_str gd b0 prev).length)
          (dest ++ getlzw_out gd.buf tail tail ++
            getlzw_out gd1.buf (enc_str gd b0 prev).length (enc_str gd b0 prev).length)
          rest2 n2 extra hs2 (fun b h => by
            have := hb1 b h
            exact ⟨by show b < (emitlzw ge prev).clear; rw [e3]; exact this.1, this.2⟩)
          hL2 r2
          (by rw [hroot, List.length_singleton]; omega) hex
          (by simp only [List.length_cons] at hn; omega)
        refine ⟨gf, ?_, g2⟩
        rw [getlzw_loop, st]
        dsimp only
        rw [getlzw_loop, st2]
        dsimp only
        rw [g1, hroot, o1]
        simp [getlzw_out]
      · rw [if_neg hnx] at hL ⊢
        obtain ⟨rest2, hL2⟩ := putlzw_end_log src
          (putlzw_add (emitlzw ge prev) (trie_slot prev.toNat c) c) c
        have hrl : (putlzw_add (emitlzw ge prev) (trie_slot prev.toNat c) c).log =
            ge.log ++ [(prev, ge.lc)] := by
          rw [putlzw_add_log, e4]
        have hrest : rest = (prev, ge.lc) :: rest2 := by
          rw [hL2, hrl, List.append_assoc] at hL
          exact (List.append_cancel_left hL).symm
        subst hrest
        obtain ⟨gd1, st, o1, r1, d1, d2, d3, d4, d5, d6, d7, d8, d9⟩ :=
          lzw_sim_decode ge prev gd b0 _ tail cnt hs hr (by omega)
        have hs2 := lzw_sim_add ge prev gd gd1 b0 c hs hc1 hc2 (by rw [e2] at hnx; omega)
          d1 d2 d3 d4 d5 d6 d7 d8 d9
        have hroot : enc_str gd1 c (c : Int) = [c] :=
          enc_str_root gd1 d1 d7 c c (by rw [d6]; exact hc1) hc2
        have hacl : (putlzw_add (emitlzw ge prev) (trie_slot prev.toNat c) c).clear = ge.clear := by
          unfold putlzw_add putlzw_map
          split <;> exact e3
        obtain ⟨n2, rfl⟩ : ∃ n2, n = n2 + 1 := ⟨n - 1, by
          simp only [List.length_cons] at hn
          omega⟩
        obtain ⟨gf, g1, g2⟩ := ih (putlzw_add (emitlzw ge prev) (trie_slot prev.toNat c) c) c gd1
          c (enc_str gd b0 prev).length (cnt - tail) (dest ++ getlzw_out gd.buf tail tail)
          rest2 n2 extra hs2 (fun b h => by
            have := hb1 b h
            exact ⟨by rw [hacl]; exact this.1, this.2⟩)
          hL2 r1
          (by rw [hroot, List.length_singleton]; omega) hex
          (by simp only [List.length_cons] at hn; omega)
        refine ⟨gf, ?_, g2⟩
        rw [getlzw_loop, st]
        dsimp only
        rw [g1, hroot, o1]
        simp

theorem lzw_encode_form (m : Nat) (x : List Nat) (hm : m ≤ 11) (hx : x ≠ [])
    (hb : ∀ b ∈ x, b < 2 ^ ((if m < 2 then 2 else m) + 1)) :
    ∃ Bs T, lzw_encode m x =
        [] ++ [(if m < 2 then 2 else m) % 256] ++ put_blocks Bs ++ T.length :: T ++ [0] ∧
      (∀ b ∈ Bs, b.length = 255) ∧ T.length ≤ 255 ∧
      bytes_val (Bs.flatten ++ T) =
        codes_val (donelzw (putlzw (initclzw gifcbuf_zero m []) x)).log ∧
      codes_bits (donelzw (putlzw (initclzw gifcbuf_zero m []) x)).log ≤
        8 * (Bs.flatten ++ T).length ∧
      (∀ b ∈ Bs.flatten ++ T, b < 256) ∧
      (∀ e ∈ (donelzw (putlzw (initclzw gifcbuf_zero m []) x)).log, 1 ≤ e.2) := by
  have ht0 := enc_tab_initclzw gifcbuf_zero m [] hm
  have hv0 := enc_val_initclzw gifcbuf_zero m []
  obtain ⟨hl0, hp0⟩ := enc_log_initclzw (2 ^ ((if m < 2 then 2 else m) + 1)) gifcbuf_zero m []
  have hlc0 : (initclzw gifcbuf_zero m []).lc0 = (if m < 2 then 2 else m) := rfl
  have hB0 : 2 ^ ((if m < 2 then 2 else m) + 1) ≤ 2 ^ ((initclzw gifcbuf_zero m []).lc0 + 1) := by
    rw [hlc0]
  obtain ⟨ht1, hp1, hl1⟩ := enc_tab_putlzw _ _ x ht0 hp0 hl0 hb
  have hv1 := enc_val_putlzw _ _ _ x ht0 hB0 hp0 hv0 hb
  obtain ⟨_, _, hlc1⟩ := putlzw_log_prefix _ _ x ht0 hp0 hb
  rw [hlc0] at hlc1
  have hB1 : 2 ^ ((if m < 2 then 2 else m) + 1) ≤
      2 ^ ((putlzw (initclzw gifcbuf_zero m []) x).lc0 + 1) := by rw [hlc1]
  have h0 : 0 ≤ (putlzw (initclzw gifcbuf_zero m []) x).prev := by
    cases x with
    | nil => exact absurd rfl hx
    | cons c src => exact putlzw_prev _ c src ht0
  have hfit := pow_le_lc _ _ ht1 hB1 _ (enc_prev_emit _ _ _ ht1 hp1 (by omega))
  have hid := enc_inv_donelzw _ ht1.1
  obtain ⟨Bs, T, d1, d2, d3, d4, d5, d6⟩ := donelzw_val _ _ ht1 hv1 h0 hfit
  refine ⟨Bs, T, d1, d2, d3, d4, d5, d6, ?_⟩
  intro e he
  have := (hid.2.2.2.2.2.2.2 e he).1
  omega

theorem put_blocks_lt (Bs : List (List Nat)) :
    (∀ b ∈ Bs.flatten, b < 256) → ∀ b ∈ put_blocks Bs, b < 256 := by
  induction Bs with
  | nil => intro _ b hb; cases hb
  | cons a r ih =>
    intro h b hb
    rw [put_blocks] at hb
    rw [List.flatten_cons] at h
    rcases List.mem_cons.mp hb with h1 | h1
    · omega
    · rcases List.mem_append.mp h1 with h2 | h2
      · exact h b (List.mem_append_left _ h2)
      · exact ih (fun c hc => h c (List.mem_append_right _ hc)) b h2

theorem file_data_length (k : Nat) : ∀ f : List Nat, (file_data k f).length ≤ f.length := by
  induction k with
  | zero => intro f; simp [file_data]
  | succ k ih =>
    intro f
    cases f with
    | nil => simp [file_data]
    | cons l rest =>
      rw [file_data]
      split
      · simp
      · split
        · simp
        · have := ih (rest.drop l)
          rw [List.length_append, List.length_take, List.length_cons]
          rw [List.length_drop] at this
          omega

theorem codes_bits_ge (l : List (Int × Nat)) (h : ∀ e ∈ l, 1 ≤ e.2) : l.length ≤ codes_bits l := by
  induction l with
  | nil => simp [codes_bits]
  | cons e r ih =>
    have h1 := h e (List.mem_cons_self _ _)
    have h2 := ih (fun x hx => h x (List.mem_cons_of_mem _ hx))
    rw [codes_bits, List.length_cons]
    omega

theorem initlzw_fields (mem : gifbuf) (md : Nat) (rest : List Nat) (h : md ≤ 11) :
    (initlzw mem (md :: rest)).1 = true ∧ (initlzw mem (md :: rest)).2.f = rest ∧
    (initlzw mem (md :: rest)).2.ptr = 0 ∧ (initlzw mem (md :: rest)).2.end_ = 0 ∧
    (initlzw mem (md :: rest)).2.tail = 0 ∧ (initlzw mem (md :: rest)).2.w = 0 ∧
    (initlzw mem (md :: rest)).2.bits = 0 ∧ (initlzw mem (md :: rest)).2.log = [] ∧
    (initlzw mem (md :: rest)).2.lc0 = md ∧ (initlzw mem (md :: rest)).2.clear = 2 ^ md ∧
    (initlzw mem (md :: rest)).2.lc = md + 1 ∧
    (∀ c, c < 2 ^ md → c < 256 → (initlzw mem (md :: rest)).2.cchar c = c) := by
  unfold initlzw
  dsimp only
  rw [if_neg (by omega)]
  refine ⟨rfl, rfl, rfl, rfl, rfl, rfl, rfl, rfl, rfl, one_shiftLeft md, rfl, ?_⟩
  intro c hc h256
  show (initlzw_loop (1 <<< md) (mem.nxcode, mem.cchar)).2 c = c
  rw [(initlzw_loop_spec _ _ _ c).2, one_shiftLeft, if_pos hc]
  exact Nat.mod_eq_of_lt h256

/-- The round trip of the LZW coder on a non-empty input whose bytes are below the
clear code: the decoder, set up on the encoder's output and asked for as many
bytes as were put in, returns `TRUE` with these bytes; asked for one byte more, it
reads the end code as well and returns `FALSE`, having read the codes that the
encoder has written, each at the code size it was written at. -/
theorem lzw_round (m : Nat) (x : List Nat) (extra : Nat) (hm : m ≤ 11) (hx : x ≠ [])
    (hb : ∀ b ∈ x, b < 2 ^ (if m < 2 then 2 else m) ∧ b < 256) (hex : extra ≤ 1) :
    (initlzw gifbuf_zero (lzw_encode m x)).1 = true ∧
    ∃ gf, getlzw (x.length + extra) (initlzw gifbuf_zero (lzw_encode m x)).2 =
        some (decide (extra = 0), x, gf) ∧
      (extra = 1 → (donelzw (putlzw (initclzw gifcbuf_zero m []) x)).log =
        gf.log.map (fun e => ((e.1 : Int), e.2))) := by
  have hM : 2 ≤ (if m < 2 then 2 else m) ∧ (if m < 2 then 2 else m) ≤ 11 := by
    split <;> omega
  have hb1 : ∀ b ∈ x, b < 2 ^ ((if m < 2 then 2 else m) + 1) := by
    intro b h
    have := (hb b h).1
    rw [Nat.pow_succ]
    omega
  obtain ⟨Bs, T, f1, f2, f3, f4, f5, f6, f7⟩ := lzw_encode_form m x hm hx hb1
  have ht0 := enc_tab_initclzw gifcbuf_zero m [] hm
  have hg0 : (initclzw gifcbuf_zero m []).log =
      [(((2 ^ (if m < 2 then 2 else m) : Nat) : Int), (if m < 2 then 2 else m) + 1)] := by
    show [] ++ [(((1 <<< (if m < 2 then 2 else m) : Nat) : Int), (if m < 2 then 2 else m) + 1)] = _
    rw [one_shiftLeft]
    rfl
  have hg1 : (initclzw gifcbuf_zero m []).clear = 2 ^ (if m < 2 then 2 else m) :=
    one_shiftLeft _
  have hs : lzw_encode m x =
      (if m < 2 then 2 else m) :: (put_blocks Bs ++ T.length :: T ++ [0]) := by
    rw [f1, Nat.mod_eq_of_lt (by omega)]
    simp
  rw [hs]
  generalize hM0 : (if m < 2 then 2 else m) = M at *
  generalize hbody : put_blocks Bs ++ T.length :: T ++ [0] = body at *
  cases x with
  | nil => exact absurd rfl hx
  | cons c src =>
    obtain ⟨hc1, hc2⟩ := hb c (List.mem_cons_self _ _)
    have hLf : (donelzw (putlzw (initclzw gifcbuf_zero m []) (c :: src))).log =
        (putlzw_end src (initclzw gifcbuf_zero m []) c).log := by
      have e : donelzw (putlzw (initclzw gifcbuf_zero m []) (c :: src)) =
          putlzw_end (c :: src) (initclzw gifcbuf_zero m []) (-1) := rfl
      rw [e, putlzw_end_cons, if_pos (by omega)]
    obtain ⟨rest1, hr1⟩ := putlzw_end_log src (initclzw gifcbuf_zero m []) c
    rw [hLf] at f4 f5 f7 ⊢
    obtain ⟨i1, i2, i3, i4, i5, i6, i7, i8, i9, i10, i11, i12⟩ :=
      initlzw_fields gifbuf_zero M body hM.2
    have hd0 := dec_tab_initlzw gifbuf_zero (M :: body) i1
    have hstream : dec_stream (initlzw gifbuf_zero (M :: body)).2 = Bs.flatten ++ T := by
      unfold dec_stream dec_buf
      rw [i4, i3, i2, ← hbody]
      simp only [Nat.cast_zero, sub_self, Int.toNat_zero, List.range_zero, List.map_nil,
        List.nil_append]
      exact file_data_blocks Bs T f3 f2
    have hbody256 : ∀ b ∈ body, b < 256 := by
      rw [← hbody]
      intro b hb2
      rcases List.mem_append.mp hb2 with h1 | h1
      · rcases List.mem_append.mp h1 with h2 | h2
        · exact put_blocks_lt Bs (fun c hc => f6 c (List.mem_append_left _ hc)) b h2
        · rcases List.mem_cons.mp h2 with h3 | h3
          · omega
          · exact f6 b (List.mem_append_right _ h3)
      · rw [List.mem_singleton] at h1
        omega
    have hreads : dec_reads (initlzw gifbuf_zero (M :: body)).2
        ((((initlzw gifbuf_zero (M :: body)).2.clear : Int),
          (initlzw gifbuf_zero (M :: body)).2.lc) :: rest1) := by
      rw [i10, i11]
      rw [hr1, hg0] at f4 f5
      refine ⟨by rw [i6, i7]; decide, by rw [i4]; decide, by rw [i2]; exact hbody256,
        by rw [hstream]; exact f6, ?_, ?_⟩
      · unfold dec_val
        rw [i6, i7, hstream, f4]
        simp
      · rw [i7, hstream]
        simpa using f5
    obtain ⟨st0, r1, hlog0⟩ := getlzw_read_clear _ rest1 0 ((c :: src).length + extra) hd0 hreads
      (by simp)
    obtain ⟨k1, k2, k3, k4, k5, k6, k7, k8⟩ :=
      getlzw_taken_keeps (initlzw gifbuf_zero (M :: body)).2
    have hsim : lzw_sim (initclzw gifcbuf_zero m []) c
        (resetlzw (getlzw_taken (initlzw gifbuf_zero (M :: body)).2)) c := by
      refine lzw_sim_fresh _ _ c c ht0 (dec_tab_resetlzw _ (dec_tab_taken _ hd0))
        ?_ ?_ rfl rfl rfl rfl rfl rfl ?_ ?_ ?_ hc2
      · show (getlzw_taken (initlzw gifbuf_zero (M :: body)).2).lc0 = _
        rw [k1, i9]
        exact hM0.symm
      · show (getlzw_taken (initlzw gifbuf_zero (M :: body)).2).clear = _
        rw [k4, i10, hg1]
      · intro a ha h256
        show (getlzw_taken (initlzw gifbuf_zero (M :: body)).2).cchar a = a
        have ha2 : a < (getlzw_taken (initlzw gifbuf_zero (M :: body)).2).clear := ha
        rw [k4, i10] at ha2
        rw [k8]
        exact i12 a ha2 h256
      · show _ = (getlzw_taken (initlzw gifbuf_zero (M :: body)).2).log.map _
        rw [hlog0, i8, i10, i11, hg0]
        rfl
      · rw [hg1]; exact hc1
    have hroot : enc_str (resetlzw (getlzw_taken (initlzw gifbuf_zero (M :: body)).2)) c (c : Int) =
        [c] :=
      enc_str_root _ hsim.2.1 hsim.2.2.2.2.2.1 c c (by rw [hsim.2.2.2.1, hg1]; exact hc1) hc2
    have hlen : rest1.length + 1 ≤ 8 * body.length := by
      have h1 := codes_bits_ge _ f7
      rw [hr1, hg0] at h1 f5
      have h2 := file_data_length body.length body
      have h3 : file_data body.length body = Bs.flatten ++ T := by
        rw [← hbody]; exact file_data_blocks Bs T f3 f2
      rw [h3] at h2
      simp only [List.length_cons, List.singleton_append] at h1
      simp only [List.singleton_append] at f5
      omega
    obtain ⟨gf, g1, g2⟩ := lzw_sim_run src (initclzw gifcbuf_zero m []) c _ c 0
      ((c :: src).length + extra - 0) ([] ++ getlzw_out (initlzw gifbuf_zero (M :: body)).2.buf 0 0)
      rest1 (8 * 256 + 8 * body.length + 1) extra hsim
      (fun b h => by
        have := hb b (List.mem_cons_of_mem _ h)
        rw [hg1]
        exact this)
      hr1 r1 (by rw [hroot]; simp; omega) hex (by omega)
    refine ⟨i1, gf, ?_, g2⟩
    unfold getlzw
    rw [i7, i2, i5]
    have hN : 0 + 8 * 256 + 8 * body.length + 2 = (8 * 256 + 8 * body.length + 1) + 1 := by omega
    rw [hN, getlzw_loop, st0]
    dsimp only
    rw [g1, hroot]
    simp [getlzw_out]

/-- C1: for every minimum code size `m` in 2..8 and every byte sequence `x`, of
any length, whose bytes are all below `2 ^ m`, encoding `x` with `initclzw`,
`putlzw`, `donelzw` and decoding the stream written with `initlzw` and `getlzw`,
asked for as many bytes as `x` has, succeeds and returns exactly `x`. -/
theorem lzw_round_trip (m : Nat) (x : List Nat) (hm2 : 2 ≤ m) (hm8 : m ≤ 8)
    (hb : ∀ b ∈ x, b < 2 ^ m) : lzw_decode x.length (lzw_encode m x) = some x := by
  have hM : (if m < 2 then 2 else m) = m := if_neg (by omega)
  by_cases hx : x = []
  · subst hx
    obtain ⟨Bs, T, h1, -, -⟩ := lzw_encode_out m []
    rw [hM] at h1
    have h2 : lzw_encode m [] = (m % 256) :: (put_blocks Bs ++ T.length :: T ++ [0]) := by
      rw [h1]
      simp
    unfold lzw_decode
    dsimp only
    rw [h2, initlzw_ok _ _ _ (by omega : m % 256 ≤ 11), if_pos rfl]
    unfold getlzw
    rw [getlzw_loop, List.length_nil, getlzw_step_of_tail _ _ _ (Nat.zero_le _)]
    rfl
  · have h256 : 2 ^ m ≤ 256 := by
      have : 2 ^ m ≤ 2 ^ 8 := Nat.pow_le_pow_right (by omega) hm8
      simpa using this
    obtain ⟨h1, gf, h2, -⟩ := lzw_round m x 0 (by omega) hx
      (fun b h => by
        rw [hM]
        have := hb b h
        exact ⟨this, by omega⟩)
      (by omega)
    unfold lzw_decode
    dsimp only
    rw [h1, if_pos rfl]
    rw [Nat.add_zero] at h2
    rw [h2]
    rfl

theorem lzw_round_trip_witness :
    lzw_decode [0, 1, 1, 0, 3].length (lzw_encode 2 [0, 1, 1, 0, 3]) = some [0, 1, 1, 0, 3] :=
  lzw_round_trip 2 [0, 1, 1, 0, 3] (by decide) (by decide) (by decide)

/-- C18, amended: for every non-empty input whose bytes are below the clear code
(`2 ^ m`, where a minimum code size `m` below 2 counts as 2 and `m` is at most
11), the decoder, set up on the stream that the encoder has written and asked for
one byte more than was put in, reads every code of the stream up to the end code,
and the code sizes at which it reads them are, in order, the code sizes at which
the encoder has written them, the clear codes and the end code included. -/
theorem lzw_code_widths (m : Nat) (x : List Nat) (hm : m ≤ 11) (hx : x ≠ [])
    (hb : ∀ b ∈ x, b < 2 ^ (if m < 2 then 2 else m) ∧ b < 256) :
    ∃ gf, getlzw (x.length + 1) (initlzw gifbuf_zero (lzw_encode m x)).2 = some (false, x, gf) ∧
      (donelzw (putlzw (initclzw gifcbuf_zero m []) x)).log.map Prod.snd =
        gf.log.map Prod.snd := by
  obtain ⟨-, gf, h2, h3⟩ := lzw_round m x 1 hm hx hb (le_refl 1)
  refine ⟨gf, h2, ?_⟩
  rw [h3 rfl, List.map_map]
  rfl

theorem lzw_code_widths_witness :
    ∃ gf, getlzw ([0, 1, 1, 0].length + 1) (initlzw gifbuf_zero (lzw_encode 2 [0, 1, 1, 0])).2 =
        some (false, [0, 1, 1, 0], gf) ∧
      (donelzw (putlzw (initclzw gifcbuf_zero 2 []) [0, 1, 1, 0])).log.map Prod.snd =
        gf.log.map Prod.snd :=
  lzw_code_widths 2 [0, 1, 1, 0] (by decide) (by decide) (by decide)

set_option maxHeartbeats 4000000 in
/-- C18 as stated fails. With the minimum code size 2 the encoder takes the input
`[0, 0, 4, 0]`, whose third byte is the clear code, and writes six codes at the
code sizes 3, 3, 3, 3, 4, 4; the decoder reads the code 4 as a clear code and
reads the fifth code of the stream at the code size 3. For the empty input the
encoder writes three codes, of which the decoder reads two before it fails. -/
theorem lzw_code_widths_counterexample :
    ((donelzw (putlzw (initclzw gifcbuf_zero 2 []) [0, 0, 4, 0])).log.map Prod.snd =
        [3, 3, 3, 3, 4, 4] ∧
      (getlzw 5 (initlzw gifbuf_zero (lzw_encode 2 [0, 0, 4, 0])).2).map
        (fun r => r.2.2.log.map Prod.snd) = some [3, 3, 3, 3, 3, 3, 3]) ∧
    ((donelzw (putlzw (initclzw gifcbuf_zero 2 []) [])).log.map Prod.snd = [3, 3, 3] ∧
      (getlzw 1 (initlzw gifbuf_zero (lzw_encode 2 [])).2).map
        (fun r => (r.1, r.2.2.log.map Prod.snd)) = some (false, [3, 3])) := by
  decide!

theorem agf_prepare_mode (K : consts) (stat : ani_status) (settings : ls_settings) (m : Nat) :
    agf_prepare K { stat with mode := m } settings =
      { agf_prepare K stat settings with mode := m } := by
  rfl

theorem colors_needed_mode (stat : ani_status) (settings : ls_settings) (m : Nat) :
    colors_needed { stat with mode := m } settings = colors_needed stat settings := rfl

theorem raw_over_colors_needed :
    colors_needed (agf_prepare consts_default raw_over_stat over_settings) over_settings = 257 := by
  have h : agf_prepare consts_default raw_over_stat over_settings =
      { agf_prepare consts_default over_stat over_settings with mode := 1 } :=
    agf_prepare_mode consts_default over_stat over_settings 1
  rw [h, colors_needed_mode]
  exact over_colors_needed

/-! ## The analysis in raw frame mode -/

/-- C31 as stated fails. In raw frame mode, for the underlay `over_prev` and the
new frame `over_settings`, whose visible colours with the background need a
palette of 257 entries, `analyze_gif_frame` returns 0, not a negative result. -/
theorem analyze_gif_frame_raw_counterexample :
    raw_over_stat.mode ≤ consts_default.ANM_RAW ∧
    colors_needed (agf_prepare consts_default raw_over_stat over_settings) over_settings = 257 ∧
    (analyze_gif_frame consts_default raw_over_stat over_settings).1 = 0 :=
  ⟨by decide, raw_over_colors_needed, rfl⟩

/-- C31 (amended): in raw frame mode (`mode <= ANM_RAW`) `analyze_gif_frame`
returns 0, the input frame kept as it is, and never the negative "too large"
result, whatever the colours of the underlay and of the new frame are; it takes
the new frame's palette (the global one if the frame has none), palette size,
transparent index and size as those of the output. -/
theorem analyze_gif_frame_raw (K : consts) (stat : ani_status) (settings : ls_settings)
    (hraw : stat.mode ≤ K.ANM_RAW) :
    analyze_gif_frame K stat settings =
      (0, { stat with newpal := (agf_pal stat settings).1, newcols := (agf_pal stat settings).2,
                      newtrans := settings.xpm_trans, defw := settings.width,
                      defh := settings.height }) ∧
    ¬ (analyze_gif_frame K stat settings).1 < 0 := by
  have h : analyze_gif_frame K stat settings =
      (0, { stat with newpal := (agf_pal stat settings).1, newcols := (agf_pal stat settings).2,
                      newtrans := settings.xpm_trans, defw := settings.width,
                      defh := settings.height }) := by
    unfold analyze_gif_frame
    dsimp only
    rw [if_pos hraw]
  refine ⟨h, ?_⟩
  rw [h]
  show ¬ (0 : Int) < 0
  omega

theorem analyze_gif_frame_raw_witness :
    analyze_gif_frame consts_default raw_over_stat over_settings =
      (0, { raw_over_stat with
              newpal := (agf_pal raw_over_stat over_settings).1,
              newcols := (agf_pal raw_over_stat over_settings).2,
              newtrans := over_settings.xpm_trans, defw := over_settings.width,
              defh := over_settings.height }) ∧
    ¬ (analyze_gif_frame consts_default raw_over_stat over_settings).1 < 0 :=
  analyze_gif_frame_raw consts_default raw_over_stat over_settings (by decide)

/-! ## The frame sequence handed back by `load_frameset` -/

/-- C32 as stated fails. When `load_frames_x` fails with the result -1 (as it does
on garbage or the end of the file after an image) having built the two frames of
`hole_fset`, `load_frameset` returns `FILE_LIB_ERROR`, which is not the success
code 1, and hands the two frames back. -/
theorem load_frameset_counterexample :
    (load_frameset file_codes_default (-1) (hole_fset 1)).1 = 123456 ∧
    (load_frameset file_codes_default (-1) (hole_fset 1)).1 ≠ 1 ∧
    (load_frameset file_codes_default (-1) (hole_fset 1)).2.frames = (hole_fset 1).frames ∧
    (load_frameset file_codes_default (-1) (hole_fset 1)).2.frames.length = 2 :=
  ⟨by decide, by decide, rfl, rfl⟩

/-- C32 (amended): when `load_frames_x` reports the out-of-memory error or has
built no frame, `load_frameset` passes its result on and hands back an empty
frame sequence, the frames built being freed. On every other result it hands
back the frame sequence as `load_frames_x` has built it: with the result as it
is for success (1) and for the too-many-frames error, and with `FILE_LIB_ERROR`
for every other failure, so that the frames composited before such a failure
reach the caller as a partial animation. -/
theorem load_frameset_frames (C : file_codes) (res : Int) (fset : frameset) :
    ((res = C.FILE_MEM_ERROR ∨ fset.frames = []) →
      load_frameset C res fset = (res, { frames := [], pal := none })) ∧
    (¬ (res = C.FILE_MEM_ERROR ∨ fset.frames = []) →
      (load_frameset C res fset).2 = fset ∧
      (load_frameset C res fset).1 =
        (if res = C.FILE_TOO_LONG ∨ res = 1 then res else C.FILE_LIB_ERROR)) := by
  have hc : fset.cnt = 0 ↔ fset.frames = [] := List.length_eq_zero
  unfold load_frameset
  constructor
  · intro h
    rw [if_pos (by rw [hc]; exact h)]
    rfl
  · intro h
    rw [if_neg (by rw [hc]; exact h)]
    by_cases h1 : res = C.FILE_TOO_LONG
    · rw [if_pos h1, if_pos (Or.inl h1)]
      exact ⟨rfl, rfl⟩
    · rw [if_neg h1]
      by_cases h2 : res = 1
      · rw [if_neg (not_not.mpr h2), if_pos (Or.inr h2)]
        exact ⟨rfl, rfl⟩
      · rw [if_pos h2, if_neg (by tauto)]
        exact ⟨rfl, rfl⟩

theorem load_frameset_frames_witness :
    load_frameset file_codes_default 123457 (hole_fset 1) =
      (123457, { frames := [], pal := none }) ∧
    ((load_frameset file_codes_default (-1) (hole_fset 1)).2 = hole_fset 1 ∧
      (load_frameset file_codes_default (-1) (hole_fset 1)).1 =
        (if (-1 : Int) = file_codes_default.FILE_TOO_LONG ∨ (-1 : Int) = 1 then -1
          else file_codes_default.FILE_LIB_ERROR)) :=
  ⟨(load_frameset_frames file_codes_default 123457 (hole_fset 1)).1 (Or.inl rfl),
    (load_frameset_frames file_codes_default (-1) (hole_fset 1)).2 (by
      intro h
      rcases h with h | h
      · exact absurd h (by decide)
      · exact absurd h (by simp [hole_fset]))⟩

/-! ## LZW: the entries of the encoder's trie -/

theorem enc_trie_resetclzw (g : gifcbuf) (h : enc_tab g) : enc_trie (resetclzw g) [] := by
  refine ⟨enc_tab_resetclzw g h, fun _ _ _ => rfl, fun p b _ _ => ⟨⟨fun h1 => ?_, fun h1 => ?_⟩, ?_⟩⟩
  · exact absurd rfl h1
  · obtain ⟨k, hk⟩ := h1
    exact absurd hk (List.not_mem_nil _)
  · intro k hk
    exact absurd hk (List.not_mem_nil _)

theorem enc_trie_initclzw (mem : gifcbuf) (m : Nat) (fp : List Nat) (hm : m ≤ 11) :
    enc_trie (initclzw mem m fp) [] := by
  refine ⟨enc_tab_initclzw mem m fp hm, fun _ _ _ => rfl,
    fun p b _ _ => ⟨⟨fun h1 => ?_, fun h1 => ?_⟩, ?_⟩⟩
  · exact absurd rfl h1
  · obtain ⟨k, hk⟩ := h1
    exact absurd hk (List.not_mem_nil _)
  · intro k hk
    exact absurd hk (List.not_mem_nil _)

theorem enc_trie_emitlzw (g : gifcbuf) (c : Int) (T : List (Nat × Nat × Nat))
    (h : enc_trie g T) : enc_trie (emitlzw g c) T := by
  obtain ⟨_, _, _, _, e5, e6, _⟩ := emitlzw_fields g c
  refine ⟨(enc_tab_emitlzw g c h.1).1, ?_, ?_⟩
  · rw [e5, e6]; exact h.2.1
  · rw [e5]; exact h.2.2

theorem putlzw_add_maps (g : gifcbuf) (p0 b0 : Nat) (h : enc_tab g)
    (hz : ∀ j, g.nxmap * 16 ≤ j → j < 65536 → g.codes j = 0) :
    ∀ j, (putlzw_add g (trie_slot p0 b0) b0).nxmap * 16 ≤ j → j < 65536 →
      (putlzw_add g (trie_slot p0 b0) b0).codes j = 0 := by
  intro j hj1 hj2
  obtain ⟨m1, m2, m3, m4, m5, m6, m7, m8, m9, m10, m11, m12, m13⟩ :=
    putlzw_map_spec g (trie_slot p0 b0) h (trie_slot_ge _ _)
  obtain ⟨n1, _⟩ := putlzw_map_nxmap g (trie_slot p0 b0)
  have hsl := trie_slot_ge p0 b0
  have h15 := and_15_lt b0
  have hj3 : (putlzw_map g (trie_slot p0 b0)).nxmap * 16 ≤ j := hj1
  show Function.update (putlzw_map g (trie_slot p0 b0)).codes
    ((putlzw_map g (trie_slot p0 b0)).codes (trie_slot p0 b0) * 16 + (b0 &&& 0xF)) _ j = 0
  rw [Function.update_noteq (by omega), m12 j (by omega)]
  exact hz j (by omega) hj2

theorem enc_trie_add (g : gifcbuf) (T : List (Nat × Nat × Nat)) (p0 b0 : Nat)
    (h : enc_trie g T) (hn : g.nxc < 4095) (hn2 : g.nxc < g.nxc2) (hp0 : p0 < 4096)
    (hb0 : b0 < 256) (hz0 : trie_get g.codes p0 b0 = 0) :
    enc_trie (putlzw_add g (trie_slot p0 b0) b0) (T ++ [(p0, b0, g.nxc)]) := by
  obtain ⟨ht, hz, hl⟩ := h
  refine ⟨(enc_tab_putlzw_add g _ b0 ht hn hn2 (trie_slot_ge _ _)).1,
    putlzw_add_maps g p0 b0 ht hz, ?_⟩
  intro p b hp hb
  rw [trie_get_add g p0 b0 p b ht hz hb0 hb]
  have hnot : ∀ k, (p0, b0, k) ∉ T := by
    intro k hk
    exact absurd hz0 (((hl p0 b0 hp0 hb0).1).mpr ⟨k, hk⟩)
  by_cases hpq : p = p0 ∧ b = b0
  · rw [if_pos hpq, hpq.1, hpq.2]
    refine ⟨⟨fun _ => ⟨g.nxc, List.mem_append_right _ (List.mem_singleton.mpr rfl)⟩,
      fun _ => by omega⟩, ?_⟩
    intro k hk
    rcases List.mem_append.mp hk with h1 | h1
    · exact absurd h1 (hnot k)
    · rw [List.mem_singleton] at h1
      have : k = g.nxc := by injection h1 with _ h2; injection h2
      rw [this]
  · rw [if_neg hpq]
    have hmem : ∀ k, (p, b, k) ∈ T ++ [(p0, b0, g.nxc)] ↔ (p, b, k) ∈ T := by
      intro k
      constructor
      · intro hk
        rcases List.mem_append.mp hk with h1 | h1
        · exact h1
        · rw [List.mem_singleton] at h1
          exfalso
          apply hpq
          injection h1 with h2 h3
          injection h3 with h4 _
          exact ⟨h2, h4⟩
      · exact fun hk => List.mem_append_left _ hk
    refine ⟨⟨fun h1 => ?_, fun h1 => ?_⟩, fun k hk => (hl p b hp hb).2 k ((hmem k).mp hk)⟩
    · obtain ⟨k, hk⟩ := ((hl p b hp hb).1).mp h1
      exact ⟨k, (hmem k).mpr hk⟩
    · obtain ⟨k, hk⟩ := h1
      exact ((hl p b hp hb).1).mpr ⟨k, (hmem k).mp hk⟩

theorem enc_prev_toNat (g : gifcbuf) (prev : Int) (ht : enc_tab g) (hp : enc_prev 256 g prev)
    (h0 : ¬ prev < 0) : prev.toNat < 4096 := by
  have h3 : g.nxc ≤ 4095 := ht.1.2.2.2.2.2.1
  rcases hp with h | ⟨_, h | h⟩
  · omega
  · have : prev < 256 := h
    omega
  · omega

theorem enc_trie_putlzw_loop (src : List Nat) :
    ∀ (g : gifcbuf) (prev : Int) (T : List (Nat × Nat × Nat)), enc_trie g T →
      enc_prev 256 g prev → (∀ b ∈ src, b < 256) →
      enc_trie (putlzw_loop src (g, prev)).1 (putlzw_ins src (g, prev) T) := by
  induction src with
  | nil => intro g prev T h1 _ _; exact h1
  | cons c src ih =>
    intro g prev T h hp hb
    have ht := h.1
    have hc : c < 256 := hb c (List.mem_cons_self _ _)
    have hb1 : ∀ b ∈ src, b < 256 := fun b h => hb b (List.mem_cons_of_mem _ h)
    have hpc : ∀ g1 : gifcbuf, enc_prev 256 g1 (c : Int) := fun g1 =>
      Or.inr ⟨Int.natCast_nonneg _, Or.inl (by exact_mod_cast hc)⟩
    rw [putlzw_loop_cons, putlzw_ins]
    by_cases h0 : prev < 0
    · rw [if_pos h0, if_pos h0]
      exact ih g c T h (hpc g) hb1
    · rw [if_neg h0, if_neg h0]
      by_cases hm : trie_get g.codes prev.toNat c ≠ 0
      · rw [if_pos hm, if_pos hm]
        have hr := trie_get_range g prev.toNat c ht hm
        exact ih g _ T h (Or.inr ⟨by omega, Or.inr ⟨by omega, by omega⟩⟩) hb1
      · rw [if_neg hm, if_neg hm]
        have he := enc_trie_emitlzw g prev T h
        obtain ⟨_, hlt⟩ := enc_tab_emitlzw g prev ht
        obtain ⟨_, _, _, _, e5, _⟩ := emitlzw_fields g prev
        by_cases hn : (emitlzw g prev).nxc ≥ 4096 - 1
        · rw [if_pos hn, if_pos hn]
          exact ih _ c [] (enc_trie_resetclzw _ he.1) (hpc _) hb1
        · rw [if_neg hn, if_neg hn]
          refine ih _ c _ (enc_trie_add (emitlzw g prev) T prev.toNat c he (by omega) hlt
            (enc_prev_toNat g prev ht hp h0) hc ?_) (hpc _) hb1
          rw [e5]
          exact not_not.mp hm

theorem trie_cell_inj (g : gifcbuf) (p b p1 b1 : Nat) (h : enc_tab g) (hb : b < 256)
    (hb1 : b1 < 256) (hne : (p1, b1) ≠ (p, b)) (hmap : g.codes (trie_slot p b) ≠ 0) :
    trie_cell g.codes p1 b1 ≠ trie_cell g.codes p b := by
  obtain ⟨_, _, _, _, _, _, _, a7, _, _⟩ := h
  intro heq
  unfold trie_cell at heq
  have l1 := and_15_lt b
  have l2 := and_15_lt b1
  have hM : g.codes (trie_slot p1 b1) = g.codes (trie_slot p b) := by omega
  have hL : b1 &&& 0xF = b &&& 0xF := by omega
  have hs := a7 (trie_slot p b) (trie_slot p1 b1) (trie_slot_ge _ _) (trie_slot_ge _ _) hM.symm hmap
  unfold trie_slot at hs
  obtain ⟨s1, s2⟩ := byte_split b
  obtain ⟨s3, s4⟩ := byte_split b1
  rw [s1, s3] at hs
  rw [s2, s4] at hL
  apply hne
  have hp : p1 = p := by omega
  have hbb : b1 = b := by omega
  rw [hp, hbb]

theorem trie_cell_lt (g : gifcbuf) (p b : Nat) (h : enc_tab g) (hp : p < 4096) (hb : b < 256) :
    trie_slot p b < GIF_CODES ∧ trie_cell g.codes p b < 4096 * 16 := by
  obtain ⟨a0, _, _, _, _, a5, a6, _, _, _⟩ := h
  have h1 := a6 (trie_slot p b) (trie_slot_ge p b)
  have h2 := and_15_lt b
  have h3 : g.nxc ≤ 4095 := a0.2.2.2.2.2.1
  obtain ⟨s1, _⟩ := byte_split b
  constructor
  · unfold trie_slot GIF_CODES
    rw [s1]
    omega
  · unfold trie_cell
    omega

/-- C35: between two resets of the encoder's trie, the two-level lookup of
`putlzw` for a previous code `p` and a byte `c` gives a nonzero entry if and only
if a code for the string of `p` extended by `c` was inserted since the last reset
(or the start), and the entry is that code plus 4096. Two distinct pairs `(p, c)`
never share the cell that holds the entry: the cell `j` read for a pair whose
first-level slot has a map is read for no other pair (pairs without a map read
the map 0, which stays empty). The indices `i` and `j` used stay below
`4096 * 2 * 16`, `j` below `4096 * 16` and `i` from there on. The encoder starts
from `initclzw` and has taken the bytes `src`. -/
theorem putlzw_trie_lookup (m : Nat) (src : List Nat) (p c : Nat) (hm : m ≤ 11)
    (hb : ∀ b ∈ src, b < 256) (hp : p < 4096) (hc : c < 256) :
    (trie_get (putlzw (initclzw gifcbuf_zero m []) src).codes p c ≠ 0 ↔
      ∃ k, (p, c, k) ∈ putlzw_ins src (initclzw gifcbuf_zero m [], -1) []) ∧
    (∀ k, (p, c, k) ∈ putlzw_ins src (initclzw gifcbuf_zero m [], -1) [] →
      trie_get (putlzw (initclzw gifcbuf_zero m []) src).codes p c = k + 4096) ∧
    (∀ p1 c1, p1 < 4096 → c1 < 256 → (p1, c1) ≠ (p, c) →
      (putlzw (initclzw gifcbuf_zero m []) src).codes (trie_slot p c) ≠ 0 →
      trie_cell (putlzw (initclzw gifcbuf_zero m []) src).codes p1 c1 ≠
        trie_cell (putlzw (initclzw gifcbuf_zero m []) src).codes p c) ∧
    (trie_get (putlzw (initclzw gifcbuf_zero m []) src).codes p c ≠ 0 →
      (putlzw (initclzw gifcbuf_zero m []) src).codes (trie_slot p c) ≠ 0) ∧
    4096 * 16 ≤ trie_slot p c ∧ trie_slot p c < GIF_CODES ∧
    trie_cell (putlzw (initclzw gifcbuf_zero m []) src).codes p c < 4096 * 16 := by
  have h := enc_trie_putlzw_loop src (initclzw gifcbuf_zero m []) (-1) []
    (enc_trie_initclzw gifcbuf_zero m [] hm) (Or.inl rfl) hb
  have hcodes : (putlzw (initclzw gifcbuf_zero m []) src).codes =
      (putlzw_loop src (initclzw gifcbuf_zero m [], -1)).1.codes := rfl
  rw [hcodes]
  obtain ⟨ht, hz, hl⟩ := h
  obtain ⟨l1, l2⟩ := trie_cell_lt _ p c ht hp hc
  refine ⟨(hl p c hp hc).1, (hl p c hp hc).2, ?_, ?_, trie_slot_ge p c, l1, l2⟩
  · intro p1 c1 _ hc1 hne hmap
    exact trie_cell_inj _ p c p1 c1 ht hc hc1 hne hmap
  · intro hne hmap
    apply hne
    unfold trie_get
    rw [hmap, Nat.zero_mul, Nat.zero_add]
    exact ht.2.2.2.2.2.2.2.2.2 _ (and_15_lt c)

set_option maxHeartbeats 4000000 in
theorem putlzw_trie_lookup_witness :
    (trie_get (putlzw (initclzw gifcbuf_zero 2 []) [0, 1, 0, 1]).codes 0 1 ≠ 0 ↔
      ∃ k, (0, 1, k) ∈ putlzw_ins [0, 1, 0, 1] (initclzw gifcbuf_zero 2 [], -1) []) ∧
    (∀ k, (0, 1, k) ∈ putlzw_ins [0, 1, 0, 1] (initclzw gifcbuf_zero 2 [], -1) [] →
      trie_get (putlzw (initclzw gifcbuf_zero 2 []) [0, 1, 0, 1]).codes 0 1 = k + 4096) ∧
    (∀ p1 c1, p1 < 4096 → c1 < 256 → (p1, c1) ≠ (0, 1) →
      (putlzw (initclzw gifcbuf_zero 2 []) [0, 1, 0, 1]).codes (trie_slot 0 1) ≠ 0 →
      trie_cell (putlzw (initclzw gifcbuf_zero 2 []) [0, 1, 0, 1]).codes p1 c1 ≠
        trie_cell (putlzw (initclzw gifcbuf_zero 2 []) [0, 1, 0, 1]).codes 0 1) ∧
    (trie_get (putlzw (initclzw gifcbuf_zero 2 []) [0, 1, 0, 1]).codes 0 1 ≠ 0 →
      (putlzw (initclzw gifcbuf_zero 2 []) [0, 1, 0, 1]).codes (trie_slot 0 1) ≠ 0) ∧
    4096 * 16 ≤ trie_slot 0 1 ∧ trie_slot 0 1 < GIF_CODES ∧
    trie_cell (putlzw (initclzw gifcbuf_zero 2 []) [0, 1, 0, 1]).codes 0 1 < 4096 * 16 :=
  putlzw_trie_lookup 2 [0, 1, 0, 1] 0 1 (by decide) (by decide) (by decide) (by decide)

/-! ## LZW: encoding in pieces -/

theorem putlzw_loop_append (a b : List Nat) :
    ∀ st : gifcbuf × Int, putlzw_loop (a ++ b) st = putlzw_loop b (putlzw_loop a st) := by
  induction a with
  | nil => intro st; rfl
  | cons c a ih =>
    intro st
    obtain ⟨g, prev⟩ := st
    rw [List.cons_append, putlzw_loop_cons, putlzw_loop_cons]
    split
    · exact ih _
    · split
      · exact ih _
      · split
        · exact ih _
        · exact ih _

theorem emitlzw_loop_succ (n : Nat) (g : gifcbuf) (w : Int) (bits : Nat) :
    emitlzw_loop (n + 1) (g, w, bits) =
      if bits ≥ 8 then emitlzw_loop n (emitlzw_byte g w, w >>> 8, bits - 8)
      else (g, w, bits) := rfl

theorem emitlzw_byte_setprev (g : gifcbuf) (x w : Int) :
    emitlzw_byte { g with prev := x } w = { emitlzw_byte g w with prev := x } := by
  unfold emitlzw_byte
  dsimp only
  split <;> rfl

theorem emitlzw_loop_setprev (x : Int) (n : Nat) :
    ∀ (g : gifcbuf) (w : Int) (bits : Nat),
      emitlzw_loop n ({ g with prev := x }, w, bits) =
        ({ (emitlzw_loop n (g, w, bits)).1 with prev := x }, (emitlzw_loop n (g, w, bits)).2) := by
  induction n with
  | zero => intro g w bits; rfl
  | succ n ih =>
    intro g w bits
    rw [emitlzw_loop_succ, emitlzw_loop_succ, emitlzw_byte_setprev]
    split
    · exact ih (emitlzw_byte g w) _ _
    · rfl

theorem emitlzw_setprev (g : gifcbuf) (x c : Int) :
    emitlzw { g with prev := x } c = { emitlzw g c with prev := x } := by
  unfold emitlzw
  dsimp only
  have h := emitlzw_loop_setprev x ((g.bits + g.lc) / 8)
    { g with log := g.log ++ [(c, g.lc)] } (Int.lor g.w (c <<< (g.bits : Int))) (g.bits + g.lc)
  have h2 : ({ ({ g with prev := x } : gifcbuf) with log := g.log ++ [(c, g.lc)] } : gifcbuf) =
      { ({ g with log := g.log ++ [(c, g.lc)] } : gifcbuf) with prev := x } := rfl
  rw [h2, h]
  dsimp only
  split <;> rfl

theorem putlzw_loop_setprev (x : Int) (src : List Nat) :
    ∀ (g : gifcbuf) (prev : Int),
      putlzw_loop src ({ g with prev := x }, prev) =
        ({ (putlzw_loop src (g, prev)).1 with prev := x }, (putlzw_loop src (g, prev)).2) := by
  induction src with
  | nil => intro g prev; rfl
  | cons c src ih =>
    intro g prev
    rw [putlzw_loop_cons, putlzw_loop_cons]
    have hc : ({ g with prev := x } : gifcbuf).codes = g.codes := rfl
    rw [hc, emitlzw_setprev]
    have hn : ({ emitlzw g prev with prev := x } : gifcbuf).nxc = (emitlzw g prev).nxc := rfl
    rw [hn]
    split
    · exact ih _ _
    · split
      · exact ih _ _
      · split
        · exact ih (resetclzw (emitlzw g prev)) c
        · have ha : putlzw_add { emitlzw g prev with prev := x } (trie_slot prev.toNat c) c =
              { putlzw_add (emitlzw g prev) (trie_slot prev.toNat c) c with prev := x } := by
            unfold putlzw_add putlzw_map
            dsimp only
            split <;> rfl
          rw [ha]
          exact ih _ _

/-- C39: encoding in pieces equals encoding at once. For every state of the
encoder and every split of a byte sequence into two parts `a` and `b`, two
consecutive calls of `putlzw` on the parts leave the same state of the encoder,
the bytes written to the file among it, as one call of `putlzw` on the whole
sequence. -/
theorem putlzw_split (g : gifcbuf) (a b : List Nat) :
    putlzw (putlzw g a) b = putlzw g (a ++ b) ∧
    (putlzw (putlzw g a) b).f = (putlzw g (a ++ b)).f := by
  have h : putlzw (putlzw g a) b = putlzw g (a ++ b) := by
    unfold putlzw
    dsimp only
    rw [putlzw_loop_append, putlzw_loop_setprev]
  exact ⟨h, by rw [h]⟩

/-! ## LZW: decoding in pieces -/

theorem getlzw_string_more (g : gifbuf) (nxc c tail cnt n : Nat) (o : List Nat) :
    getlzw_string g nxc c tail (cnt + n) o = (getlzw_string g nxc c tail cnt o).more n := by
  unfold getlzw_string
  split <;> rfl

theorem getlzw_decode_more (g : gifbuf) (m c tail cnt n : Nat) (o : List Nat) :
    getlzw_decode g m c tail (cnt + n) o = (getlzw_decode g m c tail cnt o).more n := by
  unfold getlzw_decode
  dsimp only
  split
  · rfl
  · split
    · rfl
    · split
      · rfl
      · split
        · rfl
        · exact getlzw_string_more _ _ _ _ _ _ _

theorem getlzw_string_after (g : gifbuf) (nxc c tail cnt : Nat) (p o : List Nat) :
    getlzw_string g nxc c tail cnt (p ++ o) = (getlzw_string g nxc c tail cnt o).after p := by
  unfold getlzw_string
  split <;> rfl

theorem getlzw_decode_after (g : gifbuf) (m c tail cnt : Nat) (p o : List Nat) :
    getlzw_decode g m c tail cnt (p ++ o) = (getlzw_decode g m c tail cnt o).after p := by
  unfold getlzw_decode
  dsimp only
  split
  · rfl
  · split
    · rfl
    · split
      · rfl
      · split
        · rfl
        · exact getlzw_string_after _ _ _ _ _ _ _

theorem getlzw_step_more (g : gifbuf) (tail cnt n : Nat) (h : tail < cnt) :
    getlzw_step g tail (cnt + n) = (getlzw_step g tail cnt).more n := by
  unfold getlzw_step
  dsimp only
  rw [if_neg (by omega : ¬ tail > cnt + n), if_neg (by omega : ¬ tail > cnt),
    if_neg (by omega : ¬ cnt + n - tail = 0), if_neg (by omega : ¬ cnt - tail = 0)]
  split
  · rfl
  · have e : cnt + n - tail = cnt - tail + n := by omega
    rw [e]
    exact getlzw_decode_more _ _ _ _ _ _ _

theorem getlzw_out_add (buf : Nat → Nat) (a : Nat) :
    ∀ b tail, getlzw_out buf (a + b) tail = getlzw_out buf a tail ++ getlzw_out buf b (tail - a) := by
  induction a with
  | zero => intro b tail; rw [Nat.zero_add]; rfl
  | succ a ih =>
    intro b tail
    have e : a + 1 + b = (a + b) + 1 := by omega
    rw [e, getlzw_out, getlzw_out, ih, List.cons_append]
    have e2 : tail - 1 - a = tail - (a + 1) := by omega
    rw [e2]

theorem getlzw_step_after (g : gifbuf) (tail c1 n2 : Nat) (h : c1 ≤ tail) :
    getlzw_step g tail (c1 + n2) =
      (getlzw_step g (tail - c1) n2).after (getlzw_out g.buf c1 tail) := by
  unfold getlzw_step
  dsimp only
  have hl : (if tail > c1 + n2 then c1 + n2 else tail) =
      c1 + (if tail - c1 > n2 then n2 else tail - c1) := by
    split <;> split <;> omega
  rw [hl, getlzw_out_add]
  generalize (if tail - c1 > n2 then n2 else tail - c1) = l2
  have e1 : c1 + n2 - (c1 + l2) = n2 - l2 := by omega
  have e2 : tail - (c1 + l2) = tail - c1 - l2 := by omega
  rw [e1, e2]
  split
  · rfl
  · split
    · rfl
    · exact getlzw_decode_after _ _ _ _ _ _ _

theorem getlzw_fill_stored (lc x : Nat) (n : Nat) :
    ∀ (g : gifbuf) (w bits : Nat),
      getlzw_fill lc n ({ g with tail := x }, w, bits) =
        ((getlzw_fill lc n (g, w, bits)).1, { (getlzw_fill lc n (g, w, bits)).2.1 with tail := x },
          (getlzw_fill lc n (g, w, bits)).2.2) := by
  induction n with
  | zero => intro g w bits; rfl
  | succ n ih =>
    intro g w bits
    rw [getlzw_fill, getlzw_fill]
    split
    · dsimp only
      split
      · split
        · rfl
        · exact ih (fill_block g) _ _
      · exact ih (fill_byte g) _ _
    · rfl

theorem getlzw_update_stored (g : gifbuf) (x m c : Nat) :
    getlzw_update { g with tail := x } m c = { getlzw_update g m c with tail := x } := by
  unfold getlzw_update
  dsimp only
  split
  · split <;> rfl
  · rfl

theorem getlzw_string_stored (g : gifbuf) (x nxc c tail cnt : Nat) (o : List Nat) :
    getlzw_string { g with tail := x } nxc c tail cnt o =
      (getlzw_string g nxc c tail cnt o).stored x := by
  unfold getlzw_string
  dsimp only
  split <;> rfl

theorem getlzw_decode_stored (g : gifbuf) (x m c tail cnt : Nat) (o : List Nat) :
    getlzw_decode { g with tail := x } m c tail cnt o =
      (getlzw_decode g m c tail cnt o).stored x := by
  unfold getlzw_decode
  dsimp only
  rw [getlzw_update_stored]
  split
  · rfl
  · split
    · rfl
    · split
      · rfl
      · split
        · rfl
        · exact getlzw_string_stored _ _ _ _ _ _ _

theorem getlzw_step_stored (g : gifbuf) (x tail cnt : Nat) :
    getlzw_step { g with tail := x } tail cnt = (getlzw_step g tail cnt).stored x := by
  by_cases hc : cnt ≤ tail
  · rw [getlzw_step_of_tail _ _ _ hc, getlzw_step_of_tail _ _ _ hc]
    rfl
  · unfold getlzw_step
    dsimp only
    rw [if_neg (by omega : ¬ tail > cnt), if_neg (by omega : ¬ cnt - tail = 0),
      if_neg (by omega : ¬ cnt - tail = 0), getlzw_fill_stored]
    dsimp only
    split
    · rfl
    · exact getlzw_decode_stored (getlzw_taken g) x _ _ _ _ _

theorem getlzw_loop_after (p : List Nat) (n : Nat) :
    ∀ (g : gifbuf) (tail cnt : Nat) (d : List Nat),
      getlzw_loop n g tail cnt (p ++ d) =
        (getlzw_loop n g tail cnt d).map (fun r => (r.1, p ++ r.2.1, r.2.2)) := by
  induction n with
  | zero => intro g tail cnt d; rfl
  | succ n ih =>
    intro g tail cnt d
    rw [getlzw_loop, getlzw_loop]
    cases getlzw_step g tail cnt with
    | next g1 t1 c1 o =>
      dsimp only
      rw [List.append_assoc]
      exact ih _ _ _ _
    | done g1 o =>
      dsimp only
      rw [List.append_assoc]
      rfl
    | fail g1 o =>
      dsimp only
      rw [List.append_assoc]
      rfl
    | hang => rfl

theorem getlzw_loop_stored (x : Nat) (n : Nat) :
    ∀ (g : gifbuf) (tail cnt : Nat) (d : List Nat),
      getlzw_loop n { g with tail := x } tail cnt d =
        (getlzw_loop n g tail cnt d).map
          (fun r => (r.1, r.2.1, if r.1 then r.2.2 else { r.2.2 with tail := x })) := by
  induction n with
  | zero => intro g tail cnt d; rfl
  | succ n ih =>
    intro g tail cnt d
    rw [getlzw_loop, getlzw_loop, getlzw_step_stored]
    cases getlzw_step g tail cnt with
    | next g1 t1 c1 o => exact ih _ _ _ _
    | done g1 o => rfl
    | fail g1 o => rfl
    | hang => rfl

theorem getlzw_loop_mono (k : Nat) (n : Nat) :
    ∀ (g : gifbuf) (tail cnt : Nat) (d : List Nat) (r : Bool × List Nat × gifbuf),
      getlzw_loop n g tail cnt d = some r → getlzw_loop (n + k) g tail cnt d = some r := by
  induction n with
  | zero => intro g tail cnt d r h; cases h
  | succ n ih =>
    intro g tail cnt d r h
    have e : n + 1 + k = (n + k) + 1 := by omega
    rw [e, getlzw_loop]
    rw [getlzw_loop] at h
    cases hs : getlzw_step g tail cnt with
    | next g1 t1 c1 o =>
      rw [hs] at h
      exact ih _ _ _ _ _ h
    | done g1 o => rw [hs] at h; exact h
    | fail g1 o => rw [hs] at h; exact h
    | hang => rw [hs] at h; exact h

theorem getlzw_loop_det (n m : Nat) (g : gifbuf) (tail cnt : Nat) (d : List Nat)
    (r r1 : Bool × List Nat × gifbuf) (h : getlzw_loop n g tail cnt d = some r)
    (h1 : getlzw_loop m g tail cnt d = some r1) : r = r1 := by
  have a := getlzw_loop_mono m n g tail cnt d r h
  have b := getlzw_loop_mono n m g tail cnt d r1 h1
  rw [Nat.add_comm] at b
  rw [a] at b
  exact Option.some.inj b

theorem getlzw_taken_bits (g : gifbuf) (h : dec_wf g)
    (hf : (getlzw_fill g.lc g.lc (g, g.w, g.bits)).1 = true) :
    dec_wf (getlzw_taken g) ∧ dec_bits (getlzw_taken g) + g.lc = dec_bits g ∧ 1 ≤ g.lc := by
  obtain ⟨ht, hend, hfile⟩ := h
  have hlc : g.lc0 + 1 ≤ g.lc := ht.1.2.2.1
  have hk2 : (g.lc - g.bits + 7) / 8 ≤ g.lc := by omega
  have hk1 : (g.lc - g.bits + 7) / 8 ≤ (dec_stream g).length := by
    by_contra hlt
    have := (getlzw_fill_spec g.lc g.lc g g.w g.bits).2 (by omega) (by omega)
    rw [hf] at this
    cases this
  obtain ⟨_, _, r3, r4⟩ := (getlzw_fill_spec g.lc g.lc g g.w g.bits).1 hk1 hk2
  obtain ⟨_, f2, _⟩ := getlzw_fill_keeps g.lc g.lc g g.w g.bits
  obtain ⟨g1, g2⟩ := getlzw_fill_file g.lc g.lc g g.w g.bits hend hfile
  have t2 : (getlzw_taken g).bits = (getlzw_fill g.lc g.lc (g, g.w, g.bits)).2.2.2 -
      (getlzw_fill g.lc g.lc (g, g.w, g.bits)).2.1.lc := rfl
  have t4 : dec_stream (getlzw_taken g) =
      dec_stream (getlzw_fill g.lc g.lc (g, g.w, g.bits)).2.1 := rfl
  have t5 : (getlzw_taken g).end_ = (getlzw_fill g.lc g.lc (g, g.w, g.bits)).2.1.end_ := rfl
  have t6 : (getlzw_taken g).f = (getlzw_fill g.lc g.lc (g, g.w, g.bits)).2.1.f := rfl
  refine ⟨⟨dec_tab_taken g ht, by rw [t5]; exact g1, by rw [t6]; exact g2⟩, ?_, by omega⟩
  unfold dec_bits
  rw [t2, t4, r3, r4, f2, List.length_drop]
  omega

theorem getlzw_step_cases (g : gifbuf) (tail cnt : Nat) (h : dec_wf g) :
    (cnt ≤ tail ∧
      getlzw_step g tail cnt = .done { g with tail := tail - cnt } (getlzw_out g.buf cnt tail)) ∨
    (tail < cnt ∧ ∃ g1 o, getlzw_step g tail cnt = .fail g1 o) ∨
    (tail < cnt ∧ ∃ g1 t c o, getlzw_step g tail cnt = .next g1 t c o ∧ dec_wf g1 ∧
      dec_bits g1 < dec_bits g) := by
  by_cases hc : cnt ≤ tail
  · exact Or.inl ⟨hc, getlzw_step_of_tail g tail cnt hc⟩
  have hc1 : tail < cnt := by omega
  by_cases hf : (getlzw_fill g.lc g.lc (g, g.w, g.bits)).1 = true
  · have hcode : getlzw_code g tail cnt =
        some ((getlzw_fill g.lc g.lc (g, g.w, g.bits)).2.2.1 &&& g.cmask) := by
      obtain ⟨_, _, f3, _⟩ := getlzw_fill_keeps g.lc g.lc g g.w g.bits
      unfold getlzw_code
      dsimp only
      rw [if_neg hc, if_pos hf, f3]
    generalize (getlzw_fill g.lc g.lc (g, g.w, g.bits)).2.2.1 &&& g.cmask = c at hcode
    have hle := getlzw_code_le g tail cnt c h.1 hcode
    obtain ⟨_, _, _, h4⟩ := getlzw_step_of_code g tail cnt c hcode
    obtain ⟨k1, k2, k3, k4, k5, k6, k7, k8⟩ := getlzw_taken_keeps g
    obtain ⟨⟨ht, tend, tf⟩, tbits, hlc⟩ := getlzw_taken_bits g h hf
    rw [h4]
    by_cases hcl : c = (getlzw_taken g).clear
    · right; right
      refine ⟨hc1, resetlzw (getlzw_taken g), 0, cnt - tail, getlzw_out g.buf tail tail, ?_,
        ⟨dec_tab_resetlzw _ ht, tend, tf⟩, ?_⟩
      · unfold getlzw_decode
        rw [if_pos hcl]
      · have e : dec_bits (resetlzw (getlzw_taken g)) = dec_bits (getlzw_taken g) := rfl
        rw [e]
        omega
    by_cases hce : c = (getlzw_taken g).clear + 1
    · right; left
      refine ⟨hc1, getlzw_taken g, getlzw_out g.buf tail tail, ?_⟩
      unfold getlzw_decode
      rw [if_neg hcl, if_pos hce]
    by_cases hok : code_ok (getlzw_taken g) c
    · obtain ⟨buf1, cchar1, str, e1, _, _, e4, _⟩ :=
        getlzw_decode_spec (getlzw_taken g) c (cnt - tail) (getlzw_out g.buf tail tail) ht hok hle
      obtain ⟨q1, q2, q3, q4, q5, q6⟩ := getlzw_decode_keeps (getlzw_taken g) _ c (cnt - tail)
        (getlzw_out g.buf tail tail) _ _ _ _ e1 hcl
      have hst := dec_stream_congr (getlzw_taken g) _ q1 q2 q3 q6 tend
      right; right
      rw [← k3]
      refine ⟨hc1, _, _, _, _, e1, ⟨e4, by rw [q3]; exact tend, by rw [q1]; exact tf⟩, ?_⟩
      unfold dec_bits
      rw [hst, q5]
      unfold dec_bits at tbits
      omega
    · right; left
      unfold code_ok at hok
      unfold getlzw_decode
      rw [if_neg hcl, if_neg hce]
      dsimp only
      by_cases h5 : c > (getlzw_taken g).nxc
      · rw [if_pos h5]
        exact ⟨hc1, _, _, rfl⟩
      · rw [if_neg h5]
        by_cases h6 : c = (getlzw_taken g).nxc ∧ (getlzw_taken g).prev < 0
        · rw [if_pos h6]
          exact ⟨hc1, _, _, rfl⟩
        · exact absurd ⟨hcl, hce, by omega, h6⟩ hok
  · have hf2 : (getlzw_fill g.lc g.lc (g, g.w, g.bits)).1 = false := by
      cases hb : (getlzw_fill g.lc g.lc (g, g.w, g.bits)).1
      · rfl
      · exact absurd hb hf
    right; left
    exact ⟨hc1, _, _, getlzw_step_of_nodata g tail cnt hc1 hf2⟩

theorem getlzw_string_not_done (g : gifbuf) (nxc c tail cnt : Nat) (o : List Nat)
    (g1 : gifbuf) (o1 : List Nat) : getlzw_string g nxc c tail cnt o ≠ .done g1 o1 := by
  unfold getlzw_string
  split <;> intro h <;> cases h

theorem getlzw_decode_not_done (g : gifbuf) (m c tail cnt : Nat) (o : List Nat)
    (g1 : gifbuf) (o1 : List Nat) : getlzw_decode g m c tail cnt o ≠ .done g1 o1 := by
  unfold getlzw_decode
  dsimp only
  split
  · intro h; cases h
  · split
    · intro h; cases h
    · split
      · intro h; cases h
      · split
        · intro h; cases h
        · exact getlzw_string_not_done _ _ _ _ _ _ _ _

theorem getlzw_step_not_done (g : gifbuf) (tail cnt : Nat) (h : tail < cnt)
    (g1 : gifbuf) (o1 : List Nat) : getlzw_step g tail cnt ≠ .done g1 o1 := by
  unfold getlzw_step
  dsimp only
  rw [if_neg (by omega : ¬ tail > cnt), if_neg (by omega : ¬ cnt - tail = 0)]
  split
  · intro h; cases h
  · exact getlzw_decode_not_done _ _ _ _ _ _ _ _

theorem getlzw_loop_returns (n : Nat) :
    ∀ (g : gifbuf) (tail cnt : Nat) (d : List Nat), dec_wf g → dec_bits g < n →
      ∃ r, getlzw_loop n g tail cnt d = some r := by
  induction n with
  | zero => intro g tail cnt d _ h; omega
  | succ n ih =>
    intro g tail cnt d hw hb
    rw [getlzw_loop]
    rcases getlzw_step_cases g tail cnt hw with ⟨_, h⟩ | ⟨_, g1, o, h⟩ | ⟨_, g1, t, c, o, h, hw1, hb1⟩
    · rw [h]; exact ⟨_, rfl⟩
    · rw [h]; exact ⟨_, rfl⟩
    · rw [h]
      exact ih g1 t c _ hw1 (by omega)

theorem getlzw_loop_wf (n : Nat) :
    ∀ (g : gifbuf) (tail cnt : Nat) (d out : List Nat) (g1 : gifbuf), dec_wf g →
      getlzw_loop n g tail cnt d = some (true, out, g1) → dec_wf g1 := by
  induction n with
  | zero => intro g tail cnt d out g1 _ h; cases h
  | succ n ih =>
    intro g tail cnt d out g1 hw h
    rw [getlzw_loop] at h
    rcases getlzw_step_cases g tail cnt hw with ⟨_, hs⟩ | ⟨_, g2, o, hs⟩ |
      ⟨_, g2, t, c, o, hs, hw1, _⟩
    · rw [hs] at h
      cases h
      exact hw
    · rw [hs] at h
      cases h
    · rw [hs] at h
      exact ih g2 t c _ out g1 hw1 h

theorem getlzw_loop_tail (n : Nat) (g : gifbuf) (tail c1 n2 : Nat) (d : List Nat)
    (h : c1 ≤ tail) :
    getlzw_loop n g tail (c1 + n2) d =
      getlzw_loop n g (tail - c1) n2 (d ++ getlzw_out g.buf c1 tail) := by
  cases n with
  | zero => rfl
  | succ n =>
    rw [getlzw_loop, getlzw_loop, getlzw_step_after g tail c1 n2 h]
    cases getlzw_step g (tail - c1) n2 with
    | next g1 t1 c o =>
      show getlzw_loop n g1 t1 c (d ++ (getlzw_out g.buf c1 tail ++ o)) = _
      rw [← List.append_assoc]
    | done g1 o =>
      show some (true, d ++ (getlzw_out g.buf c1 tail ++ o), g1) = _
      rw [← List.append_assoc]
    | fail g1 o =>
      show some (false, d ++ (getlzw_out g.buf c1 tail ++ o), g1) = _
      rw [← List.append_assoc]
    | hang => rfl

theorem getlzw_loop_split (n2 : Nat) (n : Nat) :
    ∀ (g : gifbuf) (tail c1 : Nat) (d out1 : List Nat) (g1 : gifbuf),
      getlzw_loop n g tail c1 d = some (true, out1, g1) →
      ∃ j, ∀ k,
        (getlzw_loop (j + k) g tail (c1 + n2) d).map
            (fun r => (r.1, r.2.1, if r.1 then r.2.2 else { r.2.2 with tail := g1.tail })) =
          getlzw_loop k g1 g1.tail n2 out1 := by
  induction n with
  | zero => intro g tail c1 d out1 g1 h; cases h
  | succ n ih =>
    intro g tail c1 d out1 g1 h
    rw [getlzw_loop] at h
    by_cases hc : c1 ≤ tail
    · rw [getlzw_step_of_tail g tail c1 hc] at h
      cases h
      refine ⟨0, fun k => ?_⟩
      rw [Nat.zero_add, getlzw_loop_tail k g tail c1 n2 d hc]
      exact (getlzw_loop_stored (tail - c1) k g (tail - c1) n2 _).symm
    · have hm := getlzw_step_more g tail c1 n2 (by omega)
      cases hs : getlzw_step g tail c1 with
      | next g2 t c o =>
        rw [hs] at h hm
        obtain ⟨j, hj⟩ := ih g2 t c _ out1 g1 h
        refine ⟨j + 1, fun k => ?_⟩
        have e : j + 1 + k = (j + k) + 1 := by omega
        rw [e, getlzw_loop, hm]
        exact hj k
      | done g2 o => exact absurd hs (getlzw_step_not_done g tail c1 (by omega) g2 o)
      | fail g2 o => rw [hs] at h; cases h
      | hang => rw [hs] at h; cases h

theorem getlzw_loop_split_fail (n2 : Nat) (n : Nat) :
    ∀ (g : gifbuf) (tail c1 : Nat) (d o : List Nat) (gx : gifbuf),
      getlzw_loop n g tail c1 d = some (false, o, gx) →
      getlzw_loop n g tail (c1 + n2) d = some (false, o, gx) := by
  induction n with
  | zero => intro g tail c1 d o gx h; cases h
  | succ n ih =>
    intro g tail c1 d o gx h
    rw [getlzw_loop] at h
    by_cases hc : c1 ≤ tail
    · rw [getlzw_step_of_tail g tail c1 hc] at h
      cases h
    · have hm := getlzw_step_more g tail c1 n2 (by omega)
      rw [getlzw_loop, hm]
      cases hs : getlzw_step g tail c1 with
      | next g2 t c o2 =>
        rw [hs] at h
        exact ih g2 t c _ o gx h
      | done g2 o2 => exact absurd hs (getlzw_step_not_done g tail c1 (by omega) g2 o2)
      | fail g2 o2 => rw [hs] at h; exact h
      | hang => rw [hs] at h; cases h

theorem dec_bits_lt (g : gifbuf) (h : dec_wf g) :
    dec_bits g < g.bits + 8 * 256 + 8 * g.f.length + 2 := by
  have h1 := file_data_length g.f.length g.f
  have h2 : (dec_buf g).length ≤ 255 := by
    unfold dec_buf
    rw [List.length_map, List.length_range]
    have := h.2.1
    omega
  unfold dec_bits dec_stream
  rw [List.length_append]
  omega

theorem getlzw_returns (g : gifbuf) (cnt : Nat) (h : dec_wf g) : ∃ r, getlzw cnt g = some r :=
  getlzw_loop_returns _ g g.tail cnt [] h (dec_bits_lt g h)

/-- C38: decoding in pieces equals decoding at once. For every well-formed state
of the decoder (the dictionary as the decoder keeps it from `initlzw` on, at most
255 bytes in the current sub-block, bytes in the file) and all counts `n1` and
`n2`, every call of `getlzw` returns, and a single call for `n1 + n2` bytes
succeeds with the output `out` and the final state `gf` exactly when a call for
`n1` bytes succeeds and a call for `n2` bytes in the state that it leaves
succeeds with the final state `gf`, the outputs of the two calls being `out` one
after the other; the rest of a string that straddles the split waits at the end
of the buffer, its length in `tail`. -/
theorem getlzw_split (g : gifbuf) (n1 n2 : Nat) (out : List Nat) (gf : gifbuf)
    (ht : dec_tab g) (hend : g.end_ ≤ 255) (hf : ∀ b ∈ g.f, b < 256) :
    (getlzw (n1 + n2) g = some (true, out, gf) ↔
      ∃ out1 g1 out2, getlzw n1 g = some (true, out1, g1) ∧
        getlzw n2 g1 = some (true, out2, gf) ∧ out = out1 ++ out2) ∧
    (∃ r, getlzw (n1 + n2) g = some r) ∧ (∃ r, getlzw n1 g = some r) ∧
    (∀ out1 g1, getlzw n1 g = some (true, out1, g1) → ∃ r, getlzw n2 g1 = some r) := by
  have hw : dec_wf g := ⟨ht, hend, hf⟩
  have hsome := getlzw_returns g (n1 + n2) hw
  have hfirst := getlzw_returns g n1 hw
  have key : ∀ out1 g1, getlzw n1 g = some (true, out1, g1) →
      ∀ r2, getlzw n2 g1 = some r2 →
        ∃ r, getlzw (n1 + n2) g = some r ∧ r.1 = r2.1 ∧ r.2.1 = out1 ++ r2.2.1 ∧
          (r.1 = true → r.2.2 = r2.2.2) := by
    intro out1 g1 h1 r2 h2
    obtain ⟨j, hj⟩ := getlzw_loop_split n2 _ g g.tail n1 [] out1 g1 h1
    have h3 := hj (g1.bits + 8 * 256 + 8 * g1.f.length + 2)
    have h4 := getlzw_loop_after out1 (g1.bits + 8 * 256 + 8 * g1.f.length + 2) g1 g1.tail n2 []
    rw [List.append_nil] at h4
    have h2a : getlzw_loop (g1.bits + 8 * 256 + 8 * g1.f.length + 2) g1 g1.tail n2 [] = some r2 := h2
    rw [h4, h2a] at h3
    obtain ⟨r, hr⟩ := hsome
    cases hx : getlzw_loop (j + (g1.bits + 8 * 256 + 8 * g1.f.length + 2)) g g.tail (n1 + n2) []
      with
    | none => rw [hx] at h3; cases h3
    | some rx =>
      rw [hx] at h3
      have e := getlzw_loop_det _ _ g g.tail (n1 + n2) [] r rx hr hx
      rw [← e] at h3
      have h5 := Option.some.inj h3
      refine ⟨r, hr, ?_, ?_, ?_⟩
      · exact congrArg (fun p => p.1) h5
      · exact congrArg (fun p => p.2.1) h5
      · intro htrue
        have h6 := congrArg (fun p => p.2.2) h5
        dsimp only at h6
        rw [if_pos htrue] at h6
        exact h6
  refine ⟨⟨fun h => ?_, fun h => ?_⟩, hsome, hfirst, ?_⟩
  · obtain ⟨r1, hr1⟩ := hfirst
    obtain ⟨b1, out1, g1⟩ := r1
    cases b1 with
    | false =>
      have := getlzw_loop_split_fail n2 _ g g.tail n1 [] out1 g1 hr1
      have h' : getlzw_loop (g.bits + 8 * 256 + 8 * g.f.length + 2) g g.tail (n1 + n2) [] =
          some (true, out, gf) := h
      rw [this] at h'
      cases h'
    | true =>
      have hw1 := getlzw_loop_wf _ g g.tail n1 [] out1 g1 hw hr1
      obtain ⟨r2, hr2⟩ := getlzw_returns g1 n2 hw1
      obtain ⟨r, e1, e2, e3, e4⟩ := key out1 g1 hr1 r2 hr2
      rw [h] at e1
      have e5 := Option.some.inj e1
      rw [← e5] at e2 e3 e4
      obtain ⟨b2, out2, g2⟩ := r2
      dsimp only at e2 e3 e4
      refine ⟨out1, g1, out2, hr1, ?_, e3⟩
      rw [hr2, ← e2, ← e4 rfl]
  · obtain ⟨out1, g1, out2, h1, h2, h3⟩ := h
    obtain ⟨r, e1, e2, e3, e4⟩ := key out1 g1 h1 _ h2
    obtain ⟨b, o, gx⟩ := r
    dsimp only at e2 e3 e4
    rw [e1, e2, e3, e4 e2, h3]
  · intro out1 g1 h1
    exact getlzw_returns g1 n2 (getlzw_loop_wf _ g g.tail n1 [] out1 g1 hw h1)

theorem getlzw_split_witness :
    (getlzw (1 + 2) (initlzw gifbuf_zero [2, 2, 132, 11, 0]).2 = some (true, [0, 0, 0], gifbuf_zero) ↔
      ∃ out1 g1 out2, getlzw 1 (initlzw gifbuf_zero [2, 2, 132, 11, 0]).2 = some (true, out1, g1) ∧
        getlzw 2 g1 = some (true, out2, gifbuf_zero) ∧ [0, 0, 0] = out1 ++ out2) ∧
    (∃ r, getlzw (1 + 2) (initlzw gifbuf_zero [2, 2, 132, 11, 0]).2 = some r) ∧
    (∃ r, getlzw 1 (initlzw gifbuf_zero [2, 2, 132, 11, 0]).2 = some r) ∧
    (∀ out1 g1, getlzw 1 (initlzw gifbuf_zero [2, 2, 132, 11, 0]).2 = some (true, out1, g1) →
      ∃ r, getlzw 2 g1 = some r) :=
  getlzw_split (initlzw gifbuf_zero [2, 2, 132, 11, 0]).2 1 2 [0, 0, 0] gifbuf_zero
    (dec_tab_initlzw gifbuf_zero [2, 2, 132, 11, 0] rfl) (by decide) (by decide)

/-! ## LZW: the chain of a code -/

theorem lzw_chain_length (nxcode : Nat → Int) (cchar : Nat → Nat) (n : Nat) :
    ∀ cx : Int, (lzw_chain nxcode n cx).length = (lzw_string nxcode cchar n cx).length := by
  induction n with
  | zero => intro cx; rfl
  | succ n ih =>
    intro cx
    rw [lzw_chain, lzw_string]
    split
    · rw [List.length_cons, List.length_append, List.length_singleton, ih]
    · rfl

theorem lzw_chain_spec (nxcode : Nat → Int) (V : Nat → Prop)
    (hV : ∀ c, V c → nxcode c < (c : Int) ∧ (0 ≤ nxcode c → V (nxcode c).toNat)) (n : Nat) :
    ∀ cx : Nat, V cx → cx < n →
      (lzw_chain nxcode n cx).head? = some cx ∧
      List.Chain' (fun a b => b < a) (lzw_chain nxcode n cx) ∧
      (∃ r, (lzw_chain nxcode n cx).getLast? = some r ∧ V r ∧ nxcode r < 0) ∧
      (lzw_chain nxcode n cx).length ≤ cx + 1 := by
  induction n with
  | zero => intro cx _ h; omega
  | succ n ih =>
    intro cx hv hlt
    obtain ⟨h1, h2⟩ := hV cx hv
    rw [lzw_chain, if_pos (Int.natCast_nonneg cx), Int.toNat_natCast]
    by_cases hp : 0 ≤ nxcode cx
    · have hp2 : (((nxcode cx).toNat : Nat) : Int) = nxcode cx := Int.toNat_of_nonneg hp
      have hlt2 : (nxcode cx).toNat < cx := by omega
      obtain ⟨i1, i2, ⟨r, i3, i4, i5⟩, i6⟩ := ih (nxcode cx).toNat (h2 hp) (by omega)
      rw [hp2] at i1 i2 i3 i6
      refine ⟨rfl, ?_, ⟨r, ?_, i4, i5⟩, ?_⟩
      · rw [List.chain'_cons']
        refine ⟨fun y hy => ?_, i2⟩
        rw [i1] at hy
        have : y = (nxcode cx).toNat := (Option.some.inj hy).symm
        omega
      · rw [List.getLast?_cons, i3]
        rfl
      · rw [List.length_cons]
        omega
    · have hnil : lzw_chain nxcode n (nxcode cx) = [] := by
        cases n with
        | zero => rfl
        | succ m => rw [lzw_chain, if_neg hp]
      rw [hnil]
      exact ⟨rfl, List.chain'_singleton _, ⟨cx, rfl, hv, by omega⟩, by simp⟩

/-- C40: for every code `c` that a turn of the loop of `getlzw` accepts, in a state
that decoding reaches after `initlzw` accepted the minimum code size, the
predecessor links `nxcode` followed from `c` are strictly decreasing and end at a
root code below the clear code, so that the walk over the chain ends; the string
decoded has as many bytes as the chain has codes, at most 4096. The walk stores
it at the end of the buffer and leaves the bytes of the buffer below index 256
as they are, the input block of 255 bytes among them, and the next free code is
at most 4096 before and after the turn. -/
theorem getlzw_chain_ends (mem : gifbuf) (md : Nat) (rest : List Nat) (g : gifbuf)
    (tail cnt c : Nat) (hmd : md ≤ 11)
    (hg : getlzw_run (initlzw mem (md :: rest)).2 g)
    (hc : getlzw_code g tail cnt = some c) (hok : code_ok (getlzw_taken g) c) :
    (lzw_chain (getlzw_update (getlzw_taken g) g.cmask c).nxcode 4097 c).head? = some c ∧
    List.Chain' (fun a b => b < a)
      (lzw_chain (getlzw_update (getlzw_taken g) g.cmask c).nxcode 4097 c) ∧
    (∃ r, (lzw_chain (getlzw_update (getlzw_taken g) g.cmask c).nxcode 4097 c).getLast? = some r ∧
      r < g.clear ∧ (getlzw_update (getlzw_taken g) g.cmask c).nxcode r < 0) ∧
    (lzw_chain (getlzw_update (getlzw_taken g) g.cmask c).nxcode 4097 c).length ≤ 4096 ∧
    (∃ buf1, getlzw_chain (getlzw_update (getlzw_taken g) g.cmask c).nxcode
        (getlzw_update (getlzw_taken g) g.cmask c).cchar 4097 c
        ((getlzw_update (getlzw_taken g) g.cmask c).buf, 0) =
        some (buf1, (lzw_chain (getlzw_update (getlzw_taken g) g.cmask c).nxcode 4097 c).length) ∧
      ∀ x, x < 256 → buf1 x = (getlzw_update (getlzw_taken g) g.cmask c).buf x) ∧
    (∃ g2, getlzw_step g tail cnt =
        .next g2 (lzw_chain (getlzw_update (getlzw_taken g) g.cmask c).nxcode 4097 c).length
          (cnt - tail) (getlzw_out g.buf tail tail) ∧
      (∀ x, x < 255 → g2.buf x = (getlzw_taken g).buf x) ∧ g2.nxc ≤ 4096) ∧
    g.nxc ≤ 4096 := by
  have ht := dec_tab_run _ g (dec_tab_initlzw mem (md :: rest) (initlzw_ok mem md rest hmd)) hg
  have hle := getlzw_code_le g tail cnt _ ht hc
  obtain ⟨_, _, _, h4⟩ := getlzw_step_of_code g tail cnt _ hc
  obtain ⟨k1, k2, k3, k4, k5, k6, k7, k8⟩ := getlzw_taken_keeps g
  have ht2 := dec_tab_taken g ht
  have htu := dec_tab_getlzw_update (getlzw_taken g) c ht2 hok hle
  rw [k3] at htu
  obtain ⟨u1, u2, u3, u4, u5, u6, u7, u8, u9⟩ := getlzw_update_fields (getlzw_taken g) c
  rw [k3] at u1 u2 u3 u4 u5 u6 u7 u8 u9
  obtain ⟨c1, c2, c3, c4⟩ := hok
  generalize hG : getlzw_update (getlzw_taken g) g.cmask c = G at *
  have hV := dec_code_hV G htu
  have hc1 : dec_code G c := by
    obtain ⟨_, _, _, _, _, _, b6⟩ := htu
    rw [u1] at b6
    unfold dec_code
    rw [u4]
    rcases b6 with b6 | b6
    · omega
    · have := b6.2.1
      omega
  obtain ⟨i1, i2, ⟨r, i3, i4, i5⟩, i6⟩ := lzw_chain_spec G.nxcode (dec_code G) hV 4097 c hc1
    (by omega)
  have hlen := lzw_chain_length G.nxcode G.cchar 4097 c
  have hroot : r < g.clear := by
    rcases i4 with h | h
    · rw [u4, k4] at h
      exact h
    · have := (htu.2.2.2.2.2.1 r h.1 h.2).1
      omega
  have hlen2 : (lzw_string G.nxcode G.cchar 4097 c).length ≤ 4096 := by
    rw [← hlen]
    omega
  obtain ⟨bufc, j1, _, j3⟩ := getlzw_chain_spec G.nxcode G.cchar (dec_code G) hV 4097 c G.buf 0
    (Or.inr ⟨by rw [Int.toNat_natCast]; exact hc1, by omega⟩) (by unfold GIF_BUFSIZE; omega)
  rw [Nat.zero_add] at j1 j3
  obtain ⟨buf1, e1, _⟩ := getlzw_string_spec G (getlzw_taken g).nxc c (cnt - tail)
    (getlzw_out g.buf tail tail) (dec_code G) hV hc1 (by omega)
  have hdec : getlzw_decode (getlzw_taken g) g.cmask c 0 (cnt - tail)
      (getlzw_out g.buf tail tail) =
      getlzw_string G (getlzw_taken g).nxc c 0 (cnt - tail) (getlzw_out g.buf tail tail) := by
    unfold getlzw_decode
    rw [if_neg c1, if_neg c2]
    dsimp only
    rw [if_neg (by omega), if_neg c4, hG]
  rw [e1] at hdec
  obtain ⟨_, _, _, _, _, q6⟩ := getlzw_decode_keeps (getlzw_taken g) _ c (cnt - tail)
    (getlzw_out g.buf tail tail) _ _ _ _ hdec c1
  refine ⟨i1, i2, ⟨r, i3, hroot, i5⟩, by omega, ⟨bufc, by rw [hlen]; exact j1, ?_⟩,
    ⟨_, by rw [h4, hdec, hlen]; rfl, q6, ?_⟩, ht.2.2.2.1⟩
  · intro x hx
    exact j3 x (Or.inl (by unfold GIF_BUFSIZE; omega))
  · exact htu.2.2.2.1

set_option maxHeartbeats 4000000 in
theorem getlzw_chain_ends_witness :
    (lzw_chain (getlzw_update (getlzw_taken next_free_state) next_free_state.cmask 6).nxcode 4097 6).head? = some 6 ∧
    List.Chain' (fun a b => b < a)
      (lzw_chain (getlzw_update (getlzw_taken next_free_state) next_free_state.cmask 6).nxcode 4097 6) ∧
    (∃ r, (lzw_chain (getlzw_update (getlzw_taken next_free_state) next_free_state.cmask 6).nxcode 4097 6).getLast? = some r ∧
      r < next_free_state.clear ∧ (getlzw_update (getlzw_taken next_free_state) next_free_state.cmask 6).nxcode r < 0) ∧
    (lzw_chain (getlzw_update (getlzw_taken next_free_state) next_free_state.cmask 6).nxcode 4097 6).length ≤ 4096 ∧
    (∃ buf1, getlzw_chain (getlzw_update (getlzw_taken next_free_state) next_free_state.cmask 6).nxcode
        (getlzw_update (getlzw_taken next_free_state) next_free_state.cmask 6).cchar 4097 6
        ((getlzw_update (getlzw_taken next_free_state) next_free_state.cmask 6).buf, 0) =
        some (buf1, (lzw_chain (getlzw_update (getlzw_taken next_free_state) next_free_state.cmask 6).nxcode 4097 6).length) ∧
      ∀ x, x < 256 → buf1 x = (getlzw_update (getlzw_taken next_free_state) next_free_state.cmask 6).buf x) ∧
    (∃ g2, getlzw_step next_free_state 1 3 =
        .next g2 (lzw_chain (getlzw_update (getlzw_taken next_free_state) next_free_state.cmask 6).nxcode 4097 6).length
          (3 - 1) (getlzw_out next_free_state.buf 1 1) ∧
      (∀ x, x < 255 → g2.buf x = (getlzw_taken next_free_state).buf x) ∧ g2.nxc ≤ 4096) ∧
    next_free_state.nxc ≤ 4096 :=
  getlzw_chain_ends gifbuf_zero 2 [2, 132, 11, 0] next_free_state 1 3 6 (by decide)
    (getlzw_run.turn _ _ 0 3 (getlzw_run.turn _ _ 0 3 getlzw_run.start rfl) rfl)
    (by decide) (by unfold code_ok; decide)

/-! ## RGBA compositing: loop invariants -/

theorem add_frame_new_planes (K : consts) (ani : ani_settings) (stat : ani_status)
    (settings : ls_settings) (bpp disposal : Nat) :
    (bpp = 0 → (add_frame_new K ani stat settings bpp disposal).bpp = settings.bpp ∧
      (add_frame_new K ani stat settings bpp disposal).img = settings.img) ∧
    (bpp = 1 ∨ bpp = 3 → (add_frame_new K ani stat settings bpp disposal).bpp = bpp ∧
      (add_frame_new K ani stat settings bpp disposal).img.image =
        some (List.replicate (stat.defw * stat.defh * bpp) 0) ∧
      (add_frame_new K ani stat settings bpp disposal).img.alpha = none) ∧
    (bpp = 4 → (add_frame_new K ani stat settings bpp disposal).bpp = 3 ∧
      (add_frame_new K ani stat settings bpp disposal).img.image =
        some (List.replicate (stat.defw * stat.defh * 3) 0) ∧
      (add_frame_new K ani stat settings bpp disposal).img.alpha =
        some (List.replicate (stat.defw * stat.defh) 0)) := by
  refine ⟨?_, ?_, ?_⟩
  · intro h
    subst h
    exact ⟨rfl, rfl⟩
  · intro h
    rcases h with h | h <;> subst h <;> exact ⟨rfl, rfl, rfl⟩
  · intro h
    subst h
    exact ⟨rfl, rfl, rfl⟩

theorem analyze_code_nonneg (r : Int) (h : r = 0 ∨ r = 1 ∨ r = 3 ∨ r = 4) :
    r.toNat = 0 ∨ r.toNat = 1 ∨ r.toNat = 3 ∨ r.toNat = 4 := by
  rcases h with h | h | h | h <;> subst h <;> simp

theorem analyze_gif_frame_code_nonneg (K : consts) (stat : ani_status) (settings : ls_settings)
    (h : 0 ≤ (analyze_gif_frame K stat settings).1) :
    (analyze_gif_frame K stat settings).1 = 0 ∨ (analyze_gif_frame K stat settings).1 = 1 ∨
    (analyze_gif_frame K stat settings).1 = 3 ∨ (analyze_gif_frame K stat settings).1 = 4 := by
  by_cases hlim : stat.defw > K.MAX_WIDTH ∨ stat.defh > K.MAX_HEIGHT
  · by_cases hm : stat.mode ≤ K.ANM_RAW
    · left
      unfold analyze_gif_frame
      dsimp only
      rw [if_pos hm]
    · exfalso
      have := (analyze_too_large_aux K stat settings (by omega)).1.mpr hlim
      omega
  · exact analyze_gif_frame_code K stat settings hlim

theorem analyze_rgba_frame_code_nonneg (K : consts) (stat : ani_status)
    (settings : ls_settings) (h : 0 ≤ (analyze_rgba_frame K stat settings).1) :
    (analyze_rgba_frame K stat settings).1 = 0 ∨ (analyze_rgba_frame K stat settings).1 = 1 ∨
    (analyze_rgba_frame K stat settings).1 = 3 ∨ (analyze_rgba_frame K stat settings).1 = 4 := by
  by_cases hlim : stat.defw > K.MAX_WIDTH ∨ stat.defh > K.MAX_HEIGHT
  · by_cases hm : stat.mode ≤ K.ANM_RAW
    · left
      unfold analyze_rgba_frame
      rw [if_pos hm]
    · exfalso
      have e : analyze_rgba_frame K stat settings = (-1, stat) := by
        unfold analyze_rgba_frame
        rw [if_neg hm, if_pos hlim]
      rw [e] at h
      have h2 : (0 : Int) ≤ -1 := h
      omega
  · exact analyze_rgba_frame_code K stat settings hlim

theorem add_frame_new_depth (K : consts) (ani : ani_settings) (stat : ani_status)
    (settings : ls_settings) (r : Int) (disposal : Nat)
    (hin : ¬ (settings.bpp = 1 ∧ settings.img.alpha.isSome = true))
    (hr : r = 0 ∨ r = 1 ∨ r = 3 ∨ r = 4) :
    ¬ ((add_frame_new K ani stat settings r.toNat disposal).bpp = 1 ∧
      (add_frame_new K ani stat settings r.toNat disposal).img.alpha.isSome = true) ∧
    (r = 4 → (add_frame_new K ani stat settings r.toNat disposal).bpp = 3 ∧
      (add_frame_new K ani stat settings r.toNat disposal).img.image =
        some (List.replicate (stat.defw * stat.defh * 3) 0) ∧
      (add_frame_new K ani stat settings r.toNat disposal).img.alpha =
        some (List.replicate (stat.defw * stat.defh) 0)) ∧
    (r = 1 ∨ r = 3 → ((add_frame_new K ani stat settings r.toNat disposal).bpp : Int) = r ∧
      (add_frame_new K ani stat settings r.toNat disposal).img.image =
        some (List.replicate (stat.defw * stat.defh * r.toNat) 0) ∧
      (add_frame_new K ani stat settings r.toNat disposal).img.alpha = none) := by
  obtain ⟨p0, p1, p4⟩ := add_frame_new_planes K ani stat settings r.toNat disposal
  rcases hr with h | h | h | h
  · subst h
    obtain ⟨q1, q2⟩ := p0 rfl
    refine ⟨?_, fun h => absurd h (by decide), fun h => ?_⟩
    · rw [q1, q2]
      exact hin
    · rcases h with h | h <;> exact absurd h (by decide)
  · subst h
    obtain ⟨q1, q2, q3⟩ := p1 (Or.inl rfl)
    refine ⟨fun h => ?_, fun h => absurd h (by decide), fun _ => ⟨by rw [q1]; rfl, q2, q3⟩⟩
    rw [q3] at h
    exact absurd h.2 (by decide)
  · subst h
    obtain ⟨q1, q2, q3⟩ := p1 (Or.inr rfl)
    refine ⟨fun h => ?_, fun h => absurd h (by decide), fun _ => ⟨by rw [q1]; rfl, q2, q3⟩⟩
    rw [q3] at h
    exact absurd h.2 (by decide)
  · subst h
    obtain ⟨q1, q2, q3⟩ := p4 rfl
    refine ⟨fun h => ?_, fun _ => ⟨q1, q2, q3⟩, fun h => ?_⟩
    · rw [q1] at h
      exact absurd h.1 (by decide)
    · rcases h with h | h <;> exact absurd h (by decide)

theorem analyze_rgba_frame_alpha (K : consts) (stat : ani_status) (settings : ls_settings)
    (hmode : K.ANM_RAW < stat.mode)
    (hlim : stat.defw ≤ K.MAX_WIDTH ∧ stat.defh ≤ K.MAX_HEIGHT)
    (hidx : ¬ (settings.bpp = 1 ∧ settings.xpm_trans ≥ 0))
    (hres : (analyze_rgba_frame K stat settings).1 ≠ 0) :
    (analyze_rgba_frame K stat settings).1 =
      (if rgba_alpha K stat settings = true then 4
       else if stat.prev.bpp = 3 ∨ settings.bpp = 3 then 3 else 1) := by
  have hm : ¬ stat.mode ≤ K.ANM_RAW := by omega
  have hl : ¬ (stat.defw > K.MAX_WIDTH ∨ stat.defh > K.MAX_HEIGHT) := by omega
  unfold analyze_rgba_frame at hres ⊢
  rw [if_neg hm, if_neg hl] at hres ⊢
  dsimp only at hres ⊢
  by_cases h1 : (same_size (ani_map_frame K.MAX_WIDTH K.MAX_HEIGHT stat settings) settings &&
      !(!same_size (ani_map_frame K.MAX_WIDTH K.MAX_HEIGHT stat settings) settings ||
        (ani_map_frame K.MAX_WIDTH K.MAX_HEIGHT stat settings).blend)) = true
  · rw [if_pos h1] at hres
    exact absurd rfl hres
  · rw [if_neg h1, if_neg hidx]
    rfl

/-- C34: for every input frame that is not itself indexed with an alpha plane, the
frame that `add_frame` stores after `analyze_rgba_frame` or `analyze_gif_frame`
gave a result that is not negative is never 1 byte per pixel together with an
alpha plane: on the result 4 it is a zero-filled RGB image of 3 bytes per pixel
with an alpha plane, on the results 1 and 3 an image of that depth without alpha
plane, both of the size of the canvas, and on the result 0 it takes the planes of
the input. And `analyze_rgba_frame`, when it gets as far as to decide on alpha (in
compositing mode, the canvas within the limits, the frame not kept as it is and
not indexed with a transparent colour), returns 4 whenever alpha is needed, and 3
or 1, the larger of the depths of the underlayer and the new frame, only when it
is not. -/
theorem add_frame_depth (K : consts) (ani : ani_settings) (stat : ani_status)
    (settings : ls_settings) (disposal : Nat)
    (hin : ¬ (settings.bpp = 1 ∧ settings.img.alpha.isSome = true)) :
    (∀ a : Int × ani_status,
      (a = analyze_rgba_frame K stat settings ∨ a = analyze_gif_frame K stat settings) →
      0 ≤ a.1 →
      (add_frame K ani a.2 settings a.1.toNat disposal).1.fset.frames.getLast? =
        some (add_frame_new K ani a.2 settings a.1.toNat disposal) ∧
      ¬ ((add_frame_new K ani a.2 settings a.1.toNat disposal).bpp = 1 ∧
        (add_frame_new K ani a.2 settings a.1.toNat disposal).img.alpha.isSome = true) ∧
      (a.1 = 4 → (add_frame_new K ani a.2 settings a.1.toNat disposal).bpp = 3 ∧
        (add_frame_new K ani a.2 settings a.1.toNat disposal).img.image =
          some (List.replicate (a.2.defw * a.2.defh * 3) 0) ∧
        (add_frame_new K ani a.2 settings a.1.toNat disposal).img.alpha =
          some (List.replicate (a.2.defw * a.2.defh) 0)) ∧
      (a.1 = 1 ∨ a.1 = 3 →
        ((add_frame_new K ani a.2 settings a.1.toNat disposal).bpp : Int) = a.1 ∧
        (add_frame_new K ani a.2 settings a.1.toNat disposal).img.image =
          some (List.replicate (a.2.defw * a.2.defh * a.1.toNat) 0) ∧
        (add_frame_new K ani a.2 settings a.1.toNat disposal).img.alpha = none)) ∧
    (K.ANM_RAW < stat.mode → stat.defw ≤ K.MAX_WIDTH ∧ stat.defh ≤ K.MAX_HEIGHT →
      ¬ (settings.bpp = 1 ∧ settings.xpm_trans ≥ 0) →
      (analyze_rgba_frame K stat settings).1 ≠ 0 →
      (analyze_rgba_frame K stat settings).1 =
        (if rgba_alpha K stat settings = true then 4
         else if stat.prev.bpp = 3 ∨ settings.bpp = 3 then 3 else 1)) := by
  refine ⟨fun a ha h0 => ?_, fun h1 h2 h3 h4 => analyze_rgba_frame_alpha K stat settings h1 h2 h3 h4⟩
  have hcode : a.1 = 0 ∨ a.1 = 1 ∨ a.1 = 3 ∨ a.1 = 4 := by
    rcases ha with ha | ha
    · rw [ha] at h0 ⊢
      exact analyze_rgba_frame_code_nonneg K stat settings h0
    · rw [ha] at h0 ⊢
      exact analyze_gif_frame_code_nonneg K stat settings h0
  refine ⟨?_, add_frame_new_depth K ani a.2 settings a.1 disposal hin hcode⟩
  unfold add_frame frameset.set_last
  dsimp only
  rw [List.getLast?_append, List.getLast?_singleton]
  rfl

theorem add_frame_depth_witness :
    (∀ a : Int × ani_status,
      (a = analyze_rgba_frame consts_default blend_stat rgba_settings ∨ a = analyze_gif_frame consts_default blend_stat rgba_settings) →
      0 ≤ a.1 →
      (add_frame consts_default ani_settings_empty a.2 rgba_settings a.1.toNat 1).1.fset.frames.getLast? =
        some (add_frame_new consts_default ani_settings_empty a.2 rgba_settings a.1.toNat 1) ∧
      ¬ ((add_frame_new consts_default ani_settings_empty a.2 rgba_settings a.1.toNat 1).bpp = 1 ∧
        (add_frame_new consts_default ani_settings_empty a.2 rgba_settings a.1.toNat 1).img.alpha.isSome = true) ∧
      (a.1 = 4 → (add_frame_new consts_default ani_settings_empty a.2 rgba_settings a.1.toNat 1).bpp = 3 ∧
        (add_frame_new consts_default ani_settings_empty a.2 rgba_settings a.1.toNat 1).img.image =
          some (List.replicate (a.2.defw * a.2.defh * 3) 0) ∧
        (add_frame_new consts_default ani_settings_empty a.2 rgba_settings a.1.toNat 1).img.alpha =
          some (List.replicate (a.2.defw * a.2.defh) 0)) ∧
      (a.1 = 1 ∨ a.1 = 3 →
        ((add_frame_new consts_default ani_settings_empty a.2 rgba_settings a.1.toNat 1).bpp : Int) = a.1 ∧
        (add_frame_new consts_default ani_settings_empty a.2 rgba_settings a.1.toNat 1).img.image =
          some (List.replicate (a.2.defw * a.2.defh * a.1.toNat) 0) ∧
        (add_frame_new consts_default ani_settings_empty a.2 rgba_settings a.1.toNat 1).img.alpha = none)) ∧
    (consts_default.ANM_RAW < blend_stat.mode → blend_stat.defw ≤ consts_default.MAX_WIDTH ∧ blend_stat.defh ≤ consts_default.MAX_HEIGHT →
      ¬ (rgba_settings.bpp = 1 ∧ rgba_settings.xpm_trans ≥ 0) →
      (analyze_rgba_frame consts_default blend_stat rgba_settings).1 ≠ 0 →
      (analyze_rgba_frame consts_default blend_stat rgba_settings).1 =
        (if rgba_alpha consts_default blend_stat rgba_settings = true then 4
         else if blend_stat.prev.bpp = 3 ∨ rgba_settings.bpp = 3 then 3 else 1)) :=
  add_frame_depth consts_default ani_settings_empty blend_stat rgba_settings 1 (by decide)

/-! ## The analysis of indexed frames: where the visible colours go -/

theorem ext_color_entry (prev pal : palette) (e : Nat) :
    ext_color prev pal e = PNG_2_INT (ext_entry prev pal e) := rfl

theorem INT_2_png_PNG_2_INT (c : png_color) (h : rgb_bytes c) : INT_2_png (PNG_2_INT c) = c := by
  obtain ⟨r, g, b⟩ := c
  obtain ⟨h1, h2, h3⟩ := h
  simp only at h1 h2 h3
  unfold INT_2_png PNG_2_INT
  simp only [Nat.shiftLeft_eq, Nat.shiftRight_eq_div_pow]
  have e1 : ∀ v : Nat, v &&& 0xFF = v % 256 := fun v => Nat.and_pow_two_sub_one_eq_mod v 8
  rw [e1, e1]
  congr 1 <;> omega

theorem PNG_2_INT_inj (a b : png_color) (ha : rgb_bytes a) (hb : rgb_bytes b)
    (h : PNG_2_INT a = PNG_2_INT b) : a = b := by
  rw [← INT_2_png_PNG_2_INT a ha, ← INT_2_png_PNG_2_INT b hb, h]

theorem seen_colors_mem (cmap : Nat → Nat) (prev pal : palette) (j : Nat) (hm : cmap j ≠ 0) :
    ∀ n, j < n → ext_color prev pal j ∈ seen_colors cmap prev pal n := by
  intro n
  induction n with
  | zero => intro h; omega
  | succ n ih =>
    intro h
    by_cases hj : j = n
    · subst hj
      by_cases hin : ext_color prev pal j ∈ seen_colors cmap prev pal j
      · rw [seen_colors, if_neg (by tauto)]
        exact hin
      · rw [seen_colors, if_pos ⟨hm, hin⟩]
        exact List.mem_append_right _ (List.mem_singleton.mpr rfl)
    · have := ih (by omega)
      rw [seen_colors]
      split
      · exact List.mem_append_left _ this
      · exact this

/-- The block "Place transparency" leaves alone the mapping and the palette
entry of a marked colour, and gives the transparent index to none. -/
theorem agf_place_trans_maps (stat : ani_status) (cmap : Nat → Nat) (prevtr tp : Int)
    (st : ani_status) (h : agf_place_trans stat cmap prevtr tp = some st)
    (h0 : stat.newtrans = -1)
    (e : Nat) (he : e < 512) (hpt : (e : Int) ≠ prevtr)
    (hlt : ((stat.xlat e : Nat) : Int) < stat.newcols)
    (hused : ∀ l : Nat, cmap l ||| cmap (l + 256) = 0 → stat.xlat e ≠ l) :
    st.xlat e = stat.xlat e ∧ st.newpal (stat.xlat e) = stat.newpal (stat.xlat e) ∧
      ((stat.xlat e : Nat) : Int) ≠ st.newtrans := by
  unfold agf_place_trans at h
  by_cases hbg : cmap 512 ≠ 0
  · rw [if_pos hbg] at h
    dsimp only at h
    generalize hl1 : (if agf_slot_taken cmap stat.newcols prevtr = true then tp else prevtr) = l1
      at h
    generalize hl2 : (if agf_slot_taken cmap stat.newcols l1 = true then
        agf_find_slot cmap stat.newcols.toNat 0 else l1) = l2 at h
    have hxe : ∀ v : Nat, (if prevtr ≥ 0 then Function.update stat.xlat prevtr.toNat v
        else stat.xlat) e = stat.xlat e := by
      intro v
      split
      · rw [Function.update_noteq]
        omega
      · rfl
    by_cases hneg : l2 < 0
    · rw [if_pos hneg] at h
      by_cases hnc2 : stat.newcols ≥ 256
      · rw [if_pos hnc2] at h
        cases h
      · rw [if_neg hnc2] at h
        cases h
        refine ⟨?_, ?_, ?_⟩
        · show Function.update _ 512 _ e = _
          rw [Function.update_noteq (by omega), hxe]
        · show (if stat.newcols ≥ 0 then Function.update stat.newpal stat.newcols.toNat ⟨0, 0, 0⟩
            else stat.newpal) (stat.xlat e) = _
          split
          · rw [Function.update_noteq]
            omega
          · rfl
        · show ((stat.xlat e : Nat) : Int) ≠ stat.newcols
          omega
    · rw [if_neg hneg] at h
      cases h
      have hslot : cmap l2.toNat ||| cmap (l2.toNat + 256) = 0 := by
        by_cases ht : agf_slot_taken cmap stat.newcols l1 = true
        · rw [if_pos ht] at hl2
          obtain ⟨_, f2⟩ := agf_find_slot_spec cmap stat.newcols.toNat 0
          rw [hl2] at f2
          exact (f2 (by omega)).2
        · rw [if_neg ht] at hl2
          rw [← hl2]
          unfold agf_slot_taken at ht
          simp only [Bool.or_eq_true, decide_eq_true_eq, not_or, not_lt, not_le, ne_eq,
            not_not] at ht
          exact ht.2
      refine ⟨?_, rfl, ?_⟩
      · show Function.update _ 512 _ e = _
        rw [Function.update_noteq (by omega), hxe]
      · show ((stat.xlat e : Nat) : Int) ≠ l2
        intro heq
        exact hused l2.toNat hslot (by omega)
  · rw [if_neg hbg] at h
    cases h
    exact ⟨rfl, rfl, by omega⟩

theorem agf_stat1_xlat (stat : ani_status) (settings : ls_settings) :
    (agf_stat1 stat settings).xlat = stat.xlat ∧
    (agf_stat1 stat settings).newtrans = stat.newtrans := by
  unfold agf_stat1
  split <;> exact ⟨rfl, rfl⟩

/-- When one palette is kept ("Place transparency" succeeds), every marked
colour keeps its 1:1 mapping, its entry in the kept palette has the RGB value of
its source colour, and it does not get the transparent index. -/
theorem agf_single_maps (stat : ani_status) (settings : ls_settings) (st2 : ani_status)
    (hx : ∀ i, i < 256 → stat.xlat i = i ∧ stat.xlat (256 + i) = i)
    (hnp : stat.newpal = (agf_pal stat settings).1)
    (hcols : stat.newcols = (agf_pal stat settings).2)
    (h0 : stat.newtrans = -1)
    (hnounder : stat.prev_idx = 0 → ∀ e, e < 256 → agf_cmap stat settings e = 0)
    (hP : ∀ e, e < 512 → agf_cmap stat settings e ≠ 0 →
      (e < 256 → (e : Int) < agf_lprev stat) ∧
      (256 ≤ e → ((e - 256 : Nat) : Int) < (agf_pal stat settings).2))
    (hs : agf_single stat settings = some st2)
    (e : Nat) (he : e < 512) (hm : agf_cmap stat settings e ≠ 0) :
    ((st2.xlat e : Nat) : Int) ≠ st2.newtrans ∧
    PNG_2_INT (st2.newpal (st2.xlat e)) =
      ext_color (agf_prev_pal stat) (agf_pal stat settings).1 e ∧
    ((∀ i, rgb_bytes (agf_prev_pal stat i) ∧ rgb_bytes ((agf_pal stat settings).1 i)) →
      st2.newpal (st2.xlat e) = ext_entry (agf_prev_pal stat) (agf_pal stat settings).1 e) := by
  obtain ⟨u1, u2, u3⟩ := agf_ul_spec stat settings hnounder hP
  unfold agf_single at hs
  by_cases hul0 : agf_ul stat settings ≠ 0
  · rw [if_pos hul0] at hs
    obtain ⟨sx, st⟩ := agf_stat1_xlat stat settings
    have hpt : (e : Int) ≠ agf_prevtr stat := by
      intro h
      exact hm (agf_cmap_prevtr stat settings e h.symm)
    -- the 1:1 mapping of the marked index
    have hxe : stat.xlat e = if e < 256 then e else e - 256 := by
      split
      · rename_i h
        exact (hx e h).1
      · rename_i h
        have := (hx (e - 256) (by omega)).2
        rwa [show 256 + (e - 256) = e by omega] at this
    -- the kept palette and its size
    have hkept : ((stat.xlat e : Nat) : Int) < (agf_stat1 stat settings).newcols ∧
        PNG_2_INT ((agf_stat1 stat settings).newpal (stat.xlat e)) =
          ext_color (agf_prev_pal stat) (agf_pal stat settings).1 e ∧
        ((agf_stat1 stat settings).newpal (stat.xlat e) = agf_prev_pal stat (stat.xlat e) ∨
          (agf_stat1 stat settings).newpal (stat.xlat e) =
            (agf_pal stat settings).1 (stat.xlat e)) := by
      by_cases hold : agf_show_under stat settings = true ∧ agf_ul stat settings = 1
      · have e1 : agf_stat1 stat settings =
            { stat with newpal := agf_prev_pal stat, newcols := agf_lprev stat } := by
          unfold agf_stat1
          rw [if_pos hold]
        rw [e1, hxe]
        by_cases h256 : e < 256
        · rw [if_pos h256]
          refine ⟨(hP e he hm).1 h256, ?_, Or.inl rfl⟩
          unfold ext_color
          rw [if_pos h256]
        · rw [if_neg h256]
          have hm2 : agf_cmap stat settings (256 + (e - 256)) ≠ 0 := by
            rwa [show 256 + (e - 256) = e by omega]
          obtain ⟨a1, a2⟩ := u3 hold (e - 256) (by omega) hm2
          refine ⟨a1, ?_, Or.inl rfl⟩
          unfold ext_color
          rw [if_neg h256]
          exact a2
      · have e1 : agf_stat1 stat settings = stat := by
          unfold agf_stat1
          rw [if_neg hold]
        rw [e1, hxe, hcols, hnp]
        by_cases h256 : e < 256
        · rw [if_pos h256]
          obtain ⟨a1, a2⟩ := u2 hold hul0 e h256 hm
          refine ⟨a1, ?_, Or.inr rfl⟩
          unfold ext_color
          rw [if_pos h256]
          exact a2.symm
        · rw [if_neg h256]
          refine ⟨(hP e he hm).2 (by omega), ?_, Or.inr rfl⟩
          unfold ext_color
          rw [if_neg h256]
    have hused : ∀ l : Nat,
        agf_cmap stat settings l ||| agf_cmap stat settings (l + 256) = 0 →
          (agf_stat1 stat settings).xlat e ≠ l := by
      intro l hl heq
      obtain ⟨z1, z2⟩ := lor_eq_zero _ _ hl
      rw [sx, hxe] at heq
      by_cases h256 : e < 256
      · rw [if_pos h256] at heq
        rw [heq] at hm
        exact hm z1
      · rw [if_neg h256] at heq
        rw [← heq, show e - 256 + 256 = e by omega] at z2
        exact hm z2
    obtain ⟨p1, p2, p3⟩ := agf_place_trans_maps (agf_stat1 stat settings)
      (agf_cmap stat settings) (agf_prevtr stat) settings.xpm_trans st2 hs
      (by rw [st]; exact h0) e he hpt (by rw [sx]; exact hkept.1) hused
    rw [sx] at p1 p2 p3
    rw [p1, p2]
    refine ⟨p3, hkept.2.1, ?_⟩
    intro hb
    unfold ext_entry
    have h2 := hkept.2.1
    rw [ext_color_entry] at h2
    apply PNG_2_INT_inj _ _ _ _ h2
    · rcases hkept.2.2 with h | h
      · rw [h]
        exact (hb _).1
      · rw [h]
        exact (hb _).2
    · unfold ext_entry
      split
      · exact (hb _).1
      · exact (hb _).2
  · rw [if_neg hul0] at hs
    cases hs

/-- When the combined palette is built, every marked colour other than the
underlayer's transparent one is mapped to a slot that holds its RGB value, and
that slot is not the transparent one. -/
theorem agf_merge_maps (stat : ani_status) (cmap : Nat → Nat) (prev pal : palette)
    (prevtr : Int) (h : (agf_merge stat cmap prev pal prevtr).1 = true)
    (h0 : stat.newtrans = -1)
    (e : Nat) (he : e < 512) (hm : cmap e ≠ 0) (hpt : (e : Int) ≠ prevtr) :
    (((agf_merge stat cmap prev pal prevtr).2.xlat e : Nat) : Int) ≠
      (agf_merge stat cmap prev pal prevtr).2.newtrans ∧
    (agf_merge stat cmap prev pal prevtr).2.newpal
        ((agf_merge stat cmap prev pal prevtr).2.xlat e) =
      INT_2_png (ext_color prev pal e) := by
  obtain ⟨_, r2, _, r4, r5⟩ := agf_merge_result stat cmap prev pal prevtr h
  have hmem := seen_colors_mem cmap prev pal e hm 512 he
  have hlt := List.indexOf_lt_length.mpr hmem
  have hxe := r4 e he hm (fun hc => hpt hc.2.symm)
  rw [hxe, r2, r5 _ hlt, List.getD_eq_getElem _ _ hlt, List.getElem_indexOf hlt]
  refine ⟨?_, rfl⟩
  split
  · omega
  · omega

/-- The second half of the analysis, when it keeps the output indexed: every
marked colour is mapped to a slot other than the transparent one, and, if the
palette entries are bytes, to a slot that holds its palette entry. -/
theorem agf_decide_maps (stat : ani_status) (settings : ls_settings)
    (hx : ∀ i, i < 256 → stat.xlat i = i ∧ stat.xlat (256 + i) = i)
    (hnp : stat.newpal = (agf_pal stat settings).1)
    (hcols : stat.newcols = (agf_pal stat settings).2)
    (h0 : stat.newtrans = -1)
    (hnounder : stat.prev_idx = 0 → ∀ e, e < 256 → agf_cmap stat settings e = 0)
    (hP : ∀ e, e < 512 → agf_cmap stat settings e ≠ 0 →
      (e < 256 → (e : Int) < agf_lprev stat) ∧
      (256 ≤ e → ((e - 256 : Nat) : Int) < (agf_pal stat settings).2))
    (hcode : (agf_decide stat settings).1 = 0 ∨ (agf_decide stat settings).1 = 1)
    (e : Nat) (he : e < 512) (hm : agf_cmap stat settings e ≠ 0) :
    (((agf_decide stat settings).2.xlat e : Nat) : Int) ≠ (agf_decide stat settings).2.newtrans ∧
    ((∀ i, rgb_bytes (agf_prev_pal stat i) ∧ rgb_bytes ((agf_pal stat settings).1 i)) →
      (agf_decide stat settings).2.newpal ((agf_decide stat settings).2.xlat e) =
        ext_entry (agf_prev_pal stat) (agf_pal stat settings).1 e) := by
  by_cases h3 : agf_show_under stat settings = true ∧ stat.prev.bpp = 3
  · have hd : agf_decide stat settings =
        agf_rgb stat (agf_cmap stat settings) (agf_show_under stat settings) := by
      unfold agf_decide
      simp only [if_pos h3]
    rw [hd] at hcode
    rcases agf_rgb_code stat (agf_cmap stat settings) (agf_show_under stat settings) with h | h
    · rw [h] at hcode
      omega
    · rw [h] at hcode
      omega
  · cases hs : agf_single stat settings with
    | some st2 =>
      rw [agf_decide_single stat settings st2 h3 hs]
      obtain ⟨a1, _, a3⟩ := agf_single_maps stat settings st2 hx hnp hcols h0 hnounder hP hs e
        he hm
      exact ⟨a1, a3⟩
    | none =>
      have hd := agf_decide_merge stat settings h3 hs
      rw [hd] at hcode ⊢
      by_cases hmg : (agf_merge (agf_stat1 stat settings) (agf_cmap stat settings)
          (agf_prev_pal stat) (agf_pal stat settings).1 (agf_prevtr stat)).1 = true
      · rw [if_pos hmg]
        have hpt : (e : Int) ≠ agf_prevtr stat := by
          intro h
          exact hm (agf_cmap_prevtr stat settings e h.symm)
        obtain ⟨m1, m2⟩ := agf_merge_maps (agf_stat1 stat settings) (agf_cmap stat settings)
          (agf_prev_pal stat) (agf_pal stat settings).1 (agf_prevtr stat) hmg
          (by rw [(agf_stat1_xlat stat settings).2]; exact h0) e he hm hpt
        refine ⟨m1, ?_⟩
        intro hb
        show (agf_merge (agf_stat1 stat settings) (agf_cmap stat settings)
          (agf_prev_pal stat) (agf_pal stat settings).1 (agf_prevtr stat)).2.newpal _ = _
        rw [m2, ext_color_entry]
        apply INT_2_png_PNG_2_INT
        unfold ext_entry
        split
        · exact (hb _).1
        · exact (hb _).2
      · rw [if_neg hmg] at hcode
        rcases agf_rgb_code (agf_merge (agf_stat1 stat settings) (agf_cmap stat settings)
          (agf_prev_pal stat) (agf_pal stat settings).1 (agf_prevtr stat)).2
          (agf_cmap stat settings) (agf_show_under stat settings) with h | h
        · rw [h] at hcode
          omega
        · rw [h] at hcode
          omega

/-- A first frame that is kept as it is: the state is the one prepared for the
scan, with the new frame's own transparent index. -/
theorem analyze_gif_frame_first (K : consts) (stat : ani_status) (settings : ls_settings)
    (hmode : K.ANM_RAW < stat.mode)
    (hlim : ¬ (stat.defw > K.MAX_WIDTH ∨ stat.defh > K.MAX_HEIGHT))
    (hfirst : stat.prev_idx = 0 ∧
      (same_size (agf_prepare K stat settings) settings = true ∨ settings.xpm_trans ≥ 0)) :
    (analyze_gif_frame K stat settings).2.xlat = (agf_prepare K stat settings).xlat ∧
    (analyze_gif_frame K stat settings).2.newpal = (agf_pal stat settings).1 ∧
    (analyze_gif_frame K stat settings).2.newtrans = settings.xpm_trans := by
  have hm : ¬ stat.mode ≤ K.ANM_RAW := by omega
  unfold analyze_gif_frame
  rw [if_neg hm, if_neg hlim]
  dsimp only
  by_cases hss : same_size (agf_prepare K stat settings) settings = true
  · have hc : ((ani_init_xlat (ani_map_frame K.MAX_WIDTH K.MAX_HEIGHT
        { stat with newpal := (agf_pal stat settings).1,
                    newcols := (agf_pal stat settings).2,
                    newtrans := settings.xpm_trans } settings)).prev_idx = 0 ∧
        same_size (ani_init_xlat (ani_map_frame K.MAX_WIDTH K.MAX_HEIGHT
        { stat with newpal := (agf_pal stat settings).1,
                    newcols := (agf_pal stat settings).2,
                    newtrans := settings.xpm_trans } settings)) settings = true) :=
      ⟨hfirst.1, hss⟩
    rw [if_pos hc]
    exact ⟨rfl, rfl, rfl⟩
  · have hc : ¬ ((ani_init_xlat (ani_map_frame K.MAX_WIDTH K.MAX_HEIGHT
        { stat with newpal := (agf_pal stat settings).1,
                    newcols := (agf_pal stat settings).2,
                    newtrans := settings.xpm_trans } settings)).prev_idx = 0 ∧
        same_size (ani_init_xlat (ani_map_frame K.MAX_WIDTH K.MAX_HEIGHT
        { stat with newpal := (agf_pal stat settings).1,
                    newcols := (agf_pal stat settings).2,
                    newtrans := settings.xpm_trans } settings)) settings = true) :=
      fun hh => hss hh.2
    have hc2 : ((ani_init_xlat (ani_map_frame K.MAX_WIDTH K.MAX_HEIGHT
        { stat with newpal := (agf_pal stat settings).1,
                    newcols := (agf_pal stat settings).2,
                    newtrans := settings.xpm_trans } settings)).prev_idx = 0 ∧
        settings.xpm_trans ≥ 0) := by
      rcases hfirst.2 with hh | hh
      · exact absurd hh hss
      · exact ⟨hfirst.1, hh⟩
    rw [if_neg hc, if_pos hc2]
    exact ⟨rfl, rfl, rfl⟩

/-- Where `analyze_gif_frame` sends a canvas pixel that shows a colour, when it
keeps the output indexed in compositing mode and every visible pixel value is
below its own palette's size: to a slot other than the transparent one, and, if
the palette entries are bytes, to a slot that holds the pixel's palette entry. -/
theorem analyze_gif_frame_maps (K : consts) (stat : ani_status) (settings : ls_settings)
    (hmode : K.ANM_RAW < stat.mode)
    (hfg : ∀ b ∈ settings.img.image.getD [], b < 256)
    (hbg : ∀ b ∈ stat.prev.img.image.getD [], b < 256)
    (hP : ∀ e ∈ visible_indices (agf_prepare K stat settings) settings,
      (e < 256 → (e : Int) ≠ agf_prevtr stat → (e : Int) < agf_lprev stat) ∧
      (256 ≤ e → e < 512 → ((e - 256 : Nat) : Int) < (agf_pal stat settings).2))
    (hcode : (analyze_gif_frame K stat settings).1 = 0 ∨
      (analyze_gif_frame K stat settings).1 = 1)
    (x y : Nat) (hx : x < (agf_prepare K stat settings).defw)
    (hy : y < (agf_prepare K stat settings).defh)
    (h512 : canvas_index (agf_prepare K stat settings) settings x y ≠ 512)
    (htr : (canvas_index (agf_prepare K stat settings) settings x y : Int) ≠ agf_prevtr stat) :
    (((analyze_gif_frame K stat settings).2.xlat
        (canvas_index (agf_prepare K stat settings) settings x y) : Nat) : Int) ≠
      (analyze_gif_frame K stat settings).2.newtrans ∧
    ((∀ i, rgb_bytes (agf_prev_pal stat i) ∧ rgb_bytes ((agf_pal stat settings).1 i)) →
      (analyze_gif_frame K stat settings).2.newpal
          ((analyze_gif_frame K stat settings).2.xlat
            (canvas_index (agf_prepare K stat settings) settings x y)) =
        ext_entry (agf_prev_pal stat) (agf_pal stat settings).1
          (canvas_index (agf_prepare K stat settings) settings x y)) := by
  by_cases hlim : stat.defw > K.MAX_WIDTH ∨ stat.defh > K.MAX_HEIGHT
  · have hneg := ((analyze_too_large_aux K stat settings hmode).1).2 hlim
    omega
  have hv : canvas_index (agf_prepare K stat settings) settings x y ∈
      visible_indices (agf_prepare K stat settings) settings :=
    (mem_visible_indices _ _ _).mpr ⟨x, y, hx, hy, rfl⟩
  have hcls := (canvas_index_prepared K stat settings x y hfg hbg hx hy).1
  generalize canvas_index (agf_prepare K stat settings) settings x y = e at h512 htr hv hcls ⊢
  have he : e < 512 := by
    rcases hcls with h | h | ⟨v, hv1, _, hv3⟩
    · exact absurd h h512
    · omega
    · omega
  by_cases hfirst : stat.prev_idx = 0 ∧
      (same_size (agf_prepare K stat settings) settings = true ∨ settings.xpm_trans ≥ 0)
  · obtain ⟨f1, f2, f3⟩ := analyze_gif_frame_first K stat settings hmode hlim hfirst
    rcases hcls with h | h | ⟨v, hv1, hv2, hv3⟩
    · exact absurd h h512
    · exact absurd hfirst.1 h.2
    · rw [f1, f2, f3, hv3, (agf_prepare_xlat K stat settings v hv1).2]
      refine ⟨hv2, fun _ => ?_⟩
      unfold ext_entry
      rw [if_neg (by omega), show 256 + v - 256 = v by omega]
  · rw [analyze_gif_frame_eq_decide K stat settings hmode (by omega) hfirst] at hcode ⊢
    have hm : agf_cmap (agf_prepare K stat settings) settings e ≠ 0 :=
      (agf_cmap_ne_zero _ settings e he).mpr ⟨hv, htr⟩
    exact agf_decide_maps (agf_prepare K stat settings) settings
      (agf_prepare_xlat K stat settings) rfl rfl rfl
      (by
        intro hp e2 he2
        by_contra hne
        obtain ⟨hv2, _⟩ := (agf_cmap_ne_zero _ settings e2 (by omega)).mp hne
        obtain ⟨x2, y2, hx2, hy2, hxy⟩ := (mem_visible_indices _ _ _).mp hv2
        rcases (canvas_index_prepared K stat settings x2 y2 hfg hbg hx2 hy2).1 with h | h | h
        · omega
        · exact h.2 hp
        · obtain ⟨v, _, _, hve⟩ := h
          omega)
      (by
        intro e2 he2 hm2
        obtain ⟨hv2, hne⟩ := (agf_cmap_ne_zero _ settings e2 he2).mp hm2
        exact ⟨fun h1 => (hP e2 hv2).1 h1 hne, fun h2 => (hP e2 hv2).2 h2 he2⟩)
      hcode e he hm

theorem pal_of_bytes (l : List png_color) (h : ∀ c ∈ l, rgb_bytes c) (i : Nat) :
    rgb_bytes (pal_of l i) := by
  unfold pal_of
  by_cases hi : i < l.length
  · rw [List.getD_eq_getElem _ _ hi]
    exact h _ (List.getElem_mem hi)
  · rw [List.getD_eq_default _ _ (by omega)]
    exact ⟨by decide, by decide, by decide⟩

/-- C36 fails as stated: the second pixel of the underlay `key_prev` is visible
and is not background (its extended index is the underlay value 1), every pixel
value is below its palette's size, and the analysis returns an indexed result
in compositing mode; but the pixel carries the underlay's transparent index, so
that it is mapped to the output transparent index 1, whose palette entry is the
new frame's blue and not the underlay's green. -/
theorem analyze_gif_frame_colours_counterexample :
    consts_default.ANM_RAW < key_stat.mode ∧
    (analyze_gif_frame consts_default key_stat key_settings).1 = 1 ∧
    (∀ b ∈ key_prev.img.image.getD [], (b : Int) < agf_lprev key_stat) ∧
    (∀ b ∈ key_settings.img.image.getD [], (b : Int) < (agf_pal key_stat key_settings).2) ∧
    canvas_index (agf_prepare consts_default key_stat key_settings) key_settings 1 0 = 1 ∧
    (analyze_gif_frame consts_default key_stat key_settings).2.xlat 1 = 1 ∧
    (analyze_gif_frame consts_default key_stat key_settings).2.newtrans = 1 ∧
    (analyze_gif_frame consts_default key_stat key_settings).2.newpal 1 = ⟨0, 0, 255⟩ ∧
    agf_prev_pal key_stat 1 = ⟨0, 255, 0⟩ ∧
    PNG_2_INT ((analyze_gif_frame consts_default key_stat key_settings).2.newpal
      ((analyze_gif_frame consts_default key_stat key_settings).2.xlat
        (canvas_index (agf_prepare consts_default key_stat key_settings) key_settings 1 0))) ≠
      ext_color (agf_prev_pal key_stat) (agf_pal key_stat key_settings).1
        (canvas_index (agf_prepare consts_default key_stat key_settings) key_settings 1 0) := by
  decide!

/-- C36 (amended): whenever `analyze_gif_frame` returns an indexed result (0 or 1)
in compositing mode and every visible pixel value is below its own frame's
palette size, then for every visible non-background pixel that does not carry
the underlay's transparent index, the output palette entry `newpal[xlat[e]]`
(`e` being the pixel's extended index: underlay value, or new-frame value + 256)
is the pixel's source colour in the underlay's palette, respectively the new
frame's palette. Pixels and palette channels are bytes. -/
theorem analyze_gif_frame_colours (K : consts) (stat : ani_status) (settings : ls_settings)
    (hmode : K.ANM_RAW < stat.mode)
    (hfg : ∀ b ∈ settings.img.image.getD [], b < 256)
    (hbg : ∀ b ∈ stat.prev.img.image.getD [], b < 256)
    (hchan : ∀ i, rgb_bytes (agf_prev_pal stat i) ∧ rgb_bytes ((agf_pal stat settings).1 i))
    (hP : ∀ e ∈ visible_indices (agf_prepare K stat settings) settings,
      (e < 256 → (e : Int) ≠ agf_prevtr stat → (e : Int) < agf_lprev stat) ∧
      (256 ≤ e → e < 512 → ((e - 256 : Nat) : Int) < (agf_pal stat settings).2))
    (hcode : (analyze_gif_frame K stat settings).1 = 0 ∨
      (analyze_gif_frame K stat settings).1 = 1)
    (x y : Nat) (hx : x < (agf_prepare K stat settings).defw)
    (hy : y < (agf_prepare K stat settings).defh)
    (h512 : canvas_index (agf_prepare K stat settings) settings x y ≠ 512)
    (htr : (canvas_index (agf_prepare K stat settings) settings x y : Int) ≠ agf_prevtr stat) :
    (analyze_gif_frame K stat settings).2.newpal
        ((analyze_gif_frame K stat settings).2.xlat
          (canvas_index (agf_prepare K stat settings) settings x y)) =
      ext_entry (agf_prev_pal stat) (agf_pal stat settings).1
        (canvas_index (agf_prepare K stat settings) settings x y) ∧
    PNG_2_INT ((analyze_gif_frame K stat settings).2.newpal
        ((analyze_gif_frame K stat settings).2.xlat
          (canvas_index (agf_prepare K stat settings) settings x y))) =
      ext_color (agf_prev_pal stat) (agf_pal stat settings).1
        (canvas_index (agf_prepare K stat settings) settings x y) := by
  have h := (analyze_gif_frame_maps K stat settings hmode hfg hbg hP hcode x y hx hy h512
    htr).2 hchan
  refine ⟨h, ?_⟩
  rw [h, ext_color_entry]

/-- Witness for `analyze_gif_frame_colours`: the first pixel of the canvas of
`merge_stat` shows the underlay's red, which the merged palette holds in the
slot the pixel is mapped to. -/
theorem analyze_gif_frame_colours_witness :
    (analyze_gif_frame consts_default merge_stat merge_settings).2.newpal
        ((analyze_gif_frame consts_default merge_stat merge_settings).2.xlat
          (canvas_index (agf_prepare consts_default merge_stat merge_settings)
            merge_settings 0 0)) =
      ext_entry (agf_prev_pal merge_stat) (agf_pal merge_stat merge_settings).1
        (canvas_index (agf_prepare consts_default merge_stat merge_settings)
          merge_settings 0 0) ∧
    PNG_2_INT ((analyze_gif_frame consts_default merge_stat merge_settings).2.newpal
        ((analyze_gif_frame consts_default merge_stat merge_settings).2.xlat
          (canvas_index (agf_prepare consts_default merge_stat merge_settings)
            merge_settings 0 0))) =
      ext_color (agf_prev_pal merge_stat) (agf_pal merge_stat merge_settings).1
        (canvas_index (agf_prepare consts_default merge_stat merge_settings)
          merge_settings 0 0) :=
  analyze_gif_frame_colours consts_default merge_stat merge_settings (by decide) (by decide)
    (by decide)
    (fun i => ⟨pal_of_bytes [⟨255, 0, 0⟩, ⟨0, 255, 0⟩, ⟨0, 0, 255⟩] (by decide) i,
      pal_of_bytes [⟨255, 255, 0⟩, ⟨0, 255, 255⟩, ⟨255, 0, 255⟩] (by decide) i⟩)
    (by decide!) (by decide!) 0 0 (by decide) (by decide) (by decide!) (by decide!)

/-- C37 fails as stated: the first frame `wide_settings` has a palette of two
colours and a visible, non-transparent pixel of value 2; background is visible
beside it, no palette slot is free, so the slot 2 is added as the output
transparent index, and the pixel of value 2 is mapped to it. In raw frame mode
the mapping table is not set at all: the frame `stale_settings` is kept with
its transparent index 0, to which the zero-filled table maps its pixel of
value 1. -/
theorem analyze_gif_frame_opaque_counterexample :
    (consts_default.ANM_RAW < wide_stat.mode ∧
      (analyze_gif_frame consts_default wide_stat wide_settings).1 = 1 ∧
      (analyze_gif_frame consts_default wide_stat wide_settings).2.newtrans = 2 ∧
      canvas_index (agf_prepare consts_default wide_stat wide_settings) wide_settings 2 0 =
        256 + 2 ∧
      wide_settings.xpm_trans = -1 ∧ agf_prevtr wide_stat = -1 ∧
      (((analyze_gif_frame consts_default wide_stat wide_settings).2.xlat
        (canvas_index (agf_prepare consts_default wide_stat wide_settings)
          wide_settings 2 0) : Nat) : Int) =
        (analyze_gif_frame consts_default wide_stat wide_settings).2.newtrans) ∧
    (stale_stat.mode ≤ consts_default.ANM_RAW ∧
      (analyze_gif_frame consts_default stale_stat stale_settings).1 = 0 ∧
      (analyze_gif_frame consts_default stale_stat stale_settings).2.newtrans = 0 ∧
      stale_settings.img.image = some [1] ∧ stale_settings.xpm_trans = 0 ∧
      (analyze_gif_frame consts_default stale_stat stale_settings).2.xlat (256 + 1) = 0) := by
  decide!

/-- C37 (amended): whenever `analyze_gif_frame` returns an indexed result (0 or 1)
in compositing mode and every visible pixel value is below its own frame's
palette size, no visible non-transparent pixel of the underlay or of the new
frame is mapped by `xlat` to the output transparent index `newtrans`: a canvas
pixel whose extended index is mapped to it is a background pixel (which a
transparent new-frame pixel over background is, too) or carries the underlay's
transparent index. Pixels are bytes. -/
theorem analyze_gif_frame_opaque (K : consts) (stat : ani_status) (settings : ls_settings)
    (hmode : K.ANM_RAW < stat.mode)
    (hfg : ∀ b ∈ settings.img.image.getD [], b < 256)
    (hbg : ∀ b ∈ stat.prev.img.image.getD [], b < 256)
    (hP : ∀ e ∈ visible_indices (agf_prepare K stat settings) settings,
      (e < 256 → (e : Int) ≠ agf_prevtr stat → (e : Int) < agf_lprev stat) ∧
      (256 ≤ e → e < 512 → ((e - 256 : Nat) : Int) < (agf_pal stat settings).2))
    (hcode : (analyze_gif_frame K stat settings).1 = 0 ∨
      (analyze_gif_frame K stat settings).1 = 1)
    (x y : Nat) (hx : x < (agf_prepare K stat settings).defw)
    (hy : y < (agf_prepare K stat settings).defh)
    (hmap : (((analyze_gif_frame K stat settings).2.xlat
        (canvas_index (agf_prepare K stat settings) settings x y) : Nat) : Int) =
      (analyze_gif_frame K stat settings).2.newtrans) :
    canvas_index (agf_prepare K stat settings) settings x y = 512 ∨
    (canvas_index (agf_prepare K stat settings) settings x y : Int) = agf_prevtr stat := by
  by_contra hne
  rw [not_or] at hne
  exact (analyze_gif_frame_maps K stat settings hmode hfg hbg hP hcode x y hx hy hne.1
    hne.2).1 hmap

/-- Witness for `analyze_gif_frame_opaque`: on the canvas of `merge_stat` the
output transparent index is 6, and the pixel `(6, 0)`, which is mapped to it,
lies in the disposal hole and shows background. -/
theorem analyze_gif_frame_opaque_witness :
    (analyze_gif_frame consts_default merge_stat merge_settings).2.newtrans = 6 ∧
    (canvas_index (agf_prepare consts_default merge_stat merge_settings) merge_settings 6 0 =
        512 ∨
      (canvas_index (agf_prepare consts_default merge_stat merge_settings) merge_settings
        6 0 : Int) = agf_prevtr merge_stat) :=
  ⟨by decide!,
   analyze_gif_frame_opaque consts_default merge_stat merge_settings (by decide) (by decide)
    (by decide) (by decide!) (by decide!) 6 0 (by decide) (by decide) (by decide!)⟩

end Png
